import Mathlib

/-!
The shogun object base, embedded.

A shallow embedding of `src/shogun/base/SGObject.h`: the type-erased parameter
registry with typed `put`/`get`/`has`, the string-to-enum layer, constraints,
reference counting, deep clone and equality, and the observation helpers.

Objects live on a heap and are designated by addresses, so that identity,
aliasing and reference counts can be stated.  Methods that mutate state take the
heap and return the outcome together with the heap at the moment of return (or
of the throw), which is what a C++ caller catching the exception observes.

Code of the repository that `SGObject.h` only declares (the registry helpers,
`any_cast`, reference counting, `clone`, `equals`, the record fan-out) is
modelled from the specification; each such definition says so.

All definitions come first, ending with the sample objects; the theorems follow.
-/

namespace shogun

/-! ## Types, values and the type-erased container -/

/-- Address of an object; a `CSGObject*` is an `Option Addr`, `none` being `nullptr`. -/
abbrev Addr := Nat

/-- Runtime type identity of a stored value, as recorded by `make_any`. -/
inductive Ty where
  | machine_int
  | int64
  | boolean
  | float64
  | std_string
  | c_string
  | object (cls : String)
  | object_vector (cls : String)
  | dynamic_object_array
  | function (ret : Ty)
  | other (name : String) (is_cloneable : Bool)
  deriving DecidableEq

/-- The trait `is_string<T>` that selects the string overloads of `put` and `get`. -/
def is_string : Ty → Bool
  | .std_string => true
  | .c_string => true
  | _ => false

/-- Modelled from the spec: whether the contained type declares itself cloneable (§4.1:
numeric scalars, vectors, matrices and nested objects are; a bound method is not). -/
def Ty.cloneable : Ty → Bool
  | .function _ => false
  | .other _ c => c
  | _ => true

/-- Payload of a value. Object pointers are addresses (or null). -/
inductive Val where
  | int (i : Int)
  | bool (b : Bool)
  | str (s : String)
  | ptr (p : Option Addr)
  | ptrs (l : List (Option Addr))
  | fn (result : Bool)
  deriving DecidableEq

/-- The conversion `std::string val_string(value)` of a string-typed value. -/
def Val.val_string : Val → String
  | .str s => s
  | _ => ""

/-- The integer held by a value of machine integer type. -/
def Val.as_int : Val → Int
  | .int i => i
  | _ => 0

/-- The type-erased container `Any`: one value tagged with its runtime type. -/
structure Any where
  ty : Ty
  val : Val
  deriving DecidableEq

/-- The failures raised through `error(...)`, `require(...)` and `any_cast`, each with the
data put into its message. -/
inductive Err where
  | TypeMismatchException (expected actual : Ty)
  | NotCloneablePut (cls name : String)
  | TypeMismatchPut (cls name : String) (actual provided : Ty)
  | TypeMismatchGet (cls name : String) (actual requested : Ty)
  | ParameterNotFound (cls name : String)
  | NoOptions (cls name : String)
  | IllegalOption (option cls name : String)
  | NoReverseOption (cls name : String) (code : Int)
  | ConstraintViolation (cls name msg : String)
  | NotCloneable (ty : Ty)
  | FailedToRun (cls name : String)
  | PreconditionFailure (msg : String)
  | CannotConvert (cls target : String)
  | CannotAdd (object cls name target : String)
  | CouldNotGetArray (cls name : String) (index : Int) (target : String)
  | OutOfRange
  | AssertionFailure
  | NoSubscription (cls : String) (observer : Nat)
  | InvalidHandle
  | Diverged
  deriving DecidableEq

/-- The error taxonomy of §7. -/
inductive ErrorKind where
  | TypeMismatch
  | ParameterNotFound
  | ConstraintViolation
  | NotCloneable
  | InvalidOption
  | PreconditionFailure
  | Other
  deriving DecidableEq

/-- Kind of a failure in the taxonomy of §7. -/
def Err.kind : Err → ErrorKind
  | .TypeMismatchException _ _ => .TypeMismatch
  | .TypeMismatchPut _ _ _ _ => .TypeMismatch
  | .TypeMismatchGet _ _ _ _ => .TypeMismatch
  | .ParameterNotFound _ _ => .ParameterNotFound
  | .ConstraintViolation _ _ _ => .ConstraintViolation
  | .NotCloneablePut _ _ => .NotCloneable
  | .NotCloneable _ => .NotCloneable
  | .NoOptions _ _ => .InvalidOption
  | .IllegalOption _ _ _ => .InvalidOption
  | .NoReverseOption _ _ _ => .InvalidOption
  | .PreconditionFailure _ => .PreconditionFailure
  | .CannotConvert _ _ => .TypeMismatch
  | .CannotAdd _ _ _ _ => .TypeMismatch
  | .CouldNotGetArray _ _ _ _ => .ParameterNotFound
  | .OutOfRange => .Other
  | .AssertionFailure => .Other
  | .NoSubscription _ _ => .Other
  | .FailedToRun _ _ => .Other
  | .InvalidHandle => .Other
  | .Diverged => .Other

/-- The wrapper `make_any(value)` for a value of static type `T`. -/
def make_any (T : Ty) (value : Val) : Any := ⟨T, value⟩

/-- The non-throwing check `Any::has_type<T>()`. -/
def Any.has_type (a : Any) (T : Ty) : Bool := decide (a.ty = T)

/-- The check `Any::cloneable()`. -/
def Any.cloneable (a : Any) : Bool := a.ty.cloneable

/-- Modelled from the spec: `any_cast<T>` (§4.1 extract), which returns the value when the
stored type is exactly `T` and otherwise throws a `TypeMismatchException` carrying the
requested and the actual type. -/
def any_cast (T : Ty) (a : Any) : Except Err Val :=
  if a.ty = T then .ok a.val else .error (.TypeMismatchException T a.ty)

/-! ## Parameter descriptors and objects -/

/-- Property flags of a parameter. -/
inductive ParameterProperties where
  | HYPER
  | GRADIENT
  | MODEL
  | AUTO
  | READONLY
  | RUNFUNCTION
  | CONSTRAIN
  deriving DecidableEq

/-- Description and property mask of a parameter. -/
structure AnyParameterProperties where
  description : String
  mask : List ParameterProperties
  deriving DecidableEq

/-- The test `has_property` on a mask. -/
def AnyParameterProperties.has_property (p : AnyParameterProperties)
    (f : ParameterProperties) : Bool :=
  decide (f ∈ p.mask)

/-- A constraint as `Constraint::run(value, result)` leaves it: the text written to
`result`, empty when the value is accepted. -/
abbrev Constraint := Val → String

/-- A registered parameter: value holder, properties and optional constraint function. -/
structure AnyParameter where
  value : Any
  properties : AnyParameterProperties
  constrain_function : Option (Any → Except Err String)

/-- A snapshot handed to observers. -/
structure ObservedValue where
  step : Int
  name : String
  value : Any
  properties : AnyParameterProperties
  deriving DecidableEq

/-- The state of one object. `destroyed` records that the destructor has run; the fields of
a destroyed object are left in place. `m_array` is the element sequence of an object of
class `CDynamicObjectArray`, and is empty in every other object. `m_parameters`,
`m_model_selection_parameters` and `m_gradient_parameters` hold the names added to the
three `Parameter` registries, each with its description. -/
structure CSGObject where
  name : String
  params : List (String × AnyParameter)
  m_string_to_enum_map : List (String × List (String × Int))
  m_refcount : Int
  destroyed : Bool
  m_subscriptions : List (Int × Nat)
  m_next_subscription_index : Int
  m_array : List (Option Addr) := []
  m_default_mask : List ParameterProperties := []
  m_parameters : List (String × String) := []
  m_model_selection_parameters : List (String × String) := []
  m_gradient_parameters : List (String × String) := []

/-- The heap of objects, and the records delivered so far, each with the observer that
received it, oldest first. -/
structure Heap where
  objs : List CSGObject
  delivered : List (Nat × ObservedValue)

/-- The object at an address. -/
def Heap.get? (h : Heap) (a : Addr) : Option CSGObject := h.objs[a]?

/-- Overwrite the object at an address. -/
def Heap.set (h : Heap) (a : Addr) (o : CSGObject) : Heap :=
  { h with objs := h.objs.set a o }

/-- Lookup in a map kept as an association list. -/
def map_find {β : Type} (key : String) : List (String × β) → Option β
  | [] => none
  | (k, v) :: rest => if k = key then some v else map_find key rest

/-- Assignment to an existing key of a map kept as an association list. -/
def map_set {β : Type} (key : String) (v : β) : List (String × β) → List (String × β)
  | [] => []
  | (k, w) :: rest => if k = key then (k, v) :: rest else (k, w) :: map_set key v rest

/-! ## Registry access -/

/-- Modelled from the spec: `has_parameter(tag)` (§4.2 `has(name)`), existence of the name
in the registry. -/
def has_parameter (o : CSGObject) (name : String) : Bool :=
  (map_find name o.params).isSome

/-- Modelled from the spec: `get_parameter(tag)` (§4.2 `get(tag)`), which returns the
descriptor or fails with ParameterNotFound. -/
def get_parameter (o : CSGObject) (name : String) : Except Err AnyParameter :=
  match map_find name o.params with
  | some p => .ok p
  | none => .error (.ParameterNotFound o.name name)

/-- Modelled from the spec: the untyped `has(name)` (§4.2), existence of the name. -/
def has (o : CSGObject) (name : String) : Bool := has_parameter o name

/-- The typed check `has<T>(name)`. -/
def has_T (o : CSGObject) (T : Ty) (name : String) : Bool :=
  if !has_parameter o name then false
  else
    match get_parameter o name with
    | .ok p => p.value.has_type T
    | .error _ => false

/-- The getter `get<T>(tag)` for a type that is not a string type. -/
def get_typed (o : CSGObject) (T : Ty) (name : String) : Except Err Val :=
  match get_parameter o name with
  | .error e => .error e
  | .ok p =>
    match any_cast T p.value with
    | .ok v => .ok v
    | .error (.TypeMismatchException expected actual) =>
      .error (.TypeMismatchGet o.name name actual expected)
    | .error e => .error e

/-- Modelled from the spec: `string_enum_reverse_lookup(param, value)` (§4.5), the reverse
lookup from an integer code to its option string, failing if no reverse entry exists. -/
def string_enum_reverse_lookup (o : CSGObject) (param : String) (value : Int) :
    Except Err String :=
  match map_find param o.m_string_to_enum_map with
  | none => .error (.NoOptions o.name param)
  | some options =>
    match options.find? (fun e => decide (e.2 = value)) with
    | some e => .ok e.1
    | none => .error (.NoReverseOption o.name param value)

/-- The getter `get<T>(tag)` for a string type. -/
def get_string (o : CSGObject) (T : Ty) (name : String) : Except Err Val :=
  match map_find name o.m_string_to_enum_map with
  | none =>
    match get_parameter o name with
    | .error e => .error e
    | .ok p =>
      match any_cast T p.value with
      | .ok v => .ok v
      | .error (.TypeMismatchException expected actual) =>
        .error (.TypeMismatchGet o.name name actual expected)
      | .error e => .error e
  | some _ =>
    match get_typed o .machine_int name with
    | .error e => .error e
    | .ok code =>
      match string_enum_reverse_lookup o name code.as_int with
      | .ok s => .ok (.str s)
      | .error e => .error e

/-- The getter `get<T>(name)`, with the overload chosen by `is_string<T>`. -/
def get (o : CSGObject) (T : Ty) (name : String) : Except Err Val :=
  if is_string T then get_string o T name else get_typed o T name

/-! ## Registration -/

/-- Modelled from the spec: `create_parameter(tag, parameter)` (§4.2 create), which inserts a
new named parameter and fails if the name already exists. -/
def create_parameter (o : CSGObject) (name : String) (parameter : AnyParameter) :
    Except Err CSGObject :=
  if has_parameter o name then
    .error (.PreconditionFailure name)
  else .ok { o with params := o.params ++ [(name, parameter)] }

/-- The function stored by the constrained `watch_param`: cast the candidate to the
parameter type, run the constraint and return the text it produced. -/
def constrain_lambda (T1 : Ty) (constrain_function : Constraint) (val : Any) :
    Except Err String :=
  match any_cast T1 val with
  | .error e => .error e
  | .ok casted_val => .ok (constrain_function casted_val)

/-- The registration `watch_param(name, value, constrain_function, properties)`. -/
def watch_param_constrained (o : CSGObject) (name : String) (T1 : Ty) (value : Val)
    (constrain_function : Constraint) (properties : AnyParameterProperties) :
    Except Err CSGObject :=
  if !properties.has_property .CONSTRAIN then
    .error (.PreconditionFailure "Expected param to have ParameterProperty::CONSTRAIN")
  else
    create_parameter o name
      { value := make_any T1 value, properties := properties,
        constrain_function := some (constrain_lambda T1 constrain_function) }

/-- The registration `watch_param(name, value, properties)`. -/
def watch_param (o : CSGObject) (name : String) (T : Ty) (value : Val)
    (properties : AnyParameterProperties) : Except Err CSGObject :=
  create_parameter o name
    { value := make_any T value, properties := properties, constrain_function := none }

/-- The registration `register_param(name, value)`. -/
def register_param (o : CSGObject) (name : String) (T : Ty) (value : Val) :
    Except Err CSGObject :=
  create_parameter o name
    { value := make_any T value, properties := ⟨"", []⟩, constrain_function := none }

/-! ## Reference counting -/

/-- Modelled from the spec: the state of a newly constructed object (§8.5: the count is 1
after construction), before its constructor registers parameters. -/
def CSGObject.construct (name : String) : CSGObject :=
  { name := name, params := [], m_string_to_enum_map := [], m_refcount := 1,
    destroyed := false, m_subscriptions := [], m_next_subscription_index := 0 }

/-- Modelled from the spec: `ref()` on one object (§4.3), which increments the counter and
returns it. -/
def CSGObject.ref (o : CSGObject) : Int × CSGObject :=
  (o.m_refcount + 1, { o with m_refcount := o.m_refcount + 1 })

/-- The accessor `ref_count()`. -/
def CSGObject.ref_count (o : CSGObject) : Int := o.m_refcount

/-- Modelled from the spec: `unref()` on one object (§4.3), which decrements and, if the
result reaches zero, destroys the object and returns zero; following the comment on its
declaration, the object is also deallocated if the count was zero before. -/
def CSGObject.unref (o : CSGObject) : Int × CSGObject :=
  if o.m_refcount - 1 = 0 ∨ o.m_refcount = 0 then
    (0, { o with m_refcount := o.m_refcount - 1, destroyed := true })
  else
    (o.m_refcount - 1, { o with m_refcount := o.m_refcount - 1 })

/-- The two reference-counting calls. -/
inductive RefOp where
  | ref
  | unref
  deriving DecidableEq

/-- One reference-counting call on an object: the returned count and the object after. -/
def CSGObject.apply (o : CSGObject) : RefOp → Int × CSGObject
  | .ref => o.ref
  | .unref => o.unref

/-- The object after a sequence of reference-counting calls, first call first. -/
def CSGObject.run (o : CSGObject) (ops : List RefOp) : CSGObject :=
  ops.foldl (fun s op => (s.apply op).2) o

/-- The call `x->ref()` through a handle. -/
def ref (h : Heap) (a : Addr) : Int × Heap :=
  match h.get? a with
  | none => (0, h)
  | some o => ((o.ref).1, h.set a (o.ref).2)

/-- The call `x->unref()` through a handle. -/
def unref (h : Heap) (a : Addr) : Int × Heap :=
  match h.get? a with
  | none => (0, h)
  | some o => ((o.unref).1, h.set a (o.unref).2)

/-- The macro `SG_REF(x)`. -/
def SG_REF (h : Heap) (x : Option Addr) : Heap :=
  match x with
  | some a => (ref h a).2
  | none => h

/-- Whether a type is a pointer to a class derived from `CSGObject`. -/
def Ty.is_sg_pointer : Ty → Bool
  | .object _ => true
  | .dynamic_object_array => true
  | _ => false

/-- The helper `ref_value(value)`: `SG_REF` on an object pointer, nothing on any other
type. -/
def ref_value (h : Heap) (T : Ty) (value : Val) : Heap :=
  if T.is_sg_pointer then
    match value with
    | .ptr x => SG_REF h x
    | _ => h
  else h

/-! ## Updating a parameter -/

/-- The constraint check of an update: the message of the constraint when the parameter
is flagged CONSTRAIN and the constraint rejects the candidate. -/
def check_constraint (p : AnyParameter) (value : Any) : Except Err (Option String) :=
  if p.properties.has_property .CONSTRAIN then
    match p.constrain_function with
    | none => .ok none
    | some f =>
      match f value with
      | .error e => .error e
      | .ok msg => if msg = "" then .ok none else .ok (some msg)
  else .ok none

/-- Release of the reference held by a replaced value. -/
def release_value (h : Heap) (old : Any) : Heap :=
  if old.ty.is_sg_pointer then
    match old.val with
    | .ptr (some a) => (unref h a).2
    | _ => h
  else h

/-- Modelled from the spec: `update_parameter(tag, value)` (§4.2 update), which type-checks
against the stored type, applies the constraint if present, replaces the stored value and
then releases the old reference. -/
def update_parameter (h : Heap) (self : Addr) (name : String) (value : Any) :
    Except Err Unit × Heap :=
  match h.get? self with
  | none => (.error .InvalidHandle, h)
  | some o =>
    match map_find name o.params with
    | none => (.error (.ParameterNotFound o.name name), h)
    | some p =>
      match any_cast value.ty p.value with
      | .error e => (.error e, h)
      | .ok _ =>
        match check_constraint p value with
        | .error e => (.error e, h)
        | .ok (some msg) => (.error (.ConstraintViolation o.name name msg), h)
        | .ok none =>
          let o1 := { o with params := map_set name { p with value := value } o.params }
          (.ok (), release_value (h.set self o1) p.value)

/-- The setter `put<T>(tag, value)` for a type that is not a string type. -/
def put_typed (h : Heap) (self : Addr) (T : Ty) (name : String) (value : Val) :
    Except Err Unit × Heap :=
  match h.get? self with
  | none => (.error .InvalidHandle, h)
  | some o =>
    if has_parameter o name then
      match get_parameter o name with
      | .error e => (.error e, h)
      | .ok p =>
        if !p.value.cloneable then (.error (.NotCloneablePut o.name name), h)
        else
          match any_cast T p.value with
          | .error (.TypeMismatchException expected actual) =>
            (.error (.TypeMismatchPut o.name name actual expected), h)
          | .error e => (.error e, h)
          | .ok _ => update_parameter (ref_value h T value) self name (make_any T value)
    else (.error (.ParameterNotFound o.name name), h)

/-- The setter `put<T>(tag, value)` for a string type. -/
def put_string (h : Heap) (self : Addr) (name : String) (value : Val) :
    Except Err Unit × Heap :=
  match h.get? self with
  | none => (.error .InvalidHandle, h)
  | some o =>
    match map_find name o.m_string_to_enum_map with
    | none => (.error (.NoOptions o.name name), h)
    | some string_to_enum =>
      match map_find value.val_string string_to_enum with
      | none => (.error (.IllegalOption value.val_string o.name name), h)
      | some enum_value => put_typed h self .machine_int name (.int enum_value)

/-- The setter `put<T>(name, value)`, with the overload chosen by `is_string<T>`. -/
def put (h : Heap) (self : Addr) (T : Ty) (name : String) (value : Val) :
    Except Err Unit × Heap :=
  if is_string T then put_string h self name value else put_typed h self T name value

/-- The getter called through a handle. -/
def get_at (h : Heap) (self : Addr) (T : Ty) (name : String) : Except Err Val :=
  match h.get? self with
  | none => .error .InvalidHandle
  | some o => get o T name

/-! ## Deep clone -/

/-- The filter argument of `clone`: everything, or the parameters whose properties
intersect a mask. -/
inductive PropertyFilter where
  | ALL
  | mask (l : List ParameterProperties)

/-- Whether the properties of a parameter intersect the filter. -/
def PropertyFilter.selects (pp : PropertyFilter) (p : AnyParameter) : Bool :=
  match pp with
  | .ALL => true
  | .mask l => l.any (fun f => p.properties.has_property f)

/-- The default value of a type, held by a parameter of an empty instance. -/
def Ty.default_value : Ty → Val
  | .machine_int => .int 0
  | .int64 => .int 0
  | .boolean => .bool false
  | .float64 => .int 0
  | .std_string => .str ""
  | .c_string => .str ""
  | .object _ => .ptr none
  | .object_vector _ => .ptrs []
  | .dynamic_object_array => .ptr none
  | .function _ => .fn false
  | .other _ _ => .int 0

/-- Modelled from the spec: `create_empty()` (§4.3, §6 factory boundary), a new empty instance
of the same concrete type: the class name, the option map and the registered names with
their descriptors are those the constructor of the type sets up, every value is
the default of its type, the count is 1 and nothing is subscribed. -/
def create_empty (o : CSGObject) : CSGObject :=
  { name := o.name,
    params := o.params.map (fun e =>
      (e.1, { e.2 with value := ⟨e.2.value.ty, e.2.value.ty.default_value⟩ })),
    m_string_to_enum_map := o.m_string_to_enum_map,
    m_refcount := 1, destroyed := false, m_subscriptions := [],
    m_next_subscription_index := 0 }

/-- Placement of a new object on the heap: its address and the heap after. -/
def Heap.alloc (h : Heap) (o : CSGObject) : Addr × Heap :=
  (h.objs.length, { h with objs := h.objs ++ [o] })

/-- Clone of an object pointer: null stays null, an object is cloned by `cl`. -/
def clone_ptr (cl : Heap → Addr → Except Err Addr × Heap) (h : Heap) :
    Option Addr → Except Err (Option Addr) × Heap
  | none => (.ok none, h)
  | some a =>
    match cl h a with
    | (.ok d, h1) => (.ok (some d), h1)
    | (.error e, h1) => (.error e, h1)

/-- Clone of a vector of object pointers, element by element. -/
def clone_ptrs (cl : Heap → Addr → Except Err Addr × Heap) (h : Heap) :
    List (Option Addr) → Except Err (List (Option Addr)) × Heap
  | [] => (.ok [], h)
  | x :: rest =>
    match clone_ptr cl h x with
    | (.error e, h1) => (.error e, h1)
    | (.ok y, h1) =>
      match clone_ptrs cl h1 rest with
      | (.error e, h2) => (.error e, h2)
      | (.ok ys, h2) => (.ok (y :: ys), h2)

/-- Modelled from the spec: `clone_utils::clone(value)` (§4.1, §4.4), a deep copy of a value:
plain data is copied, an object is cloned recursively. -/
def clone_utils_clone (cl : Heap → Addr → Except Err Addr × Heap) (h : Heap) :
    Val → Except Err Val × Heap
  | .ptr x =>
    match clone_ptr cl h x with
    | (.ok y, h1) => (.ok (.ptr y), h1)
    | (.error e, h1) => (.error e, h1)
  | .ptrs l =>
    match clone_ptrs cl h l with
    | (.ok m, h1) => (.ok (.ptrs m), h1)
    | (.error e, h1) => (.error e, h1)
  | .int i => (.ok (.int i), h)
  | .bool b => (.ok (.bool b), h)
  | .str s => (.ok (.str s), h)
  | .fn r => (.ok (.fn r), h)

/-- Modelled from the spec: `Any::clone` (§4.1), a new container holding a deep copy of the
contained value if the contained type is cloneable, and a failure otherwise. -/
def Any.clone (cl : Heap → Addr → Except Err Addr × Heap) (h : Heap) (a : Any) :
    Except Err Any × Heap :=
  if a.cloneable then
    match clone_utils_clone cl h a.val with
    | (.ok v, h1) => (.ok ⟨a.ty, v⟩, h1)
    | (.error e, h1) => (.error e, h1)
  else (.error (.NotCloneable a.ty), h)

/-- The copy loop of `clone`: for every selected entry of the source registry, clone the
value and store it under the same name in the new instance `e`. -/
def clone_params (cl : Heap → Addr → Except Err Addr × Heap) (pp : PropertyFilter)
    (h : Heap) (e : CSGObject) :
    List (String × AnyParameter) → Except Err CSGObject × Heap
  | [] => (.ok e, h)
  | (name, p) :: rest =>
    if pp.selects p then
      match Any.clone cl h p.value with
      | (.error err, h1) => (.error err, h1)
      | (.ok v, h1) =>
        match map_find name e.params with
        | none => (.error (.ParameterNotFound e.name name), h1)
        | some q =>
          clone_params cl pp h1
            { e with params := map_set name { q with value := v } e.params } rest
    else clone_params cl pp h e rest

/-- Modelled from the spec: `clone(pp)` (§4.3), which constructs a new empty instance of the
same concrete type and copies, with `Any::clone`, the value of every registry entry whose
properties intersect the filter; nested objects are cloned recursively, with the default
filter. The new instance is placed on the heap when it is complete. The first argument
bounds the depth of the recursion; `Diverged` stands for a recursion that does not end. -/
def clone : Nat → PropertyFilter → Heap → Addr → Except Err Addr × Heap
  | 0, _, h, _ => (.error .Diverged, h)
  | fuel + 1, pp, h, x =>
    match h.get? x with
    | none => (.error .InvalidHandle, h)
    | some o =>
      match clone_params (clone fuel .ALL) pp h (create_empty o) o.params with
      | (.error err, h1) => (.error err, h1)
      | (.ok e, h1) => (.ok (h1.alloc e).1, (h1.alloc e).2)

/-! ## Deep equality -/

/-- Comparison of two object pointers: both null, or both objects that `eq` finds equal. -/
def equals_ptr (eq : Addr → Addr → Option Bool) : Option Addr → Option Addr → Option Bool
  | none, none => some true
  | some a, some b => eq a b
  | _, _ => some false

/-- Comparison of two vectors of object pointers, element by element. -/
def equals_ptrs (eq : Addr → Addr → Option Bool) :
    List (Option Addr) → List (Option Addr) → Option Bool
  | [], [] => some true
  | x :: xs, y :: ys =>
    match equals_ptr eq x y with
    | some true => equals_ptrs eq xs ys
    | r => r
  | _, _ => some false

/-- Comparison of two payloads: nested objects by `eq`, plain data by value. -/
def Val.equals (eq : Addr → Addr → Option Bool) : Val → Val → Option Bool
  | .ptr x, .ptr y => equals_ptr eq x y
  | .ptrs l, .ptrs m => equals_ptrs eq l m
  | v, w => some (decide (v = w))

/-- Comparison of two containers: the same type and equal payloads. -/
def Any.equals (eq : Addr → Addr → Option Bool) (a b : Any) : Option Bool :=
  if a.ty = b.ty then Val.equals eq a.val b.val else some false

/-- The comparison loop of `equals`: every entry is present in `other` with an equal value. -/
def equals_params (eq : Addr → Addr → Option Bool) (other : List (String × AnyParameter)) :
    List (String × AnyParameter) → Option Bool
  | [] => some true
  | (name, p) :: rest =>
    match map_find name other with
    | none => some false
    | some q =>
      match Any.equals eq p.value q.value with
      | some true => equals_params eq other rest
      | r => r

/-- Modelled from the spec: `equals(other)` (§4.3), true iff `other` is of the same concrete
type and every registry entry name present in one is present in the other with
component-wise equal values, nested objects being compared by recursive `equals`. The
first argument bounds the depth of the recursion; `none` stands for a comparison that does
not end or that follows a dangling handle. -/
def equals : Nat → Heap → Addr → Addr → Option Bool
  | 0, _, _, _ => none
  | fuel + 1, h, x, y =>
    match h.get? x, h.get? y with
    | some a, some b =>
      if a.name = b.name then
        match equals_params (equals fuel h) b.params a.params with
        | some true => some (b.params.all (fun e => (map_find e.1 a.params).isSome))
        | r => r
      else some false
    | _, _ => none

/-- The objects a payload points to. -/
def Val.pointees : Val → List Addr
  | .ptr (some a) => [a]
  | .ptrs l => l.filterMap id
  | _ => []

/-- The object graph below `x` is sound to depth `n`: every handle designates an object,
registry names are unique, every registered parameter satisfies `good`, and no chain of
nested objects is longer than `n` (in particular there is no cycle). -/
def graph_ok (good : AnyParameter → Bool) (h : Heap) : Nat → Addr → Bool
  | 0, _ => false
  | n + 1, x =>
    match h.get? x with
    | none => false
    | some o =>
      decide ((o.params.map Prod.fst).Nodup) &&
        o.params.all (fun e => good e.2 && e.2.value.val.pointees.all (graph_ok good h n))

/-- The object graph below `x` is sound to depth `n`. -/
def well_formed (h : Heap) (n : Nat) (x : Addr) : Bool := graph_ok (fun _ => true) h n x

/-- The object graph below `x` is sound to depth `n` and every value in it is cloneable. -/
def deep_cloneable (h : Heap) (n : Nat) (x : Addr) : Bool :=
  graph_ok (fun p => p.value.cloneable) h n x

/-! ## Observation -/

/-- The accessor `get_num_subscriptions()`: the size of the subscription map, cast to the
signed 32-bit `index_t`. -/
def get_num_subscriptions (o : CSGObject) : Int :=
  Int.bmod (o.m_subscriptions.length : Int) (2 ^ 32)

/-- Modelled from the spec: `observe(ObservedValue*)` (§4.4 `observe(record)`), a no-op with
zero subscribers; otherwise the record is fanned out, in subscription order, to every
attached observer. -/
def observe_record (h : Heap) (self : Addr) (value : ObservedValue) : Except Err Unit × Heap :=
  match h.get? self with
  | none => (.error .InvalidHandle, h)
  | some o =>
    (.ok (), { h with delivered := h.delivered ++ o.m_subscriptions.map (fun s => (s.2, value)) })

/-- The helper `observe<T>(step, name, value, properties)`. -/
def observe (fuel : Nat) (h : Heap) (self : Addr) (T : Ty) (step : Int) (name : String)
    (value : Val) (properties : AnyParameterProperties) : Except Err Unit × Heap :=
  match h.get? self with
  | none => (.error .InvalidHandle, h)
  | some o =>
    if get_num_subscriptions o = 0 then (.ok (), h)
    else
      match clone_utils_clone (clone fuel .ALL) h value with
      | (.error e, h1) => (.error e, h1)
      | (.ok v, h1) => observe_record h1 self ⟨step, name, ⟨T, v⟩, properties⟩

/-- The helper `observe<T>(step, name, description, value)`. -/
def observe_described (fuel : Nat) (h : Heap) (self : Addr) (T : Ty) (step : Int)
    (name : String) (description : String) (value : Val) : Except Err Unit × Heap :=
  observe fuel h self T step name value ⟨description, [.READONLY]⟩

/-- The helper `observe<T>(step, name)` for a registered tag. -/
def observe_tag (fuel : Nat) (h : Heap) (self : Addr) (T : Ty) (step : Int)
    (name : String) : Except Err Unit × Heap :=
  match h.get? self with
  | none => (.error .InvalidHandle, h)
  | some o =>
    match get_parameter o name with
    | .error e => (.error e, h)
    | .ok param =>
      match any_cast T param.value with
      | .error e => (.error e, h)
      | .ok cloned =>
        match clone_utils_clone (clone fuel .ALL) h cloned with
        | (.error e, h1) => (.error e, h1)
        | (.ok v, h1) => observe fuel h1 self T step name v param.properties

/-! ## Bound methods -/

/-- The registration `watch_method(name, method)` of a method that is not const: the bound
function is stored with the properties RUNFUNCTION and READONLY. `R` is its return type and
`result` what it returns when invoked. -/
def watch_method (o : CSGObject) (name : String) (R : Ty) (result : Bool) :
    Except Err CSGObject :=
  create_parameter o name
    { value := make_any (.function R) (.fn result),
      properties := ⟨"Non-const function", [.RUNFUNCTION, .READONLY]⟩,
      constrain_function := none }

/-- The registration `watch_method(name, method)` of a const method, stored READONLY. -/
def watch_method_const (o : CSGObject) (name : String) (R : Ty) (result : Bool) :
    Except Err CSGObject :=
  create_parameter o name
    { value := make_any (.function R) (.fn result),
      properties := ⟨"Dynamic parameter", [.READONLY]⟩, constrain_function := none }

/-- Modelled from the spec: `get_function(tag)` (§4.2 run, §7), the lookup of a parameter of
function type for `run`, failing with ParameterNotFound if there is none. Extraction being by
exact type (§4.1), the descriptor returned holds, under the return type of the function, the
value the function returns when it is invoked. -/
def get_function (o : CSGObject) (name : String) : Except Err AnyParameter :=
  match map_find name o.params with
  | none => .error (.ParameterNotFound o.name name)
  | some p =>
    match p.value.ty, p.value.val with
    | .function R, .fn result => .ok { p with value := ⟨R, .bool result⟩ }
    | _, _ => .error (.ParameterNotFound o.name name)

/-- The call `run(name)`. -/
def run (o : CSGObject) (name : String) : Except Err Unit :=
  match get_function o name with
  | .error e => .error e
  | .ok param =>
    match any_cast .boolean param.value with
    | .error e => .error e
    | .ok (.bool true) => .ok ()
    | .ok _ => .error (.FailedToRun o.name name)

/-! ## Checked casts -/

/-- The class table: whether an object whose class name is the first argument is an instance
of the type named by the second (that type itself or a type derived from it). This is what
`dynamic_cast` consults. -/
abbrev ClassTable := String → String → Bool

/-- The member `as<T>()`: the same handle when `dynamic_cast<T*>(this)` succeeds, a failure
naming the class of the object and `T` otherwise. -/
def as_T (H : ClassTable) (h : Heap) (self : Addr) (T : String) : Except Err Addr :=
  match h.get? self with
  | none => .error .InvalidHandle
  | some o => if H o.name T then .ok self else .error (.CannotConvert o.name T)

/-- The static `as<T>(sgo)`. -/
def as_static (H : ClassTable) (h : Heap) (sgo : Option Addr) (T : String) :
    Except Err Addr :=
  match sgo with
  | none => .error (.PreconditionFailure "No object provided!")
  | some a => as_T H h a T

/-! ## Object arrays -/

/-- The pointers held by a value of vector type. -/
def Val.as_ptrs : Val → List (Option Addr)
  | .ptrs l => l
  | _ => []

/-- Modelled from the spec: `CDynamicObjectArray::push_back(e)`, of a class absent from the
sources and from the specification; taken as the usual append of a reference-counted
container (§3): the element is appended and its count incremented. -/
def dynamic_array_push_back (h : Heap) (array : Addr) (e : Option Addr) :
    Except Err Unit × Heap :=
  match h.get? array with
  | none => (.error .InvalidHandle, h)
  | some a => (.ok (), SG_REF (h.set array { a with m_array := a.m_array ++ [e] }) e)

/-- Element `index` of a sequence, as `std::vector::at` gives it: out of range is a failure. -/
def vector_at (l : List (Option Addr)) (index : Int) : Except Err (Option Addr) :=
  if 0 ≤ index then
    match l[index.toNat]? with
    | some e => .ok e
    | none => .error .OutOfRange
  else .error .OutOfRange

/-- Modelled from the spec: `CDynamicObjectArray::at(index)`, of a class absent from the
sources and from the specification; taken as element `index` of the sequence. -/
def dynamic_array_at (h : Heap) (array : Addr) (index : Int) : Except Err (Option Addr) :=
  match h.get? array with
  | none => .error .InvalidHandle
  | some a => vector_at a.m_array index

/-- The helper `sgo_details::dispatch_array_type<T1>(obj, name, lambda)`. The generic lambda
is given by its two instances: `on_dynamic` acts on the array object that the stored
pointer designates, `on_vector` on the vector that `get` returned by value, and returns
that local vector as it leaves it; the local vector is dropped when the helper returns.
The result is `none` where the helper returns false, and what the lambda produced where it
returns true. -/
def dispatch_array_type {α : Type} (h : Heap) (obj : Addr) (T1 : String) (name : String)
    (on_dynamic : Heap → Addr → Except Err α × Heap)
    (on_vector : Heap → List (Option Addr) → Except Err (α × List (Option Addr)) × Heap) :
    Except Err (Option α) × Heap :=
  match h.get? obj with
  | none => (.error .InvalidHandle, h)
  | some o =>
    if has_T o .dynamic_object_array name then
      match get_typed o .dynamic_object_array name with
      | .error e => (.error e, h)
      | .ok (.ptr (some array)) =>
        match on_dynamic h array with
        | (.ok r, h1) => (.ok (some r), h1)
        | (.error e, h1) => (.error e, h1)
      | .ok _ => (.error .InvalidHandle, h)
    else if has_T o (.object_vector T1) name then
      match get_typed o (.object_vector T1) name with
      | .error e => (.error e, h)
      | .ok dispatched =>
        match on_vector h dispatched.as_ptrs with
        | (.ok (r, _), h1) => (.ok (some r), h1)
        | (.error e, h1) => (.error e, h1)
    else (.ok none, h)

/-- The appender `add<T>(name, value)`. -/
def add (h : Heap) (self : Addr) (T : String) (name : String) (value : Option Addr) :
    Except Err Unit × Heap :=
  match h.get? self with
  | none => (.error .InvalidHandle, h)
  | some o =>
    match value with
    | none =>
      (.error (.PreconditionFailure
        ("Cannot add to " ++ o.name ++ "::" ++ name ++ ", no object provided.")), h)
    | some v =>
      match dispatch_array_type h self T name
          (fun h1 array => dynamic_array_push_back h1 array (some v))
          (fun h1 array => (.ok ((), array ++ [some v]), h1)) with
      | (.error e, h1) => (.error e, h1)
      | (.ok (some _), h1) => (.ok (), h1)
      | (.ok none, h1) =>
        match h1.get? v with
        | none => (.error .InvalidHandle, h1)
        | some vo => (.error (.CannotAdd vo.name o.name name T), h1)

/-- The array getter `get<T>(name, index, std::nothrow)`; `none` is `nullptr`. -/
def get_index_nothrow (H : ClassTable) (h : Heap) (self : Addr) (T : String) (name : String)
    (index : Int) : Except Err (Option Addr) :=
  match (dispatch_array_type h self T name
      (fun h1 array => (dynamic_array_at h1 array index, h1))
      (fun h1 array =>
        (match vector_at array index with
          | .ok e => .ok (e, array)
          | .error e => .error e, h1))).1 with
  | .error e => .error e
  | .ok none => .ok none
  | .ok (some none) => .error .AssertionFailure
  | .ok (some (some result)) =>
    match as_T H h result T with
    | .ok a => .ok (some a)
    | .error e => .error e

/-- The array getter `get<T>(name, index)`. -/
def get_index (H : ClassTable) (h : Heap) (self : Addr) (T : String) (name : String)
    (index : Int) : Except Err Addr :=
  match h.get? self with
  | none => .error .InvalidHandle
  | some o =>
    match get_index_nothrow H h self T name index with
    | .error e => .error e
    | .ok none => .error (.CouldNotGetArray o.name name index T)
    | .ok (some result) => .ok result

/-- The helper `sgo_details::get_if_possible<T>(obj, name, GetByNameIndex)`. -/
def get_if_possible_index (H : ClassTable) (h : Heap) (obj : Addr) (T : String)
    (name : String) (index : Int) : Except Err (Option Addr) :=
  get_index_nothrow H h obj T name index

/-- The helper `sgo_details::get_dispatch_all_base_types(obj, name, GetByNameIndex)`: the
base types are tried in the order of the source, and the first result that is not null
is returned. -/
def get_dispatch_all_base_types_index (H : ClassTable) (h : Heap) (obj : Addr)
    (name : String) (index : Int) : Except Err (Option Addr) :=
  match get_if_possible_index H h obj "CKernel" name index with
  | .error e => .error e
  | .ok (some result) => .ok (some result)
  | .ok none =>
    match get_if_possible_index H h obj "CFeatures" name index with
    | .error e => .error e
    | .ok (some result) => .ok (some result)
    | .ok none =>
      match get_if_possible_index H h obj "CMachine" name index with
      | .error e => .error e
      | .ok (some result) => .ok (some result)
      | .ok none =>
        match get_if_possible_index H h obj "CLabels" name index with
        | .error e => .error e
        | .ok (some result) => .ok (some result)
        | .ok none =>
          match get_if_possible_index H h obj "CEvaluationResult" name index with
          | .error e => .error e
          | .ok (some result) => .ok (some result)
          | .ok none => .ok none

/-- The helper `sgo_details::get_by_tag(obj, name, GetByNameIndex)`. -/
def get_by_tag_index (H : ClassTable) (h : Heap) (obj : Addr) (name : String)
    (index : Int) : Except Err (Option Addr) :=
  get_dispatch_all_base_types_index H h obj name index

/-- Modelled from the spec: the untyped `get(name, index)`, only declared in the header;
following the comment on its declaration and §6, it asks `get_by_tag` for the element
under an appropriate base type and raises an exception if there is none. -/
def get_name_index (H : ClassTable) (h : Heap) (self : Addr) (name : String)
    (index : Int) : Except Err Addr :=
  match h.get? self with
  | none => .error .InvalidHandle
  | some o =>
    match get_by_tag_index H h self name index with
    | .error e => .error e
    | .ok none => .error (.CouldNotGetArray o.name name index "SGObject")
    | .ok (some result) => .ok result

/-! ## Existence checks, enumeration and the current step -/

/-- Modelled from the spec: `get_params()` (§3 enumeration), the registered names with their
descriptors. -/
def get_params (o : CSGObject) : List (String × AnyParameter) := o.params

/-- One registration call of a constructor. -/
inductive Registration where
  | register_param (name : String) (T : Ty) (value : Val)
  | watch_param (name : String) (T : Ty) (value : Val) (properties : AnyParameterProperties)
  | watch_param_constrained (name : String) (T1 : Ty) (value : Val)
      (constrain_function : Constraint) (properties : AnyParameterProperties)
  | watch_method (name : String) (R : Ty) (result : Bool)
  | watch_method_const (name : String) (R : Ty) (result : Bool)
  | create_parameter (name : String) (parameter : AnyParameter)

/-- The name under which a registration call registers. -/
def Registration.name : Registration → String
  | .register_param name _ _ => name
  | .watch_param name _ _ _ => name
  | .watch_param_constrained name _ _ _ _ => name
  | .watch_method name _ _ => name
  | .watch_method_const name _ _ => name
  | .create_parameter name _ => name

/-- The effect of one registration call on an object. -/
def Registration.apply (o : CSGObject) : Registration → Except Err CSGObject
  | .register_param name T value => shogun.register_param o name T value
  | .watch_param name T value properties => shogun.watch_param o name T value properties
  | .watch_param_constrained name T1 value c properties =>
    shogun.watch_param_constrained o name T1 value c properties
  | .watch_method name R result => shogun.watch_method o name R result
  | .watch_method_const name R result => shogun.watch_method_const o name R result
  | .create_parameter name parameter => shogun.create_parameter o name parameter

/-- The object after a sequence of registration calls, first call first; a call that fails
leaves the object as it was. -/
def CSGObject.register_all (o : CSGObject) (rs : List Registration) : CSGObject :=
  rs.foldl (fun s r =>
    match r.apply s with
    | .ok s1 => s1
    | .error _ => s) o

/-- The accessor `get_step()`: the value of the parameter "current_iteration" when it is
registered with type `int64_t`, and -1 otherwise. -/
def get_step (o : CSGObject) : Except Err Int :=
  if has_T o .int64 "current_iteration" then
    match get_typed o .int64 "current_iteration" with
    | .ok step => .ok step.as_int
    | .error e => .error e
  else .ok (-1)

/-! ## Reference macros -/

/-- The macro `SG_UNREF(x)`: the heap and the handle after it. -/
def SG_UNREF (h : Heap) (x : Option Addr) : Heap × Option Addr :=
  match x with
  | some a => if (unref h a).1 = 0 then ((unref h a).2, none) else ((unref h a).2, some a)
  | none => (h, none)

/-- The macro `SG_UNREF_NO_NULL(x)`: the heap and the handle after it. -/
def SG_UNREF_NO_NULL (h : Heap) (x : Option Addr) : Heap × Option Addr :=
  match x with
  | some a => ((unref h a).2, some a)
  | none => (h, none)

/-! ## Subscriptions -/

/-- Modelled from the spec: `subscribe(obs)` on one object (§4.4, §3 Subscription), only
declared in the header, where it returns `void`: the observer is attached under the next
subscription index, which is then incremented. The 64-bit counter is taken not to
overflow. -/
def CSGObject.subscribe (o : CSGObject) (obs : Nat) : CSGObject :=
  { o with
    m_subscriptions := o.m_subscriptions ++ [(o.m_next_subscription_index, obs)],
    m_next_subscription_index := o.m_next_subscription_index + 1 }

/-- Modelled from the spec: `unsubscribe(obs)` on one object (§4.4, §3 Subscription), only
declared in the header: the newest subscription of the observer is removed, and the call
fails when the observer has none. -/
def CSGObject.unsubscribe (o : CSGObject) (obs : Nat) : Except Err CSGObject :=
  match o.m_subscriptions.reverse.find? (fun s => decide (s.2 = obs)) with
  | none => .error (.NoSubscription o.name obs)
  | some s =>
    .ok { o with m_subscriptions := (o.m_subscriptions.reverse.erase s).reverse }

/-- The call `x->subscribe(obs)` through a handle. -/
def subscribe (h : Heap) (self : Addr) (obs : Nat) : Except Err Unit × Heap :=
  match h.get? self with
  | none => (.error .InvalidHandle, h)
  | some o => (.ok (), h.set self (o.subscribe obs))

/-- The call `x->unsubscribe(obs)` through a handle. -/
def unsubscribe (h : Heap) (self : Addr) (obs : Nat) : Except Err Unit × Heap :=
  match h.get? self with
  | none => (.error .InvalidHandle, h)
  | some o =>
    match o.unsubscribe obs with
    | .error e => (.error e, h)
    | .ok o1 => (.ok (), h.set self o1)

/-- One call on the subscription list of an object. -/
inductive SubscriptionOp where
  | subscribe (obs : Nat)
  | unsubscribe (obs : Nat)
  deriving DecidableEq

/-- The object after a sequence of subscription calls, first call first; a call that fails
leaves the object as it was. -/
def CSGObject.subscription_run (o : CSGObject) (ops : List SubscriptionOp) : CSGObject :=
  ops.foldl (fun s op =>
    match op with
    | .subscribe obs => s.subscribe obs
    | .unsubscribe obs =>
      match s.unsubscribe obs with
      | .ok s1 => s1
      | .error _ => s) o

/-! ## Registration macros -/

/-- Modelled from the spec: the class `Parameter` behind `m_parameters`,
`m_model_selection_parameters` and `m_gradient_parameters` (§3: the registry and its
hyperparameter and gradient sub-registries), kept as the names added, each with its
description, oldest first. -/
abbrev Parameter := List (String × String)

/-- Modelled from the spec: `Parameter::add(param, name, description)`, which adds one
entry. -/
def Parameter.add (p : Parameter) (name description : String) : Parameter :=
  p ++ [(name, description)]

/-- The setter `set_default_mask(mask)`. -/
def set_default_mask (o : CSGObject) (mask : List ParameterProperties) : CSGObject :=
  { o with m_default_mask := mask }

/-- The registration `watch_param(name, value, auto_init, properties)`; the initialiser is
not kept in the descriptor, since `init_auto_params` is outside this development. -/
def watch_param_auto (o : CSGObject) (name : String) (T : Ty) (value : Val)
    (properties : AnyParameterProperties) : Except Err CSGObject :=
  if !properties.has_property .AUTO then
    .error (.PreconditionFailure "Expected param to have ParameterProperty::AUTO")
  else
    create_parameter o name
      { value := make_any T value, properties := properties, constrain_function := none }

/-- The last argument of `SG_ADD5`: an initialiser or a constraint. -/
inductive AutoOrConstraint where
  | auto_init
  | constraint (c : Constraint)

/-- The macro `SG_ADD3(param, name, description)`. A mask is the list of the flags set, and
the union of two masks is their concatenation. -/
def SG_ADD3 (o : CSGObject) (T : Ty) (param : Val) (name description : String) :
    Except Err CSGObject :=
  let pprop : AnyParameterProperties := ⟨description, o.m_default_mask⟩
  watch_param { o with m_parameters := Parameter.add o.m_parameters name description }
    name T param pprop

/-- The entries that `SG_ADD4` and `SG_ADD5` make in the two sub-registries after
`watch_param` has returned. -/
def add_to_sub_registries (o : CSGObject) (pprop : AnyParameterProperties)
    (name description : String) : CSGObject :=
  let o1 :=
    if pprop.has_property .HYPER then
      { o with m_model_selection_parameters :=
          Parameter.add o.m_model_selection_parameters name description }
    else o
  if pprop.has_property .GRADIENT then
    { o1 with m_gradient_parameters :=
        Parameter.add o1.m_gradient_parameters name description }
  else o1

/-- The macro `SG_ADD4(param, name, description, param_properties)`; the `static_assert`
that rejects the flag AUTO at compile time is a failure here. -/
def SG_ADD4 (o : CSGObject) (T : Ty) (param : Val) (name description : String)
    (param_properties : List ParameterProperties) : Except Err CSGObject :=
  if ParameterProperties.AUTO ∈ param_properties then
    .error (.PreconditionFailure
      "Expected a lambda when passing param with ParameterProperty::AUTO")
  else
    let pprop : AnyParameterProperties := ⟨description, param_properties ++ o.m_default_mask⟩
    match watch_param { o with m_parameters := Parameter.add o.m_parameters name description }
        name T param pprop with
    | .error e => .error e
    | .ok o1 => .ok (add_to_sub_registries o1 pprop name description)

/-- The macro `SG_ADD5(param, name, description, param_properties, auto_or_constraint)`. -/
def SG_ADD5 (o : CSGObject) (T : Ty) (param : Val) (name description : String)
    (param_properties : List ParameterProperties) (auto_or_constraint : AutoOrConstraint) :
    Except Err CSGObject :=
  let pprop : AnyParameterProperties := ⟨description, param_properties ++ o.m_default_mask⟩
  let o0 := { o with m_parameters := Parameter.add o.m_parameters name description }
  match (match auto_or_constraint with
      | .auto_init => watch_param_auto o0 name T param pprop
      | .constraint c => watch_param_constrained o0 name T param c pprop) with
  | .error e => .error e
  | .ok o1 => .ok (add_to_sub_registries o1 pprop name description)

/-! ## Explicit spectrum features -/

/-- Modelled from the spec: what `CExplicitSpecFeatures` reads of its argument of class
`CStringFeatures<uint16_t>`, which is not among the sources: the strings, each a sequence
of 16-bit symbols, and the number of symbols of the alphabet. -/
structure CStringFeatures where
  features : List (List Nat)
  num_symbols : Nat

/-- The accessor `get_num_vectors()` of the string features. -/
def CStringFeatures.get_num_vectors (str : CStringFeatures) : Int := str.features.length

/-- The accessor `get_num_symbols()` of the string features. -/
def CStringFeatures.get_num_symbols (str : CStringFeatures) : Int := str.num_symbols

/-- The accessor `get_feature_vector(i, len, free_fv)`: the string at index `i`, whose
length is `len`. -/
def CStringFeatures.get_feature_vector (str : CStringFeatures) (i : Nat) :
    Option (List Nat) :=
  str.features[i]?

/-- The state of a `CExplicitSpecFeatures` object. `k_spectrum` holds one row per string,
and is empty for the null pointer. The entries are of the type `F` with its arithmetic:
`float64_t` in the source, whose results are rounded, or a field, where they are exact
(the counts are whole numbers far below 2^53, on which `float64_t` arithmetic is exact
too). -/
structure CExplicitSpecFeatures (F : Type) where
  use_normalization : Bool
  num_strings : Int
  alphabet_size : Int
  spec_size : Int
  k_spectrum : List (List F)

/-- The constructor without arguments. -/
def CExplicitSpecFeatures.empty (F : Type) : CExplicitSpecFeatures F :=
  { use_normalization := false, num_strings := 0, alphabet_size := 0, spec_size := 0,
    k_spectrum := [] }

/-- The allocation `SG_MALLOC(float64_t, spec_size)` followed by `memset` to zero; a
negative size is a failure. -/
def zero_row {F : Type} [Zero F] (spec_size : Int) : Option (List F) :=
  if spec_size < 0 then none else some (List.replicate spec_size.toNat 0)

/-- The statement `k_spectrum[i][fv[j]]++`; an index outside the row is a failure. -/
def increment {F : Type} [Zero F] [One F] [Add F] (row : List F) (symbol : Nat) : Option (List F) :=
  if symbol < row.length then some (row.set symbol (row.getD symbol 0 + 1)) else none

/-- The loop over the positions of one string, which counts its symbols into the row. -/
def count_symbols {F : Type} [Zero F] [One F] [Add F] : List F → List Nat → Option (List F)
  | row, [] => some row
  | row, symbol :: rest =>
    match increment row symbol with
    | none => none
    | some row1 => count_symbols row1 rest

/-- The normalisation of one row: the sum of the squares, its square root `n`, and the
division of every entry by `n`, in the arithmetic of `F`. The function `std::sqrt` is the
argument `sqrt`: `float64_t.sqrt` for `float64_t`. -/
def normalize {F : Type} [Zero F] [Add F] [Mul F] [Div F] (sqrt : F → F)
    (row : List F) : List F :=
  let n := sqrt (row.foldl (fun n x => n + x * x) 0)
  row.map (fun x => x / n)

/-- The body of the loop of `obtain_kmer_spectrum` for one string. -/
def spectrum_row {F : Type} [Zero F] [One F] [Add F] [Mul F] [Div F] (sqrt : F → F)
    (use_normalization : Bool)
    (spec_size : Int) (fv : List Nat) : Option (List F) :=
  match zero_row spec_size with
  | none => none
  | some row0 =>
    match count_symbols row0 fv with
    | none => none
    | some row => some (if use_normalization then normalize sqrt row else row)

/-- The loop of `obtain_kmer_spectrum` from string `i` on, with `remaining` strings to
go. -/
def spectrum_rows {F : Type} [Zero F] [One F] [Add F] [Mul F] [Div F] (sqrt : F → F)
    (use_normalization : Bool)
    (spec_size : Int) (str : CStringFeatures) : (remaining : Nat) → (i : Nat) →
    Option (List (List F))
  | 0, _ => some []
  | remaining + 1, i =>
    match str.get_feature_vector i with
    | none => none
    | some fv =>
      match spectrum_row sqrt use_normalization spec_size fv with
      | none => none
      | some row =>
        match spectrum_rows sqrt use_normalization spec_size str remaining (i + 1) with
        | none => none
        | some rest => some (row :: rest)

/-- The method `obtain_kmer_spectrum(str)`. -/
def CExplicitSpecFeatures.obtain_kmer_spectrum {F : Type} [Zero F] [One F] [Add F] [Mul F]
    [Div F] (sqrt : F → F)
    (self : CExplicitSpecFeatures F) (str : CStringFeatures) :
    Option (CExplicitSpecFeatures F) :=
  if self.num_strings < 0 then none
  else
    match spectrum_rows sqrt self.use_normalization self.spec_size str
        self.num_strings.toNat 0 with
    | none => none
    | some rows => some { self with k_spectrum := rows }

/-- The constructor `CExplicitSpecFeatures(str, normalize)`. It does not set
`alphabet_size`, whose indeterminate value is the argument `alphabet_size`. -/
def CExplicitSpecFeatures.construct {F : Type} [Zero F] [One F] [Add F] [Mul F] [Div F]
    (sqrt : F → F)
    (alphabet_size : Int) (str : Option CStringFeatures) (normalize : Bool) :
    Option (CExplicitSpecFeatures F) :=
  match str with
  | none => none
  | some s =>
    CExplicitSpecFeatures.obtain_kmer_spectrum sqrt
      { use_normalization := normalize, num_strings := s.get_num_vectors,
        alphabet_size := alphabet_size, spec_size := s.get_num_symbols, k_spectrum := [] } s

/-- What memory that has not been initialised holds when the copy constructor reads it:
the value of the member `use_normalization`, and, for each slot of the array allocated
by `SG_MALLOC(float64_t*, num_strings)`, the array that the pointer in the slot designates,
if it designates readable memory at all. -/
structure Indeterminate (F : Type) where
  use_normalization : Bool
  rows : Nat → Option (List F)

/-- Modelled from the spec: `SGVector<float64_t>::clone_vector(vec, len)`, which is not
among the sources: a new array holding the first `len` entries of `vec`; reading through a
pointer that designates fewer entries is a failure. -/
def clone_vector {F : Type} (vec : Option (List F)) (len : Int) : Option (List F) :=
  match vec with
  | none => none
  | some v => if len < 0 ∨ (v.length : Int) < len then none else some (v.take len.toNat)

/-- The loop of the copy constructor from row `i` on, with `remaining` rows to go: each
row is cloned from the slot of the same index of the newly allocated array. -/
def copy_rows {F : Type} (slots : Nat → Option (List F)) (spec_size : Int) :
    (remaining : Nat) → (i : Nat) → Option (List (List F))
  | 0, _ => some []
  | remaining + 1, i =>
    match clone_vector (slots i) spec_size with
    | none => none
    | some row =>
      match copy_rows slots spec_size remaining (i + 1) with
      | none => none
      | some rest => some (row :: rest)

/-- The copy constructor `CExplicitSpecFeatures(orig)`. -/
def CExplicitSpecFeatures.copy_construct {F : Type} (memory : Indeterminate F)
    (orig : CExplicitSpecFeatures F) : Option (CExplicitSpecFeatures F) :=
  if orig.num_strings < 0 then none
  else
    match copy_rows memory.rows orig.spec_size orig.num_strings.toNat 0 with
    | none => none
    | some rows =>
      some { use_normalization := memory.use_normalization,
             num_strings := orig.num_strings, alphabet_size := orig.alphabet_size,
             spec_size := orig.spec_size, k_spectrum := rows }

/-- The method `duplicate()`. -/
def CExplicitSpecFeatures.duplicate {F : Type} (memory : Indeterminate F)
    (self : CExplicitSpecFeatures F) : Option (CExplicitSpecFeatures F) :=
  CExplicitSpecFeatures.copy_construct memory self

/-- The accessor `get_dim_feature_space()`. -/
def CExplicitSpecFeatures.get_dim_feature_space {F : Type} (self : CExplicitSpecFeatures F) :
    Int := self.spec_size

/-- The accessor `get_num_vectors()`. -/
def CExplicitSpecFeatures.get_num_vectors {F : Type} (self : CExplicitSpecFeatures F) :
    Int := self.num_strings

/-- Whether the object holds `num_strings` rows of `spec_size` entries each, as it does
after `obtain_kmer_spectrum`. -/
def CExplicitSpecFeatures.allocated {F : Type} (self : CExplicitSpecFeatures F) : Bool :=
  decide ((self.k_spectrum.length : Int) = self.num_strings) &&
    self.k_spectrum.all (fun row => decide ((row.length : Int) = self.spec_size))

/-- Modelled from the spec: the node class `bnode_t`
(`CBinaryTreeMachineNode<ConditionalProbabilityTreeNodeData>`), whose header is not among
the sources: the pointers to the parent and to the left and right child, the data `label`
and `p_right`, and the index of the machine of the node. A pointer is the index of the node
in the list of the nodes allocated so far, or null. -/
structure bnode_t (F : Type) where
  m_parent : Option Nat
  m_left : Option Nat
  m_right : Option Nat
  label : Int
  p_right : F
  m_machine : Int

/-- Modelled from the spec: the node made by `new bnode_t()`: no parent, no child, and the
initial values of the data and of the machine index. -/
def bnode_t.new (F : Type) [Field F] : bnode_t F :=
  { m_parent := none, m_left := none, m_right := none, label := -1, p_right := 0,
    m_machine := -1 }

/-- The state of a `CConditionalProbabilityTree`: the nodes allocated so far, the root,
the map `m_leaves` from labels to leaves, kept as the list of its entries in the order of
their insertion, and the number of machines in `m_machines`. The machines themselves
(`COnlineLibLinear`) are not among the sources and are not represented. -/
structure CConditionalProbabilityTree (F : Type) where
  nodes : List (bnode_t F)
  m_root : Option Nat
  m_leaves : List (Int × Nat)
  m_machines : Nat

/-- The tree before any training: no root, no leaf, no machine. -/
def CConditionalProbabilityTree.empty (F : Type) : CConditionalProbabilityTree F :=
  { nodes := [], m_root := none, m_leaves := [], m_machines := 0 }

/-- The lookup `m_leaves.find(label)`. -/
def leaves_find (label : Int) : List (Int × Nat) → Option Nat
  | [] => none
  | (k, node) :: rest => if k = label then some node else leaves_find label rest

/-- The call `m_leaves.insert(make_pair(label, node))`, which changes nothing when the
label is already a key. -/
def leaves_insert (label : Int) (node : Nat) (m : List (Int × Nat)) : List (Int × Nat) :=
  match leaves_find label m with
  | some _ => m
  | none => m ++ [(label, node)]

/-- The call `m_leaves.erase(label)`. -/
def leaves_erase (label : Int) (m : List (Int × Nat)) : List (Int × Nat) :=
  m.filter (fun e => !decide (e.1 = label))

/-- The method `train_node(ex, label, node)`, as far as the tree is concerned: it fails
when the node is null or has no machine in `m_machines`, and otherwise trains that
machine. -/
def CConditionalProbabilityTree.train_node {F : Type} (t : CConditionalProbabilityTree F)
    (node : Option Nat) : Option Unit :=
  match node with
  | none => none
  | some a =>
    match t.nodes[a]? with
    | none => none
    | some n => if 0 ≤ n.m_machine ∧ n.m_machine < t.m_machines then some () else none

/-- The loop of `train_path`: the parent is trained and the walk moves up, until the
parent is null. -/
def CConditionalProbabilityTree.train_path_loop {F : Type}
    (t : CConditionalProbabilityTree F) : (fuel : Nat) → (par : Option Nat) → Option Unit
  | _, none => some ()
  | 0, some _ => none
  | fuel + 1, some p =>
    match t.train_node (some p) with
    | none => none
    | some _ =>
      match t.nodes[p]? with
      | none => none
      | some pn => t.train_path_loop fuel pn.m_parent

/-- The method `train_path(ex, node)`. -/
def CConditionalProbabilityTree.train_path {F : Type} (t : CConditionalProbabilityTree F)
    (fuel : Nat) (node : Nat) : Option Unit :=
  match t.train_node (some node) with
  | none => none
  | some _ =>
    match t.nodes[node]? with
    | none => none
    | some n => t.train_path_loop fuel n.m_parent

/-- The loop of `train_example` that walks from the root down to a leaf; the virtual
method `which_subtree(node, ex)` is the argument `which_subtree`, true for the left
subtree. -/
def CConditionalProbabilityTree.descend {F : Type} (t : CConditionalProbabilityTree F)
    (which_subtree : Nat → Bool) : (fuel : Nat) → (node : Nat) → Option Nat
  | fuel, node =>
    match t.nodes[node]? with
    | none => none
    | some n =>
      match n.m_left with
      | none => some node
      | some l =>
        match fuel with
        | 0 => none
        | fuel1 + 1 =>
          match t.train_node (some node) with
          | none => none
          | some _ =>
            if which_subtree node then t.descend which_subtree fuel1 l
            else
              match n.m_right with
              | none => none
              | some r => t.descend which_subtree fuel1 r

/-- The method `train_example(ex, label)`. -/
def CConditionalProbabilityTree.train_example {F : Type} [Field F]
    (t : CConditionalProbabilityTree F) (which_subtree : Nat → Bool) (fuel : Nat)
    (label : Int) : Option (CConditionalProbabilityTree F) :=
  match t.m_root with
  | none =>
    some { nodes := t.nodes ++
             [{ m_parent := none, m_left := none, m_right := none, label := label,
                p_right := (bnode_t.new F).p_right, m_machine := t.m_machines }],
           m_root := some t.nodes.length,
           m_leaves := leaves_insert label t.nodes.length t.m_leaves,
           m_machines := t.m_machines + 1 }
  | some root =>
    match leaves_find label t.m_leaves with
    | some leaf =>
      match t.train_path fuel leaf with
      | none => none
      | some _ => some t
    | none =>
      match t.descend which_subtree fuel root with
      | none => none
      | some node =>
        match t.nodes[node]? with
        | none => none
        | some n =>
          if 0 ≤ n.m_machine ∧ n.m_machine < t.m_machines then
            let left_node : bnode_t F :=
              { m_parent := some node, m_left := none, m_right := none, label := n.label,
                p_right := (bnode_t.new F).p_right, m_machine := t.m_machines }
            let right_node : bnode_t F :=
              { m_parent := some node, m_left := none, m_right := none, label := label,
                p_right := (bnode_t.new F).p_right, m_machine := t.m_machines + 1 }
            some { nodes := t.nodes.set node
                     { n with label := -1, m_left := some t.nodes.length,
                              m_right := some (t.nodes.length + 1) } ++
                     [left_node, right_node],
                   m_root := some root,
                   m_leaves := leaves_insert label (t.nodes.length + 1)
                     (leaves_insert n.label t.nodes.length
                       (leaves_erase n.label t.m_leaves)),
                   m_machines := t.m_machines + 2 }
          else none

/-- A sequence of `train_example` calls, first call first, each with its label and its
`which_subtree`. -/
def CConditionalProbabilityTree.train_all {F : Type} [Field F] (fuel : Nat) :
    CConditionalProbabilityTree F → List (Int × (Nat → Bool)) →
    Option (CConditionalProbabilityTree F)
  | t, [] => some t
  | t, (label, which_subtree) :: rest =>
    match t.train_example which_subtree fuel label with
    | none => none
    | some t1 => CConditionalProbabilityTree.train_all fuel t1 rest

/-- The loop of `accumulate_conditional_probability`, in the arithmetic of the type `F` of
the values: `float64_t` in the source, whose products and differences are rounded, or a
field, where they are exact. -/
def accumulate_loop {F : Type} [One F] [Mul F] [Sub F] (nodes : List (bnode_t F)) :
    (fuel : Nat) → (prob : F) → (leaf : Nat) → (par : Option Nat) → Option F
  | _, prob, _, none => some prob
  | 0, _, _, some _ => none
  | fuel + 1, prob, leaf, some p =>
    match nodes[p]? with
    | none => none
    | some pn =>
      accumulate_loop nodes fuel
        (if pn.m_left = some leaf then prob * (1 - pn.p_right) else prob * pn.p_right)
        p pn.m_parent

/-- The method `accumulate_conditional_probability(leaf)`, on the nodes of the tree. -/
def accumulate_conditional_probability {F : Type} [One F] [Mul F] [Sub F]
    (nodes : List (bnode_t F))
    (fuel : Nat) (leaf : Option Nat) : Option F :=
  match leaf with
  | none => none
  | some a =>
    match nodes[a]? with
    | none => none
    | some n => accumulate_loop nodes fuel 1 a n.m_parent

/-- The loop of `compute_conditional_probabilities` over the stack of nodes, top first;
`predict_node(ex, node)` is the argument `predict_node` and fails like `train_node` when
the node has no machine. -/
def compute_loop {F : Type} (predict_node : Nat → F) (machines : Nat) :
    (fuel : Nat) → (stack : List (Option Nat)) → List (bnode_t F) →
    Option (List (bnode_t F))
  | _, [], nodes => some nodes
  | 0, _ :: _, _ => none
  | _ + 1, none :: _, _ => none
  | fuel + 1, some a :: rest, nodes =>
    match nodes[a]? with
    | none => none
    | some n =>
      match n.m_left with
      | none => compute_loop predict_node machines fuel rest nodes
      | some l =>
        if 0 ≤ n.m_machine ∧ n.m_machine < machines then
          compute_loop predict_node machines fuel (n.m_right :: some l :: rest)
            (nodes.set a { n with p_right := predict_node a })
        else none

/-- The method `compute_conditional_probabilities(ex)`. -/
def CConditionalProbabilityTree.compute_conditional_probabilities {F : Type}
    (t : CConditionalProbabilityTree F) (predict_node : Nat → F) (fuel : Nat) :
    Option (CConditionalProbabilityTree F) :=
  match compute_loop predict_node t.m_machines fuel [t.m_root] t.nodes with
  | none => none
  | some nodes => some { t with nodes := nodes }

/-- The loop of `CMath::arg_max` over the entries after the first. -/
def arg_max_loop {F : Type} [LinearOrder F] : List F → (i : Nat) → (maxv : F) →
    (maxIdx : Nat) → Nat
  | [], _, _, maxIdx => maxIdx
  | x :: rest, i, maxv, maxIdx =>
    if maxv < x then arg_max_loop rest (i + 1) x i else arg_max_loop rest (i + 1) maxv maxIdx

/-- Modelled from the spec: `CMath::arg_max(vec, 1, len)` of the mathematics library, which
is outside the sources (§1): the index of the first largest entry; on an empty vector it
reads outside the vector and is a failure. -/
def arg_max {F : Type} [LinearOrder F] (vec : List F) : Option Int :=
  match vec with
  | [] => none
  | x :: rest => some (arg_max_loop rest 1 x 0 : Nat)

/-- The loop of `apply_multiclass_example` over the entries of `m_leaves`, which writes the
accumulated probability of each leaf at the index of its label; an index outside the
vector is a failure. -/
def fill_probabilities {F : Type} [Field F] (nodes : List (bnode_t F)) (fuel : Nat) :
    List (Int × Nat) → List F → Option (List F)
  | [], probs => some probs
  | (label, leaf) :: rest, probs =>
    match accumulate_conditional_probability nodes fuel (some leaf) with
    | none => none
    | some prob =>
      if 0 ≤ label ∧ label < probs.length then
        fill_probabilities nodes fuel rest (probs.set label.toNat prob)
      else none

/-- The method `apply_multiclass_example(ex)`: the label returned and the tree after, with
the vector `probs` as it is when `arg_max` reads it. The vector is allocated without
being initialised; `indeterminate` is what each entry holds before it is written. -/
def CConditionalProbabilityTree.apply_multiclass_example {F : Type}
    [LinearOrderedField F] (t : CConditionalProbabilityTree F) (predict_node : Nat → F)
    (indeterminate : Nat → F) (fuel : Nat) :
    Option (Int × List F × CConditionalProbabilityTree F) :=
  match t.compute_conditional_probabilities predict_node fuel with
  | none => none
  | some t1 =>
    match fill_probabilities t1.nodes fuel t1.m_leaves
        ((List.range t1.m_leaves.length).map indeterminate) with
    | none => none
    | some probs =>
      match arg_max probs with
      | none => none
      | some label => some (label, probs, t1)

/-- Whether `path` lists the nodes from a node up to the root: each node of the list has the
next one as its parent, and the last one has no parent. -/
def parent_chain {F : Type} (nodes : List (bnode_t F)) : List Nat → Bool
  | [] => false
  | [a] =>
    match nodes[a]? with
    | some n => decide (n.m_parent = none)
    | none => false
  | a :: b :: rest =>
    (match nodes[a]? with
      | some n => decide (n.m_parent = some b)
      | none => false) && parent_chain nodes (b :: rest)

/-- The shape of a finite binary tree in which every node has no child or two: the
addresses of its nodes. -/
inductive Shape where
  | leaf (a : Nat)
  | node (a : Nat) (l r : Shape)

/-- The address of the root of a shape. -/
def Shape.root : Shape → Nat
  | .leaf a => a
  | .node a _ _ => a

/-- The addresses of all nodes of a shape. -/
def Shape.addresses : Shape → List Nat
  | .leaf a => [a]
  | .node a l r => a :: (l.addresses ++ r.addresses)

/-- The addresses of the leaves of a shape, left to right. -/
def Shape.leaves : Shape → List Nat
  | .leaf a => [a]
  | .node _ l r => l.leaves ++ r.leaves

/-- The addresses of the nodes of a shape that have children. -/
def Shape.internal : Shape → List Nat
  | .leaf _ => []
  | .node a l r => a :: (l.internal ++ r.internal)

/-- The number of edges on the longest path from the root of a shape to a leaf. -/
def Shape.depth : Shape → Nat
  | .leaf _ => 0
  | .node _ l r => max l.depth r.depth + 1

/-- Whether the nodes hold a tree of the given shape below the parent `par`: the node at
the root of the shape has parent `par`; a leaf of the shape has no child, and a node with
children points to the roots of its two subtrees, which are held below it. -/
def represents {F : Type} (nodes : List (bnode_t F)) : Option Nat → Shape → Bool
  | par, .leaf a =>
    match nodes[a]? with
    | some n => decide (n.m_parent = par ∧ n.m_left = none ∧ n.m_right = none)
    | none => false
  | par, .node a l r =>
    (match nodes[a]? with
      | some n =>
        decide (n.m_parent = par ∧ n.m_left = some l.root ∧ n.m_right = some r.root)
      | none => false) &&
      represents nodes (some a) l && represents nodes (some a) r

/-- The tree is well formed: every node has no child or both a left and a right child, every
node with children carries the label -1, and `m_leaves` maps a label to a node exactly
when that node is a leaf that carries the label. -/
def CConditionalProbabilityTree.well_formed {F : Type} (t : CConditionalProbabilityTree F) :
    Prop :=
  (∀ n ∈ t.nodes, (n.m_left = none ∧ n.m_right = none) ∨
      (n.m_left ≠ none ∧ n.m_right ≠ none ∧ n.label = -1)) ∧
    ∀ (k : Int) (a : Nat), leaves_find k t.m_leaves = some a ↔
      ∃ n, t.nodes[a]? = some n ∧ n.m_left = none ∧ n.m_right = none ∧ n.label = k

/-- The invariant of the trees that `train_example` builds: the root is a node; a node has
no child, or two children allocated after it, and then the label -1; the parent of a node
is allocated before it; every node has a machine; `m_leaves` has one entry for every leaf,
under the label of the leaf, and no other entry. -/
structure tree_invariant {F : Type} (t : CConditionalProbabilityTree F) : Prop where
  root : ∀ r, t.m_root = some r → r < t.nodes.length
  no_root : t.m_root = none → t.nodes = [] ∧ t.m_leaves = []
  children : ∀ (a : Nat) (n : bnode_t F), t.nodes[a]? = some n →
    (n.m_left = none ∧ n.m_right = none) ∨
      ∃ l r, n.m_left = some l ∧ n.m_right = some r ∧ a < l ∧ l < t.nodes.length ∧
        a < r ∧ r < t.nodes.length ∧ l ≠ r ∧ n.label = -1
  parent : ∀ (a : Nat) (n : bnode_t F) (p : Nat), t.nodes[a]? = some n →
    n.m_parent = some p → p < a
  machine : ∀ (a : Nat) (n : bnode_t F), t.nodes[a]? = some n →
    0 ≤ n.m_machine ∧ n.m_machine < t.m_machines
  leaf_of_label : ∀ (k : Int) (a : Nat), leaves_find k t.m_leaves = some a →
    ∃ n, t.nodes[a]? = some n ∧ n.m_left = none ∧ n.label = k
  label_of_leaf : ∀ (a : Nat) (n : bnode_t F), t.nodes[a]? = some n → n.m_left = none →
    leaves_find n.label t.m_leaves = some a
  keys : (t.m_leaves.map Prod.fst).Nodup
  count : t.nodes.countP (fun n => n.m_left.isNone) = t.m_leaves.length

/-- The pointers, the label and the machine index of a node: all of it but `p_right`. -/
def bnode_t.links {F : Type} (n : bnode_t F) :
    Option Nat × Option Nat × Option Nat × Int × Int :=
  (n.m_parent, n.m_left, n.m_right, n.label, n.m_machine)

/-- A bound on the number of turns that the loop of `compute_conditional_probabilities`
takes for a stack of nodes, among `len` nodes whose children are allocated after them. -/
def stack_weight (len : Nat) : List (Option Nat) → Nat
  | [] => 0
  | none :: rest => 1 + stack_weight len rest
  | some a :: rest => (2 ^ (len - a + 1) - 1) + stack_weight len rest

/-! ## The arithmetic of float64_t -/

/-- A value of the type `float64_t`, the IEEE 754 binary64 format: a finite value, held as
the rational number it stands for, an infinity with its sign, or a NaN. The sign of a zero
is not represented: every zero is the positive zero. -/
inductive float64_t where
  | finite (value : ℚ)
  | infinite (negative : Bool)
  | nan
  deriving DecidableEq

/-- The whole number nearest to `y`, the even one of the two when `y` lies half way
between two whole numbers. -/
def round_nearest_even (y : ℚ) : Int :=
  if y - ⌊y⌋ < 1 / 2 then ⌊y⌋
  else if 1 / 2 < y - ⌊y⌋ then ⌊y⌋ + 1
  else if ⌊y⌋ % 2 = 0 then ⌊y⌋ else ⌊y⌋ + 1

/-- The distance between neighbouring binary64 values at the magnitude of `x`: 2^(e - 52)
when 2^e ≤ |x| < 2^(e + 1), and 2^(-1074) for every magnitude below 2^(-1022). -/
def float64_t.spacing (x : ℚ) : ℚ :=
  (2 : ℚ) ^ (max (Int.log 2 |x|) (-1022) - 52)

/-- The binary64 value that a rational result is rounded to: the nearest value, the one
with the even significand in a tie, and an infinity when that value reaches 2^1024. -/
def float64_t.round (x : ℚ) : float64_t :=
  if (2 : ℚ) ^ (1024 : Nat) ≤
      |(round_nearest_even (x / float64_t.spacing x) : ℚ) * float64_t.spacing x| then
    .infinite (decide (x < 0))
  else .finite ((round_nearest_even (x / float64_t.spacing x) : ℚ) * float64_t.spacing x)

/-- The sum of two binary64 values. -/
def float64_t.add : float64_t → float64_t → float64_t
  | .finite a, .finite b => float64_t.round (a + b)
  | .finite _, .infinite s => .infinite s
  | .infinite s, .finite _ => .infinite s
  | .infinite s, .infinite t => if s = t then .infinite s else .nan
  | _, _ => .nan

/-- The difference of two binary64 values. -/
def float64_t.sub : float64_t → float64_t → float64_t
  | .finite a, .finite b => float64_t.round (a - b)
  | .finite _, .infinite s => .infinite (!s)
  | .infinite s, .finite _ => .infinite s
  | .infinite s, .infinite t => if s = t then .nan else .infinite s
  | _, _ => .nan

/-- The product of two binary64 values. -/
def float64_t.mul : float64_t → float64_t → float64_t
  | .finite a, .finite b => float64_t.round (a * b)
  | .finite a, .infinite s => if a = 0 then .nan else .infinite (xor s (decide (a < 0)))
  | .infinite s, .finite b => if b = 0 then .nan else .infinite (xor s (decide (b < 0)))
  | .infinite s, .infinite t => .infinite (xor s t)
  | _, _ => .nan

/-- The quotient of two binary64 values. -/
def float64_t.div : float64_t → float64_t → float64_t
  | .finite a, .finite b =>
    if b = 0 then (if a = 0 then .nan else .infinite (decide (a < 0)))
    else float64_t.round (a / b)
  | .finite _, .infinite _ => .finite 0
  | .infinite s, .finite b => .infinite (xor s (decide (b < 0)))
  | _, _ => .nan

/-- The square root of a rational number that is not negative, rounded to the nearest
binary64 value: the significand is the whole number nearest to the root of `x / q^2`,
where `q` is the distance between neighbouring values at the magnitude of the root. -/
def float64_t.sqrt_value (x : ℚ) : ℚ :=
  let q : ℚ := (2 : ℚ) ^ (max (Int.log 2 x / 2) (-1022) - 52)
  let k : Nat := Nat.sqrt ⌊x / (q * q)⌋₊
  if x / (q * q) < ((k : ℚ) + 1 / 2) ^ 2 then (k : ℚ) * q
  else if ((k : ℚ) + 1 / 2) ^ 2 < x / (q * q) then ((k : ℚ) + 1) * q
  else if k % 2 = 0 then (k : ℚ) * q else ((k : ℚ) + 1) * q

/-- The function `std::sqrt` on binary64 values. -/
def float64_t.sqrt : float64_t → float64_t
  | .finite a => if a < 0 then .nan else .finite (float64_t.sqrt_value a)
  | .infinite s => if s then .nan else .infinite false
  | .nan => .nan

instance : Zero float64_t := ⟨.finite 0⟩

instance : One float64_t := ⟨.finite 1⟩

instance : Add float64_t := ⟨float64_t.add⟩

instance : Sub float64_t := ⟨float64_t.sub⟩

instance : Mul float64_t := ⟨float64_t.mul⟩

instance : Div float64_t := ⟨float64_t.div⟩

/-- The rational number that a finite binary64 value stands for, and 0 for an infinity or
a NaN. -/
def float64_t.value : float64_t → ℚ
  | .finite q => q
  | _ => 0

/-- The node with `p_right` replaced by the rational number it stands for. -/
def bnode_t.exact (n : bnode_t float64_t) : bnode_t ℚ :=
  { m_parent := n.m_parent, m_left := n.m_left, m_right := n.m_right, label := n.label,
    p_right := n.p_right.value, m_machine := n.m_machine }

/-- The tree on which the products and differences are taken exactly: the same nodes, with
every `p_right` as a rational number. -/
def exact_nodes (nodes : List (bnode_t float64_t)) : List (bnode_t ℚ) :=
  nodes.map bnode_t.exact

/-- Whether two rational numbers that are not negative agree up to `k` roundings of
binary64 arithmetic in its normal range: each is at least the other times
(1 - 2^(-53))^k. -/
def float64_t.near (k : Nat) (q x : ℚ) : Prop :=
  x * (1 - 1 / 2 ^ 53) ^ k ≤ q ∧ q * (1 - 1 / 2 ^ 53) ^ k ≤ x

/-! ## Relations used to state the results -/

/-- The heap `h1` keeps every object of `h` as it is and adds objects after them. -/
def Heap.keeps (h h1 : Heap) : Prop := ∃ extra, h1.objs = h.objs ++ extra

/-- The heap `h1` keeps every object of `h` as it is, adds objects after them and has the
same delivered records. -/
def Heap.grows (h h1 : Heap) : Prop := h.keeps h1 ∧ h1.delivered = h.delivered

/-- The pointer `y` is a deep copy of the pointer `x`: both null, or `y` designates an
object at an address not below `base` that `eq` finds equal to the object of `x`. -/
def clone_of_ptr (eq : Addr → Addr → Option Bool) (base : Nat) :
    Option Addr → Option Addr → Prop
  | none, none => True
  | some d, some a => base ≤ d ∧ eq d a = some true
  | _, _ => False

/-- The payload `w` is a deep copy of the payload `v`: plain data is the same, pointers are
deep copies. -/
def clone_of_val (eq : Addr → Addr → Option Bool) (base : Nat) : Val → Val → Prop
  | .ptr y, .ptr x => clone_of_ptr eq base y x
  | .ptrs m, .ptrs l => List.Forall₂ (clone_of_ptr eq base) m l
  | w, v => w = v

/-- Cloning to depth `m` is sound: on a sound graph of cloneable values it returns a new
object, keeps every existing object as it is, and the new object compares equal to the
original. -/
def clone_sound (m : Nat) : Prop :=
  ∀ h b, deep_cloneable h m b = true →
    ∃ d h1, clone m .ALL h b = (.ok d, h1) ∧ h.grows h1 ∧ h.objs.length ≤ d ∧
      equals m h1 d b = some true ∧ deep_cloneable h1 m d = true

/-- Two values are component-wise equal: the comparison of containers, nested objects being
compared by `equals` to depth `n`, finds them equal, whichever is the receiver. -/
def values_equal (n : Nat) (h : Heap) (v w : Any) : Prop :=
  Any.equals (equals n h) v w = some true ∧ Any.equals (equals n h) w v = some true

/-- Two values are different: the comparison of containers finds them unequal, whichever is
the receiver. -/
def values_differ (n : Nat) (h : Heap) (v w : Any) : Prop :=
  Any.equals (equals n h) v w = some false ∧ Any.equals (equals n h) w v = some false

/-- A payload that holds no object pointer. -/
def Val.plain : Val → Bool
  | .ptr _ => false
  | .ptrs _ => false
  | _ => true

/-- What the registry operations can see of an object: its class name, its registry and
its option map. -/
def CSGObject.view (o : CSGObject) :
    String × List (String × AnyParameter) × List (String × List (String × Int)) :=
  (o.name, o.params, o.m_string_to_enum_map)

/-! ## Sample objects -/

/-- A constraint that rejects negative integers. -/
def non_negative : Constraint := fun v =>
  if v.as_int < 0 then "non-negative" else ""

/-- An object of class "Machine" with an integer parameter "k" (value 3), an integer
parameter "width" (value 2) constrained to be non-negative, a string parameter "label",
an integer parameter "solver" with two options, an integer parameter "mode" whose two
options share one code, and an integer parameter "level", constrained to be non-negative,
one of whose options has a negative code. -/
def sample_object : CSGObject :=
  { name := "Machine",
    params :=
      [("k", ⟨⟨.machine_int, .int 3⟩, ⟨"", []⟩, none⟩),
       ("width", ⟨⟨.machine_int, .int 2⟩, ⟨"", [.CONSTRAIN]⟩,
          some (constrain_lambda .machine_int non_negative)⟩),
       ("label", ⟨⟨.std_string, .str "a"⟩, ⟨"", []⟩, none⟩),
       ("solver", ⟨⟨.machine_int, .int 0⟩, ⟨"", []⟩, none⟩),
       ("mode", ⟨⟨.machine_int, .int 0⟩, ⟨"", []⟩, none⟩),
       ("level", ⟨⟨.machine_int, .int 1⟩, ⟨"", [.CONSTRAIN]⟩,
          some (constrain_lambda .machine_int non_negative)⟩)],
    m_string_to_enum_map :=
      [("solver", [("AUTO", 0), ("NEWTON", 1)]),
       ("mode", [("FAST", 0), ("QUICK", 0)]),
       ("level", [("LOW", -1), ("HIGH", 1)])],
    m_refcount := 1, destroyed := false, m_subscriptions := [],
    m_next_subscription_index := 0 }

/-- An object whose parameter "width" is registered through the constrained `watch_param`;
the registration succeeds, so the fallback is never taken. -/
def constrained_object : CSGObject :=
  match watch_param_constrained (CSGObject.construct "Machine") "width" .machine_int (.int 2)
      non_negative ⟨"", [.CONSTRAIN]⟩ with
  | .ok o => o
  | .error _ => CSGObject.construct "Machine"

/-- A heap with, at address 0, an object of class "Machine" whose parameter "kernel" points
to the object of class "Kernel" at address 1, which has an integer parameter "width". -/
def nested_heap : Heap :=
  ⟨[{ name := "Machine",
      params := [("kernel", ⟨⟨.object "Kernel", .ptr (some 1)⟩, ⟨"", []⟩, none⟩),
                 ("k", ⟨⟨.machine_int, .int 3⟩, ⟨"", []⟩, none⟩)],
      m_string_to_enum_map := [], m_refcount := 1, destroyed := false,
      m_subscriptions := [], m_next_subscription_index := 0 },
    { name := "Kernel",
      params := [("width", ⟨⟨.machine_int, .int 2⟩, ⟨"", []⟩, none⟩)],
      m_string_to_enum_map := [], m_refcount := 1, destroyed := false,
      m_subscriptions := [], m_next_subscription_index := 0 }], []⟩

/-- The nested heap with one observer, number 7, subscribed to the machine. -/
def observed_heap : Heap :=
  ⟨[{ name := "Machine",
      params := [("kernel", ⟨⟨.object "Kernel", .ptr (some 1)⟩, ⟨"", []⟩, none⟩),
                 ("k", ⟨⟨.machine_int, .int 3⟩, ⟨"", []⟩, none⟩)],
      m_string_to_enum_map := [], m_refcount := 1, destroyed := false,
      m_subscriptions := [(0, 7)], m_next_subscription_index := 1 },
    { name := "Kernel",
      params := [("width", ⟨⟨.machine_int, .int 2⟩, ⟨"", []⟩, none⟩)],
      m_string_to_enum_map := [], m_refcount := 1, destroyed := false,
      m_subscriptions := [], m_next_subscription_index := 0 }], []⟩

/-- A heap with three objects of class "Kernel": the first two have the same registered
values, and the third is the second with the value of "width" changed from 2 to 5. -/
def twin_heap : Heap :=
  ⟨[{ name := "Kernel",
      params := [("width", ⟨⟨.machine_int, .int 2⟩, ⟨"", []⟩, none⟩),
                 ("normalize", ⟨⟨.boolean, .bool true⟩, ⟨"", []⟩, none⟩)],
      m_string_to_enum_map := [], m_refcount := 1, destroyed := false,
      m_subscriptions := [], m_next_subscription_index := 0 },
    { name := "Kernel",
      params := [("width", ⟨⟨.machine_int, .int 2⟩, ⟨"", []⟩, none⟩),
                 ("normalize", ⟨⟨.boolean, .bool true⟩, ⟨"", []⟩, none⟩)],
      m_string_to_enum_map := [], m_refcount := 3, destroyed := false,
      m_subscriptions := [], m_next_subscription_index := 0 },
    { name := "Kernel",
      params := [("width", ⟨⟨.machine_int, .int 5⟩, ⟨"", []⟩, none⟩),
                 ("normalize", ⟨⟨.boolean, .bool true⟩, ⟨"", []⟩, none⟩)],
      m_string_to_enum_map := [], m_refcount := 3, destroyed := false,
      m_subscriptions := [], m_next_subscription_index := 0 }], []⟩

/-- An object of class "Machine" with an integer parameter "k" and two bound methods
registered through `watch_method`: "train", which returns true, and "stop", which returns
false. The registrations succeed, so the fallbacks are never taken. -/
def method_object : CSGObject :=
  match register_param (CSGObject.construct "Machine") "k" .machine_int (.int 3) with
  | .error _ => CSGObject.construct "Machine"
  | .ok o1 =>
    match watch_method o1 "train" .boolean true with
    | .error _ => o1
    | .ok o2 =>
      match watch_method o2 "stop" .boolean false with
      | .error _ => o2
      | .ok o3 => o3

/-- A heap holding the object with bound methods at address 0. -/
def method_heap : Heap := ⟨[method_object], []⟩

/-- A class table with two kernels, a features class and the array class. -/
def sample_classes : ClassTable := fun cls T =>
  decide ((cls, T) ∈
    [("GaussianKernel", "CGaussianKernel"), ("GaussianKernel", "CKernel"),
     ("GaussianKernel", "CSGObject"), ("LinearKernel", "CLinearKernel"),
     ("LinearKernel", "CKernel"), ("LinearKernel", "CSGObject"),
     ("DenseFeatures", "CDenseFeatures"), ("DenseFeatures", "CFeatures"),
     ("DenseFeatures", "CSGObject"), ("DynamicObjectArray", "CDynamicObjectArray"),
     ("DynamicObjectArray", "CSGObject"), ("CombinedKernel", "CCombinedKernel"),
     ("CombinedKernel", "CKernel"), ("CombinedKernel", "CSGObject")])

/-- A heap with, at address 0, an object whose parameter "kernel_array" is a
`CDynamicObjectArray*` pointing to the array at address 1 (one element, the kernel at
address 2), whose parameter "kernels" is a `std::vector<CKernel*>` holding the kernel at
address 2, whose parameter "feature_array" is a `CDynamicObjectArray*` pointing to the
array at address 4 (one element, the features object at address 5), and whose parameter
"features" is a `std::vector<CFeatures*>` holding the features object at address 5;
address 3 holds another kernel. -/
def array_heap : Heap :=
  ⟨[{ name := "CombinedKernel",
      params := [("kernel_array", ⟨⟨.dynamic_object_array, .ptr (some 1)⟩, ⟨"", []⟩, none⟩),
                 ("kernels", ⟨⟨.object_vector "CKernel", .ptrs [some 2]⟩, ⟨"", []⟩, none⟩),
                 ("feature_array",
                    ⟨⟨.dynamic_object_array, .ptr (some 4)⟩, ⟨"", []⟩, none⟩),
                 ("features",
                    ⟨⟨.object_vector "CFeatures", .ptrs [some 5]⟩, ⟨"", []⟩, none⟩)],
      m_string_to_enum_map := [], m_refcount := 1, destroyed := false,
      m_subscriptions := [], m_next_subscription_index := 0 },
    { name := "DynamicObjectArray", params := [], m_string_to_enum_map := [],
      m_refcount := 1, destroyed := false, m_subscriptions := [],
      m_next_subscription_index := 0, m_array := [some 2] },
    { name := "GaussianKernel", params := [], m_string_to_enum_map := [],
      m_refcount := 3, destroyed := false, m_subscriptions := [],
      m_next_subscription_index := 0 },
    { name := "LinearKernel", params := [], m_string_to_enum_map := [],
      m_refcount := 1, destroyed := false, m_subscriptions := [],
      m_next_subscription_index := 0 },
    { name := "DynamicObjectArray", params := [], m_string_to_enum_map := [],
      m_refcount := 1, destroyed := false, m_subscriptions := [],
      m_next_subscription_index := 0, m_array := [some 5] },
    { name := "DenseFeatures", params := [], m_string_to_enum_map := [],
      m_refcount := 3, destroyed := false, m_subscriptions := [],
      m_next_subscription_index := 0 }], []⟩

/-- String features with two strings over an alphabet of three symbols. -/
def sample_strings : CStringFeatures := ⟨[[0, 1, 0], [2, 2]], 3⟩

/-- The explicit spectrum of the sample strings, without normalisation. -/
def sample_spectrum : CExplicitSpecFeatures ℚ :=
  { use_normalization := false, num_strings := 2, alphabet_size := 0, spec_size := 3,
    k_spectrum := [[2, 1, 0], [0, 0, 2]] }

/-- Fresh memory whose pointer slots designate arrays of three zeros. -/
def zeroed_memory : Indeterminate ℚ := ⟨false, fun _ => some [0, 0, 0]⟩

/-- Fresh memory whose pointer slots designate nothing readable. -/
def unreadable_memory : Indeterminate ℚ := ⟨false, fun _ => none⟩

/-- An object whose default mask holds the flag HYPER. -/
def hyper_default_object : CSGObject :=
  set_default_mask (CSGObject.construct "Machine") [.HYPER]

/-- The sample object with one more parameter, "current_iteration", of type `int64_t` and
value 7. -/
def iteration_object : CSGObject :=
  { sample_object with
    params := sample_object.params ++
      [("current_iteration", ⟨⟨.int64, .int 7⟩, ⟨"", []⟩, none⟩)] }

/-- The sample object with one more parameter, "current_iteration", of type
`machine_int_t`. -/
def short_iteration_object : CSGObject :=
  { sample_object with
    params := sample_object.params ++
      [("current_iteration", ⟨⟨.machine_int, .int 7⟩, ⟨"", []⟩, none⟩)] }

/-- A sequence of four training calls with the labels 0, 1, 0 and 2; the first two walk to
the left and the last two to the right. -/
def sample_calls : List (Int × (Nat → Bool)) :=
  [(0, fun _ => true), (1, fun _ => true), (0, fun _ => false), (2, fun _ => false)]

/-- The shape of the tree held by the sample nodes. -/
def sample_shape : Shape :=
  .node 0 (.leaf 1) (.node 2 (.leaf 3) (.leaf 4))

/-- The nodes of the sample tree with values of type `float64_t`: `p_right` of the root is
the binary64 value nearest to 0.01 and `p_right` of the node 2 the one nearest to 0.05. -/
def float_tree_nodes : List (bnode_t float64_t) :=
  [{ m_parent := none, m_left := some 1, m_right := some 2, label := -1,
     p_right := .finite (5764607523034235 / 576460752303423488), m_machine := 0 },
   { m_parent := some 0, m_left := none, m_right := none, label := 0, p_right := 0,
     m_machine := 1 },
   { m_parent := some 0, m_left := some 3, m_right := some 4, label := -1,
     p_right := .finite (3602879701896397 / 72057594037927936), m_machine := 2 },
   { m_parent := some 2, m_left := none, m_right := none, label := 1, p_right := 0,
     m_machine := 3 },
   { m_parent := some 2, m_left := none, m_right := none, label := 2, p_right := 0,
     m_machine := 4 }]

/-- A heap holding the sample object at address 0. -/
def sample_heap : Heap := ⟨[sample_object], []⟩

/-! ## Basic facts about maps and the heap -/

theorem map_find_map_set_eq {β : Type} (key : String) (v : β) (l : List (String × β)) :
    map_find key (map_set key v l) = (map_find key l).map (fun _ => v) := by
  induction l with
  | nil => rfl
  | cons e rest ih =>
    obtain ⟨k, w⟩ := e
    by_cases hk : k = key
    · simp [map_find, map_set, hk]
    · simp [map_find, map_set, hk, ih]

theorem map_find_map_set_ne {β : Type} (key other : String) (v : β)
    (l : List (String × β)) (hne : other ≠ key) :
    map_find other (map_set key v l) = map_find other l := by
  induction l with
  | nil => rfl
  | cons e rest ih =>
    obtain ⟨k, w⟩ := e
    by_cases hk : k = key
    · subst hk
      have : ¬ k = other := fun h => hne h.symm
      simp [map_find, map_set, this]
    · by_cases ho : k = other
      · subst ho
        simp [map_find, map_set, hk]
      · simp [map_find, map_set, hk, ho, ih]

theorem Heap.get?_set_eq (h : Heap) (a : Addr) (o o1 : CSGObject)
    (ha : h.get? a = some o) : (h.set a o1).get? a = some o1 := by
  unfold Heap.get? at ha ⊢
  have hlt : a < h.objs.length := by
    rcases Nat.lt_or_ge a h.objs.length with hlt | hge
    · exact hlt
    · rw [List.getElem?_eq_none hge] at ha
      cases ha
  simp [Heap.set, hlt]

theorem Heap.get?_set_ne (h : Heap) (a b : Addr) (o1 : CSGObject) (hne : a ≠ b) :
    (h.set a o1).get? b = h.get? b := by
  simp [Heap.get?, Heap.set, List.getElem?_set_ne hne]

theorem view_eq_iff (o o1 : CSGObject) :
    o1.view = o.view ↔
      o1.name = o.name ∧ o1.params = o.params ∧
        o1.m_string_to_enum_map = o.m_string_to_enum_map := by
  simp [CSGObject.view, Prod.ext_iff]

theorem view_eq_triple (o : CSGObject) (a : String) (b : List (String × AnyParameter))
    (c : List (String × List (String × Int))) (hv : o.view = (a, b, c)) :
    o.name = a ∧ o.params = b ∧ o.m_string_to_enum_map = c := by
  simpa [CSGObject.view, Prod.ext_iff] using hv

theorem get_eq_of_view (o o1 : CSGObject) (hv : o1.view = o.view) (T : Ty)
    (name : String) : get o1 T name = get o T name := by
  obtain ⟨h1, h2, h3⟩ := (view_eq_iff o o1).1 hv
  simp [get, get_string, get_typed, get_parameter, string_enum_reverse_lookup, h1, h2, h3]

theorem view_ref (h : Heap) (a b : Addr) :
    ((ref h a).2.get? b).map CSGObject.view = (h.get? b).map CSGObject.view := by
  unfold ref
  cases ha : h.get? a with
  | none => rfl
  | some o =>
    by_cases hab : a = b
    · subst hab
      simp [Heap.get?_set_eq h a o _ ha, ha, CSGObject.view, CSGObject.ref]
    · simp [Heap.get?_set_ne h a b _ hab]

theorem view_unref (h : Heap) (a b : Addr) :
    ((unref h a).2.get? b).map CSGObject.view = (h.get? b).map CSGObject.view := by
  unfold unref
  cases ha : h.get? a with
  | none => rfl
  | some o =>
    by_cases hab : a = b
    · subst hab
      simp only [Heap.get?_set_eq h a o _ ha, ha, Option.map_some']
      unfold CSGObject.unref
      split <;> rfl
    · simp [Heap.get?_set_ne h a b _ hab]

theorem view_ref_value (h : Heap) (T : Ty) (value : Val) (b : Addr) :
    ((ref_value h T value).get? b).map CSGObject.view = (h.get? b).map CSGObject.view := by
  unfold ref_value
  split
  · split
    · rename_i x
      cases x with
      | none => rfl
      | some a => exact view_ref h a b
    · rfl
  · rfl

theorem view_release_value (h : Heap) (old : Any) (b : Addr) :
    ((release_value h old).get? b).map CSGObject.view = (h.get? b).map CSGObject.view := by
  unfold release_value
  split
  · split
    · exact view_unref h _ b
    · rfl
  · rfl

theorem get?_of_view (h : Heap) (b : Addr) (v : String × List (String × AnyParameter) ×
    List (String × List (String × Int))) (hv : (h.get? b).map CSGObject.view = some v) :
    ∃ o, h.get? b = some o ∧ o.view = v := by
  cases hb : h.get? b with
  | none => simp [hb] at hv
  | some o => exact ⟨o, rfl, by simpa [hb] using hv⟩

theorem check_constraint_accept (p : AnyParameter) (value : Any)
    (hacc : ∀ f, p.properties.has_property .CONSTRAIN = true →
      p.constrain_function = some f → f value = .ok "") :
    check_constraint p value = .ok none := by
  unfold check_constraint
  by_cases hflag : p.properties.has_property .CONSTRAIN = true
  · cases hf : p.constrain_function with
    | none => simp [hflag]
    | some f => simp [hflag, hacc f hflag hf]
  · simp [hflag]

theorem update_parameter_ok (h : Heap) (self : Addr) (name : String) (value : Any)
    (o : CSGObject) (p : AnyParameter) (hself : h.get? self = some o)
    (hp : map_find name o.params = some p) (hty : p.value.ty = value.ty)
    (hc : check_constraint p value = .ok none) :
    update_parameter h self name value =
      (.ok (), release_value
        (h.set self { o with params := map_set name { p with value := value } o.params })
        p.value) := by
  simp [update_parameter, hself, hp, any_cast, hty, hc]

theorem put_typed_ok (h : Heap) (self : Addr) (T : Ty) (name : String) (v : Val)
    (o : CSGObject) (p : AnyParameter) (hself : h.get? self = some o)
    (hp : map_find name o.params = some p) (hty : p.value.ty = T)
    (hcl : p.value.cloneable = true)
    (hc : check_constraint p (make_any T v) = .ok none) :
    (put_typed h self T name v).1 = .ok () ∧
      ((put_typed h self T name v).2.get? self).map CSGObject.view =
        some (o.name, map_set name { p with value := make_any T v } o.params,
          o.m_string_to_enum_map) := by
  have h1 := view_ref_value h T v self
  rw [hself] at h1
  obtain ⟨o1, ho1, hv1⟩ := get?_of_view _ _ _ h1
  obtain ⟨hn, hps, hen⟩ := (view_eq_iff o o1).1 hv1
  have hp1 : map_find name o1.params = some p := by rw [hps]; exact hp
  have hup := update_parameter_ok (ref_value h T v) self name (make_any T v) o1 p ho1 hp1
    (by simpa [make_any] using hty) hc
  have hput : put_typed h self T name v =
      update_parameter (ref_value h T v) self name (make_any T v) := by
    simp [put_typed, hself, has_parameter, get_parameter, hp, hcl, any_cast, hty]
  rw [hput, hup]
  refine ⟨rfl, ?_⟩
  rw [view_release_value, Heap.get?_set_eq _ _ o1 _ ho1]
  simp [CSGObject.view, hn, hps, hen]

theorem get_typed_of_find (o : CSGObject) (T : Ty) (name : String) (p : AnyParameter)
    (hp : map_find name o.params = some p) :
    get_typed o T name =
      if p.value.ty = T then .ok p.value.val
      else .error (.TypeMismatchGet o.name name p.value.ty T) := by
  unfold get_typed get_parameter any_cast
  rw [hp]
  by_cases hty : p.value.ty = T <;> simp [hty]

theorem map_find_mem {β : Type} (key : String) (v : β) (l : List (String × β))
    (hfind : map_find key l = some v) : (key, v) ∈ l := by
  induction l with
  | nil => simp [map_find] at hfind
  | cons e rest ih =>
    obtain ⟨k, w⟩ := e
    by_cases hk : k = key
    · simp [map_find, hk] at hfind
      simp [hk, hfind]
    · simp [map_find, hk] at hfind
      exact List.mem_cons_of_mem _ (ih hfind)

theorem reverse_lookup_of_injective (o : CSGObject) (name s : String) (c : Int)
    (options : List (String × Int))
    (hopts : map_find name o.m_string_to_enum_map = some options)
    (hs : map_find s options = some c) (hinj : ∀ e ∈ options, e.2 = c → e.1 = s) :
    string_enum_reverse_lookup o name c = .ok s := by
  unfold string_enum_reverse_lookup
  rw [hopts]
  cases hf : List.find? (fun e => decide (e.2 = c)) options with
  | none =>
    have hall := List.find?_eq_none.1 hf (s, c) (map_find_mem s c options hs)
    simp at hall
  | some e =>
    have hmem := List.mem_of_find?_eq_some hf
    have hcode : e.2 = c := by simpa using List.find?_some hf
    simp [hf, hinj e hmem hcode]

/-! ## Growing heaps -/

theorem Heap.grows_refl (h : Heap) : h.grows h := ⟨⟨[], by simp⟩, rfl⟩

theorem Heap.grows_trans {h h1 h2 : Heap} (h01 : h.grows h1) (h12 : h1.grows h2) :
    h.grows h2 := by
  obtain ⟨⟨e1, he1⟩, hd1⟩ := h01
  obtain ⟨⟨e2, he2⟩, hd2⟩ := h12
  exact ⟨⟨e1 ++ e2, by rw [he2, he1, List.append_assoc]⟩, by rw [hd2, hd1]⟩

theorem Heap.keeps_length {h h1 : Heap} (hk : h.keeps h1) :
    h.objs.length ≤ h1.objs.length := by
  obtain ⟨e1, he1⟩ := hk
  rw [he1, List.length_append]
  omega

theorem Heap.keeps_get? {h h1 : Heap} (hk : h.keeps h1) {a : Addr} {o : CSGObject}
    (ha : h.get? a = some o) : h1.get? a = some o := by
  obtain ⟨e1, he1⟩ := hk
  unfold Heap.get? at ha ⊢
  obtain ⟨hlt, hget⟩ := List.getElem?_eq_some.1 ha
  rw [he1, List.getElem?_append_left hlt]
  exact ha

theorem Heap.grows_length {h h1 : Heap} (hg : h.grows h1) :
    h.objs.length ≤ h1.objs.length := Heap.keeps_length hg.1

theorem Heap.grows_get? {h h1 : Heap} (hg : h.grows h1) {a : Addr} {o : CSGObject}
    (ha : h.get? a = some o) : h1.get? a = some o := Heap.keeps_get? hg.1 ha

theorem Heap.keeps_delivered (h : Heap) (d : List (Nat × ObservedValue)) :
    h.keeps { h with delivered := d } := ⟨[], by simp⟩

theorem Heap.get?_lt {h : Heap} {a : Addr} {o : CSGObject} (ha : h.get? a = some o) :
    a < h.objs.length := by
  unfold Heap.get? at ha
  exact (List.getElem?_eq_some.1 ha).1

theorem Heap.grows_alloc (h : Heap) (e : CSGObject) : h.grows (h.alloc e).2 :=
  ⟨⟨[e], rfl⟩, rfl⟩

theorem Heap.get?_alloc (h : Heap) (e : CSGObject) :
    (h.alloc e).2.get? (h.alloc e).1 = some e := by
  simp [Heap.alloc, Heap.get?]

/-! ## Monotonicity of the comparison -/

theorem equals_ptr_mono {eq eq1 : Addr → Addr → Option Bool}
    (hmono : ∀ a b r, eq a b = some r → eq1 a b = some r) (x y : Option Addr) (r : Bool)
    (hr : equals_ptr eq x y = some r) : equals_ptr eq1 x y = some r := by
  cases x with
  | none => cases y <;> simpa [equals_ptr] using hr
  | some a =>
    cases y with
    | none => simpa [equals_ptr] using hr
    | some b => exact hmono a b r (by simpa [equals_ptr] using hr)

theorem equals_ptrs_mono {eq eq1 : Addr → Addr → Option Bool}
    (hmono : ∀ a b r, eq a b = some r → eq1 a b = some r) (l m : List (Option Addr))
    (r : Bool) (hr : equals_ptrs eq l m = some r) : equals_ptrs eq1 l m = some r := by
  induction l generalizing m with
  | nil => cases m <;> simpa [equals_ptrs] using hr
  | cons x xs ih =>
    cases m with
    | nil => simpa [equals_ptrs] using hr
    | cons y ys =>
      simp only [equals_ptrs] at hr ⊢
      cases hxy : equals_ptr eq x y with
      | none => simp [hxy] at hr
      | some t =>
        rw [equals_ptr_mono hmono x y t hxy]
        cases t with
        | true =>
          simp only [hxy] at hr
          exact ih ys hr
        | false => simpa [hxy] using hr

theorem val_equals_mono {eq eq1 : Addr → Addr → Option Bool}
    (hmono : ∀ a b r, eq a b = some r → eq1 a b = some r) (v w : Val) (r : Bool)
    (hr : Val.equals eq v w = some r) : Val.equals eq1 v w = some r := by
  cases v <;> cases w <;>
    first
    | exact equals_ptr_mono hmono _ _ r hr
    | exact equals_ptrs_mono hmono _ _ r hr
    | exact hr

theorem any_equals_mono {eq eq1 : Addr → Addr → Option Bool}
    (hmono : ∀ a b r, eq a b = some r → eq1 a b = some r) (a b : Any) (r : Bool)
    (hr : Any.equals eq a b = some r) : Any.equals eq1 a b = some r := by
  unfold Any.equals at hr ⊢
  by_cases hty : a.ty = b.ty
  · simp only [hty, if_true] at hr ⊢
    exact val_equals_mono hmono _ _ r hr
  · simpa [hty] using hr

theorem equals_params_mono {eq eq1 : Addr → Addr → Option Bool}
    (hmono : ∀ a b r, eq a b = some r → eq1 a b = some r)
    (other l : List (String × AnyParameter)) (r : Bool)
    (hr : equals_params eq other l = some r) : equals_params eq1 other l = some r := by
  induction l with
  | nil => simpa [equals_params] using hr
  | cons e rest ih =>
    obtain ⟨name, p⟩ := e
    simp only [equals_params] at hr ⊢
    cases hq : map_find name other with
    | none => simpa [hq] using hr
    | some q =>
      simp only [hq] at hr ⊢
      cases hv : Any.equals eq p.value q.value with
      | none => simp [hv] at hr
      | some t =>
        rw [any_equals_mono hmono _ _ t hv]
        cases t with
        | true =>
          simp only [hv] at hr
          exact ih hr
        | false => simpa [hv] using hr

theorem equals_mono (n : Nat) {h h1 : Heap} (hg : h.keeps h1) (x y : Addr) (r : Bool)
    (hr : equals n h x y = some r) : equals n h1 x y = some r := by
  induction n generalizing x y r with
  | zero => simp [equals] at hr
  | succ k ih =>
    unfold equals at hr ⊢
    cases hx : h.get? x with
    | none => simp [hx] at hr
    | some a =>
      cases hy : h.get? y with
      | none => simp [hx, hy] at hr
      | some b =>
        simp only [hx, hy] at hr
        simp only [Heap.keeps_get? hg hx, Heap.keeps_get? hg hy]
        by_cases hname : a.name = b.name
        · simp only [hname, if_true] at hr ⊢
          cases hp : equals_params (equals k h) b.params a.params with
          | none => simp [hp] at hr
          | some t =>
            rw [equals_params_mono (fun a b r => ih a b r) _ _ t hp]
            simpa [hp] using hr
        · simpa [hname] using hr

/-! ## Sound object graphs -/

theorem graph_ok_succ (good : AnyParameter → Bool) (h : Heap) (n : Nat) (x : Addr) :
    graph_ok good h (n + 1) x = true ↔
      ∃ o, h.get? x = some o ∧ (o.params.map Prod.fst).Nodup ∧
        ∀ e ∈ o.params, good e.2 = true ∧
          ∀ b ∈ e.2.value.val.pointees, graph_ok good h n b = true := by
  rw [graph_ok]
  cases hx : h.get? x with
  | none => simp
  | some o => simp [List.all_eq_true]

theorem graph_ok_mono (good : AnyParameter → Bool) (n : Nat) {h h1 : Heap}
    (hg : h.keeps h1) (x : Addr) (hok : graph_ok good h n x = true) :
    graph_ok good h1 n x = true := by
  induction n generalizing x with
  | zero => simp [graph_ok] at hok
  | succ k ih =>
    obtain ⟨o, hx, hnd, hall⟩ := (graph_ok_succ good h k x).1 hok
    refine (graph_ok_succ good h1 k x).2 ⟨o, Heap.keeps_get? hg hx, hnd, ?_⟩
    intro e he
    exact ⟨(hall e he).1, fun b hb => ih b ((hall e he).2 b hb)⟩

/-! ## More facts about maps -/

theorem map_set_keys {β : Type} (key : String) (v : β) (l : List (String × β)) :
    (map_set key v l).map Prod.fst = l.map Prod.fst := by
  induction l with
  | nil => rfl
  | cons e rest ih =>
    obtain ⟨k, w⟩ := e
    by_cases hk : k = key
    · simp [map_set, hk]
    · simp [map_set, hk, ih]

theorem map_find_map {β : Type} (f : β → β) (key : String) (l : List (String × β)) :
    map_find key (l.map (fun e => (e.1, f e.2))) = (map_find key l).map f := by
  induction l with
  | nil => rfl
  | cons e rest ih =>
    obtain ⟨k, w⟩ := e
    by_cases hk : k = key
    · simp [map_find, hk]
    · simp [map_find, hk, ih]

theorem map_find_isSome_iff {β : Type} (key : String) (l : List (String × β)) :
    (map_find key l).isSome = true ↔ key ∈ l.map Prod.fst := by
  induction l with
  | nil => simp [map_find]
  | cons e rest ih =>
    obtain ⟨k, w⟩ := e
    by_cases hk : k = key
    · simp [map_find, hk]
    · have hk2 : ¬ key = k := fun h => hk h.symm
      simp [map_find, hk, hk2, ih]

theorem map_find_of_mem_nodup {β : Type} (l : List (String × β))
    (hnd : (l.map Prod.fst).Nodup) (e : String × β) (he : e ∈ l) :
    map_find e.1 l = some e.2 := by
  induction l with
  | nil => cases he
  | cons e0 rest ih =>
    obtain ⟨k, w⟩ := e0
    rw [List.map_cons, List.nodup_cons] at hnd
    rcases List.mem_cons.1 he with heq | hmem
    · subst heq
      simp [map_find]
    · have hk : ¬ k = e.1 := by
        intro hk
        apply hnd.1
        rw [hk]
        exact List.mem_map.2 ⟨e, hmem, rfl⟩
      simp [map_find, hk, ih hnd.2 hmem]

/-! ## Deep copies compare equal -/

theorem clone_of_ptr_mono {eq eq1 : Addr → Addr → Option Bool} {base base1 : Nat}
    (hmono : ∀ a b r, eq a b = some r → eq1 a b = some r) (hbase : base1 ≤ base)
    (y x : Option Addr) (hc : clone_of_ptr eq base y x) : clone_of_ptr eq1 base1 y x := by
  cases y with
  | none =>
    cases x with
    | none => trivial
    | some a => simp [clone_of_ptr] at hc
  | some d =>
    cases x with
    | none => simp [clone_of_ptr] at hc
    | some a =>
      simp only [clone_of_ptr] at hc ⊢
      exact ⟨le_trans hbase hc.1, hmono d a true hc.2⟩

theorem clone_of_val_mono {eq eq1 : Addr → Addr → Option Bool} {base base1 : Nat}
    (hmono : ∀ a b r, eq a b = some r → eq1 a b = some r) (hbase : base1 ≤ base)
    (w v : Val) (hc : clone_of_val eq base w v) : clone_of_val eq1 base1 w v := by
  cases w <;> cases v <;>
    first
    | exact clone_of_ptr_mono hmono hbase _ _ hc
    | exact List.Forall₂.imp (fun y x => clone_of_ptr_mono hmono hbase y x) hc
    | exact hc

theorem equals_ptr_of_clone_of (eq : Addr → Addr → Option Bool) (base : Nat)
    (y x : Option Addr) (hc : clone_of_ptr eq base y x) : equals_ptr eq y x = some true := by
  cases y with
  | none => cases x <;> simp_all [clone_of_ptr, equals_ptr]
  | some d =>
    cases x with
    | none => simp [clone_of_ptr] at hc
    | some a => exact hc.2

theorem equals_ptrs_of_clone_of (eq : Addr → Addr → Option Bool) (base : Nat)
    (m l : List (Option Addr)) (hc : List.Forall₂ (clone_of_ptr eq base) m l) :
    equals_ptrs eq m l = some true := by
  induction hc with
  | nil => rfl
  | cons hd _ ih =>
    simp only [equals_ptrs, equals_ptr_of_clone_of eq base _ _ hd]
    exact ih

theorem any_equals_of_clone_of (eq : Addr → Addr → Option Bool) (base : Nat) (q p : Any)
    (hty : q.ty = p.ty) (hc : clone_of_val eq base q.val p.val) :
    Any.equals eq q p = some true := by
  unfold Any.equals
  simp only [hty, if_true]
  generalize q.val = w at hc
  generalize p.val = v at hc
  cases w <;> cases v <;>
    first
    | exact equals_ptr_of_clone_of eq base _ _ hc
    | exact equals_ptrs_of_clone_of eq base _ _ hc
    | (simp only [clone_of_val] at hc; simp [Val.equals, hc])

theorem equals_params_true (eq : Addr → Addr → Option Bool)
    (other l : List (String × AnyParameter))
    (hall : ∀ e ∈ l, ∃ q, map_find e.1 other = some q ∧
      Any.equals eq e.2.value q.value = some true) :
    equals_params eq other l = some true := by
  induction l with
  | nil => rfl
  | cons e rest ih =>
    obtain ⟨name, p⟩ := e
    obtain ⟨q, hq, hv⟩ := hall (name, p) (List.mem_cons_self _ _)
    simp only [equals_params, hq, hv]
    exact ih (fun e he => hall e (List.mem_cons_of_mem _ he))

/-! ## The copy loop -/

theorem clone_ptr_spec (m : Nat) (hcl : clone_sound m) (h : Heap) (x : Option Addr)
    (hx : ∀ b ∈ (Val.ptr x).pointees, deep_cloneable h m b = true) :
    ∃ y h1, clone_ptr (clone m .ALL) h x = (.ok y, h1) ∧ h.grows h1 ∧
      clone_of_ptr (equals m h1) h.objs.length y x ∧
      ∀ b ∈ (Val.ptr y).pointees, deep_cloneable h1 m b = true := by
  cases x with
  | none =>
    exact ⟨none, h, rfl, Heap.grows_refl h, trivial, fun b hb => by simp [Val.pointees] at hb⟩
  | some a =>
    obtain ⟨d, h1, hc, hg, hd, heq, hdc⟩ := hcl h a (hx a (by simp [Val.pointees]))
    refine ⟨some d, h1, by simp [clone_ptr, hc], hg, ⟨hd, heq⟩, ?_⟩
    intro b hb
    simp only [Val.pointees, List.mem_singleton] at hb
    rw [hb]
    exact hdc

theorem clone_ptrs_spec (m : Nat) (hcl : clone_sound m) (l : List (Option Addr)) (h : Heap)
    (hl : ∀ b ∈ (Val.ptrs l).pointees, deep_cloneable h m b = true) :
    ∃ ys h1, clone_ptrs (clone m .ALL) h l = (.ok ys, h1) ∧ h.grows h1 ∧
      List.Forall₂ (clone_of_ptr (equals m h1) h.objs.length) ys l ∧
      ∀ b ∈ (Val.ptrs ys).pointees, deep_cloneable h1 m b = true := by
  induction l generalizing h with
  | nil =>
    exact ⟨[], h, rfl, Heap.grows_refl h, List.Forall₂.nil,
      fun b hb => by simp [Val.pointees] at hb⟩
  | cons x rest ih =>
    have hx : ∀ b ∈ (Val.ptr x).pointees, deep_cloneable h m b = true := by
      intro b hb
      apply hl b
      cases x with
      | none => simp [Val.pointees] at hb
      | some a =>
        simp only [Val.pointees, List.mem_singleton] at hb
        subst hb
        simp [Val.pointees]
    obtain ⟨y, h1, hc1, hg1, hrel1, hpt1⟩ := clone_ptr_spec m hcl h x hx
    have hrest : ∀ b ∈ (Val.ptrs rest).pointees, deep_cloneable h1 m b = true := by
      intro b hb
      apply graph_ok_mono _ m hg1.1
      apply hl b
      simp only [Val.pointees, List.mem_filterMap, id] at hb ⊢
      obtain ⟨a, ha, hab⟩ := hb
      exact ⟨a, List.mem_cons_of_mem _ ha, hab⟩
    obtain ⟨ys, h2, hc2, hg2, hrel2, hpt2⟩ := ih h1 hrest
    refine ⟨y :: ys, h2, by simp [clone_ptrs, hc1, hc2], Heap.grows_trans hg1 hg2, ?_, ?_⟩
    · refine List.Forall₂.cons ?_ ?_
      · exact clone_of_ptr_mono (fun a b r => equals_mono m hg2.1 a b r) (le_refl _) _ _ hrel1
      · exact List.Forall₂.imp (fun y x hyx => clone_of_ptr_mono (fun _ _ _ hr => hr)
          (Heap.grows_length hg1) y x hyx) hrel2
    · intro b hb
      simp only [Val.pointees, List.mem_filterMap, id, List.mem_cons] at hb
      obtain ⟨a, ha, hab⟩ := hb
      rcases ha with hay | hays
      · apply graph_ok_mono _ m hg2.1
        apply hpt1 b
        rw [hay] at hab
        rw [hab]
        simp [Val.pointees]
      · apply hpt2 b
        simp only [Val.pointees, List.mem_filterMap, id]
        exact ⟨a, hays, hab⟩

theorem clone_val_spec (m : Nat) (hcl : clone_sound m) (h : Heap) (v : Val)
    (hv : ∀ b ∈ v.pointees, deep_cloneable h m b = true) :
    ∃ w h1, clone_utils_clone (clone m .ALL) h v = (.ok w, h1) ∧ h.grows h1 ∧
      clone_of_val (equals m h1) h.objs.length w v ∧
      ∀ b ∈ w.pointees, deep_cloneable h1 m b = true := by
  cases v with
  | ptr x =>
    obtain ⟨y, h1, hc, hg, hrel, hpt⟩ := clone_ptr_spec m hcl h x hv
    exact ⟨.ptr y, h1, by simp [clone_utils_clone, hc], hg, hrel, hpt⟩
  | ptrs l =>
    obtain ⟨ys, h1, hc, hg, hrel, hpt⟩ := clone_ptrs_spec m hcl l h hv
    exact ⟨.ptrs ys, h1, by simp [clone_utils_clone, hc], hg, hrel, hpt⟩
  | int i => exact ⟨.int i, h, rfl, Heap.grows_refl h, rfl, hv⟩
  | bool b => exact ⟨.bool b, h, rfl, Heap.grows_refl h, rfl, hv⟩
  | str s => exact ⟨.str s, h, rfl, Heap.grows_refl h, rfl, hv⟩
  | fn r => exact ⟨.fn r, h, rfl, Heap.grows_refl h, rfl, hv⟩

theorem any_clone_spec (m : Nat) (hcl : clone_sound m) (h : Heap) (a : Any)
    (hca : a.cloneable = true) (hv : ∀ b ∈ a.val.pointees, deep_cloneable h m b = true) :
    ∃ v h1, Any.clone (clone m .ALL) h a = (.ok v, h1) ∧ h.grows h1 ∧ v.ty = a.ty ∧
      clone_of_val (equals m h1) h.objs.length v.val a.val ∧
      ∀ b ∈ v.val.pointees, deep_cloneable h1 m b = true := by
  obtain ⟨w, h1, hc, hg, hrel, hpt⟩ := clone_val_spec m hcl h a.val hv
  exact ⟨⟨a.ty, w⟩, h1, by simp [Any.clone, hca, hc], hg, rfl, hrel, hpt⟩

theorem clone_params_spec (m : Nat) (hcl : clone_sound m)
    (entries : List (String × AnyParameter)) (h : Heap) (e : CSGObject)
    (hnd : (entries.map Prod.fst).Nodup)
    (hpresent : ∀ en ∈ entries, (map_find en.1 e.params).isSome = true)
    (hgood : ∀ en ∈ entries, en.2.value.cloneable = true ∧
      ∀ b ∈ en.2.value.val.pointees, deep_cloneable h m b = true) :
    ∃ e1 h1, clone_params (clone m .ALL) .ALL h e entries = (.ok e1, h1) ∧ h.grows h1 ∧
      e1.name = e.name ∧ e1.params.map Prod.fst = e.params.map Prod.fst ∧
      (∀ en ∈ entries, ∃ q, map_find en.1 e1.params = some q ∧ q.value.ty = en.2.value.ty ∧
        clone_of_val (equals m h1) h.objs.length q.value.val en.2.value.val ∧
        ∀ b ∈ q.value.val.pointees, deep_cloneable h1 m b = true) ∧
      (∀ name, name ∉ entries.map Prod.fst →
        map_find name e1.params = map_find name e.params) := by
  induction entries generalizing h e with
  | nil =>
    refine ⟨e, h, rfl, Heap.grows_refl h, rfl, rfl, ?_, fun _ _ => rfl⟩
    intro en hen
    simp at hen
  | cons en0 rest ih =>
    obtain ⟨name, p⟩ := en0
    rw [List.map_cons, List.nodup_cons] at hnd
    obtain ⟨hca, hpts⟩ := hgood (name, p) (List.mem_cons_self _ _)
    obtain ⟨v, h1, hc1, hg1, hty1, hrel1, hpt1⟩ := any_clone_spec m hcl h p.value hca hpts
    obtain ⟨q0, hq0⟩ := Option.isSome_iff_exists.1
      (hpresent (name, p) (List.mem_cons_self _ _))
    have hne : ∀ en ∈ rest, en.1 ≠ name := by
      intro en hen heq
      apply hnd.1
      rw [← heq]
      exact List.mem_map.2 ⟨en, hen, rfl⟩
    obtain ⟨e1, h2, hc2, hg2, hname2, hkeys2, hrel2, hrest2⟩ :=
      ih h1 { e with params := map_set name { q0 with value := v } e.params } hnd.2
        (by
          intro en hen
          simp only [map_find_map_set_ne name en.1 _ e.params (hne en hen)]
          exact hpresent en (List.mem_cons_of_mem _ hen))
        (by
          intro en hen
          obtain ⟨h1c, h2c⟩ := hgood en (List.mem_cons_of_mem _ hen)
          exact ⟨h1c, fun b hb => graph_ok_mono _ m hg1.1 b (h2c b hb)⟩)
    refine ⟨e1, h2, ?_, Heap.grows_trans hg1 hg2, hname2, ?_, ?_, ?_⟩
    · simp [clone_params, PropertyFilter.selects, hc1, hq0, hc2]
    · rw [hkeys2]
      exact map_set_keys name _ e.params
    · intro en hen
      rcases List.mem_cons.1 hen with heq | hmem
      · subst heq
        refine ⟨{ q0 with value := v }, ?_, hty1, ?_, ?_⟩
        · rw [hrest2 name hnd.1]
          simp [map_find_map_set_eq, hq0]
        · exact clone_of_val_mono (fun a b r => equals_mono m hg2.1 a b r) (le_refl _) _ _ hrel1
        · exact fun b hb => graph_ok_mono _ m hg2.1 b (hpt1 b hb)
      · obtain ⟨q, hq, hqty, hqrel, hqpt⟩ := hrel2 en hmem
        exact ⟨q, hq, hqty, clone_of_val_mono (fun _ _ _ hr => hr) (Heap.grows_length hg1)
          _ _ hqrel, hqpt⟩
    · intro other hother
      have hother2 : other ≠ name ∧ other ∉ rest.map Prod.fst := by
        simpa [List.mem_cons, not_or] using hother
      rw [hrest2 other hother2.2]
      exact map_find_map_set_ne name other _ e.params hother2.1

/-! ## Deep clone -/

theorem clone_spec (m : Nat) (hcl : clone_sound m) (h : Heap) (x : Addr)
    (hok : deep_cloneable h (m + 1) x = true) :
    ∃ d h1 o o1, clone (m + 1) .ALL h x = (.ok d, h1) ∧ h.grows h1 ∧
      h.objs.length ≤ d ∧ h.get? x = some o ∧ h1.get? d = some o1 ∧ o1.name = o.name ∧
      o1.params.map Prod.fst = o.params.map Prod.fst ∧
      (∀ name p, map_find name o.params = some p →
        ∃ q, map_find name o1.params = some q ∧ q.value.ty = p.value.ty ∧
          clone_of_val (equals m h1) h.objs.length q.value.val p.value.val) ∧
      equals (m + 1) h1 d x = some true ∧ deep_cloneable h1 (m + 1) d = true := by
  obtain ⟨o, hx, hnd, hall⟩ := (graph_ok_succ _ h m x).1 hok
  have hkeys0 : (create_empty o).params.map Prod.fst = o.params.map Prod.fst := by
    simp [create_empty, List.map_map, Function.comp_def]
  have hpresent : ∀ en ∈ o.params, (map_find en.1 (create_empty o).params).isSome = true := by
    intro en hen
    rw [map_find_isSome_iff, hkeys0]
    exact List.mem_map.2 ⟨en, hen, rfl⟩
  obtain ⟨e1, h1, hc, hg, hname, hkeys, hrel, -⟩ :=
    clone_params_spec m hcl o.params h (create_empty o) hnd hpresent hall
  have hg2 : h1.grows (h1.alloc e1).2 := Heap.grows_alloc h1 e1
  have hkeys1 : e1.params.map Prod.fst = o.params.map Prod.fst := by rw [hkeys, hkeys0]
  have hrel2 : ∀ name p, map_find name o.params = some p →
      ∃ q, map_find name e1.params = some q ∧ q.value.ty = p.value.ty ∧
        clone_of_val (equals m (h1.alloc e1).2) h.objs.length q.value.val p.value.val := by
    intro name p hp
    obtain ⟨q, hq, hqty, hqrel, -⟩ := hrel (name, p) (map_find_mem name p o.params hp)
    exact ⟨q, hq, hqty, clone_of_val_mono (fun a b r => equals_mono m hg2.1 a b r) (le_refl _)
      _ _ hqrel⟩
  have hsource : ∀ en ∈ e1.params, ∃ p, map_find en.1 o.params = some p ∧
      (en.1, p) ∈ o.params ∧ map_find en.1 e1.params = some en.2 := by
    intro en hen
    have hmemk : en.1 ∈ o.params.map Prod.fst := by
      rw [← hkeys1]
      exact List.mem_map.2 ⟨en, hen, rfl⟩
    obtain ⟨p, hp⟩ := Option.isSome_iff_exists.1 ((map_find_isSome_iff en.1 o.params).2 hmemk)
    exact ⟨p, hp, map_find_mem en.1 p o.params hp,
      map_find_of_mem_nodup e1.params (by rw [hkeys1]; exact hnd) en hen⟩
  refine ⟨h1.objs.length, (h1.alloc e1).2, o, e1, ?_, Heap.grows_trans hg hg2,
    Heap.grows_length hg, hx, Heap.get?_alloc h1 e1, ?_, hkeys1, hrel2, ?_, ?_⟩
  · simp [clone, hx, hc, Heap.alloc]
  · rw [hname]; rfl
  · have hd : (h1.alloc e1).2.get? h1.objs.length = some e1 := Heap.get?_alloc h1 e1
    have hx2 : (h1.alloc e1).2.get? x = some o := Heap.grows_get? hg2 (Heap.grows_get? hg hx)
    have hn : e1.name = o.name := by rw [hname]; rfl
    have hparams : equals_params (equals m (h1.alloc e1).2) o.params e1.params = some true := by
      apply equals_params_true
      intro en hen
      have hmemk : en.1 ∈ o.params.map Prod.fst := by
        rw [← hkeys1]
        exact List.mem_map.2 ⟨en, hen, rfl⟩
      obtain ⟨p, hp⟩ := Option.isSome_iff_exists.1 ((map_find_isSome_iff en.1 o.params).2 hmemk)
      obtain ⟨q, hq, hqty, hqrel⟩ := hrel2 en.1 p hp
      have hen2 : map_find en.1 e1.params = some en.2 :=
        map_find_of_mem_nodup e1.params (by rw [hkeys1]; exact hnd) en hen
      rw [hen2] at hq
      cases hq
      exact ⟨p, hp, any_equals_of_clone_of _ _ _ _ hqty hqrel⟩
    have hall2 : (o.params.all fun e => (map_find e.1 e1.params).isSome) = true := by
      rw [List.all_eq_true]
      intro en hen
      rw [map_find_isSome_iff, hkeys1]
      exact List.mem_map.2 ⟨en, hen, rfl⟩
    rw [equals]
    simp only [hd, hx2, hn, if_true, hparams, hall2]
  · refine (graph_ok_succ _ _ m _).2 ⟨e1, Heap.get?_alloc h1 e1, by rw [hkeys1]; exact hnd, ?_⟩
    intro en hen
    obtain ⟨p, hp, hpmem, hen2⟩ := hsource en hen
    obtain ⟨q, hq, hqty, -, hqpt⟩ := hrel (en.1, p) hpmem
    rw [hen2] at hq
    cases hq
    refine ⟨?_, fun b hb => graph_ok_mono _ m hg2.1 b (hqpt b hb)⟩
    have := (hall (en.1, p) hpmem).1
    simpa [Any.cloneable, hqty] using this

theorem clone_sound_all (m : Nat) : clone_sound m := by
  induction m with
  | zero =>
    intro h b hb
    simp [deep_cloneable, graph_ok] at hb
  | succ k ih =>
    intro h b hb
    obtain ⟨d, h1, _, _, hc, hg, hd, _, _, _, _, _, heq, hdc⟩ := clone_spec k ih h b hb
    exact ⟨d, h1, hc, hg, hd, heq, hdc⟩

/-! ## What a put leaves alone -/

theorem delivered_ref (h : Heap) (a : Addr) : (ref h a).2.delivered = h.delivered := by
  unfold ref
  cases h.get? a <;> rfl

theorem delivered_unref (h : Heap) (a : Addr) : (unref h a).2.delivered = h.delivered := by
  unfold unref
  cases h.get? a <;> rfl

theorem delivered_ref_value (h : Heap) (T : Ty) (value : Val) :
    (ref_value h T value).delivered = h.delivered := by
  unfold ref_value
  split
  · split
    · rename_i x
      cases x with
      | none => rfl
      | some a => exact delivered_ref h a
    · rfl
  · rfl

theorem delivered_release_value (h : Heap) (old : Any) :
    (release_value h old).delivered = h.delivered := by
  unfold release_value
  split
  · split
    · exact delivered_unref h _
    · rfl
  · rfl

theorem update_parameter_frame (h : Heap) (self : Addr) (name : String) (value : Any) :
    (update_parameter h self name value).2.delivered = h.delivered ∧
      ∀ b, b ≠ self →
        ((update_parameter h self name value).2.get? b).map CSGObject.view =
          (h.get? b).map CSGObject.view := by
  unfold update_parameter
  repeat' split
  all_goals first
    | exact ⟨rfl, fun _ _ => rfl⟩
    | (refine ⟨?_, ?_⟩
       · simp only [delivered_release_value]
         rfl
       · intro b hb
         simp only [view_release_value]
         rw [Heap.get?_set_ne _ _ _ _ (fun hsb => hb hsb.symm)])

theorem put_typed_frame (h : Heap) (self : Addr) (T : Ty) (name : String) (v : Val) :
    (put_typed h self T name v).2.delivered = h.delivered ∧
      ∀ b, b ≠ self →
        ((put_typed h self T name v).2.get? b).map CSGObject.view =
          (h.get? b).map CSGObject.view := by
  unfold put_typed
  repeat' split
  all_goals first
    | exact ⟨rfl, fun _ _ => rfl⟩
    | (obtain ⟨hd, hv⟩ := update_parameter_frame (ref_value h T v) self name (make_any T v)
       refine ⟨by rw [hd, delivered_ref_value], ?_⟩
       intro b hb
       rw [hv b hb, view_ref_value])

theorem put_frame (h : Heap) (self : Addr) (T : Ty) (name : String) (v : Val) :
    (put h self T name v).2.delivered = h.delivered ∧
      ∀ b, b ≠ self →
        ((put h self T name v).2.get? b).map CSGObject.view =
          (h.get? b).map CSGObject.view := by
  unfold put
  split
  · unfold put_string
    repeat' split
    all_goals first
      | exact ⟨rfl, fun _ _ => rfl⟩
      | exact put_typed_frame h self .machine_int name _
  · exact put_typed_frame h self T name v

/-! ## Typed put and get -/

theorem put_typed_roundtrip (h : Heap) (self : Addr) (o : CSGObject) (T : Ty)
    (name : String) (v : Val) (p : AnyParameter) (hself : h.get? self = some o)
    (hp : map_find name o.params = some p) (hty : p.value.ty = T)
    (hcl : p.value.cloneable = true)
    (hc : check_constraint p (make_any T v) = .ok none) :
    (put_typed h self T name v).1 = .ok () ∧
      ∃ o2, (put_typed h self T name v).2.get? self = some o2 ∧
        get_typed o2 T name = .ok v := by
  obtain ⟨hok, hview⟩ := put_typed_ok h self T name v o p hself hp hty hcl hc
  obtain ⟨o2, ho2, hv2⟩ := get?_of_view _ _ _ hview
  obtain ⟨-, hps, -⟩ := view_eq_triple o2 _ _ _ hv2
  have hfind : map_find name o2.params = some { p with value := make_any T v } := by
    rw [hps, map_find_map_set_eq, hp]; rfl
  exact ⟨hok, o2, ho2, by simp [get_typed_of_find o2 T name _ hfind, make_any]⟩

/-- C1, amended: for a registered parameter whose stored type is T, T not a string type,
whose stored value is cloneable, and a value v of type T that the constraint of the
parameter (if any) accepts, put<T>(name, v) succeeds and a following get<T>(name)
returns v. -/
theorem put_then_get (h : Heap) (self : Addr) (o : CSGObject) (T : Ty) (name : String)
    (v : Val) (p : AnyParameter) (hself : h.get? self = some o)
    (hp : map_find name o.params = some p) (hty : p.value.ty = T)
    (hcl : p.value.cloneable = true) (hstr : is_string T = false)
    (hacc : ∀ f, p.properties.has_property .CONSTRAIN = true →
      p.constrain_function = some f → f (make_any T v) = .ok "") :
    (put h self T name v).1 = .ok () ∧
      get_at (put h self T name v).2 self T name = .ok v := by
  have hc := check_constraint_accept p (make_any T v) hacc
  obtain ⟨hok, o2, ho2, hget⟩ := put_typed_roundtrip h self o T name v p hself hp hty hcl hc
  have hput : put h self T name v = put_typed h self T name v := by simp [put, hstr]
  rw [hput]
  exact ⟨hok, by simp [get_at, ho2, get, hstr, hget]⟩

/-- C1, witness: putting 7 into the integer parameter "k" of the sample object. -/
theorem put_then_get_witness :
    (put sample_heap 0 .machine_int "k" (.int 7)).1 = .ok () ∧
      get_at (put sample_heap 0 .machine_int "k" (.int 7)).2 0 .machine_int "k" =
        .ok (.int 7) :=
  put_then_get sample_heap 0 sample_object .machine_int "k" (.int 7)
    ⟨⟨.machine_int, .int 3⟩, ⟨"", []⟩, none⟩ rfl rfl rfl rfl rfl
    (by intro f hflag; simp [AnyParameterProperties.has_property] at hflag)

/-- C1, counterexample: the parameter "label" of the sample object is registered with stored
type std::string, its value is cloneable and it has no constraint, yet put<std::string>
fails, because the string overload looks for options of "label" and finds none. -/
theorem put_string_typed_fails :
    sample_heap.get? 0 = some sample_object ∧
      (map_find "label" sample_object.params).map
          (fun p => (p.value, p.value.cloneable, p.constrain_function.isSome)) =
        some (⟨.std_string, .str "a"⟩, true, false) ∧
      (put sample_heap 0 .std_string "label" (.str "b")).1 =
        .error (.NoOptions "Machine" "label") := by
  refine ⟨rfl, by decide, rfl⟩

/-- C2, amended: for a registered parameter with stored type T and a requested type U
different from T, get<U>(name) fails with a TypeMismatch that reports the stored type T and
the requested type U whenever U is not a string type or name has no options; when U is a
string type and name has options, get<U>(name) is the reverse lookup of
get<machine_int_t>(name), which fails with a TypeMismatch reporting T and machine_int_t
if T is not machine_int_t and otherwise looks up the option string of the stored code. -/
theorem get_type_mismatch (o : CSGObject) (T U : Ty) (name : String) (p : AnyParameter)
    (hp : map_find name o.params = some p) (hty : p.value.ty = T) (hne : U ≠ T) :
    ((is_string U = false ∨ map_find name o.m_string_to_enum_map = none) →
        get o U name = .error (.TypeMismatchGet o.name name T U)) ∧
      ((is_string U = true ∧ (map_find name o.m_string_to_enum_map).isSome = true) →
        (T ≠ .machine_int →
          get o U name = .error (.TypeMismatchGet o.name name T .machine_int)) ∧
        (T = .machine_int →
          get o U name =
            (string_enum_reverse_lookup o name p.value.val.as_int).map Val.str)) := by
  subst hty
  have hTU : ¬ p.value.ty = U := fun h => hne h.symm
  refine ⟨?_, ?_⟩
  · intro hcase
    by_cases hs : is_string U = true
    · have hnone : map_find name o.m_string_to_enum_map = none := by
        rcases hcase with h1 | h1
        · rw [hs] at h1; cases h1
        · exact h1
      simp [get, hs, get_string, hnone, get_parameter, hp, any_cast, hTU]
    · simp [get, hs, get_typed_of_find o U name p hp, hTU]
  · rintro ⟨hs, hsome⟩
    obtain ⟨opts, hopts⟩ := Option.isSome_iff_exists.1 hsome
    refine ⟨?_, ?_⟩
    · intro hT
      simp [get, hs, get_string, hopts, get_typed_of_find o .machine_int name p hp, hT]
    · intro hT
      simp only [get, hs, get_string, hopts, get_typed_of_find o .machine_int name p hp, hT,
        if_true]
      cases string_enum_reverse_lookup o name p.value.val.as_int <;> rfl

/-- C2, witness: asking the integer parameter "k" of the sample object for a boolean. -/
theorem get_type_mismatch_witness :
    get sample_object .boolean "k" =
      .error (.TypeMismatchGet "Machine" "k" .machine_int .boolean) :=
  (get_type_mismatch sample_object .machine_int .boolean "k"
    ⟨⟨.machine_int, .int 3⟩, ⟨"", []⟩, none⟩ rfl rfl (by decide)).1 (Or.inl rfl)

/-- C2, counterexample: "solver" is registered with stored type machine_int_t, and
get<std::string>("solver"), a request for a different type, does not fail: it returns the
option string of the stored code. -/
theorem get_string_of_int_parameter :
    (map_find "solver" sample_object.params).map (fun p => p.value) =
        some ⟨.machine_int, .int 0⟩ ∧
      Ty.std_string ≠ Ty.machine_int ∧
      get sample_object .std_string "solver" = .ok (.str "AUTO") := by
  refine ⟨rfl, by decide, rfl⟩

/-- C3: for a name that is not a registered parameter, get<T>(name) fails with
ParameterNotFound for every type T, string types included, and has(name) and has<T>(name)
both return false. -/
theorem get_missing_parameter (o : CSGObject) (name : String)
    (hmiss : map_find name o.params = none) :
    (∀ T, get o T name = .error (.ParameterNotFound o.name name)) ∧
      has o name = false ∧ ∀ T, has_T o T name = false := by
  refine ⟨?_, ?_, ?_⟩
  · intro T
    have ht : ∀ V, get_typed o V name = .error (.ParameterNotFound o.name name) := by
      intro V
      simp [get_typed, get_parameter, hmiss]
    by_cases hs : is_string T = true
    · cases hopts : map_find name o.m_string_to_enum_map with
      | none => simp [get, hs, get_string, hopts, get_parameter, hmiss]
      | some opts => simp [get, hs, get_string, hopts, ht]
    · simp [get, hs, ht]
  · simp [has, has_parameter, hmiss]
  · intro T
    simp [has_T, has_parameter, hmiss]

/-- C3, witness: the sample object has no parameter called "nonexistent". -/
theorem get_missing_parameter_witness :
    (∀ T, get sample_object T "nonexistent" =
        .error (.ParameterNotFound "Machine" "nonexistent")) ∧
      has sample_object "nonexistent" = false ∧
      ∀ T, has_T sample_object T "nonexistent" = false :=
  get_missing_parameter sample_object "nonexistent" rfl

/-! ## Constraints -/

theorem watch_param_constrained_descriptor (o0 o : CSGObject) (name : String) (T1 : Ty)
    (value : Val) (c : Constraint) (properties : AnyParameterProperties)
    (hreg : watch_param_constrained o0 name T1 value c properties = .ok o) :
    ∃ p, map_find name o.params = some p ∧ p.value = make_any T1 value ∧
      p.properties.has_property .CONSTRAIN = true ∧
      p.constrain_function = some (constrain_lambda T1 c) := by
  unfold watch_param_constrained create_parameter at hreg
  by_cases hflag : properties.has_property .CONSTRAIN = true
  · by_cases hhas : has_parameter o0 name = true
    · simp [hflag, hhas] at hreg
    · simp only [hflag, hhas] at hreg
      have ho : o = { o0 with params := o0.params ++ [(name, ⟨make_any T1 value, properties,
          some (constrain_lambda T1 c)⟩)] } := by
        simp at hreg
        exact hreg.symm
      have hnone : map_find name o0.params = none := by
        simpa [has_parameter] using hhas
      have happ : ∀ (l : List (String × AnyParameter)) (q : AnyParameter),
          map_find name l = none → map_find name (l ++ [(name, q)]) = some q := by
        intro l q
        induction l with
        | nil => intro _; simp [map_find]
        | cons e rest ih =>
          obtain ⟨k, w⟩ := e
          intro hl
          by_cases hk : k = name
          · simp [map_find, hk] at hl
          · simp [map_find, hk] at hl ⊢
            exact ih hl
      refine ⟨⟨make_any T1 value, properties, some (constrain_lambda T1 c)⟩, ?_, rfl, hflag,
        rfl⟩
      rw [ho]
      exact happ _ _ hnone
  · simp [hflag] at hreg

/-- C5: for a parameter carrying the CONSTRAIN flag and the function stored by the
constrained watch_param for a constraint c (T its type, not a string type, cloneable):
put(name, v) with a value that c rejects fails with ConstraintViolation carrying the text
of c, and the stored value and the whole registry of the object are as before; put(name, v)
with a value that c accepts succeeds and get(name) then returns v. -/
theorem constrained_put (h : Heap) (self : Addr) (o : CSGObject) (T : Ty) (name : String)
    (p : AnyParameter) (c : Constraint) (hself : h.get? self = some o)
    (hp : map_find name o.params = some p) (hty : p.value.ty = T)
    (hcl : p.value.cloneable = true) (hstr : is_string T = false)
    (hflag : p.properties.has_property .CONSTRAIN = true)
    (hf : p.constrain_function = some (constrain_lambda T c)) :
    (∀ v, c v ≠ "" →
        (put h self T name v).1 = .error (.ConstraintViolation o.name name (c v)) ∧
        get_at (put h self T name v).2 self T name = .ok p.value.val ∧
        ((put h self T name v).2.get? self).map CSGObject.params = some o.params) ∧
      (∀ v, c v = "" →
        (put h self T name v).1 = .ok () ∧
        get_at (put h self T name v).2 self T name = .ok v) := by
  refine ⟨?_, ?_⟩
  · intro v hrej
    have h1 := view_ref_value h T v self
    rw [hself] at h1
    obtain ⟨o1, ho1, hv1⟩ := get?_of_view _ _ _ h1
    obtain ⟨hn, hps, hen⟩ := (view_eq_iff o o1).1 hv1
    have hp1 : map_find name o1.params = some p := by rw [hps]; exact hp
    have hchk : check_constraint p (make_any T v) = .ok (some (c v)) := by
      simp [check_constraint, hflag, hf, constrain_lambda, any_cast, make_any, hrej]
    have hput : put h self T name v =
        (.error (.ConstraintViolation o.name name (c v)), ref_value h T v) := by
      simp [put, hstr, put_typed, hself, has_parameter, get_parameter, hp, hcl, any_cast, hty,
        update_parameter, ho1, hp1, make_any, hn]
      simp [make_any] at hchk
      simp [hchk]
    rw [hput]
    refine ⟨rfl, ?_, ?_⟩
    · simp only [get_at, ho1]
      rw [get_eq_of_view o o1 hv1]
      simp [get, hstr, get_typed_of_find o T name p hp, hty]
    · simp [ho1, hps]
  · intro v hacc
    have hc : check_constraint p (make_any T v) = .ok none := by
      simp [check_constraint, hflag, hf, constrain_lambda, any_cast, make_any, hacc]
    obtain ⟨hok, o2, ho2, hget⟩ := put_typed_roundtrip h self o T name v p hself hp hty hcl hc
    have hput : put h self T name v = put_typed h self T name v := by simp [put, hstr]
    rw [hput]
    exact ⟨hok, by simp [get_at, ho2, get, hstr, hget]⟩

/-- C5, witness: the parameter "width" registered with the constraint rejecting negative
values; put of -1 fails with the message of the constraint and get still returns 2, put of
5 succeeds and get returns 5. -/
theorem constrained_put_witness :
    ((put ⟨[constrained_object], []⟩ 0 .machine_int "width" (.int (-1))).1 =
        .error (.ConstraintViolation "Machine" "width" "non-negative") ∧
      get_at (put ⟨[constrained_object], []⟩ 0 .machine_int "width" (.int (-1))).2 0
        .machine_int "width" = .ok (.int 2)) ∧
      (put ⟨[constrained_object], []⟩ 0 .machine_int "width" (.int 5)).1 = .ok () ∧
      get_at (put ⟨[constrained_object], []⟩ 0 .machine_int "width" (.int 5)).2 0
        .machine_int "width" = .ok (.int 5) := by
  have hmain := constrained_put ⟨[constrained_object], []⟩ 0 constrained_object .machine_int
    "width" ⟨⟨.machine_int, .int 2⟩, ⟨"", [.CONSTRAIN]⟩,
      some (constrain_lambda .machine_int non_negative)⟩ non_negative rfl rfl rfl rfl rfl
    rfl rfl
  have hrej := hmain.1 (.int (-1)) (by decide)
  have hacc := hmain.2 (.int 5) (by decide)
  exact ⟨⟨hrej.1, hrej.2.1⟩, hacc.1, hacc.2⟩

/-! ## Option strings -/

/-- C4, amended: for a (name, option) pair of the string-to-enum map whose code no other
option of that name shares, name being a registered integer parameter whose constraint
(if any) accepts the code, the string-valued put(name, option) succeeds and the
string-valued get(name) then returns exactly that option string. -/
theorem put_string_then_get_string (h : Heap) (self : Addr) (o : CSGObject)
    (T U : Ty) (name s : String) (c : Int) (options : List (String × Int))
    (p : AnyParameter) (hself : h.get? self = some o)
    (hopts : map_find name o.m_string_to_enum_map = some options)
    (hs : map_find s options = some c) (hinj : ∀ e ∈ options, e.2 = c → e.1 = s)
    (hp : map_find name o.params = some p) (hty : p.value.ty = .machine_int)
    (hacc : ∀ f, p.properties.has_property .CONSTRAIN = true →
      p.constrain_function = some f → f (make_any .machine_int (.int c)) = .ok "")
    (hT : is_string T = true) (hU : is_string U = true) :
    (put h self T name (.str s)).1 = .ok () ∧
      get_at (put h self T name (.str s)).2 self U name = .ok (.str s) := by
  have hc := check_constraint_accept p (make_any .machine_int (.int c)) hacc
  have hcl : p.value.cloneable = true := by simp [Any.cloneable, hty, Ty.cloneable]
  obtain ⟨hok, hview⟩ := put_typed_ok h self .machine_int name (.int c) o p hself hp hty hcl hc
  have hput : put h self T name (.str s) = put_typed h self .machine_int name (.int c) := by
    simp [put, hT, put_string, hself, hopts, Val.val_string, hs]
  rw [hput]
  refine ⟨hok, ?_⟩
  obtain ⟨o2, ho2, hv2⟩ := get?_of_view _ _ _ hview
  obtain ⟨-, hps, hen⟩ := view_eq_triple o2 _ _ _ hv2
  have hfind : map_find name o2.params =
      some { p with value := make_any .machine_int (.int c) } := by
    rw [hps, map_find_map_set_eq, hp]; rfl
  have hopts2 : map_find name o2.m_string_to_enum_map = some options := by
    rw [hen]; exact hopts
  have hrev := reverse_lookup_of_injective o2 name s c options hopts2 hs hinj
  simp [get_at, ho2, get, hU, get_string, hopts2,
    get_typed_of_find o2 .machine_int name _ hfind, make_any, Val.as_int, hrev]

/-- C4, witness: the option "NEWTON" of the parameter "solver" of the sample object. -/
theorem put_string_then_get_string_witness :
    (put sample_heap 0 .std_string "solver" (.str "NEWTON")).1 = .ok () ∧
      get_at (put sample_heap 0 .std_string "solver" (.str "NEWTON")).2 0 .std_string
        "solver" = .ok (.str "NEWTON") :=
  put_string_then_get_string sample_heap 0 sample_object .std_string .std_string "solver"
    "NEWTON" 1 [("AUTO", 0), ("NEWTON", 1)] ⟨⟨.machine_int, .int 0⟩, ⟨"", []⟩, none⟩
    rfl rfl rfl (by decide) rfl rfl
    (by intro f hflag; simp [AnyParameterProperties.has_property] at hflag) rfl rfl

/-- C4, counterexample: ("mode", "QUICK") is in the string-to-enum map of the sample object
and "mode" is a registered integer parameter; the string-valued put succeeds, and the
string-valued get then returns "FAST", the other option with the same code. Likewise
("level", "LOW") is in the map and "level" is a registered integer parameter, but the
string-valued put fails, because the constraint of "level" rejects the code of "LOW", and
the string-valued get still returns "HIGH". -/
theorem put_string_get_other_option :
    ((map_find "mode" sample_object.m_string_to_enum_map).bind (map_find "QUICK") = some 0 ∧
      (map_find "mode" sample_object.params).map (fun p => p.value.ty) =
        some .machine_int ∧
      (put sample_heap 0 .std_string "mode" (.str "QUICK")).1 = .ok () ∧
      get_at (put sample_heap 0 .std_string "mode" (.str "QUICK")).2 0 .std_string "mode" =
        .ok (.str "FAST")) ∧
      ((map_find "level" sample_object.m_string_to_enum_map).bind (map_find "LOW") =
          some (-1) ∧
        (map_find "level" sample_object.params).map (fun p => p.value.ty) =
          some .machine_int ∧
        (put sample_heap 0 .std_string "level" (.str "LOW")).1 =
          .error (.ConstraintViolation "Machine" "level" "non-negative") ∧
        get_at (put sample_heap 0 .std_string "level" (.str "LOW")).2 0 .std_string "level" =
          .ok (.str "HIGH")) := by
  refine ⟨⟨rfl, rfl, rfl, rfl⟩, rfl, rfl, rfl, rfl⟩

/-! ## Reference counting -/

theorem alive_count_apply (o : CSGObject) (op : RefOp)
    (hinv : o.destroyed = false → 1 ≤ o.m_refcount) :
    (o.apply op).2.destroyed = false → 1 ≤ (o.apply op).2.m_refcount := by
  cases op with
  | ref =>
    intro halive
    have := hinv halive
    simp only [CSGObject.apply, CSGObject.ref] at halive ⊢
    omega
  | unref =>
    simp only [CSGObject.apply, CSGObject.unref]
    split
    · intro halive
      simp at halive
    · rename_i hcond
      intro halive
      have := hinv halive
      simp only at hcond ⊢
      omega

theorem alive_count_run (ops : List RefOp) (o : CSGObject)
    (hinv : o.destroyed = false → 1 ≤ o.m_refcount) :
    (o.run ops).destroyed = false → 1 ≤ (o.run ops).m_refcount := by
  induction ops generalizing o with
  | nil => exact hinv
  | cons op rest ih => exact ih (o.apply op).2 (alive_count_apply o op hinv)

/-- C8: a newly constructed object has reference count 1; on every live object reached from
construction by ref and unref calls, ref() returns the count after adding one and unref()
returns the count after subtracting one, destroying the object exactly when that result is
0; and after construction the sequence ref(), unref(), unref() returns 2, 1, 0 and destroys
the object at the second unref() only. -/
theorem refcount_lifecycle (name : String) :
    (CSGObject.construct name).ref_count = 1 ∧
      (CSGObject.construct name).destroyed = false ∧
      (∀ ops : List RefOp, ((CSGObject.construct name).run ops).destroyed = false →
        (((CSGObject.construct name).run ops).ref).1 =
            ((CSGObject.construct name).run ops).ref_count + 1 ∧
          (((CSGObject.construct name).run ops).ref).2.ref_count =
            ((CSGObject.construct name).run ops).ref_count + 1 ∧
          (((CSGObject.construct name).run ops).ref).2.destroyed = false ∧
          (((CSGObject.construct name).run ops).unref).1 =
            ((CSGObject.construct name).run ops).ref_count - 1 ∧
          (((CSGObject.construct name).run ops).unref).2.ref_count =
            ((CSGObject.construct name).run ops).ref_count - 1 ∧
          ((((CSGObject.construct name).run ops).unref).2.destroyed = true ↔
            (((CSGObject.construct name).run ops).unref).1 = 0)) ∧
      ((CSGObject.construct name).ref).1 = 2 ∧
      ((CSGObject.construct name).ref).2.destroyed = false ∧
      (((CSGObject.construct name).ref).2.unref).1 = 1 ∧
      (((CSGObject.construct name).ref).2.unref).2.destroyed = false ∧
      ((((CSGObject.construct name).ref).2.unref).2.unref).1 = 0 ∧
      ((((CSGObject.construct name).ref).2.unref).2.unref).2.destroyed = true := by
  refine ⟨rfl, rfl, ?_, rfl, rfl, rfl, rfl, rfl, rfl⟩
  intro ops halive
  have hpos := alive_count_run ops (CSGObject.construct name) (fun _ => le_refl 1) halive
  generalize (CSGObject.construct name).run ops = o at halive hpos
  refine ⟨rfl, rfl, halive, ?_, ?_, ?_⟩
  · simp only [CSGObject.unref, CSGObject.ref_count]
    split
    · rename_i hcond
      omega
    · rfl
  · simp only [CSGObject.unref, CSGObject.ref_count]
    split <;> rfl
  · simp only [CSGObject.unref]
    split
    · simp
    · rename_i hcond
      simp only [halive]
      constructor
      · intro hfalse
        cases hfalse
      · intro hzero
        omega

/-- C8, witness: the live object reached by one extra ref() has count 2; its unref() returns
1 and does not destroy it. -/
theorem refcount_lifecycle_witness :
    (((CSGObject.construct "Machine").run [.ref]).unref).1 = 1 ∧
      (((CSGObject.construct "Machine").run [.ref]).unref).2.destroyed = false := by
  have hmain := (refcount_lifecycle "Machine").2.2.1 [.ref] rfl
  exact ⟨hmain.2.2.2.1, rfl⟩

/-! ## Equality is structural -/

theorem val_equals_plain (eq : Addr → Addr → Option Bool) (v w : Val)
    (hplain : v.plain = true) : Val.equals eq v w = some (decide (v = w)) := by
  cases v with
  | ptr x => simp [Val.plain] at hplain
  | ptrs l => simp [Val.plain] at hplain
  | int i => cases w <;> rfl
  | bool i => cases w <;> rfl
  | str i => cases w <;> rfl
  | fn i => cases w <;> rfl

theorem val_equals_plain_right (eq : Addr → Addr → Option Bool) (v w : Val)
    (hplain : w.plain = true) : Val.equals eq v w = some (decide (v = w)) := by
  cases w with
  | ptr x => simp [Val.plain] at hplain
  | ptrs l => simp [Val.plain] at hplain
  | int i => cases v <;> rfl
  | bool i => cases v <;> rfl
  | str i => cases v <;> rfl
  | fn i => cases v <;> rfl

theorem any_equals_plain (eq : Addr → Addr → Option Bool) (v w : Any)
    (hplain : v.val.plain = true) :
    Any.equals eq v w = some (decide (v = w)) ∧ Any.equals eq w v = some (decide (v = w)) := by
  obtain ⟨vt, vv⟩ := v
  obtain ⟨wt, wv⟩ := w
  unfold Any.equals
  by_cases hty : vt = wt
  · subst hty
    simp only [if_true]
    rw [val_equals_plain eq vv wv hplain, val_equals_plain_right eq wv vv hplain]
    by_cases hv : vv = wv
    · subst hv
      simp
    · have hv2 : ¬ wv = vv := fun hh => hv hh.symm
      simp [hv, hv2]
  · have hty2 : ¬ wt = vt := fun hh => hty hh.symm
    simp [hty, hty2]

theorem equals_params_false (eq : Addr → Addr → Option Bool) (name : String)
    (other l : List (String × AnyParameter)) (p q : AnyParameter)
    (hp : map_find name l = some p) (hq : map_find name other = some q)
    (hdiff : Any.equals eq p.value q.value = some false)
    (hrest : ∀ e ∈ l, e.1 ≠ name → ∃ r, map_find e.1 other = some r ∧
      Any.equals eq e.2.value r.value = some true) :
    equals_params eq other l = some false := by
  induction l with
  | nil => simp [map_find] at hp
  | cons e rest ih =>
    obtain ⟨k, v⟩ := e
    by_cases hk : k = name
    · subst hk
      simp only [map_find, if_true, Option.some.injEq] at hp
      subst hp
      simp [equals_params, hq, hdiff]
    · obtain ⟨r, hr, hv⟩ := hrest (k, v) (List.mem_cons_self _ _) hk
      simp only [map_find, hk, if_false] at hp
      simp only [equals_params, hr, hv]
      exact ih hp (fun e he => hrest e (List.mem_cons_of_mem _ he))

theorem equals_of_registries (n : Nat) (h : Heap) (x y : Addr) (ox oy : CSGObject)
    (hx : h.get? x = some ox) (hy : h.get? y = some oy) (hname : ox.name = oy.name)
    (hndx : (ox.params.map Prod.fst).Nodup)
    (hnames : ∀ name, (map_find name ox.params).isSome = (map_find name oy.params).isSome)
    (hvals : ∀ name p q, map_find name ox.params = some p →
      map_find name oy.params = some q →
      Any.equals (equals n h) p.value q.value = some true) :
    equals (n + 1) h x y = some true := by
  have hparams : equals_params (equals n h) oy.params ox.params = some true := by
    apply equals_params_true
    intro e he
    have hfx := map_find_of_mem_nodup ox.params hndx e he
    have hsome : (map_find e.1 oy.params).isSome = true := by
      rw [← hnames, hfx]; rfl
    obtain ⟨q, hq⟩ := Option.isSome_iff_exists.1 hsome
    exact ⟨q, hq, hvals e.1 e.2 q hfx hq⟩
  have hall : (oy.params.all fun e => (map_find e.1 ox.params).isSome) = true := by
    rw [List.all_eq_true]
    intro e he
    rw [hnames, map_find_isSome_iff]
    exact List.mem_map.2 ⟨e, he, rfl⟩
  rw [equals]
  simp only [hx, hy, hname, if_true, hparams, hall]

theorem equals_false_of_one_change (n : Nat) (h : Heap) (x z : Addr) (ox oz : CSGObject)
    (name : String) (p q : AnyParameter)
    (hx : h.get? x = some ox) (hz : h.get? z = some oz) (hname : ox.name = oz.name)
    (hndx : (ox.params.map Prod.fst).Nodup)
    (hp : map_find name ox.params = some p) (hq : map_find name oz.params = some q)
    (hdiff : Any.equals (equals n h) p.value q.value = some false)
    (hothers : ∀ other r, other ≠ name → map_find other ox.params = some r →
      ∃ s, map_find other oz.params = some s ∧
        Any.equals (equals n h) r.value s.value = some true) :
    equals (n + 1) h x z = some false := by
  have hparams : equals_params (equals n h) oz.params ox.params = some false := by
    apply equals_params_false (equals n h) name oz.params ox.params p q hp hq hdiff
    intro e he hne
    exact hothers e.1 e.2 hne (map_find_of_mem_nodup ox.params hndx e he)
  rw [equals]
  simp only [hx, hz, hname, if_true, hparams]

theorem equals_ptrs_refl (eq : Addr → Addr → Option Bool) (l : List (Option Addr))
    (hl : ∀ b, some b ∈ l → eq b b = some true) : equals_ptrs eq l l = some true := by
  induction l with
  | nil => rfl
  | cons x rest ih =>
    have hx : equals_ptr eq x x = some true := by
      cases x with
      | none => rfl
      | some a => exact hl a (List.mem_cons_self _ _)
    simp only [equals_ptrs, hx]
    exact ih (fun b hb => hl b (List.mem_cons_of_mem _ hb))

theorem any_equals_refl (eq : Addr → Addr → Option Bool) (v : Any)
    (hv : ∀ b ∈ v.val.pointees, eq b b = some true) : Any.equals eq v v = some true := by
  obtain ⟨t, w⟩ := v
  unfold Any.equals
  simp only [if_true]
  cases w with
  | ptr x =>
    cases x with
    | none => rfl
    | some a => exact hv a (by simp [Val.pointees])
  | ptrs l =>
    apply equals_ptrs_refl
    intro b hb
    apply hv b
    simp only [Val.pointees, List.mem_filterMap, id]
    exact ⟨some b, hb, rfl⟩
  | int i => simp [Val.equals]
  | bool i => simp [Val.equals]
  | str i => simp [Val.equals]
  | fn i => simp [Val.equals]

theorem equals_refl (n : Nat) (h : Heap) (x : Addr) (hok : well_formed h n x = true) :
    equals n h x x = some true := by
  induction n generalizing x with
  | zero => simp [well_formed, graph_ok] at hok
  | succ k ih =>
    obtain ⟨o, hx, hnd, hall⟩ := (graph_ok_succ _ h k x).1 hok
    have hparams : equals_params (equals k h) o.params o.params = some true := by
      apply equals_params_true
      intro e he
      exact ⟨e.2, map_find_of_mem_nodup o.params hnd e he,
        any_equals_refl _ _ (fun b hb => ih b ((hall e he).2 b hb))⟩
    have hall2 : (o.params.all fun e => (map_find e.1 o.params).isSome) = true := by
      rw [List.all_eq_true]
      intro e he
      rw [map_find_isSome_iff]
      exact List.mem_map.2 ⟨e, he, rfl⟩
    rw [equals]
    simp only [hx, if_true, hparams, hall2]

/-- C7: two objects of the same concrete type, at any two addresses, whose registries hold
the same parameter names with component-wise equal values, are found equal by equals(),
whichever is the receiver; and an object that is one of them with exactly one registered
value changed to a different value is found unequal to the other, whichever is the
receiver. For plain values, component-wise equal means the same type and payload, and a
value is component-wise equal to itself whenever the objects it points to have sound
graphs. -/
theorem equals_structural (n : Nat) (h : Heap) (x y : Addr) (ox oy : CSGObject)
    (hx : h.get? x = some ox) (hy : h.get? y = some oy) (hname : ox.name = oy.name)
    (hndx : (ox.params.map Prod.fst).Nodup) (hndy : (oy.params.map Prod.fst).Nodup)
    (hnames : ∀ name, (map_find name ox.params).isSome = (map_find name oy.params).isSome)
    (hvals : ∀ name p q, map_find name ox.params = some p →
      map_find name oy.params = some q → values_equal n h p.value q.value) :
    equals (n + 1) h x y = some true ∧ equals (n + 1) h y x = some true ∧
      (∀ z oz name p q w, h.get? z = some oz → oz.name = oy.name →
        map_find name ox.params = some p → map_find name oy.params = some q →
        oz.params = map_set name { q with value := w } oy.params →
        values_differ n h p.value w →
        equals (n + 1) h x z = some false ∧ equals (n + 1) h z x = some false) ∧
      (∀ v w : Any, v.val.plain = true →
        (values_equal n h v w ↔ v = w) ∧ (values_differ n h v w ↔ v ≠ w)) ∧
      (∀ v : Any, (∀ b ∈ v.val.pointees, well_formed h n b = true) →
        values_equal n h v v) := by
  refine ⟨?_, ?_, ?_, ?_, ?_⟩
  · exact equals_of_registries n h x y ox oy hx hy hname hndx hnames
      (fun name p q hp hq => (hvals name p q hp hq).1)
  · exact equals_of_registries n h y x oy ox hy hx hname.symm hndy
      (fun name => (hnames name).symm) (fun name q p hq hp => (hvals name p q hp hq).2)
  · intro z oz name p q w hz hzname hp hq hzparams hdiff
    have hzfind : map_find name oz.params = some { q with value := w } := by
      rw [hzparams, map_find_map_set_eq, hq]; rfl
    have hzother : ∀ other, other ≠ name →
        map_find other oz.params = map_find other oy.params := by
      intro other hne
      rw [hzparams]
      exact map_find_map_set_ne name other _ oy.params hne
    have hndz : (oz.params.map Prod.fst).Nodup := by
      rw [hzparams, map_set_keys]; exact hndy
    constructor
    · apply equals_false_of_one_change n h x z ox oz name p _ hx hz (by rw [hname, hzname])
        hndx hp hzfind hdiff.1
      intro other r hne hr
      have hsome : (map_find other oy.params).isSome = true := by
        rw [← hnames, hr]; rfl
      obtain ⟨s, hs⟩ := Option.isSome_iff_exists.1 hsome
      exact ⟨s, by rw [hzother other hne]; exact hs, (hvals other r s hr hs).1⟩
    · apply equals_false_of_one_change n h z x oz ox name _ p hz hx (by rw [hname, hzname])
        hndz hzfind hp hdiff.2
      intro other s hne hs
      rw [hzother other hne] at hs
      have hsome : (map_find other ox.params).isSome = true := by
        rw [hnames, hs]; rfl
      obtain ⟨r, hr⟩ := Option.isSome_iff_exists.1 hsome
      exact ⟨r, hr, (hvals other r s hr hs).2⟩
  · intro v w hplain
    obtain ⟨hvw, hwv⟩ := any_equals_plain (equals n h) v w hplain
    unfold values_equal values_differ
    rw [hvw, hwv]
    by_cases heq : v = w <;> simp [heq]
  · intro v hv
    have hself := any_equals_refl (equals n h) v (fun b hb => equals_refl n h b (hv b hb))
    exact ⟨hself, hself⟩

/-- C7, witness: in the twin heap the first two kernels, at different addresses and with
different reference counts, are equal, and the third, whose "width" was changed from 2 to
5, is not equal to the first. -/
theorem equals_structural_witness :
    equals 1 twin_heap 0 1 = some true ∧ equals 1 twin_heap 1 0 = some true ∧
      equals 1 twin_heap 0 2 = some false ∧ equals 1 twin_heap 2 0 = some false := by
  have hvals : ∀ name p q,
      map_find name
          [("width", (⟨⟨.machine_int, .int 2⟩, ⟨"", []⟩, none⟩ : AnyParameter)),
           ("normalize", ⟨⟨.boolean, .bool true⟩, ⟨"", []⟩, none⟩)] = some p →
      map_find name
          [("width", (⟨⟨.machine_int, .int 2⟩, ⟨"", []⟩, none⟩ : AnyParameter)),
           ("normalize", ⟨⟨.boolean, .bool true⟩, ⟨"", []⟩, none⟩)] = some q →
      values_equal 0 twin_heap p.value q.value := by
    intro name p q hp hq
    rw [hp] at hq
    cases hq
    have hmem := map_find_mem name p _ hp
    have hplain : p.value.val.plain = true := by
      simp only [List.mem_cons, Prod.mk.injEq, List.mem_singleton] at hmem
      rcases hmem with ⟨-, rfl⟩ | ⟨-, rfl⟩ | hfalse
      · rfl
      · rfl
      · simp at hfalse
    have hself := (any_equals_plain (equals 0 twin_heap) p.value p.value hplain).1
    simp only [decide_True] at hself
    exact ⟨hself, hself⟩
  have hmain := equals_structural 0 twin_heap 0 1 _ _ rfl rfl rfl (by decide) (by decide)
    (fun _ => rfl) hvals
  have hchanged := hmain.2.2.1 2 _ "width" ⟨⟨.machine_int, .int 2⟩, ⟨"", []⟩, none⟩
    ⟨⟨.machine_int, .int 2⟩, ⟨"", []⟩, none⟩ ⟨.machine_int, .int 5⟩ rfl rfl rfl rfl rfl
    ⟨rfl, rfl⟩
  exact ⟨hmain.1, hmain.2.1, hchanged.1, hchanged.2⟩

/-! ## Clone is a deep copy -/

/-- C6: for an object O with a nested object parameter N, the graph below O being sound and
cloneable to the depth given, clone(O) returns a new object of the same class that holds
under that name a pointer to an object other than O's N, which equals() finds equal to O's
N; cloning leaves every existing object as it was, and a put on the nested object of the
clone leaves the registry of every object that existed before the clone, O's N among them,
unchanged. -/
theorem clone_deep_copy (m : Nat) (h : Heap) (x n : Addr) (o : CSGObject) (N cls : String)
    (p : AnyParameter) (hx : h.get? x = some o) (hN : map_find N o.params = some p)
    (hpv : p.value = ⟨.object cls, .ptr (some n)⟩)
    (hok : deep_cloneable h (m + 2) x = true) :
    ∃ d h1 o1 q n1, clone (m + 2) .ALL h x = (.ok d, h1) ∧ h.grows h1 ∧ d ≠ x ∧
      h1.get? d = some o1 ∧ o1.name = o.name ∧ map_find N o1.params = some q ∧
      q.value = ⟨.object cls, .ptr (some n1)⟩ ∧ n1 ≠ n ∧
      equals (m + 1) h1 n1 n = some true ∧
      ∀ T name v b, b < h.objs.length →
        ((put h1 n1 T name v).2.get? b).map CSGObject.view =
          (h1.get? b).map CSGObject.view := by
  obtain ⟨d, h1, o0, o1, hc, hg, hd, hx0, hd1, hname, -, hrel, -, -⟩ :=
    clone_spec (m + 1) (clone_sound_all (m + 1)) h x hok
  rw [hx] at hx0
  cases hx0
  obtain ⟨q, hq, hqty, hqrel⟩ := hrel N p hN
  have hnlt : n < h.objs.length := by
    obtain ⟨o2, hx2, -, hall⟩ := (graph_ok_succ _ h (m + 1) x).1 hok
    rw [hx] at hx2
    cases hx2
    have hn := (hall (N, p) (map_find_mem N p o.params hN)).2 n (by simp [hpv, Val.pointees])
    obtain ⟨o3, ho3, -⟩ := (graph_ok_succ _ h m n).1 hn
    exact Heap.get?_lt ho3
  have hxlt : x < h.objs.length := Heap.get?_lt hx
  rw [hpv] at hqty hqrel
  rcases hqv : q.value with ⟨qty, qval⟩
  simp only [hqv] at hqty hqrel
  cases qval with
  | ptr y =>
    cases y with
    | none => simp [clone_of_val, clone_of_ptr] at hqrel
    | some n1 =>
      simp only [clone_of_val, clone_of_ptr] at hqrel
      refine ⟨d, h1, o1, q, n1, hc, hg, Nat.ne_of_gt (Nat.lt_of_lt_of_le hxlt hd), hd1, hname,
        hq, ?_, Nat.ne_of_gt (Nat.lt_of_lt_of_le hnlt hqrel.1), hqrel.2, ?_⟩
      · rw [hqv, hqty]
      · intro T name v b hb
        exact (put_frame h1 n1 T name v).2 b (Nat.ne_of_lt (Nat.lt_of_lt_of_le hb hqrel.1))
  | int i => simp [clone_of_val] at hqrel
  | bool i => simp [clone_of_val] at hqrel
  | str i => simp [clone_of_val] at hqrel
  | ptrs i => simp [clone_of_val] at hqrel
  | fn i => simp [clone_of_val] at hqrel

/-- C6, witness: the machine of the nested heap, whose parameter "kernel" points to the
object at address 1. -/
theorem clone_deep_copy_witness :
    ∃ d h1 o1 q n1, clone 2 .ALL nested_heap 0 = (.ok d, h1) ∧ nested_heap.grows h1 ∧
      d ≠ 0 ∧ h1.get? d = some o1 ∧ o1.name = "Machine" ∧
      map_find "kernel" o1.params = some q ∧
      q.value = ⟨.object "Kernel", .ptr (some n1)⟩ ∧ n1 ≠ 1 ∧
      equals 1 h1 n1 1 = some true ∧
      ∀ T name v b, b < nested_heap.objs.length →
        ((put h1 n1 T name v).2.get? b).map CSGObject.view =
          (h1.get? b).map CSGObject.view :=
  clone_deep_copy 0 nested_heap 0 1 _ "kernel" "Kernel"
    ⟨⟨.object "Kernel", .ptr (some 1)⟩, ⟨"", []⟩, none⟩ rfl rfl rfl (by decide)

/-! ## Observation -/

/-- C9: with zero subscriptions, observe<T>(step, name, value, properties) and
observe<T>(step, name, description, value) return normally and leave the whole state as it
was: no record is created or delivered and nothing is cloned, for every step, name, type
and value. -/
theorem observe_without_subscribers (fuel : Nat) (h : Heap) (self : Addr) (o : CSGObject)
    (T : Ty) (step : Int) (name description : String) (value : Val)
    (properties : AnyParameterProperties) (hself : h.get? self = some o)
    (hsubs : o.m_subscriptions = []) :
    observe fuel h self T step name value properties = (.ok (), h) ∧
      observe_described fuel h self T step name description value = (.ok (), h) := by
  have hnum : get_num_subscriptions o = 0 := by
    simp [get_num_subscriptions, hsubs]
  constructor
  · simp [observe, hself, hnum]
  · simp [observe_described, observe, hself, hnum]

theorem clone_of_val_plain (eq : Addr → Addr → Option Bool) (base : Nat) (w v : Val)
    (hplain : v.plain = true) (hc : clone_of_val eq base w v) : w = v := by
  cases v <;> cases w <;> first
    | exact hc
    | simp [Val.plain] at hplain

theorem observe_one_subscriber (fuel : Nat) (h : Heap) (self : Addr) (o : CSGObject)
    (T : Ty) (step : Int) (name : String) (value : Val)
    (properties : AnyParameterProperties) (idx : Int) (obs : Nat)
    (hself : h.get? self = some o) (hsubs : o.m_subscriptions = [(idx, obs)])
    (hval : ∀ b ∈ value.pointees, deep_cloneable h fuel b = true) :
    ∃ h1 w, observe fuel h self T step name value properties = (.ok (), h1) ∧
      h1.delivered = h.delivered ++ [(obs, ⟨step, name, ⟨T, w⟩, properties⟩)] ∧
      clone_of_val (equals fuel h1) h.objs.length w value ∧
      (∀ b ∈ w.pointees, deep_cloneable h1 fuel b = true) ∧ h.keeps h1 := by
  obtain ⟨w, h1, hc, hg, hrel, hpt⟩ := clone_val_spec fuel (clone_sound_all fuel) h value hval
  have hnum : ¬ get_num_subscriptions o = 0 := by
    simp [get_num_subscriptions, hsubs]
  have hself1 : h1.get? self = some o := Heap.grows_get? hg hself
  have hk := Heap.keeps_delivered h1
    (h1.delivered ++ [(obs, ⟨step, name, ⟨T, w⟩, properties⟩)])
  refine ⟨{ h1 with delivered := h1.delivered ++ [(obs, ⟨step, name, ⟨T, w⟩, properties⟩)] },
    w, ?_, ?_, ?_, ?_, ?_⟩
  · simp [observe, hself, hnum, hc, observe_record, hself1, hsubs]
  · simp [hg.2]
  · exact clone_of_val_mono (fun a b r => equals_mono fuel hk a b r) (le_refl _) _ _ hrel
  · exact fun b hb => graph_ok_mono _ fuel hk b (hpt b hb)
  · obtain ⟨extra, hextra⟩ := hg.1
    exact ⟨extra, hextra⟩

/-- C10: with exactly one subscriber, one call of observe<T>(step, name, value, properties)
with a value that can be cloned (any plain value; an object whose graph is sound and
cloneable to the depth given) delivers exactly one record to that subscriber, with that step
and name, holding a deep copy w of the value (the value itself if plain, new objects
otherwise); observe<T>(step, name) on a registered parameter of stored type T does the same
with a copy of a copy of the stored value. Existing objects are left as they were, and a
later put on any object that existed before the call changes neither the delivered records
nor the registry of any object created by the call. -/
theorem observe_delivers_snapshot (fuel : Nat) (h : Heap) (self : Addr) (o : CSGObject)
    (T : Ty) (step : Int) (name : String) (idx : Int) (obs : Nat)
    (hself : h.get? self = some o) (hsubs : o.m_subscriptions = [(idx, obs)]) :
    (∀ value properties, (∀ b ∈ value.pointees, deep_cloneable h fuel b = true) →
      ∃ h1 w, observe fuel h self T step name value properties = (.ok (), h1) ∧
        h1.delivered = h.delivered ++ [(obs, ⟨step, name, ⟨T, w⟩, properties⟩)] ∧
        clone_of_val (equals fuel h1) h.objs.length w value ∧
        (value.plain = true → w = value) ∧ h.keeps h1 ∧
        ∀ a T2 name2 v2, a < h.objs.length →
          (put h1 a T2 name2 v2).2.delivered = h1.delivered ∧
          ∀ b, h.objs.length ≤ b →
            ((put h1 a T2 name2 v2).2.get? b).map CSGObject.view =
              (h1.get? b).map CSGObject.view) ∧
      (∀ p, map_find name o.params = some p → p.value.ty = T →
        (∀ b ∈ p.value.val.pointees, deep_cloneable h fuel b = true) →
        ∃ h1 w1 w, observe_tag fuel h self T step name = (.ok (), h1) ∧
          h1.delivered = h.delivered ++ [(obs, ⟨step, name, ⟨T, w⟩, p.properties⟩)] ∧
          clone_of_val (equals fuel h1) h.objs.length w1 p.value.val ∧
          clone_of_val (equals fuel h1) h.objs.length w w1 ∧
          (p.value.val.plain = true → w = p.value.val) ∧ h.keeps h1 ∧
          ∀ a T2 name2 v2, a < h.objs.length →
            (put h1 a T2 name2 v2).2.delivered = h1.delivered ∧
            ∀ b, h.objs.length ≤ b →
              ((put h1 a T2 name2 v2).2.get? b).map CSGObject.view =
                (h1.get? b).map CSGObject.view) := by
  have hframe : ∀ (h1 : Heap) a T2 name2 v2, a < h.objs.length →
      (put h1 a T2 name2 v2).2.delivered = h1.delivered ∧
      ∀ b, h.objs.length ≤ b →
        ((put h1 a T2 name2 v2).2.get? b).map CSGObject.view =
          (h1.get? b).map CSGObject.view := by
    intro h1 a T2 name2 v2 ha
    exact ⟨(put_frame h1 a T2 name2 v2).1,
      fun b hb => (put_frame h1 a T2 name2 v2).2 b (Nat.ne_of_gt (Nat.lt_of_lt_of_le ha hb))⟩
  refine ⟨?_, ?_⟩
  · intro value properties hval
    obtain ⟨h1, w, hobs, hdel, hrel, -, hkeep⟩ :=
      observe_one_subscriber fuel h self o T step name value properties idx obs hself hsubs hval
    exact ⟨h1, w, hobs, hdel, hrel, fun hplain => clone_of_val_plain _ _ w value hplain hrel,
      hkeep, hframe h1⟩
  · intro p hp hty hval
    obtain ⟨w1, h1, hc1, hg1, hrel1, hpt1⟩ :=
      clone_val_spec fuel (clone_sound_all fuel) h p.value.val hval
    have hself1 : h1.get? self = some o := Heap.grows_get? hg1 hself
    obtain ⟨h2, w, hobs, hdel, hrel2, -, hkeep⟩ :=
      observe_one_subscriber fuel h1 self o T step name w1 p.properties idx obs hself1 hsubs
        hpt1
    have hk02 : h.keeps h2 := by
      obtain ⟨e1, he1⟩ := hg1.1
      obtain ⟨e2, he2⟩ := hkeep
      exact ⟨e1 ++ e2, by rw [he2, he1, List.append_assoc]⟩
    refine ⟨h2, w1, w, ?_, ?_, ?_, ?_, ?_, hk02, hframe h2⟩
    · simp [observe_tag, hself, get_parameter, hp, any_cast, hty, hc1, hobs]
    · rw [hdel, hg1.2]
    · exact clone_of_val_mono (fun a b r => equals_mono fuel hkeep a b r) (le_refl _) _ _ hrel1
    · exact clone_of_val_mono (fun _ _ _ hr => hr) (Heap.grows_length hg1) _ _ hrel2
    · intro hplain
      have h1eq := clone_of_val_plain _ _ w1 p.value.val hplain hrel1
      rw [h1eq] at hrel2
      exact clone_of_val_plain _ _ w p.value.val hplain hrel2

/-- C10, witness: observing, at step 3, the kernel of the machine of the observed heap, whose
only subscriber is observer 7. -/
theorem observe_delivers_snapshot_witness :
    ∃ h1 w, observe 1 observed_heap 0 (.object "Kernel") 3 "kernel" (.ptr (some 1)) ⟨"", []⟩ =
        (.ok (), h1) ∧
      h1.delivered = [(7, ⟨3, "kernel", ⟨.object "Kernel", w⟩, ⟨"", []⟩⟩)] ∧
      clone_of_val (equals 1 h1) 2 w (.ptr (some 1)) := by
  obtain ⟨h1, w, hobs, hdel, hrel, -⟩ :=
    (observe_delivers_snapshot 1 observed_heap 0 _ (.object "Kernel") 3 "kernel" 0 7 rfl
      rfl).1 (.ptr (some 1)) ⟨"", []⟩ (by decide)
  exact ⟨h1, w, hobs, hdel, hrel⟩

/-- C9, witness: the sample object has no subscription. -/
theorem observe_without_subscribers_witness :
    observe 5 sample_heap 0 .machine_int 3 "k" (.int 3) ⟨"", []⟩ = (.ok (), sample_heap) ∧
      observe_described 5 sample_heap 0 .machine_int 3 "k" "iteration" (.int 3) =
        (.ok (), sample_heap) :=
  observe_without_subscribers 5 sample_heap 0 sample_object .machine_int 3 "k" "iteration"
    (.int 3) ⟨"", []⟩ rfl rfl

/-! ## Rejected put -/

theorem put_typed_mismatch (h : Heap) (self : Addr) (o : CSGObject) (T U : Ty)
    (name : String) (value : Val) (p : AnyParameter) (hself : h.get? self = some o)
    (hp : map_find name o.params = some p) (hty : p.value.ty = T) (hne : U ≠ T)
    (hcl : p.value.cloneable = true) :
    put_typed h self U name value = (.error (.TypeMismatchPut o.name name T U), h) := by
  subst hty
  have hTU : ¬ p.value.ty = U := fun h => hne h.symm
  simp [put_typed, hself, has_parameter, get_parameter, hp, hcl, any_cast, hTU]

theorem put_typed_not_cloneable (h : Heap) (self : Addr) (o : CSGObject) (U : Ty)
    (name : String) (value : Val) (p : AnyParameter) (hself : h.get? self = some o)
    (hp : map_find name o.params = some p) (hcl : p.value.cloneable = false) :
    put_typed h self U name value = (.error (.NotCloneablePut o.name name), h) := by
  simp [put_typed, hself, has_parameter, get_parameter, hp, hcl]

theorem put_typed_missing (h : Heap) (self : Addr) (o : CSGObject) (T : Ty)
    (name : String) (value : Val) (hself : h.get? self = some o)
    (hmiss : map_find name o.params = none) :
    put_typed h self T name value = (.error (.ParameterNotFound o.name name), h) := by
  simp [put_typed, hself, has_parameter, hmiss]

/-- C11, amended: for a registered parameter whose stored type is T and a value of a
different type U, U not a string type, put<U>(name, value) fails and the heap is left as it
was, so that no stored value changes and no reference count is incremented; the failure is
the TypeMismatch reporting T and U when the stored value is cloneable, and the failure
"Cannot put parameter" when it is not. -/
theorem put_wrong_type (h : Heap) (self : Addr) (o : CSGObject) (T U : Ty) (name : String)
    (value : Val) (p : AnyParameter) (hself : h.get? self = some o)
    (hp : map_find name o.params = some p) (hty : p.value.ty = T) (hne : U ≠ T)
    (hstr : is_string U = false) :
    (p.value.cloneable = true →
        put h self U name value = (.error (.TypeMismatchPut o.name name T U), h) ∧
        (Err.TypeMismatchPut o.name name T U).kind = .TypeMismatch) ∧
      (p.value.cloneable = false →
        put h self U name value = (.error (.NotCloneablePut o.name name), h)) ∧
      (put h self U name value).2 = h := by
  have hput : put h self U name value = put_typed h self U name value := by
    simp [put, hstr]
  rw [hput]
  refine ⟨fun hcl => ⟨put_typed_mismatch h self o T U name value p hself hp hty hne hcl, rfl⟩,
    fun hcl => put_typed_not_cloneable h self o U name value p hself hp hcl, ?_⟩
  cases hcl : p.value.cloneable with
  | true => rw [put_typed_mismatch h self o T U name value p hself hp hty hne hcl]
  | false => rw [put_typed_not_cloneable h self o U name value p hself hp hcl]

/-- C11, witness: on the sample object, whose parameter "k" is an integer, put<bool> of
"k" fails with the TypeMismatch reporting both types and leaves the heap as it was. -/
theorem put_wrong_type_witness :
    put sample_heap 0 .boolean "k" (.bool true) =
        (.error (.TypeMismatchPut "Machine" "k" .machine_int .boolean), sample_heap) ∧
      get_at (put sample_heap 0 .boolean "k" (.bool true)).2 0 .machine_int "k" =
        .ok (.int 3) :=
  ⟨((put_wrong_type sample_heap 0 sample_object .machine_int .boolean "k" (.bool true)
      ⟨⟨.machine_int, .int 3⟩, ⟨"", []⟩, none⟩ rfl rfl rfl (by decide) rfl).1 rfl).1, rfl⟩

/-- C11, counterexample: "train" is a registered parameter of the object with bound
methods, its stored type is a function type and the value put has the different type
machine_int_t, yet the failure of put<machine_int_t> is "Cannot put parameter", which is
not a TypeMismatch. -/
theorem put_over_bound_method :
    method_heap.get? 0 = some method_object ∧
      (map_find "train" method_object.params).map (fun p => p.value.ty) =
        some (.function .boolean) ∧
      is_string .machine_int = false ∧
      put method_heap 0 .machine_int "train" (.int 1) =
        (.error (.NotCloneablePut "Machine" "train"), method_heap) ∧
      (Err.NotCloneablePut "Machine" "train").kind ≠ .TypeMismatch :=
  ⟨rfl, rfl, rfl, rfl, by decide⟩

/-- C12: for a name that is not a registered parameter and a type T that is not a string
type, put<T>(name, value) fails with ParameterNotFound ("Parameter ... does not exist")
and the heap is left as it was: no parameter is created and none changes. -/
theorem put_missing_parameter (h : Heap) (self : Addr) (o : CSGObject) (T : Ty)
    (name : String) (value : Val) (hself : h.get? self = some o)
    (hmiss : map_find name o.params = none) (hstr : is_string T = false) :
    put h self T name value = (.error (.ParameterNotFound o.name name), h) ∧
      (Err.ParameterNotFound o.name name).kind = .ParameterNotFound ∧
      has o name = false := by
  have hput : put h self T name value = put_typed h self T name value := by
    simp [put, hstr]
  rw [hput]
  exact ⟨put_typed_missing h self o T name value hself hmiss, rfl,
    by simp [has, has_parameter, hmiss]⟩

/-- C12, witness: the sample object has no parameter "depth"; put<machine_int_t> of it
fails with ParameterNotFound and the heap is left as it was. -/
theorem put_missing_parameter_witness :
    put sample_heap 0 .machine_int "depth" (.int 1) =
      (.error (.ParameterNotFound "Machine" "depth"), sample_heap) :=
  (put_missing_parameter sample_heap 0 sample_object .machine_int "depth" (.int 1)
    rfl rfl rfl).1

/-- C13: the string-valued put(name, s) fails with the "no options" error when name has no
entry in the string-to-enum map, registered or not, and with the "illegal option" error
when name has an entry of which s is not a key; in both cases the heap is left as it
was. -/
theorem put_string_rejected (h : Heap) (self : Addr) (o : CSGObject) (T : Ty)
    (name : String) (value : Val) (hself : h.get? self = some o)
    (hT : is_string T = true) :
    (map_find name o.m_string_to_enum_map = none →
        put h self T name value = (.error (.NoOptions o.name name), h)) ∧
      (∀ options, map_find name o.m_string_to_enum_map = some options →
        map_find value.val_string options = none →
        put h self T name value =
          (.error (.IllegalOption value.val_string o.name name), h)) := by
  refine ⟨?_, ?_⟩
  · intro hnone
    simp [put, hT, put_string, hself, hnone]
  · intro options hopts hkey
    simp [put, hT, put_string, hself, hopts, hkey]

/-- C13, witness: on the sample object the string put fails with "no options" for the
registered parameter "k" and for the unregistered name "depth", neither of which has
options, and with "illegal option" for "solver", which has options but not "BFGS". -/
theorem put_string_rejected_witness :
    put sample_heap 0 .std_string "k" (.str "AUTO") =
        (.error (.NoOptions "Machine" "k"), sample_heap) ∧
      put sample_heap 0 .std_string "depth" (.str "AUTO") =
        (.error (.NoOptions "Machine" "depth"), sample_heap) ∧
      put sample_heap 0 .std_string "solver" (.str "BFGS") =
        (.error (.IllegalOption "BFGS" "Machine" "solver"), sample_heap) :=
  ⟨(put_string_rejected sample_heap 0 sample_object .std_string "k" (.str "AUTO")
      rfl rfl).1 rfl,
    (put_string_rejected sample_heap 0 sample_object .std_string "depth" (.str "AUTO")
      rfl rfl).1 rfl,
    (put_string_rejected sample_heap 0 sample_object .std_string "solver" (.str "BFGS")
      rfl rfl).2 [("AUTO", 0), ("NEWTON", 1)] rfl rfl⟩

/-! ## Option strings and the typed put -/

theorem put_string_eq_put_typed (h : Heap) (self : Addr) (o : CSGObject) (T : Ty)
    (name s : String) (c : Int) (options : List (String × Int))
    (hself : h.get? self = some o) (hT : is_string T = true)
    (hopts : map_find name o.m_string_to_enum_map = some options)
    (hs : map_find s options = some c) :
    put h self T name (.str s) = put_typed h self .machine_int name (.int c) := by
  simp [put, hT, put_string, hself, hopts, Val.val_string, hs]

/-- C14, amended: for a name whose option map contains s with code c, the string-valued
put(name, s) is put<machine_int_t>(name, c), with the same outcome and the same heap
afterwards. When name is a registered integer parameter whose constraint (if any) accepts
c, it succeeds and get<machine_int_t>(name) then returns c; when name is not registered it
fails with ParameterNotFound, and when name has another stored type (cloneable) it fails
with the TypeMismatch of the typed put, the heap being left as it was. -/
theorem put_string_as_typed_put (h : Heap) (self : Addr) (o : CSGObject) (T : Ty)
    (name s : String) (c : Int) (options : List (String × Int))
    (hself : h.get? self = some o) (hT : is_string T = true)
    (hopts : map_find name o.m_string_to_enum_map = some options)
    (hs : map_find s options = some c) :
    put h self T name (.str s) = put h self .machine_int name (.int c) ∧
      (∀ p, map_find name o.params = some p → p.value.ty = .machine_int →
        (∀ f, p.properties.has_property .CONSTRAIN = true →
          p.constrain_function = some f → f (make_any .machine_int (.int c)) = .ok "") →
        (put h self T name (.str s)).1 = .ok () ∧
          get_at (put h self T name (.str s)).2 self .machine_int name = .ok (.int c)) ∧
      (map_find name o.params = none →
        put h self T name (.str s) = (.error (.ParameterNotFound o.name name), h)) ∧
      (∀ p, map_find name o.params = some p → p.value.ty ≠ .machine_int →
        p.value.cloneable = true →
        put h self T name (.str s) =
          (.error (.TypeMismatchPut o.name name p.value.ty .machine_int), h)) := by
  have hput := put_string_eq_put_typed h self o T name s c options hself hT hopts hs
  have hint : put h self .machine_int name (.int c) =
      put_typed h self .machine_int name (.int c) := by
    simp [put, is_string]
  rw [hput, hint]
  refine ⟨rfl, ?_, ?_, ?_⟩
  · intro p hp hty hacc
    have hcl : p.value.cloneable = true := by simp [Any.cloneable, hty, Ty.cloneable]
    have hc := check_constraint_accept p (make_any .machine_int (.int c)) hacc
    obtain ⟨hok, o2, ho2, hget⟩ :=
      put_typed_roundtrip h self o .machine_int name (.int c) p hself hp hty hcl hc
    exact ⟨hok, by simp [get_at, ho2, get, is_string, hget]⟩
  · intro hmiss
    exact put_typed_missing h self o .machine_int name (.int c) hself hmiss
  · intro p hp hty hcl
    exact put_typed_mismatch h self o p.value.ty .machine_int name (.int c) p hself hp rfl
      (fun heq => hty heq.symm) hcl

/-- C14, witness: on the sample object the option "NEWTON" of "solver" has code 1; the
string put is the typed put of 1, it succeeds and get<machine_int_t> then returns 1. -/
theorem put_string_as_typed_put_witness :
    put sample_heap 0 .std_string "solver" (.str "NEWTON") =
        put sample_heap 0 .machine_int "solver" (.int 1) ∧
      (put sample_heap 0 .std_string "solver" (.str "NEWTON")).1 = .ok () ∧
      get_at (put sample_heap 0 .std_string "solver" (.str "NEWTON")).2 0 .machine_int
        "solver" = .ok (.int 1) :=
  have hmain := put_string_as_typed_put sample_heap 0 sample_object .std_string "solver"
    "NEWTON" 1 [("AUTO", 0), ("NEWTON", 1)] rfl rfl rfl rfl
  ⟨hmain.1, hmain.2.1 ⟨⟨.machine_int, .int 0⟩, ⟨"", []⟩, none⟩ rfl rfl
    (fun f hflag _ => by simp [AnyParameterProperties.has_property] at hflag)⟩

/-- C14, counterexample: on the sample object "level" is a registered integer parameter
whose option map contains "LOW" with code -1, which its constraint rejects; the string
put fails with the ConstraintViolation and get<machine_int_t> afterwards returns the old
code 1, not -1. -/
theorem put_string_code_rejected :
    (map_find "level" sample_object.params).map (fun p => p.value.ty) =
        some .machine_int ∧
      (map_find "level" sample_object.m_string_to_enum_map).bind (map_find "LOW") =
        some (-1) ∧
      (put sample_heap 0 .std_string "level" (.str "LOW")).1 =
        .error (.ConstraintViolation "Machine" "level" "non-negative") ∧
      get_at (put sample_heap 0 .std_string "level" (.str "LOW")).2 0 .machine_int
        "level" = .ok (.int 1) :=
  ⟨rfl, rfl, rfl, rfl⟩

/-- C15: for a name with an option map (its keys distinct, as in a map) that is a
registered integer parameter with stored code c: if some option maps to c, the
string-valued get(name) returns an option string whose forward mapping is c; if no option
maps to c, it fails, reporting that the code has no option. -/
theorem get_string_reverse_lookup (o : CSGObject) (T : Ty) (name : String) (c : Int)
    (options : List (String × Int)) (p : AnyParameter) (hT : is_string T = true)
    (hopts : map_find name o.m_string_to_enum_map = some options)
    (hkeys : (options.map Prod.fst).Nodup)
    (hp : map_find name o.params = some p) (hv : p.value = ⟨.machine_int, .int c⟩) :
    ((∃ s, map_find s options = some c) →
        ∃ s, get o T name = .ok (.str s) ∧ map_find s options = some c) ∧
      ((∀ s, map_find s options ≠ some c) →
        get o T name = .error (.NoReverseOption o.name name c)) := by
  have hget : get o T name =
      match string_enum_reverse_lookup o name c with
      | .ok s => .ok (.str s)
      | .error e => .error e := by
    simp [get, hT, get_string, hopts, get_typed_of_find o .machine_int name p hp, hv,
      Val.as_int]
  cases hf : List.find? (fun e => decide (e.2 = c)) options with
  | none =>
    have hrev : string_enum_reverse_lookup o name c =
        .error (.NoReverseOption o.name name c) := by
      simp [string_enum_reverse_lookup, hopts, hf]
    rw [hget, hrev]
    refine ⟨?_, fun _ => rfl⟩
    rintro ⟨s, hs⟩
    have hall := List.find?_eq_none.1 hf (s, c) (map_find_mem s c options hs)
    simp at hall
  | some e =>
    have hrev : string_enum_reverse_lookup o name c = .ok e.1 := by
      simp [string_enum_reverse_lookup, hopts, hf]
    rw [hget, hrev]
    have hmem := List.mem_of_find?_eq_some hf
    have hcode : e.2 = c := by simpa using List.find?_some hf
    have hfwd : map_find e.1 options = some c := by
      rw [map_find_of_mem_nodup options hkeys e hmem, hcode]
    refine ⟨fun _ => ⟨e.1, rfl, hfwd⟩, ?_⟩
    intro hno
    exact absurd hfwd (hno e.1)

/-- C15, witness: on the sample object "solver" holds the code 0, to which the option
"AUTO" maps; the string get returns "AUTO", whose forward mapping is 0. -/
theorem get_string_reverse_lookup_witness :
    ∃ s, get sample_object .std_string "solver" = .ok (.str s) ∧
      map_find s [("AUTO", (0 : Int)), ("NEWTON", 1)] = some 0 :=
  (get_string_reverse_lookup sample_object .std_string "solver" 0
    [("AUTO", 0), ("NEWTON", 1)] ⟨⟨.machine_int, .int 0⟩, ⟨"", []⟩, none⟩ rfl rfl
    (by decide) rfl rfl).1 ⟨"AUTO", rfl⟩

/-! ## Bound methods -/

/-- C16: for a name registered as a function parameter returning a boolean, run(name)
returns normally when the function returns true and fails with "Failed to run function"
when it returns false, so it fails exactly when the function returns false. -/
theorem run_bound_method (o : CSGObject) (name : String) (p : AnyParameter)
    (result : Bool) (hp : map_find name o.params = some p)
    (hv : p.value = ⟨.function .boolean, .fn result⟩) :
    (result = true → run o name = .ok ()) ∧
      (result = false → run o name = .error (.FailedToRun o.name name)) ∧
      ((∃ e, run o name = .error e) ↔ result = false) := by
  cases result with
  | true =>
    have hrun : run o name = .ok () := by simp [run, get_function, hp, hv, any_cast]
    refine ⟨fun _ => hrun, fun hf => (by cases hf), ?_⟩
    rw [hrun]
    simp
  | false =>
    have hrun : run o name = .error (.FailedToRun o.name name) := by
      simp [run, get_function, hp, hv, any_cast]
    refine ⟨fun hf => (by cases hf), fun _ => hrun, ?_⟩
    rw [hrun]
    simp

/-- C16, witness: the object with bound methods registered through watch_method; "train"
returns true and run returns normally, "stop" returns false and run fails. -/
theorem run_bound_method_witness :
    run method_object "train" = .ok () ∧
      run method_object "stop" = .error (.FailedToRun "Machine" "stop") :=
  ⟨(run_bound_method method_object "train"
      ⟨⟨.function .boolean, .fn true⟩, ⟨"Non-const function", [.RUNFUNCTION, .READONLY]⟩,
        none⟩ true rfl rfl).1 rfl,
    (run_bound_method method_object "stop"
      ⟨⟨.function .boolean, .fn false⟩, ⟨"Non-const function", [.RUNFUNCTION, .READONLY]⟩,
        none⟩ false rfl rfl).2.1 rfl⟩

/-! ## Checked casts -/

/-- C17: as<T>() returns the object itself when its runtime type is T or a subtype of T,
and otherwise fails with the error naming the type of the object and T; the static
as<T>(sgo) fails with a precondition error when sgo is null and is sgo->as<T>()
otherwise. -/
theorem as_checked_cast (H : ClassTable) (h : Heap) (self : Addr) (o : CSGObject)
    (T : String) (hself : h.get? self = some o) :
    (H o.name T = true → as_T H h self T = .ok self) ∧
      (H o.name T = false →
        as_T H h self T = .error (.CannotConvert o.name T) ∧
        (Err.CannotConvert o.name T).kind = .TypeMismatch) ∧
      as_static H h none T = .error (.PreconditionFailure "No object provided!") ∧
      as_static H h (some self) T = as_T H h self T := by
  refine ⟨?_, ?_, rfl, rfl⟩
  · intro hsub
    simp [as_T, hself, hsub]
  · intro hsub
    exact ⟨by simp [as_T, hself, hsub], rfl⟩

/-- C17, witness: the Gaussian kernel at address 2 of the array heap is a kernel and is
not a features object; the cast to CKernel returns address 2, the cast to CFeatures fails
naming both types, and the static cast of null fails with a precondition error. -/
theorem as_checked_cast_witness :
    as_T sample_classes array_heap 2 "CKernel" = .ok 2 ∧
      as_T sample_classes array_heap 2 "CFeatures" =
        .error (.CannotConvert "GaussianKernel" "CFeatures") ∧
      as_static sample_classes array_heap none "CKernel" =
        .error (.PreconditionFailure "No object provided!") ∧
      as_static sample_classes array_heap (some 2) "CKernel" = .ok 2 :=
  have hk := as_checked_cast sample_classes array_heap 2 _ "CKernel" rfl
  have hf := as_checked_cast sample_classes array_heap 2 _ "CFeatures" rfl
  ⟨hk.1 (by decide), (hf.2.1 (by decide)).1, hk.2.2.1, hk.2.2.2.trans (hk.1 (by decide))⟩

/-! ## Object arrays -/

/-- C18: add(name, value) with a null value fails with a PreconditionFailure and the heap
is left as it was, whatever the name and whether or not it is a parameter. -/
theorem add_null_value (h : Heap) (self : Addr) (o : CSGObject) (T : String)
    (name : String) (hself : h.get? self = some o) :
    add h self T name none =
        (.error (.PreconditionFailure
          ("Cannot add to " ++ o.name ++ "::" ++ name ++ ", no object provided.")), h) ∧
      ∀ msg, (Err.PreconditionFailure msg).kind = .PreconditionFailure := by
  refine ⟨?_, fun _ => rfl⟩
  simp [add, hself]

/-- C18, witness: adding null to the array parameter "kernel_array" and to the unknown
name "nothing" of the array heap fails with a PreconditionFailure and the heap is left as
it was. -/
theorem add_null_value_witness :
    add array_heap 0 "CKernel" "kernel_array" none =
        (.error (.PreconditionFailure
          "Cannot add to CombinedKernel::kernel_array, no object provided."),
          array_heap) ∧
      (add array_heap 0 "CKernel" "nothing" none).2 = array_heap :=
  ⟨(add_null_value array_heap 0 _ "CKernel" "kernel_array" rfl).1,
    congrArg Prod.snd (add_null_value array_heap 0 _ "CKernel" "nothing" rfl).1⟩

theorem dispatch_array_type_vector {α : Type} (h : Heap) (obj : Addr) (o : CSGObject)
    (T1 name : String) (p : AnyParameter)
    (on_dynamic : Heap → Addr → Except Err α × Heap)
    (on_vector : Heap → List (Option Addr) → Except Err (α × List (Option Addr)) × Heap)
    (hobj : h.get? obj = some o) (hp : map_find name o.params = some p)
    (hty : p.value.ty = .object_vector T1) :
    dispatch_array_type h obj T1 name on_dynamic on_vector =
      match on_vector h p.value.val.as_ptrs with
      | (.ok (r, _), h1) => (.ok (some r), h1)
      | (.error e, h1) => (.error e, h1) := by
  simp [dispatch_array_type, hobj, has_T, has_parameter, get_parameter, hp, Any.has_type,
    hty, get_typed_of_find o _ name p hp]

theorem add_vector_parameter_unchanged (h : Heap) (self : Addr) (o : CSGObject)
    (T name : String) (p : AnyParameter) (v : Addr) (hself : h.get? self = some o)
    (hp : map_find name o.params = some p) (hty : p.value.ty = .object_vector T) :
    add h self T name (some v) = (.ok (), h) := by
  simp [add, hself, dispatch_array_type_vector h self o T name p _ _ hself hp hty]

/-- C19, evaluation at the failing input: on the array heap, adding the kernel at address
3 to "kernels", a `std::vector<CKernel*>` of length 1, returns normally and leaves the
heap as it was, so the stored vector still has length 1 and get<CKernel>(name, 1) fails;
the same add to "kernel_array", a `CDynamicObjectArray*` of length 1, appends the
kernel, takes a reference on it, and get<CKernel>(name, 1) returns it. -/
theorem add_to_vector_parameter_lost :
    add array_heap 0 "CKernel" "kernels" (some 3) = (.ok (), array_heap) ∧
      get_at (add array_heap 0 "CKernel" "kernels" (some 3)).2 0
        (.object_vector "CKernel") "kernels" = .ok (.ptrs [some 2]) ∧
      get_index sample_classes (add array_heap 0 "CKernel" "kernels" (some 3)).2 0
        "CKernel" "kernels" 1 = .error .OutOfRange ∧
      (add array_heap 0 "CKernel" "kernel_array" (some 3)).1 = .ok () ∧
      ((add array_heap 0 "CKernel" "kernel_array" (some 3)).2.get? 1).map
        (fun a => a.m_array) = some [some 2, some 3] ∧
      get_index sample_classes (add array_heap 0 "CKernel" "kernel_array" (some 3)).2 0
        "CKernel" "kernel_array" 1 = .ok 3 :=
  ⟨add_vector_parameter_unchanged array_heap 0 _ "CKernel" "kernels"
      ⟨⟨.object_vector "CKernel", .ptrs [some 2]⟩, ⟨"", []⟩, none⟩ 3 rfl rfl rfl,
    rfl, rfl, rfl, rfl, rfl⟩

theorem get_index_nothrow_dynamic (H : ClassTable) (h : Heap) (self : Addr)
    (o a eo : CSGObject) (T name : String) (p : AnyParameter) (array e : Addr) (i : Nat)
    (hself : h.get? self = some o) (hp : map_find name o.params = some p)
    (hv : p.value = ⟨.dynamic_object_array, .ptr (some array)⟩)
    (harr : h.get? array = some a) (hi : a.m_array[i]? = some (some e))
    (he : h.get? e = some eo) :
    get_index_nothrow H h self T name i =
      if H eo.name T then .ok (some e) else .error (.CannotConvert eo.name T) := by
  have hdisp : (dispatch_array_type h self T name
      (fun h1 array => (dynamic_array_at h1 array i, h1))
      (fun h1 array =>
        (match vector_at array i with
          | .ok e => .ok (e, array)
          | .error e => .error e, h1))).1 = .ok (some (some e)) := by
    simp [dispatch_array_type, hself, has_T, has_parameter, get_parameter, hp,
      Any.has_type, hv, get_typed_of_find o _ name p hp, dynamic_array_at, harr,
      vector_at, hi]
  unfold get_index_nothrow
  rw [hdisp]
  by_cases hsub : H eo.name T = true
  · simp [as_T, he, hsub]
  · simp [as_T, he, hsub]

theorem get_by_tag_index_dynamic_not_kernel (H : ClassTable) (h : Heap) (self : Addr)
    (o a eo : CSGObject) (name : String) (p : AnyParameter) (array e : Addr) (i : Nat)
    (hself : h.get? self = some o) (hp : map_find name o.params = some p)
    (hv : p.value = ⟨.dynamic_object_array, .ptr (some array)⟩)
    (harr : h.get? array = some a) (hi : a.m_array[i]? = some (some e))
    (he : h.get? e = some eo) (hk : H eo.name "CKernel" = false) :
    get_by_tag_index H h self name i = .error (.CannotConvert eo.name "CKernel") := by
  simp [get_by_tag_index, get_dispatch_all_base_types_index, get_if_possible_index,
    get_index_nothrow_dynamic H h self o a eo "CKernel" name p array e i hself hp hv harr
      hi he, hk]

/-- C20, evaluation at the failing input: on the array heap, "feature_array" is a
`CDynamicObjectArray*` whose element at index 0 is the features object at address 5;
get_by_tag with GetByNameIndex fails with the conversion error of the first base type
tried, CKernel, and so does the untyped getter, although the element is a CFeatures. The
same element held in the vector parameter "features" is returned, and so is the kernel at
index 0 of "kernel_array". -/
theorem get_by_tag_features_in_dynamic_array :
    as_T sample_classes array_heap 5 "CFeatures" = .ok 5 ∧
      get_by_tag_index sample_classes array_heap 0 "feature_array" 0 =
        .error (.CannotConvert "DenseFeatures" "CKernel") ∧
      get_name_index sample_classes array_heap 0 "feature_array" 0 =
        .error (.CannotConvert "DenseFeatures" "CKernel") ∧
      get_by_tag_index sample_classes array_heap 0 "features" 0 = .ok (some 5) ∧
      get_by_tag_index sample_classes array_heap 0 "kernel_array" 0 = .ok (some 2) :=
  ⟨rfl, get_by_tag_index_dynamic_not_kernel sample_classes array_heap 0 _ _ _
      "feature_array" ⟨⟨.dynamic_object_array, .ptr (some 4)⟩, ⟨"", []⟩, none⟩ 4 5 0
      rfl rfl rfl rfl rfl rfl rfl,
    rfl, rfl, rfl⟩

/-! ## Existence checks -/

/-- C21: has<T>(name) is true exactly when a parameter called name is registered and its
stored type is T; hence has<T>(name) implies has(name), and for a registered name
has<T>(name) holds for one type T and no other. -/
theorem has_typed_iff (o : CSGObject) (T : Ty) (name : String) :
    (has_T o T name = true ↔ ∃ p, map_find name o.params = some p ∧ p.value.ty = T) ∧
      (has_T o T name = true → has o name = true) ∧
      (has o name = true →
        ∃ T0, has_T o T0 name = true ∧ ∀ U, has_T o U name = true → U = T0) := by
  cases hp : map_find name o.params with
  | none =>
    simp [has_T, has, has_parameter, get_parameter, hp]
  | some p =>
    refine ⟨?_, ?_, ?_⟩
    · simp [has_T, has_parameter, get_parameter, hp, Any.has_type]
    · intro _
      simp [has, has_parameter, hp]
    · intro _
      refine ⟨p.value.ty, ?_, ?_⟩
      · simp [has_T, has_parameter, get_parameter, hp, Any.has_type]
      · intro U hU
        have hty : p.value.ty = U := by
          simpa [has_T, has_parameter, get_parameter, hp, Any.has_type] using hU
        exact hty.symm

/-- C21, witness: on the sample object "k" is registered with stored type machine_int_t,
so has<machine_int_t>("k") holds, has("k") holds and has<bool>("k") does not. -/
theorem has_typed_iff_witness :
    has_T sample_object .machine_int "k" = true ∧ has sample_object "k" = true ∧
      ¬ has_T sample_object .boolean "k" = true :=
  ⟨(has_typed_iff sample_object .machine_int "k").1.2
      ⟨⟨⟨.machine_int, .int 3⟩, ⟨"", []⟩, none⟩, rfl, rfl⟩,
    (has_typed_iff sample_object .machine_int "k").2.1 rfl,
    fun hb => by
      obtain ⟨p, hp, hty⟩ := (has_typed_iff sample_object .boolean "k").1.1 hb
      have hpk : p = ⟨⟨.machine_int, .int 3⟩, ⟨"", []⟩, none⟩ :=
        (Option.some.inj hp).symm
      rw [hpk] at hty
      cases hty⟩

/-! ## The current step -/

/-- C28: get_step() returns v when "current_iteration" is registered with stored type
int64 and value v, and returns -1, without failing, when no such parameter is registered
or when it is registered with another stored type. -/
theorem get_step_value (o : CSGObject) :
    (∀ p v, map_find "current_iteration" o.params = some p →
        p.value = ⟨.int64, .int v⟩ → get_step o = .ok v) ∧
      (map_find "current_iteration" o.params = none → get_step o = .ok (-1)) ∧
      (∀ p, map_find "current_iteration" o.params = some p → p.value.ty ≠ .int64 →
        get_step o = .ok (-1)) := by
  refine ⟨?_, ?_, ?_⟩
  · intro p v hp hv
    simp [get_step, has_T, has_parameter, get_parameter, hp, Any.has_type, hv,
      get_typed_of_find o .int64 _ p hp, Val.as_int]
  · intro hp
    simp [get_step, has_T, has_parameter, hp]
  · intro p hp hty
    simp [get_step, has_T, has_parameter, get_parameter, hp, Any.has_type, hty]

/-- C28, witness: get_step() is 7 on the object whose "current_iteration" is an int64 of
value 7, and -1 on the sample object, which has no such parameter, and on the object
whose "current_iteration" is a machine_int_t. -/
theorem get_step_value_witness :
    get_step iteration_object = .ok 7 ∧ get_step sample_object = .ok (-1) ∧
      get_step short_iteration_object = .ok (-1) :=
  ⟨(get_step_value iteration_object).1 ⟨⟨.int64, .int 7⟩, ⟨"", []⟩, none⟩ 7 rfl rfl,
    (get_step_value sample_object).2.1 rfl,
    (get_step_value short_iteration_object).2.2
      ⟨⟨.machine_int, .int 7⟩, ⟨"", []⟩, none⟩ rfl (by decide)⟩

/-! ## Reference macros -/

/-- C24: SG_UNREF on a handle that is not null leaves the heap of one call of unref() and
sets the handle to null exactly when that call returned 0; SG_REF, SG_UNREF and
SG_UNREF_NO_NULL leave heap and handle alone when the handle is null, and
SG_UNREF_NO_NULL never changes the handle. -/
theorem SG_UNREF_handle (h : Heap) (a : Addr) :
    (SG_UNREF h (some a)).1 = (unref h a).2 ∧
      ((SG_UNREF h (some a)).2 = none ↔ (unref h a).1 = 0) ∧
      ((unref h a).1 ≠ 0 → (SG_UNREF h (some a)).2 = some a) ∧
      SG_REF h none = h ∧ SG_UNREF h none = (h, none) ∧
      SG_UNREF_NO_NULL h none = (h, none) ∧
      SG_UNREF_NO_NULL h (some a) = ((unref h a).2, some a) ∧
      ∀ x, (SG_UNREF_NO_NULL h x).2 = x := by
  refine ⟨?_, ?_, ?_, rfl, rfl, rfl, rfl, ?_⟩
  · by_cases hz : (unref h a).1 = 0 <;> simp [SG_UNREF, hz]
  · by_cases hz : (unref h a).1 = 0 <;> simp [SG_UNREF, hz]
  · intro hz
    simp [SG_UNREF, hz]
  · intro x
    cases x <;> rfl

/-- C24, witness: on the array heap the kernel at address 3 has count 1, so SG_UNREF
sets the handle to null; the kernel at address 2 has count 3, so the handle stays. -/
theorem SG_UNREF_handle_witness :
    (SG_UNREF array_heap (some 3)).2 = none ∧ (SG_UNREF array_heap (some 2)).2 = some 2 :=
  ⟨(SG_UNREF_handle array_heap 3).2.1.2 (by decide),
    (SG_UNREF_handle array_heap 2).2.2.1 (by decide)⟩

/-! ## Unique names -/

theorem create_parameter_ok (o o1 : CSGObject) (name : String) (parameter : AnyParameter)
    (hok : create_parameter o name parameter = .ok o1) :
    has_parameter o name = false ∧ o1.params = o.params ++ [(name, parameter)] := by
  unfold create_parameter at hok
  by_cases hhas : has_parameter o name = true
  · simp [hhas] at hok
  · simp only [hhas] at hok
    have ho : o1 = { o with params := o.params ++ [(name, parameter)] } := by
      simpa using hok.symm
    exact ⟨by simpa using hhas, by rw [ho]⟩

theorem create_parameter_registered (o : CSGObject) (name : String)
    (parameter : AnyParameter) (hhas : has_parameter o name = true) :
    create_parameter o name parameter = .error (.PreconditionFailure name) := by
  simp [create_parameter, hhas]

theorem registration_ok (o o1 : CSGObject) (r : Registration) (hok : r.apply o = .ok o1) :
    has_parameter o r.name = false ∧ ∃ p, o1.params = o.params ++ [(r.name, p)] := by
  cases r with
  | register_param name T value =>
    obtain ⟨h1, h2⟩ := create_parameter_ok o o1 name _ hok
    exact ⟨h1, _, h2⟩
  | watch_param name T value properties =>
    obtain ⟨h1, h2⟩ := create_parameter_ok o o1 name _ hok
    exact ⟨h1, _, h2⟩
  | watch_param_constrained name T1 value c properties =>
    simp only [Registration.apply, watch_param_constrained] at hok
    split at hok
    · cases hok
    · obtain ⟨h1, h2⟩ := create_parameter_ok o o1 name _ hok
      exact ⟨h1, _, h2⟩
  | watch_method name R result =>
    obtain ⟨h1, h2⟩ := create_parameter_ok o o1 name _ hok
    exact ⟨h1, _, h2⟩
  | watch_method_const name R result =>
    obtain ⟨h1, h2⟩ := create_parameter_ok o o1 name _ hok
    exact ⟨h1, _, h2⟩
  | create_parameter name parameter =>
    obtain ⟨h1, h2⟩ := create_parameter_ok o o1 name _ hok
    exact ⟨h1, _, h2⟩

theorem registration_registered (o : CSGObject) (r : Registration)
    (hhas : has_parameter o r.name = true) : ∃ e, r.apply o = .error e := by
  cases hr : r.apply o with
  | error e => exact ⟨e, rfl⟩
  | ok o1 =>
    have hnot := (registration_ok o o1 r hr).1
    rw [hhas] at hnot
    cases hnot

theorem registration_nodup (o : CSGObject) (r : Registration)
    (hnd : (o.params.map Prod.fst).Nodup) :
    ((o.register_all [r]).params.map Prod.fst).Nodup := by
  simp only [CSGObject.register_all, List.foldl]
  cases hr : r.apply o with
  | error e => exact hnd
  | ok o1 =>
    obtain ⟨hnot, p, hps⟩ := registration_ok o o1 r hr
    have hmem : r.name ∉ o.params.map Prod.fst := by
      intro hin
      have hsome := (map_find_isSome_iff r.name o.params).2 hin
      simp [has_parameter, hsome] at hnot
    simp only [hps, List.map_append, List.map_cons, List.map_nil]
    exact List.Nodup.append hnd (List.nodup_singleton _)
      (by simpa [List.disjoint_singleton] using hmem)

theorem register_all_nodup (rs : List Registration) (o : CSGObject)
    (hnd : (o.params.map Prod.fst).Nodup) :
    ((o.register_all rs).params.map Prod.fst).Nodup := by
  induction rs generalizing o with
  | nil => exact hnd
  | cons r rest ih =>
    have hstep : o.register_all (r :: rest) = (o.register_all [r]).register_all rest := by
      simp [CSGObject.register_all, List.foldl]
    rw [hstep]
    exact ih _ (registration_nodup o r hnd)

/-- C22: a registration under a name that is already registered fails and leaves the
object, hence the existing parameter, as it was; so after every sequence of registrations
on a newly constructed object, and on every object whose names are unique, the names
enumerated by get_params() are unique. -/
theorem registered_names_unique (cls : String) (rs : List Registration) :
    ((get_params ((CSGObject.construct cls).register_all rs)).map Prod.fst).Nodup ∧
      (∀ o : CSGObject, ((get_params o).map Prod.fst).Nodup →
        ((get_params (o.register_all rs)).map Prod.fst).Nodup) ∧
      ∀ (o : CSGObject) (r : Registration), has o r.name = true →
        (∃ e, r.apply o = .error e) ∧ o.register_all [r] = o ∧
          ∀ parameter, create_parameter o r.name parameter =
            .error (.PreconditionFailure r.name) := by
  refine ⟨?_, ?_, ?_⟩
  · exact register_all_nodup rs _ (by simp [CSGObject.construct])
  · intro o hnd
    exact register_all_nodup rs o hnd
  · intro o r hhas
    obtain ⟨e, he⟩ := registration_registered o r hhas
    refine ⟨⟨e, he⟩, ?_, fun parameter => create_parameter_registered o r.name parameter hhas⟩
    simp [CSGObject.register_all, List.foldl, he]

/-- C22, witness: "k" is registered on the sample object; registering it again fails and
leaves the object as it was. -/
theorem registered_names_unique_witness :
    (∃ e, (Registration.register_param "k" .machine_int (.int 1)).apply sample_object =
        .error e) ∧
      sample_object.register_all [.register_param "k" .machine_int (.int 1)] =
        sample_object :=
  have hmain := (registered_names_unique "Machine" []).2.2 sample_object
    (.register_param "k" .machine_int (.int 1)) rfl
  ⟨hmain.1, hmain.2.1⟩

/-! ## Subscriptions -/

theorem unsubscribe_after_subscribe (o : CSGObject) (obs : Nat) :
    (o.subscribe obs).unsubscribe obs =
      .ok { o with m_next_subscription_index := o.m_next_subscription_index + 1 } := by
  simp [CSGObject.unsubscribe, CSGObject.subscribe]

theorem unsubscribe_index (o o1 : CSGObject) (obs : Nat)
    (hu : o.unsubscribe obs = .ok o1) :
    o1.m_next_subscription_index = o.m_next_subscription_index := by
  unfold CSGObject.unsubscribe at hu
  split at hu
  · cases hu
  · have ho : o1 = _ := (Except.ok.inj hu).symm
    rw [ho]

theorem subscription_step_index (o : CSGObject) (op : SubscriptionOp) :
    o.m_next_subscription_index ≤ (o.subscription_run [op]).m_next_subscription_index := by
  cases op with
  | subscribe obs => simp [CSGObject.subscription_run, CSGObject.subscribe]
  | unsubscribe obs =>
    cases hu : o.unsubscribe obs with
    | error e => simp [CSGObject.subscription_run, hu]
    | ok o1 => simp [CSGObject.subscription_run, hu, unsubscribe_index o o1 obs hu]

theorem subscription_run_index (ops : List SubscriptionOp) (o : CSGObject) :
    o.m_next_subscription_index ≤ (o.subscription_run ops).m_next_subscription_index := by
  induction ops generalizing o with
  | nil => exact le_refl _
  | cons op rest ih =>
    have hstep : o.subscription_run (op :: rest) =
        (o.subscription_run [op]).subscription_run rest := by
      simp [CSGObject.subscription_run, List.foldl]
    rw [hstep]
    exact le_trans (subscription_step_index o op) (ih _)

/-- C23, amended: subscribe(observer) returns nothing; it attaches the observer under the
next subscription index of the object, and that index is strictly below the index of every
subscription made by a later subscribe on the same object, whatever subscribe and
unsubscribe calls come between; unsubscribe(observer) right after removes that
subscription, so the subscriptions and their number are what they were before the
subscribe. -/
theorem subscribe_then_unsubscribe (h : Heap) (self : Addr) (o : CSGObject) (obs : Nat)
    (hself : h.get? self = some o) :
    subscribe h self obs = (.ok (), h.set self (o.subscribe obs)) ∧
      (o.subscribe obs).m_subscriptions =
        o.m_subscriptions ++ [(o.m_next_subscription_index, obs)] ∧
      (∀ ops, o.m_next_subscription_index <
        ((o.subscribe obs).subscription_run ops).m_next_subscription_index) ∧
      (unsubscribe (subscribe h self obs).2 self obs).1 = .ok () ∧
      ∃ o1, (unsubscribe (subscribe h self obs).2 self obs).2.get? self = some o1 ∧
        o1.m_subscriptions = o.m_subscriptions ∧
        get_num_subscriptions o1 = get_num_subscriptions o := by
  have hsub : subscribe h self obs = (.ok (), h.set self (o.subscribe obs)) := by
    simp [subscribe, hself]
  have hget : (h.set self (o.subscribe obs)).get? self = some (o.subscribe obs) :=
    Heap.get?_set_eq h self o _ hself
  have hun : unsubscribe (h.set self (o.subscribe obs)) self obs =
      (.ok (), (h.set self (o.subscribe obs)).set self
        { o with m_next_subscription_index := o.m_next_subscription_index + 1 }) := by
    simp [unsubscribe, hget, unsubscribe_after_subscribe]
  refine ⟨hsub, rfl, ?_, ?_, ?_⟩
  · intro ops
    have h1 := subscription_run_index ops (o.subscribe obs)
    have h2 : (o.subscribe obs).m_next_subscription_index =
        o.m_next_subscription_index + 1 := rfl
    omega
  · rw [hsub, hun]
  · rw [hsub, hun]
    exact ⟨_, Heap.get?_set_eq _ self _ _ hget, rfl, rfl⟩

/-- C23, witness: on the sample object, which has no subscription, subscribe of observer 7
succeeds, the subscription has index 0, and unsubscribe of observer 7 leaves no
subscription. -/
theorem subscribe_then_unsubscribe_witness :
    subscribe sample_heap 0 7 = (.ok (), sample_heap.set 0 (sample_object.subscribe 7)) ∧
      (sample_object.subscribe 7).m_subscriptions = [(0, 7)] ∧
      (unsubscribe (subscribe sample_heap 0 7).2 0 7).1 = .ok () :=
  have hmain := subscribe_then_unsubscribe sample_heap 0 sample_object 7 rfl
  ⟨hmain.1, hmain.2.1, hmain.2.2.2.1⟩

/-- C23, counterexample: two successive subscribe calls on the sample object return the
same empty value, although the subscriptions they make have the different indices 0 and
1: what subscribe returns is not the subscription index. -/
theorem subscribe_returns_nothing :
    (subscribe sample_heap 0 7).1 = .ok () ∧
      (subscribe (subscribe sample_heap 0 7).2 0 8).1 = .ok () ∧
      ((subscribe (subscribe sample_heap 0 7).2 0 8).2.get? 0).map
        (fun o => o.m_subscriptions) = some [(0, 7), (1, 8)] :=
  ⟨rfl, rfl, rfl⟩

/-! ## Registration macros -/

theorem create_parameter_eq (o o1 : CSGObject) (name : String) (parameter : AnyParameter)
    (hok : create_parameter o name parameter = .ok o1) :
    map_find name o.params = none ∧
      o1 = { o with params := o.params ++ [(name, parameter)] } := by
  unfold create_parameter at hok
  by_cases hhas : has_parameter o name = true
  · simp [hhas] at hok
  · simp only [hhas] at hok
    refine ⟨?_, by simpa using hok.symm⟩
    cases hf : map_find name o.params with
    | none => rfl
    | some p => simp [has_parameter, hf] at hhas

theorem map_find_append_new {β : Type} (key : String) (v : β) (l : List (String × β))
    (hnone : map_find key l = none) : map_find key (l ++ [(key, v)]) = some v := by
  induction l with
  | nil => simp [map_find]
  | cons e rest ih =>
    obtain ⟨k, w⟩ := e
    by_cases hk : k = key
    · simp [map_find, hk] at hnone
    · simp only [map_find, hk, if_false] at hnone
      simp [map_find, hk, ih hnone]

theorem add_to_sub_registries_spec (o : CSGObject) (pprop : AnyParameterProperties)
    (name description : String) :
    (add_to_sub_registries o pprop name description).params = o.params ∧
      (add_to_sub_registries o pprop name description).m_model_selection_parameters =
        (if pprop.has_property .HYPER then
          o.m_model_selection_parameters ++ [(name, description)]
        else o.m_model_selection_parameters) ∧
      (add_to_sub_registries o pprop name description).m_gradient_parameters =
        (if pprop.has_property .GRADIENT then
          o.m_gradient_parameters ++ [(name, description)]
        else o.m_gradient_parameters) := by
  unfold add_to_sub_registries Parameter.add
  by_cases hh : pprop.has_property .HYPER = true <;>
    by_cases hg : pprop.has_property .GRADIENT = true <;> simp [hh, hg]

theorem SG_ADD4_sub_registries (o o1 : CSGObject) (T : Ty) (param : Val)
    (name description : String) (param_properties : List ParameterProperties)
    (hok : SG_ADD4 o T param name description param_properties = .ok o1) :
    ∃ p, map_find name o1.params = some p ∧
      p.properties = ⟨description, param_properties ++ o.m_default_mask⟩ ∧
      o1.m_model_selection_parameters =
        (if p.properties.has_property .HYPER then
          o.m_model_selection_parameters ++ [(name, description)]
        else o.m_model_selection_parameters) ∧
      o1.m_gradient_parameters =
        (if p.properties.has_property .GRADIENT then
          o.m_gradient_parameters ++ [(name, description)]
        else o.m_gradient_parameters) := by
  unfold SG_ADD4 at hok
  split at hok
  · cases hok
  · simp only [watch_param] at hok
    split at hok
    · cases hok
    · rename_i o2 hreg
      obtain ⟨hnone, ho2⟩ := create_parameter_eq _ o2 name _ hreg
      have ho1 : o1 = _ := (Except.ok.inj hok).symm
      obtain ⟨hps, hms, hgr⟩ := add_to_sub_registries_spec o2
        ⟨description, param_properties ++ o.m_default_mask⟩ name description
      refine ⟨⟨make_any T param, ⟨description, param_properties ++ o.m_default_mask⟩,
        none⟩, ?_, rfl, ?_, ?_⟩
      · rw [ho1, hps, ho2]
        exact map_find_append_new name _ _ hnone
      · rw [ho1, hms, ho2]
      · rw [ho1, hgr, ho2]

theorem SG_ADD5_sub_registries (o o1 : CSGObject) (T : Ty) (param : Val)
    (name description : String) (param_properties : List ParameterProperties)
    (auto_or_constraint : AutoOrConstraint)
    (hok : SG_ADD5 o T param name description param_properties auto_or_constraint =
      .ok o1) :
    ∃ p, map_find name o1.params = some p ∧
      p.properties = ⟨description, param_properties ++ o.m_default_mask⟩ ∧
      o1.m_model_selection_parameters =
        (if p.properties.has_property .HYPER then
          o.m_model_selection_parameters ++ [(name, description)]
        else o.m_model_selection_parameters) ∧
      o1.m_gradient_parameters =
        (if p.properties.has_property .GRADIENT then
          o.m_gradient_parameters ++ [(name, description)]
        else o.m_gradient_parameters) := by
  unfold SG_ADD5 at hok
  simp only [] at hok
  split at hok
  · cases hok
  · rename_i o2 hreg
    have ho1 : o1 = _ := (Except.ok.inj hok).symm
    obtain ⟨hps, hms, hgr⟩ := add_to_sub_registries_spec o2
      ⟨description, param_properties ++ o.m_default_mask⟩ name description
    have hcreate : ∃ q : AnyParameter,
        q.properties = ⟨description, param_properties ++ o.m_default_mask⟩ ∧
        create_parameter
          { o with m_parameters := Parameter.add o.m_parameters name description }
          name q = .ok o2 := by
      cases auto_or_constraint with
      | auto_init =>
        simp only [watch_param_auto] at hreg
        split at hreg
        · cases hreg
        · exact ⟨_, rfl, hreg⟩
      | constraint c =>
        simp only [watch_param_constrained] at hreg
        split at hreg
        · cases hreg
        · exact ⟨_, rfl, hreg⟩
    obtain ⟨q, hq, hcr⟩ := hcreate
    obtain ⟨hnone, ho2⟩ := create_parameter_eq _ o2 name q hcr
    refine ⟨q, ?_, hq, ?_, ?_⟩
    · rw [ho1, hps, ho2]
      exact map_find_append_new name _ _ hnone
    · rw [ho1, hms, ho2, hq]
    · rw [ho1, hgr, ho2, hq]

theorem SG_ADD3_sub_registries (o o1 : CSGObject) (T : Ty) (param : Val)
    (name description : String) (hok : SG_ADD3 o T param name description = .ok o1) :
    ∃ p, map_find name o1.params = some p ∧
      p.properties = ⟨description, o.m_default_mask⟩ ∧
      o1.m_model_selection_parameters = o.m_model_selection_parameters ∧
      o1.m_gradient_parameters = o.m_gradient_parameters := by
  unfold SG_ADD3 watch_param at hok
  obtain ⟨hnone, ho1⟩ := create_parameter_eq _ o1 name _ hok
  refine ⟨⟨make_any T param, ⟨description, o.m_default_mask⟩, none⟩, ?_, rfl, ?_, ?_⟩
  · rw [ho1]
    exact map_find_append_new name _ _ hnone
  · rw [ho1]
  · rw [ho1]

/-- C26, evaluation at the failing input: on an object whose default mask holds HYPER,
SG_ADD3 registers "C" with recorded properties that include HYPER and leaves the
model-selection registry empty, while SG_ADD4 with no properties of its own records the
same properties and adds "C" to the model-selection registry. -/
theorem SG_ADD3_default_mask_hyper :
    (SG_ADD3 hyper_default_object .machine_int (.int 1) "C" "regularisation").toOption.map
        (fun o => ((map_find "C" o.params).map (fun p => p.properties.has_property .HYPER),
          o.m_model_selection_parameters)) = some (some true, []) ∧
      (SG_ADD4 hyper_default_object .machine_int (.int 1) "C" "regularisation"
          []).toOption.map
        (fun o => ((map_find "C" o.params).map (fun p => p.properties.has_property .HYPER),
          o.m_model_selection_parameters)) =
        some (some true, [("C", "regularisation")]) := by
  constructor <;> decide

/-! ## Observation of a registered tag -/

/-- C27, evaluation at the failing input: the sample object has no subscription, yet
observe<T>(step, name) fails with ParameterNotFound for the unregistered name "depth" and
with a type mismatch for the parameter "k" asked as a bool; and on the nested heap, where
nothing is subscribed either, observe of the object parameter "kernel" returns normally
and delivers nothing but leaves a new object, the clone of the kernel, on the heap. -/
theorem observe_tag_without_subscribers :
    (sample_heap.get? 0).map (fun o => get_num_subscriptions o) = some 0 ∧
      observe_tag 5 sample_heap 0 .machine_int 3 "depth" =
        (.error (.ParameterNotFound "Machine" "depth"), sample_heap) ∧
      observe_tag 5 sample_heap 0 .boolean 3 "k" =
        (.error (.TypeMismatchException .boolean .machine_int), sample_heap) ∧
      observe_tag 5 sample_heap 0 .machine_int 3 "k" = (.ok (), sample_heap) ∧
      (nested_heap.get? 0).map (fun o => get_num_subscriptions o) = some 0 ∧
      (observe_tag 5 nested_heap 0 (.object "Kernel") 3 "kernel").1 = .ok () ∧
      (observe_tag 5 nested_heap 0 (.object "Kernel") 3 "kernel").2.delivered = [] ∧
      nested_heap.objs.length = 2 ∧
      (observe_tag 5 nested_heap 0 (.object "Kernel") 3 "kernel").2.objs.length = 3 :=
  ⟨by decide, rfl, rfl, rfl, by decide, rfl, rfl, rfl, rfl⟩

/-! ## Explicit spectrum features -/

theorem copy_construct_ignores_spectrum {F : Type} (memory : Indeterminate F)
    (orig other : CExplicitSpecFeatures F) (hn : other.num_strings = orig.num_strings)
    (ha : other.alphabet_size = orig.alphabet_size)
    (hs : other.spec_size = orig.spec_size) :
    other.duplicate memory = orig.duplicate memory := by
  simp [CExplicitSpecFeatures.duplicate, CExplicitSpecFeatures.copy_construct, hn, ha, hs]

/-- C29, evaluation at the failing input: the sample spectrum has the rows (2, 1, 0) and
(0, 0, 2); its duplicate has the rows that the slots of the newly allocated pointer array
happen to designate, here zeros, and there is no duplicate at all when the slots
designate nothing readable. -/
theorem duplicate_spectrum_not_copied :
    sample_spectrum.k_spectrum = [[2, 1, 0], [0, 0, 2]] ∧
      (sample_spectrum.duplicate zeroed_memory).map (fun f => f.k_spectrum) =
        some [[0, 0, 0], [0, 0, 0]] ∧
      (sample_spectrum.duplicate unreadable_memory).map (fun f => f.k_spectrum) = none :=
  ⟨rfl, by decide, by decide⟩

theorem sum_set_add_one {F : Type} [Field F] (row : List F) (s : Nat)
    (hs : s < row.length) : (row.set s (row.getD s 0 + 1)).sum = row.sum + 1 := by
  induction row generalizing s with
  | nil => simp at hs
  | cons x rest ih =>
    cases s with
    | zero => simp [add_comm, add_left_comm, add_assoc]
    | succ k =>
      have hk : k < rest.length := by simpa using hs
      simp only [List.set_cons_succ, List.sum_cons, List.getD_cons_succ]
      rw [ih k hk, add_assoc]

theorem getD_set_add_one {F : Type} [Field F] (row : List F) (a s : Nat)
    (ha : a < row.length) :
    (row.set a (row.getD a 0 + 1)).getD s 0 =
      row.getD s 0 + (if a = s then 1 else 0) := by
  by_cases has : a = s
  · subst has
    simp [List.getD_eq_getElem?_getD, List.getElem?_set, ha]
  · simp [List.getD_eq_getElem?_getD, List.getElem?_set, has]

theorem count_symbols_spec {F : Type} [Field F] (fv : List Nat) (row : List F)
    (hsym : ∀ s ∈ fv, s < row.length) :
    ∃ row1, count_symbols row fv = some row1 ∧ row1.length = row.length ∧
      (∀ s, row1.getD s 0 = row.getD s 0 + (fv.count s : F)) ∧
      row1.sum = row.sum + (fv.length : F) := by
  induction fv generalizing row with
  | nil => exact ⟨row, rfl, rfl, by simp, by simp⟩
  | cons a rest ih =>
    have ha : a < row.length := hsym a (List.mem_cons_self _ _)
    have hrest : ∀ s ∈ rest, s < (row.set a (row.getD a 0 + 1)).length := by
      intro s hs
      simpa using hsym s (List.mem_cons_of_mem _ hs)
    obtain ⟨row1, hrun, hlen, hget, hsum⟩ := ih (row.set a (row.getD a 0 + 1)) hrest
    refine ⟨row1, ?_, ?_, ?_, ?_⟩
    · have hinc : increment row a = some (row.set a (row.getD a 0 + 1)) := by
        unfold increment
        rw [if_pos ha]
      rw [count_symbols, hinc]
      exact hrun
    · simpa using hlen
    · intro s
      rw [hget s, getD_set_add_one row a s ha, List.count_cons]
      by_cases has : a = s
      · simp [has]; ring
      · simp [has]
    · rw [hsum, sum_set_add_one row a ha]
      simp only [List.length_cons, Nat.cast_add, Nat.cast_one]
      ring

theorem spectrum_row_counts {F : Type} [Field F] (sqrt : F → F) (n : Nat) (fv : List Nat)
    (hsym : ∀ s ∈ fv, s < n) :
    ∃ row : List F, spectrum_row sqrt false (n : Int) fv = some row ∧ row.length = n ∧
      (∀ s, s < n → row[s]? = some (fv.count s : F)) ∧ row.sum = (fv.length : F) := by
  have hzero : (zero_row (n : Int) : Option (List F)) = some (List.replicate n 0) := by
    simp [zero_row]
  obtain ⟨row, hrun, hlen, hget, hsum⟩ :=
    count_symbols_spec fv (List.replicate n (0 : F)) (by simpa using hsym)
  refine ⟨row, ?_, by simpa using hlen, ?_, ?_⟩
  · simp [spectrum_row, hzero, hrun]
  · intro s hs
    have hs1 : s < row.length := by rw [hlen]; simpa using hs
    have h1 := hget s
    rw [List.getD_eq_getElem?_getD, List.getD_eq_getElem?_getD] at h1
    simp [List.getElem?_eq_getElem hs1, hs] at h1
    simp [List.getElem?_eq_getElem hs1, h1]
  · simpa using hsum

theorem spectrum_rows_counts {F : Type} [Field F] (sqrt : F → F) (str : CStringFeatures)
    (hsym : ∀ fv ∈ str.features, ∀ s ∈ fv, s < str.num_symbols) (remaining i : Nat)
    (hlen : i + remaining = str.features.length) :
    ∃ rows : List (List F),
      spectrum_rows sqrt false (str.num_symbols : Int) str remaining i = some rows ∧
      rows.length = remaining ∧
      ∀ j fv, str.features[i + j]? = some fv →
        ∃ row, rows[j]? = some row ∧ row.length = str.num_symbols ∧
          (∀ s, s < str.num_symbols → row[s]? = some (fv.count s : F)) ∧
          row.sum = (fv.length : F) := by
  induction remaining generalizing i with
  | zero =>
    refine ⟨[], rfl, rfl, ?_⟩
    intro j fv hj
    have hlt : i + j < str.features.length := by
      rcases Nat.lt_or_ge (i + j) str.features.length with h | h
      · exact h
      · rw [List.getElem?_eq_none h] at hj; cases hj
    omega
  | succ k ih =>
    have hi : i < str.features.length := by omega
    have hfv : str.get_feature_vector i = some str.features[i] := by
      simp [CStringFeatures.get_feature_vector, List.getElem?_eq_getElem hi]
    obtain ⟨row, hrow, hrlen, hrget, hrsum⟩ := spectrum_row_counts (F := F) sqrt
      str.num_symbols str.features[i] (hsym _ (List.getElem_mem _))
    obtain ⟨rest, hrest, hrestlen, hrestget⟩ := ih (i + 1) (by omega)
    refine ⟨row :: rest, ?_, by simp [hrestlen], ?_⟩
    · rw [spectrum_rows, hfv]
      simp only [hrow, hrest]
    · intro j fv hj
      cases j with
      | zero =>
        have hfveq : str.features[i] = fv := by
          simpa [List.getElem?_eq_getElem hi] using hj
        subst hfveq
        exact ⟨row, by simp, hrlen, hrget, hrsum⟩
      | succ j1 =>
        have hj1 : str.features[i + 1 + j1]? = some fv := by
          have : i + 1 + j1 = i + (j1 + 1) := by omega
          rw [this]; exact hj
        obtain ⟨r, hr, hr2⟩ := hrestget j1 fv hj1
        exact ⟨r, by simpa using hr, hr2⟩


/-- C30: without normalisation, when every symbol of every string is below spec_size,
obtain_kmer_spectrum returns, and for every string i and every symbol s below spec_size
the entry k_spectrum[i][s] is the number of positions of string i that hold s; row i has
spec_size entries and they sum to the length of string i. -/
theorem obtain_kmer_spectrum_counts {F : Type} [Field F] (sqrt : F → F)
    (self : CExplicitSpecFeatures F) (str : CStringFeatures)
    (hnorm : self.use_normalization = false)
    (hnum : self.num_strings = str.get_num_vectors)
    (hspec : self.spec_size = str.get_num_symbols)
    (hsym : ∀ fv ∈ str.features, ∀ s ∈ fv, s < str.num_symbols) :
    ∃ f : CExplicitSpecFeatures F,
      self.obtain_kmer_spectrum sqrt str = some f ∧
      f.k_spectrum.length = str.features.length ∧
      ∀ (i : Nat) (fv : List Nat), str.features[i]? = some fv →
        ∃ row : List F, f.k_spectrum[i]? = some row ∧ row.length = str.num_symbols ∧
          (∀ s, s < str.num_symbols → row[s]? = some (fv.count s : F)) ∧
          row.sum = (fv.length : F) := by
  obtain ⟨rows, hrows, hlen, hget⟩ :=
    spectrum_rows_counts (F := F) sqrt str hsym str.features.length 0 (by simp)
  refine ⟨{ self with k_spectrum := rows }, ?_, hlen, ?_⟩
  · simp [CExplicitSpecFeatures.obtain_kmer_spectrum, hnorm, hnum, hspec,
      CStringFeatures.get_num_vectors, CStringFeatures.get_num_symbols, hrows]
  · intro i fv hi
    exact hget i fv (by simpa using hi)

/-- C30, witness: the constructor without normalisation on the sample strings (0, 1, 0)
and (2, 2) over three symbols returns an object whose rows hold the counts of the
symbols. -/
theorem obtain_kmer_spectrum_counts_witness :
    ∃ f : CExplicitSpecFeatures ℚ,
      CExplicitSpecFeatures.construct (fun x => x) 0 (some sample_strings) false = some f ∧
      f.k_spectrum.length = 2 ∧
      ∀ (i : Nat) (fv : List Nat), sample_strings.features[i]? = some fv →
        ∃ row : List ℚ, f.k_spectrum[i]? = some row ∧ row.length = 3 ∧
          (∀ s, s < 3 → row[s]? = some (fv.count s : ℚ)) ∧
          row.sum = (fv.length : ℚ) :=
  obtain_kmer_spectrum_counts (fun x => x)
    { use_normalization := false, num_strings := sample_strings.get_num_vectors,
      alphabet_size := 0, spec_size := sample_strings.get_num_symbols, k_spectrum := [] }
    sample_strings rfl rfl rfl (by decide)

/-! ## Put on a value that is not cloneable -/

/-- C37, amended: for a registered parameter whose stored value is not cloneable, put of a
type T that is not a string type fails with "Cannot put parameter" for every T and every
value, before the types are compared; put of a string type goes through the option lookup
first and fails with "no options", with "illegal option" or, when the option resolves,
with "Cannot put parameter". In every case put fails and the heap is left as it was. -/
theorem put_not_cloneable (h : Heap) (self : Addr) (o : CSGObject) (T : Ty) (name : String)
    (value : Val) (p : AnyParameter) (hself : h.get? self = some o)
    (hp : map_find name o.params = some p) (hcl : p.value.cloneable = false) :
    (is_string T = false →
        put h self T name value = (.error (.NotCloneablePut o.name name), h)) ∧
      (is_string T = true →
        (map_find name o.m_string_to_enum_map = none →
          put h self T name value = (.error (.NoOptions o.name name), h)) ∧
        (∀ options, map_find name o.m_string_to_enum_map = some options →
          (map_find value.val_string options = none →
            put h self T name value =
              (.error (.IllegalOption value.val_string o.name name), h)) ∧
          (∀ c, map_find value.val_string options = some c →
            put h self T name value = (.error (.NotCloneablePut o.name name), h)))) ∧
      (put h self T name value).2 = h ∧ ∃ e, (put h self T name value).1 = .error e := by
  have hplain : is_string T = false →
      put h self T name value = (.error (.NotCloneablePut o.name name), h) := by
    intro hstr
    have hput : put h self T name value = put_typed h self T name value := by
      simp [put, hstr]
    rw [hput]
    exact put_typed_not_cloneable h self o T name value p hself hp hcl
  have hnone : is_string T = true → map_find name o.m_string_to_enum_map = none →
      put h self T name value = (.error (.NoOptions o.name name), h) := by
    intro hstr hno
    simp [put, hstr, put_string, hself, hno]
  have hkey : is_string T = true → ∀ options,
      map_find name o.m_string_to_enum_map = some options →
      map_find value.val_string options = none →
      put h self T name value =
        (.error (.IllegalOption value.val_string o.name name), h) := by
    intro hstr options hopts hk
    simp [put, hstr, put_string, hself, hopts, hk]
  have hcode : is_string T = true → ∀ options,
      map_find name o.m_string_to_enum_map = some options →
      ∀ c, map_find value.val_string options = some c →
      put h self T name value = (.error (.NotCloneablePut o.name name), h) := by
    intro hstr options hopts c hk
    have hput : put h self T name value =
        put_typed h self .machine_int name (.int c) := by
      simp [put, hstr, put_string, hself, hopts, hk]
    rw [hput]
    exact put_typed_not_cloneable h self o .machine_int name (.int c) p hself hp hcl
  refine ⟨hplain, fun hstr => ⟨hnone hstr, fun options hopts =>
    ⟨hkey hstr options hopts, hcode hstr options hopts⟩⟩, ?_⟩
  cases hstr : is_string T with
  | false =>
    rw [hplain hstr]
    exact ⟨rfl, _, rfl⟩
  | true =>
    cases hopts : map_find name o.m_string_to_enum_map with
    | none =>
      rw [hnone hstr hopts]
      exact ⟨rfl, _, rfl⟩
    | some options =>
      cases hk : map_find value.val_string options with
      | none =>
        rw [hkey hstr options hopts hk]
        exact ⟨rfl, _, rfl⟩
      | some c =>
        rw [hcode hstr options hopts c hk]
        exact ⟨rfl, _, rfl⟩

/-- C37, witness: "train" of the object with bound methods is registered with watch_method
and is not cloneable; put<machine_int_t> and put<bool> fail with "Cannot put parameter" and
leave the heap as it was. -/
theorem put_not_cloneable_witness :
    put method_heap 0 .machine_int "train" (.int 1) =
        (.error (.NotCloneablePut "Machine" "train"), method_heap) ∧
      put method_heap 0 .boolean "train" (.bool false) =
        (.error (.NotCloneablePut "Machine" "train"), method_heap) :=
  ⟨(put_not_cloneable method_heap 0 method_object .machine_int "train" (.int 1)
      ⟨⟨.function .boolean, .fn true⟩, ⟨"Non-const function", [.RUNFUNCTION, .READONLY]⟩,
        none⟩ rfl rfl rfl).1 rfl,
    (put_not_cloneable method_heap 0 method_object .boolean "train" (.bool false)
      ⟨⟨.function .boolean, .fn true⟩, ⟨"Non-const function", [.RUNFUNCTION, .READONLY]⟩,
        none⟩ rfl rfl rfl).1 rfl⟩

/-- C37, counterexample: "train" is registered and not cloneable, yet put<std::string> on
it fails with the "no options" error of the option lookup, whose kind is not that of
"Cannot put parameter". -/
theorem put_string_over_bound_method :
    (map_find "train" method_object.params).map (fun p => p.value.cloneable) =
        some false ∧
      put method_heap 0 .std_string "train" (.str "x") =
        (.error (.NoOptions "Machine" "train"), method_heap) ∧
      Err.NoOptions "Machine" "train" ≠ Err.NotCloneablePut "Machine" "train" ∧
      (Err.NoOptions "Machine" "train").kind ≠ (Err.NotCloneablePut "Machine" "train").kind :=
  ⟨rfl, rfl, by decide, by decide⟩

/-! ## Dot products and normalisation of explicit spectrum features -/

theorem spectrum_row_true {F : Type} [Zero F] [One F] [Add F] [Mul F] [Div F]
    (sqrt : F → F) (spec_size : Int)
    (fv : List Nat) :
    spectrum_row sqrt true spec_size fv =
      (spectrum_row sqrt false spec_size fv).map (normalize sqrt) := by
  cases hz : (zero_row spec_size : Option (List F)) with
  | none => simp [spectrum_row, hz]
  | some row0 =>
    cases hc : count_symbols row0 fv with
    | none => simp [spectrum_row, hz, hc]
    | some row => simp [spectrum_row, hz, hc]

theorem spectrum_rows_each {F : Type} [Zero F] [One F] [Add F] [Mul F] [Div F]
    (sqrt : F → F) (use_normalization : Bool)
    (spec_size : Int) (str : CStringFeatures)
    (hall : ∀ fv ∈ str.features,
      ∃ row, spectrum_row sqrt use_normalization spec_size fv = some row)
    (remaining i : Nat) (hlen : i + remaining = str.features.length) :
    ∃ rows : List (List F),
      spectrum_rows sqrt use_normalization spec_size str remaining i = some rows ∧
      rows.length = remaining ∧
      ∀ (j : Nat) (fv : List Nat), str.features[i + j]? = some fv →
        ∃ row, rows[j]? = some row ∧
          spectrum_row sqrt use_normalization spec_size fv = some row := by
  induction remaining generalizing i with
  | zero =>
    refine ⟨[], rfl, rfl, ?_⟩
    intro j fv hj
    have hlt : i + j < str.features.length := by
      rcases Nat.lt_or_ge (i + j) str.features.length with h | h
      · exact h
      · rw [List.getElem?_eq_none h] at hj; cases hj
    omega
  | succ k ih =>
    have hi : i < str.features.length := by omega
    have hfv : str.get_feature_vector i = some str.features[i] := by
      simp [CStringFeatures.get_feature_vector, List.getElem?_eq_getElem hi]
    obtain ⟨row, hrow⟩ := hall str.features[i] (List.getElem_mem _)
    obtain ⟨rest, hrest, hrestlen, hrestget⟩ := ih (i + 1) (by omega)
    refine ⟨row :: rest, ?_, by simp [hrestlen], ?_⟩
    · rw [spectrum_rows, hfv]
      simp only [hrow, hrest]
    · intro j fv hj
      cases j with
      | zero =>
        have hfveq : str.features[i] = fv := by
          simpa [List.getElem?_eq_getElem hi] using hj
        subst hfveq
        exact ⟨row, by simp, hrow⟩
      | succ j1 =>
        have hj1 : str.features[i + 1 + j1]? = some fv := by
          have : i + 1 + j1 = i + (j1 + 1) := by omega
          rw [this]; exact hj
        obtain ⟨r, hr, hr2⟩ := hrestget j1 fv hj1
        exact ⟨r, by simpa using hr, hr2⟩

theorem spectrum_row_some {F : Type} [Field F] (sqrt : F → F) (use_normalization : Bool)
    (n : Nat) (fv : List Nat) (hsym : ∀ s ∈ fv, s < n) :
    ∃ row : List F, spectrum_row sqrt use_normalization (n : Int) fv = some row ∧
      row.length = n := by
  obtain ⟨row, hrow, hlen, -, -⟩ := spectrum_row_counts (F := F) sqrt n fv hsym
  cases use_normalization with
  | false => exact ⟨row, hrow, hlen⟩
  | true =>
    refine ⟨normalize sqrt row, ?_, ?_⟩
    · rw [spectrum_row_true, hrow]; rfl
    · simp [normalize, hlen]

theorem obtain_kmer_spectrum_rows {F : Type} [Field F] (sqrt : F → F)
    (self : CExplicitSpecFeatures F) (str : CStringFeatures)
    (hnum : self.num_strings = str.get_num_vectors)
    (hspec : self.spec_size = str.get_num_symbols)
    (hsym : ∀ fv ∈ str.features, ∀ s ∈ fv, s < str.num_symbols) :
    ∃ f : CExplicitSpecFeatures F,
      self.obtain_kmer_spectrum sqrt str = some f ∧ f.allocated = true ∧
      f.num_strings = self.num_strings ∧ f.spec_size = self.spec_size ∧
      ∀ (i : Nat) (fv : List Nat), str.features[i]? = some fv →
        ∃ row, f.k_spectrum[i]? = some row ∧
          spectrum_row sqrt self.use_normalization (str.num_symbols : Int) fv =
            some row := by
  obtain ⟨rows, hrows, hlen, hget⟩ :=
    spectrum_rows_each (F := F) sqrt self.use_normalization (str.num_symbols : Int) str
      (fun fv hfv => by
        obtain ⟨row, hrow, -⟩ :=
          spectrum_row_some (F := F) sqrt self.use_normalization str.num_symbols fv
            (hsym fv hfv)
        exact ⟨row, hrow⟩)
      str.features.length 0 (by simp)
  refine ⟨{ self with k_spectrum := rows }, ?_, ?_, rfl, rfl, ?_⟩
  · simp [CExplicitSpecFeatures.obtain_kmer_spectrum, hnum, hspec,
      CStringFeatures.get_num_vectors, CStringFeatures.get_num_symbols, hrows]
  · simp only [CExplicitSpecFeatures.allocated, Bool.and_eq_true, decide_eq_true_eq,
      List.all_eq_true]
    refine ⟨by simp [hlen, hnum, CStringFeatures.get_num_vectors], ?_⟩
    intro row hrow
    obtain ⟨j, hj, hjrow⟩ := List.getElem_of_mem hrow
    have hjlt : j < str.features.length := by omega
    obtain ⟨row1, hr1, hr2⟩ := hget j str.features[j]
      (by simp [List.getElem?_eq_getElem hjlt])
    have heq : row1 = row := by
      rw [List.getElem?_eq_getElem hj] at hr1
      rw [← hjrow]
      exact (Option.some.inj hr1).symm
    subst heq
    obtain ⟨row2, hrow2, hlen2⟩ :=
      spectrum_row_some (F := F) sqrt self.use_normalization str.num_symbols
        str.features[j] (hsym _ (List.getElem_mem _))
    rw [hr2] at hrow2
    have : row1 = row2 := Option.some.inj hrow2
    rw [hspec, CStringFeatures.get_num_symbols, this, hlen2]
  · intro i fv hi
    exact hget i fv (by simpa using hi)

/-! ## Training a conditional probability tree -/

theorem leaves_find_append (k k0 : Int) (v : Nat) (m : List (Int × Nat)) :
    leaves_find k (m ++ [(k0, v)]) =
      match leaves_find k m with
      | some x => some x
      | none => if k0 = k then some v else none := by
  induction m with
  | nil => simp [leaves_find]
  | cons e rest ih =>
    obtain ⟨k1, v1⟩ := e
    by_cases h1 : k1 = k
    · simp [leaves_find, h1]
    · simp [leaves_find, h1, ih]

theorem leaves_find_insert (k k0 : Int) (v : Nat) (m : List (Int × Nat))
    (habs : leaves_find k0 m = none) :
    leaves_find k (leaves_insert k0 v m) = if k = k0 then some v else leaves_find k m := by
  simp only [leaves_insert, habs]
  rw [leaves_find_append]
  by_cases hk : k = k0
  · subst hk
    simp [habs]
  · have hk2 : ¬ k0 = k := fun h => hk h.symm
    cases leaves_find k m <;> simp [hk, hk2]

theorem leaves_find_erase (k k0 : Int) (m : List (Int × Nat)) :
    leaves_find k (leaves_erase k0 m) = if k = k0 then none else leaves_find k m := by
  induction m with
  | nil => simp [leaves_erase, leaves_find]
  | cons e rest ih =>
    obtain ⟨k1, v1⟩ := e
    simp only [leaves_erase] at ih ⊢
    by_cases hk : k = k0
    · subst hk
      simp only [if_true] at ih ⊢
      by_cases h1 : k1 = k <;> simp [h1, leaves_find, ih]
    · simp only [hk, if_false] at ih ⊢
      by_cases h1 : k1 = k0
      · have h2 : ¬ k0 = k := fun h => hk h.symm
        simp [h1, leaves_find, ih, h2]
      · simp [h1, leaves_find, ih]

theorem leaves_find_isSome_iff (k : Int) (m : List (Int × Nat)) :
    (leaves_find k m).isSome = true ↔ k ∈ m.map Prod.fst := by
  induction m with
  | nil => simp [leaves_find]
  | cons e rest ih =>
    obtain ⟨k1, v1⟩ := e
    by_cases h1 : k1 = k
    · simp [leaves_find, h1]
    · have h2 : ¬ k = k1 := fun h => h1 h.symm
      simp [leaves_find, h1, h2, ih]

theorem leaves_erase_keys (k0 : Int) (m : List (Int × Nat))
    (hnd : (m.map Prod.fst).Nodup) : ((leaves_erase k0 m).map Prod.fst).Nodup := by
  unfold leaves_erase
  exact List.Nodup.sublist (List.Sublist.map _ (List.filter_sublist _)) hnd

theorem leaves_insert_keys (k0 : Int) (v : Nat) (m : List (Int × Nat))
    (hnd : (m.map Prod.fst).Nodup) : ((leaves_insert k0 v m).map Prod.fst).Nodup := by
  unfold leaves_insert
  cases habs : leaves_find k0 m with
  | some x => simpa using hnd
  | none =>
    have hmem : k0 ∉ m.map Prod.fst := by
      intro hin
      have := (leaves_find_isSome_iff k0 m).2 hin
      simp [habs] at this
    simp only [List.map_append, List.map_cons, List.map_nil]
    exact List.Nodup.append hnd (List.nodup_singleton _)
      (by simpa [List.disjoint_singleton] using hmem)

theorem leaves_erase_length (k0 : Int) (v : Nat) (m : List (Int × Nat))
    (hnd : (m.map Prod.fst).Nodup) (hfind : leaves_find k0 m = some v) :
    (leaves_erase k0 m).length + 1 = m.length := by
  induction m with
  | nil => simp [leaves_find] at hfind
  | cons e rest ih =>
    obtain ⟨k1, v1⟩ := e
    simp only [List.map_cons, List.nodup_cons] at hnd
    by_cases h1 : k1 = k0
    · have hnot : k0 ∉ rest.map Prod.fst := by rw [← h1]; exact hnd.1
      have hall : leaves_erase k0 rest = rest := by
        unfold leaves_erase
        apply List.filter_eq_self.2
        intro e he
        have : e.1 ≠ k0 := by
          intro heq
          exact hnot (heq ▸ List.mem_map_of_mem _ he)
        simpa using this
      have hcons : leaves_erase k0 ((k1, v1) :: rest) = leaves_erase k0 rest := by
        simp [leaves_erase, h1]
      rw [hcons, hall]
      simp
    · have hrest : leaves_find k0 rest = some v := by
        simpa [leaves_find, h1] using hfind
      have hcons : leaves_erase k0 ((k1, v1) :: rest) = (k1, v1) :: leaves_erase k0 rest := by
        simp [leaves_erase, h1]
      rw [hcons]
      simp only [List.length_cons]
      rw [ih hnd.2 hrest]

theorem leaves_insert_length (k0 : Int) (v : Nat) (m : List (Int × Nat))
    (habs : leaves_find k0 m = none) : (leaves_insert k0 v m).length = m.length + 1 := by
  simp [leaves_insert, habs]

theorem countP_set_leaf {α : Type} (p : α → Bool) (l : List α) (i : Nat) (x y : α)
    (hy : l[i]? = some y) (hpy : p y = true) (hpx : p x = false) :
    (l.set i x).countP p + 1 = l.countP p := by
  induction l generalizing i with
  | nil => simp at hy
  | cons z rest ih =>
    cases i with
    | zero =>
      have hz : z = y := by simpa using hy
      subst hz
      simp [List.countP_cons, hpy, hpx]
    | succ j =>
      have hj : rest[j]? = some y := by simpa using hy
      simp only [List.set_cons_succ, List.countP_cons]
      have := ih j hj
      omega

theorem train_node_ok {F : Type} (t : CConditionalProbabilityTree F)
    (hinv : tree_invariant t) (a : Nat) (n : bnode_t F) (hn : t.nodes[a]? = some n) :
    t.train_node (some a) = some () := by
  have hm := hinv.machine a n hn
  simp [CConditionalProbabilityTree.train_node, hn, hm]

theorem train_path_loop_ok {F : Type} (t : CConditionalProbabilityTree F)
    (hinv : tree_invariant t) (fuel : Nat) (par : Option Nat)
    (hpar : ∀ p, par = some p → p < fuel ∧ p < t.nodes.length) :
    t.train_path_loop fuel par = some () := by
  induction fuel generalizing par with
  | zero =>
    cases par with
    | none => simp [CConditionalProbabilityTree.train_path_loop]
    | some p => exact absurd (hpar p rfl).1 (Nat.not_lt_zero _)
  | succ k ih =>
    cases par with
    | none => simp [CConditionalProbabilityTree.train_path_loop]
    | some p =>
      obtain ⟨hpk, hplen⟩ := hpar p rfl
      have hp : t.nodes[p]? = some t.nodes[p] := List.getElem?_eq_getElem hplen
      simp only [CConditionalProbabilityTree.train_path_loop,
        train_node_ok t hinv p _ hp, hp]
      apply ih
      intro q hq
      have hqp := hinv.parent p _ q hp hq
      exact ⟨by omega, by omega⟩

theorem train_path_ok {F : Type} (t : CConditionalProbabilityTree F)
    (hinv : tree_invariant t) (fuel : Nat) (a : Nat) (n : bnode_t F)
    (hn : t.nodes[a]? = some n) (hfuel : t.nodes.length ≤ fuel) :
    t.train_path fuel a = some () := by
  have ha : a < t.nodes.length := by
    rcases Nat.lt_or_ge a t.nodes.length with h | h
    · exact h
    · rw [List.getElem?_eq_none h] at hn; cases hn
  simp only [CConditionalProbabilityTree.train_path, train_node_ok t hinv a n hn, hn]
  apply train_path_loop_ok t hinv
  intro q hq
  have hqa := hinv.parent a n q hn hq
  exact ⟨by omega, by omega⟩

theorem descend_ok {F : Type} (t : CConditionalProbabilityTree F)
    (hinv : tree_invariant t) (which_subtree : Nat → Bool) (fuel : Nat) (a : Nat)
    (ha : a < t.nodes.length) (hfuel : t.nodes.length ≤ fuel + a) :
    ∃ b n, t.descend which_subtree fuel a = some b ∧ t.nodes[b]? = some n ∧
      n.m_left = none := by
  induction fuel generalizing a with
  | zero =>
    omega
  | succ k ih =>
    have hn : t.nodes[a]? = some t.nodes[a] := List.getElem?_eq_getElem ha
    rcases hinv.children a _ hn with ⟨hl, -⟩ | ⟨l, r, hl, hr, hal, hll, har, hrl, -, -⟩
    · refine ⟨a, _, ?_, hn, hl⟩
      rw [CConditionalProbabilityTree.descend]
      simp [hn, hl]
    · rw [CConditionalProbabilityTree.descend]
      simp only [hn, hl, hr, train_node_ok t hinv a _ hn]
      by_cases hw : which_subtree a = true
      · simp only [hw, if_true]
        exact ih l hll (by omega)
      · simp only [hw]
        exact ih r hrl (by omega)

theorem split_lookup {F : Type} (nodes : List (bnode_t F)) (a : Nat) (n1 nl nr : bnode_t F)
    (ha : a < nodes.length) (b : Nat) (m : bnode_t F)
    (hb : (nodes.set a n1 ++ [nl, nr])[b]? = some m) :
    (b = a ∧ m = n1) ∨ (b ≠ a ∧ b < nodes.length ∧ nodes[b]? = some m) ∨
      (b = nodes.length ∧ m = nl) ∨ (b = nodes.length + 1 ∧ m = nr) := by
  rcases Nat.lt_or_ge b nodes.length with hlt | hge
  · rw [List.getElem?_append_left (by simpa using hlt)] at hb
    by_cases hba : b = a
    · subst hba
      left
      rw [List.getElem?_set_self (by simpa using ha)] at hb
      exact ⟨rfl, (Option.some.inj hb).symm⟩
    · right; left
      rw [List.getElem?_set_ne (fun h => hba h.symm)] at hb
      exact ⟨hba, hlt, hb⟩
  · rw [List.getElem?_append_right (by simpa using hge)] at hb
    simp only [List.length_set] at hb
    right; right
    rcases Nat.lt_or_ge (b - nodes.length) 1 with h0 | h1
    · have hb0 : b - nodes.length = 0 := by omega
      rw [hb0] at hb
      left
      exact ⟨by omega, by simpa using hb.symm⟩
    · rcases Nat.lt_or_ge (b - nodes.length) 2 with h2 | h3
      · have hb1 : b - nodes.length = 1 := by omega
        rw [hb1] at hb
        right
        exact ⟨by omega, by simpa using hb.symm⟩
      · rw [List.getElem?_eq_none (by simpa using h3)] at hb
        cases hb

theorem split_lookup_old {F : Type} (nodes : List (bnode_t F)) (a : Nat)
    (n1 nl nr : bnode_t F) (b : Nat) (hba : b ≠ a) (hb : b < nodes.length) :
    (nodes.set a n1 ++ [nl, nr])[b]? = nodes[b]? := by
  rw [List.getElem?_append_left (by simpa using hb),
    List.getElem?_set_ne (fun h => hba h.symm)]

theorem split_lookup_left {F : Type} (nodes : List (bnode_t F)) (a : Nat)
    (n1 nl nr : bnode_t F) :
    (nodes.set a n1 ++ [nl, nr])[nodes.length]? = some nl := by
  rw [List.getElem?_append_right (by simp)]
  simp

theorem split_lookup_right {F : Type} (nodes : List (bnode_t F)) (a : Nat)
    (n1 nl nr : bnode_t F) :
    (nodes.set a n1 ++ [nl, nr])[nodes.length + 1]? = some nr := by
  rw [List.getElem?_append_right (by simp)]
  simp

theorem split_leaves_find {F : Type} (t : CConditionalProbabilityTree F)
    (hinv : tree_invariant t) (a : Nat) (n : bnode_t F) (label : Int) (x y : Nat)
    (hn : t.nodes[a]? = some n) (hleaf : n.m_left = none)
    (habs : leaves_find label t.m_leaves = none) (k : Int) :
    leaves_find k (leaves_insert label y (leaves_insert n.label x
        (leaves_erase n.label t.m_leaves))) =
      if k = label then some y else if k = n.label then some x
      else leaves_find k t.m_leaves := by
  have hfound := hinv.label_of_leaf a n hn hleaf
  have hne : label ≠ n.label := by
    intro h
    rw [h, hfound] at habs
    cases habs
  have h1 : leaves_find n.label (leaves_erase n.label t.m_leaves) = none := by
    rw [leaves_find_erase]; simp
  have h2 : leaves_find label (leaves_insert n.label x
      (leaves_erase n.label t.m_leaves)) = none := by
    rw [leaves_find_insert _ _ _ _ h1, leaves_find_erase]
    simp [hne, habs]
  rw [leaves_find_insert _ _ _ _ h2, leaves_find_insert _ _ _ _ h1, leaves_find_erase]
  by_cases hk1 : k = label
  · simp [hk1]
  · by_cases hk2 : k = n.label <;> simp [hk1, hk2]

theorem split_invariant {F : Type} (t : CConditionalProbabilityTree F)
    (hinv : tree_invariant t) (root a : Nat) (n : bnode_t F) (label : Int) (p0 : F)
    (hroot : t.m_root = some root) (hn : t.nodes[a]? = some n) (hleaf : n.m_left = none)
    (habs : leaves_find label t.m_leaves = none) :
    tree_invariant
      { nodes := t.nodes.set a
          { n with label := -1, m_left := some t.nodes.length,
                   m_right := some (t.nodes.length + 1) } ++
          [{ m_parent := some a, m_left := none, m_right := none, label := n.label,
             p_right := p0, m_machine := t.m_machines },
           { m_parent := some a, m_left := none, m_right := none, label := label,
             p_right := p0, m_machine := t.m_machines + 1 }],
        m_root := some root,
        m_leaves := leaves_insert label (t.nodes.length + 1)
          (leaves_insert n.label t.nodes.length (leaves_erase n.label t.m_leaves)),
        m_machines := t.m_machines + 2 } := by
  have ha : a < t.nodes.length := by
    rcases Nat.lt_or_ge a t.nodes.length with h | h
    · exact h
    · rw [List.getElem?_eq_none h] at hn; cases hn
  have hfound := hinv.label_of_leaf a n hn hleaf
  have hne : label ≠ n.label := by
    intro h
    rw [h, hfound] at habs
    cases habs
  have hfind := split_leaves_find t hinv a n label t.nodes.length (t.nodes.length + 1) hn
    hleaf habs
  have h1 : leaves_find n.label (leaves_erase n.label t.m_leaves) = none := by
    rw [leaves_find_erase]; simp
  have h2 : leaves_find label (leaves_insert n.label t.nodes.length
      (leaves_erase n.label t.m_leaves)) = none := by
    rw [leaves_find_insert _ _ _ _ h1, leaves_find_erase]
    simp [hne, habs]
  constructor
  · intro r hr
    have hrr : root = r := by simpa using hr
    have := hinv.root root hroot
    simp only [List.length_append, List.length_set, List.length_cons, List.length_nil]
    omega
  · intro h
    cases h
  · intro b m hb
    simp only [List.length_append, List.length_set, List.length_cons, List.length_nil]
    rcases split_lookup t.nodes a _ _ _ ha b m hb with
      ⟨hba, hm⟩ | ⟨hba, hblt, hbm⟩ | ⟨hbl, hm⟩ | ⟨hbr, hm⟩
    · right
      refine ⟨t.nodes.length, t.nodes.length + 1, ?_, ?_, ?_, ?_, ?_, ?_, ?_, ?_⟩ <;>
        first
          | (rw [hm])
          | omega
    · rcases hinv.children b m hbm with hl | ⟨l, r, hl, hr, h3, h4, h5, h6, h7, h8⟩
      · left; exact hl
      · right
        exact ⟨l, r, hl, hr, h3, by omega, h5, by omega, h7, h8⟩
    · left; rw [hm]; exact ⟨rfl, rfl⟩
    · left; rw [hm]; exact ⟨rfl, rfl⟩
  · intro b m p hb hp
    rcases split_lookup t.nodes a _ _ _ ha b m hb with
      ⟨hba, hm⟩ | ⟨hba, hblt, hbm⟩ | ⟨hbl, hm⟩ | ⟨hbr, hm⟩
    · rw [hm] at hp
      rw [hba]
      exact hinv.parent a n p hn hp
    · exact hinv.parent b m p hbm hp
    · rw [hm] at hp
      have : a = p := by simpa using hp
      omega
    · rw [hm] at hp
      have : a = p := by simpa using hp
      omega
  · intro b m hb
    rcases split_lookup t.nodes a _ _ _ ha b m hb with
      ⟨hba, hm⟩ | ⟨hba, hblt, hbm⟩ | ⟨hbl, hm⟩ | ⟨hbr, hm⟩
    · have := hinv.machine a n hn
      rw [hm]
      simp only [Nat.cast_add, Nat.cast_ofNat]
      omega
    · have := hinv.machine b m hbm
      simp only [Nat.cast_add, Nat.cast_ofNat]
      omega
    · rw [hm]
      simp only [Nat.cast_add, Nat.cast_ofNat]
      omega
    · rw [hm]
      simp only [Nat.cast_add, Nat.cast_ofNat, Nat.cast_one]
      omega
  · intro k x hk
    simp only [] at hk
    rw [hfind k] at hk
    by_cases hk1 : k = label
    · simp only [hk1, if_true] at hk
      have hx : t.nodes.length + 1 = x := Option.some.inj hk
      rw [← hx]
      exact ⟨_, split_lookup_right t.nodes a _ _ _, rfl, hk1.symm⟩
    · by_cases hk2 : k = n.label
      · have hk3 : ¬ n.label = label := fun h => hne h.symm
        simp only [hk2, hk3, if_true, if_false] at hk
        have hx : t.nodes.length = x := Option.some.inj hk
        rw [← hx]
        exact ⟨_, split_lookup_left t.nodes a _ _ _, rfl, hk2.symm⟩
      · simp only [hk1, hk2, if_false] at hk
        obtain ⟨m, hm, hml, hmk⟩ := hinv.leaf_of_label k x hk
        have hxa : x ≠ a := by
          intro h
          rw [h, hn] at hm
          have : n = m := Option.some.inj hm
          rw [← this] at hmk
          exact hk2 hmk.symm
        have hxlt : x < t.nodes.length := by
          rcases Nat.lt_or_ge x t.nodes.length with h | h
          · exact h
          · rw [List.getElem?_eq_none h] at hm; cases hm
        exact ⟨m, by rw [split_lookup_old t.nodes a _ _ _ x hxa hxlt]; exact hm, hml, hmk⟩
  · intro b m hb hml
    simp only []
    rw [hfind]
    rcases split_lookup t.nodes a _ _ _ ha b m hb with
      ⟨hba, hm⟩ | ⟨hba, hblt, hbm⟩ | ⟨hbl, hm⟩ | ⟨hbr, hm⟩
    · rw [hm] at hml
      cases hml
    · have hold := hinv.label_of_leaf b m hbm hml
      have hm1 : m.label ≠ label := by
        intro h
        rw [h, habs] at hold
        cases hold
      have hm2 : m.label ≠ n.label := by
        intro h
        rw [h, hfound] at hold
        exact hba (Option.some.inj hold).symm
      simp [hm1, hm2, hold]
    · rw [hm, hbl]
      simp [hne.symm]
    · rw [hm, hbr]
      simp
  · exact leaves_insert_keys _ _ _ (leaves_insert_keys _ _ _
      (leaves_erase_keys _ _ hinv.keys))
  · simp only [List.countP_append]
    have hc := countP_set_leaf (fun m : bnode_t F => m.m_left.isNone) t.nodes a
      { n with label := -1, m_left := some t.nodes.length,
               m_right := some (t.nodes.length + 1) } n hn (by simp [hleaf]) (by simp)
    have hl1 := leaves_erase_length n.label a t.m_leaves hinv.keys hfound
    rw [leaves_insert_length _ _ _ h2, leaves_insert_length _ _ _ h1]
    have hcount := hinv.count
    simp only [List.countP_cons, List.countP_nil, Option.isNone_none, if_true]
    omega

theorem empty_invariant (F : Type) : tree_invariant (CConditionalProbabilityTree.empty F) := by
  constructor <;> simp [CConditionalProbabilityTree.empty, leaves_find]

theorem singleton_lookup {α : Type} (x y : α) (a : Nat) (h : [x][a]? = some y) :
    a = 0 ∧ y = x := by
  cases a with
  | zero => exact ⟨rfl, by simpa using h.symm⟩
  | succ b => simp at h

theorem first_invariant {F : Type} (label : Int) (p0 : F) (machines : Nat) :
    tree_invariant
      ({ nodes := [{ m_parent := none, m_left := none, m_right := none, label := label,
                     p_right := p0, m_machine := machines }],
         m_root := some 0, m_leaves := [(label, 0)], m_machines := machines + 1 } :
        CConditionalProbabilityTree F) := by
  constructor
  · intro r hr
    have : 0 = r := by simpa using hr
    simp [← this]
  · intro h
    cases h
  · intro a n hn
    obtain ⟨-, hn0⟩ := singleton_lookup _ _ a hn
    left
    rw [hn0]
    exact ⟨rfl, rfl⟩
  · intro a n p hn hp
    obtain ⟨-, hn0⟩ := singleton_lookup _ _ a hn
    rw [hn0] at hp
    cases hp
  · intro a n hn
    obtain ⟨-, hn0⟩ := singleton_lookup _ _ a hn
    rw [hn0]
    simp only [Nat.cast_add, Nat.cast_one]
    omega
  · intro k a hk
    by_cases hkl : label = k
    · have : a = 0 := by simpa [leaves_find, hkl] using hk.symm
      rw [this]
      exact ⟨_, rfl, rfl, hkl⟩
    · simp [leaves_find, hkl] at hk
  · intro a n hn hl
    obtain ⟨ha0, hn0⟩ := singleton_lookup _ _ a hn
    rw [hn0, ha0]
    simp [leaves_find]
  · simp
  · simp

theorem train_example_invariant {F : Type} [Field F] (t : CConditionalProbabilityTree F)
    (hinv : tree_invariant t) (which_subtree : Nat → Bool) (fuel : Nat) (label : Int)
    (hfuel : t.nodes.length ≤ fuel) :
    ∃ t1, t.train_example which_subtree fuel label = some t1 ∧ tree_invariant t1 ∧
      (∀ k, (leaves_find k t1.m_leaves).isSome = true ↔
        (k = label ∨ (leaves_find k t.m_leaves).isSome = true)) ∧
      t1.nodes.length ≤ t.nodes.length + 2 := by
  cases hroot : t.m_root with
  | none =>
    obtain ⟨hnodes, hleaves⟩ := hinv.no_root hroot
    have hstep : t.train_example which_subtree fuel label =
        some { nodes := [{ m_parent := none, m_left := none, m_right := none,
                           label := label, p_right := (bnode_t.new F).p_right,
                           m_machine := t.m_machines }],
               m_root := some 0, m_leaves := [(label, 0)],
               m_machines := t.m_machines + 1 } := by
      simp [CConditionalProbabilityTree.train_example, hroot, hnodes, hleaves,
        leaves_insert, leaves_find]
    refine ⟨_, hstep, first_invariant label _ _, ?_, ?_⟩
    · intro k
      simp only [hleaves, leaves_find]
      by_cases hk : label = k
      · simp [hk]
      · have hk2 : ¬ k = label := fun h => hk h.symm
        simp [hk, hk2]
    · simp
  | some root =>
    cases hfind : leaves_find label t.m_leaves with
    | some leaf =>
      obtain ⟨n, hn, -, -⟩ := hinv.leaf_of_label label leaf hfind
      refine ⟨t, ?_, hinv, ?_, by omega⟩
      · simp only [CConditionalProbabilityTree.train_example, hroot, hfind,
          train_path_ok t hinv fuel leaf n hn hfuel]
      · intro k
        constructor
        · intro h; exact Or.inr h
        · rintro (h | h)
          · rw [h, hfind]; rfl
          · exact h
    | none =>
      have hr := hinv.root root hroot
      obtain ⟨a, n, hdesc, hn, hleaf⟩ :=
        descend_ok t hinv which_subtree fuel root hr (by omega)
      have hm := hinv.machine a n hn
      refine ⟨_, ?_, split_invariant t hinv root a n label (bnode_t.new F).p_right hroot hn
        hleaf hfind, ?_, ?_⟩
      · simp only [CConditionalProbabilityTree.train_example, hroot, hfind, hdesc, hn, hm,
          and_self, if_true]
      · intro k
        simp only []
        rw [split_leaves_find t hinv a n label _ _ hn hleaf hfind k]
        have hfound := hinv.label_of_leaf a n hn hleaf
        by_cases hk1 : k = label
        · simp [hk1]
        · by_cases hk2 : k = n.label
          · subst hk2
            simp [hk1, hfound]
          · simp [hk1, hk2]
      · simp

theorem train_all_invariant {F : Type} [Field F] (calls : List (Int × (Nat → Bool)))
    (t : CConditionalProbabilityTree F) (seen : List Int) (fuel : Nat)
    (hinv : tree_invariant t)
    (hseen : ∀ k, (leaves_find k t.m_leaves).isSome = true ↔ k ∈ seen)
    (hlen : t.nodes.length ≤ 2 * seen.length)
    (hfuel : 2 * (seen.length + calls.length) ≤ fuel) :
    ∃ t1, CConditionalProbabilityTree.train_all fuel t calls = some t1 ∧
      tree_invariant t1 ∧
      (∀ k, (leaves_find k t1.m_leaves).isSome = true ↔
        k ∈ seen ++ calls.map Prod.fst) ∧
      t1.nodes.length ≤ 2 * (seen.length + calls.length) := by
  induction calls generalizing t seen with
  | nil =>
    exact ⟨t, rfl, hinv, by simpa using hseen, by simpa using hlen⟩
  | cons c rest ih =>
    obtain ⟨label, which_subtree⟩ := c
    simp only [List.length_cons] at hfuel
    obtain ⟨t1, hstep, hinv1, hseen1, hlen1⟩ :=
      train_example_invariant t hinv which_subtree fuel label (by omega)
    obtain ⟨t2, hrun, hinv2, hseen2, hlen2⟩ := ih t1 (seen ++ [label]) hinv1
      (by
        intro k
        rw [hseen1 k, hseen k]
        simp [or_comm])
      (by simp only [List.length_append, List.length_cons, List.length_nil]; omega)
      (by simp only [List.length_append, List.length_cons, List.length_nil]; omega)
    refine ⟨t2, ?_, hinv2, ?_, ?_⟩
    · simp only [CConditionalProbabilityTree.train_all, hstep]
      exact hrun
    · intro k
      rw [hseen2 k]
      simp
    · simp only [List.length_append, List.length_cons, List.length_nil] at hlen2
      simp only [List.length_cons]
      omega

theorem invariant_well_formed {F : Type} (t : CConditionalProbabilityTree F)
    (hinv : tree_invariant t) : t.well_formed := by
  refine ⟨?_, ?_⟩
  · intro n hn
    obtain ⟨a, ha, hna⟩ := List.getElem_of_mem hn
    have hget : t.nodes[a]? = some n := by rw [List.getElem?_eq_getElem ha, hna]
    rcases hinv.children a n hget with h | ⟨l, r, hl, hr, -, -, -, -, -, hlab⟩
    · exact Or.inl h
    · exact Or.inr ⟨by simp [hl], by simp [hr], hlab⟩
  · intro k a
    constructor
    · intro hk
      obtain ⟨n, hn, hl, hlab⟩ := hinv.leaf_of_label k a hk
      rcases hinv.children a n hn with h | ⟨l, r, hl2, -⟩
      · exact ⟨n, hn, h.1, h.2, hlab⟩
      · rw [hl] at hl2; cases hl2
    · rintro ⟨n, hn, hl, -, hlab⟩
      rw [← hlab]
      exact hinv.label_of_leaf a n hn hl

theorem keys_length_eq_distinct (m : List (Int × Nat)) (labels : List Int)
    (hnd : (m.map Prod.fst).Nodup)
    (hkeys : ∀ k, (leaves_find k m).isSome = true ↔ k ∈ labels) :
    m.length = labels.dedup.length := by
  have hperm : (m.map Prod.fst).Perm labels.dedup := by
    apply (List.perm_ext_iff_of_nodup hnd (List.nodup_dedup _)).2
    intro k
    rw [← leaves_find_isSome_iff, hkeys k, List.mem_dedup]
  have := hperm.length_eq
  simpa using this

/-- C31: starting from the empty tree, every sequence of train_example calls returns, as
soon as the fuel is twice the number of calls, and the tree after it is well formed: every
node has no child or two, every node with children carries the label -1, and m_leaves
maps a label to a node exactly when the node is a leaf carrying that label; its labels are
the labels seen, and the number of leaves is the number of distinct labels seen. -/
theorem train_example_well_formed {F : Type} [Field F]
    (calls : List (Int × (Nat → Bool))) (fuel : Nat) (hfuel : 2 * calls.length ≤ fuel) :
    ∃ t : CConditionalProbabilityTree F,
      CConditionalProbabilityTree.train_all fuel (CConditionalProbabilityTree.empty F)
        calls = some t ∧
      t.well_formed ∧
      (∀ k, (leaves_find k t.m_leaves).isSome = true ↔ k ∈ calls.map Prod.fst) ∧
      t.nodes.countP (fun n => n.m_left.isNone) = (calls.map Prod.fst).dedup.length := by
  obtain ⟨t, hrun, hinv, hseen, -⟩ :=
    train_all_invariant calls (CConditionalProbabilityTree.empty F) [] fuel
      (empty_invariant F) (by simp [CConditionalProbabilityTree.empty, leaves_find])
      (by simp [CConditionalProbabilityTree.empty]) (by simpa using hfuel)
  have hseen1 : ∀ k, (leaves_find k t.m_leaves).isSome = true ↔ k ∈ calls.map Prod.fst := by
    intro k
    simpa using hseen k
  refine ⟨t, hrun, invariant_well_formed t hinv, hseen1, ?_⟩
  rw [hinv.count]
  exact keys_length_eq_distinct t.m_leaves _ hinv.keys hseen1

theorem train_example_well_formed_witness :
    2 * sample_calls.length ≤ 8 ∧
    ∃ t : CConditionalProbabilityTree ℚ,
      CConditionalProbabilityTree.train_all 8 (CConditionalProbabilityTree.empty ℚ)
        sample_calls = some t ∧
      t.well_formed ∧
      (∀ k, (leaves_find k t.m_leaves).isSome = true ↔ k ∈ sample_calls.map Prod.fst) ∧
      t.nodes.countP (fun n => n.m_left.isNone) =
        (sample_calls.map Prod.fst).dedup.length :=
  ⟨by decide, train_example_well_formed sample_calls 8 (by decide)⟩

/-! ## Accumulated conditional probabilities -/

theorem accumulate_loop_mul {F : Type} [Field F] (nodes : List (bnode_t F)) (fuel : Nat)
    (prob : F) (leaf : Nat) (par : Option Nat) :
    accumulate_loop nodes fuel prob leaf par =
      (accumulate_loop nodes fuel 1 leaf par).map (fun v => prob * v) := by
  induction fuel generalizing prob leaf par with
  | zero =>
    cases par with
    | none => simp [accumulate_loop]
    | some p => simp [accumulate_loop]
  | succ k ih =>
    cases par with
    | none => simp [accumulate_loop]
    | some p =>
      cases hp : nodes[p]? with
      | none => simp [accumulate_loop, hp]
      | some pn =>
        simp only [accumulate_loop, hp]
        rw [ih (if pn.m_left = some leaf then prob * (1 - pn.p_right)
          else prob * pn.p_right),
          ih (if pn.m_left = some leaf then 1 * (1 - pn.p_right) else 1 * pn.p_right)]
        cases accumulate_loop nodes k 1 p pn.m_parent with
        | none => rfl
        | some v =>
          by_cases hl : pn.m_left = some leaf <;> simp [hl, mul_assoc]

theorem accumulate_loop_mono {F : Type} [Field F] (nodes : List (bnode_t F)) (fuel : Nat)
    (prob : F) (leaf : Nat) (par : Option Nat) (v : F)
    (h : accumulate_loop nodes fuel prob leaf par = some v) :
    accumulate_loop nodes (fuel + 1) prob leaf par = some v := by
  induction fuel generalizing prob leaf par with
  | zero =>
    cases par with
    | none => simpa [accumulate_loop] using h
    | some p => simp [accumulate_loop] at h
  | succ k ih =>
    cases par with
    | none => simpa [accumulate_loop] using h
    | some p =>
      cases hp : nodes[p]? with
      | none => simp [accumulate_loop, hp] at h
      | some pn =>
        simp only [accumulate_loop, hp] at h
        rw [accumulate_loop, hp]
        exact ih _ _ _ h

theorem accumulate_mono {F : Type} [Field F] (nodes : List (bnode_t F)) (fuel fuel1 : Nat)
    (a : Nat) (v : F) (hle : fuel ≤ fuel1)
    (h : accumulate_conditional_probability nodes fuel (some a) = some v) :
    accumulate_conditional_probability nodes fuel1 (some a) = some v := by
  induction fuel1 with
  | zero =>
    have h0 : fuel = 0 := by omega
    rw [h0] at h
    exact h
  | succ k ih =>
    rcases Nat.lt_or_ge k fuel with hlt | hge
    · have heq : fuel = k + 1 := by omega
      rw [← heq]
      exact h
    · have hk := ih hge
      cases hn : nodes[a]? with
      | none => simp [accumulate_conditional_probability, hn] at hk
      | some n =>
        simp only [accumulate_conditional_probability, hn] at hk ⊢
        exact accumulate_loop_mono nodes k 1 a n.m_parent v hk

theorem accumulate_root {F : Type} [Field F] (nodes : List (bnode_t F)) (fuel : Nat)
    (a : Nat) (n : bnode_t F) (hn : nodes[a]? = some n) (hpar : n.m_parent = none) :
    accumulate_conditional_probability nodes fuel (some a) = some 1 := by
  simp only [accumulate_conditional_probability, hn, hpar]
  cases fuel <;> simp [accumulate_loop]

theorem accumulate_child {F : Type} [Field F] (nodes : List (bnode_t F)) (fuel : Nat)
    (c p : Nat) (cn pn : bnode_t F) (v : F) (hc : nodes[c]? = some cn)
    (hpar : cn.m_parent = some p) (hp : nodes[p]? = some pn)
    (hv : accumulate_conditional_probability nodes fuel (some p) = some v) :
    accumulate_conditional_probability nodes (fuel + 1) (some c) =
      some ((if pn.m_left = some c then 1 - pn.p_right else pn.p_right) * v) := by
  simp only [accumulate_conditional_probability, hp] at hv
  simp only [accumulate_conditional_probability, hc, hpar, accumulate_loop, hp]
  rw [accumulate_loop_mul, hv]
  by_cases hl : pn.m_left = some c <;> simp [hl]

theorem represents_leaf {F : Type} (nodes : List (bnode_t F)) (par : Option Nat) (a : Nat)
    (h : represents nodes par (.leaf a) = true) :
    ∃ n, nodes[a]? = some n ∧ n.m_parent = par ∧ n.m_left = none ∧ n.m_right = none := by
  cases hn : nodes[a]? with
  | none => simp [represents, hn] at h
  | some n => exact ⟨n, rfl, by simpa [represents, hn] using h⟩

theorem represents_node {F : Type} (nodes : List (bnode_t F)) (par : Option Nat) (a : Nat)
    (l r : Shape) (h : represents nodes par (.node a l r) = true) :
    (∃ n, nodes[a]? = some n ∧ n.m_parent = par ∧ n.m_left = some l.root ∧
        n.m_right = some r.root) ∧
      represents nodes (some a) l = true ∧ represents nodes (some a) r = true := by
  cases hn : nodes[a]? with
  | none => simp [represents, hn] at h
  | some n =>
    simp only [represents, hn, Bool.and_eq_true, decide_eq_true_eq] at h
    exact ⟨⟨n, rfl, h.1.1⟩, h.1.2, h.2⟩

theorem represents_root {F : Type} (nodes : List (bnode_t F)) (par : Option Nat)
    (s : Shape) (h : represents nodes par s = true) :
    ∃ n, nodes[s.root]? = some n ∧ n.m_parent = par := by
  cases s with
  | leaf a =>
    obtain ⟨n, hn, hp, -, -⟩ := represents_leaf nodes par a h
    exact ⟨n, hn, hp⟩
  | node a l r =>
    obtain ⟨⟨n, hn, hp, -, -⟩, -, -⟩ := represents_node nodes par a l r h
    exact ⟨n, hn, hp⟩

theorem Shape.root_mem_addresses (s : Shape) : s.root ∈ s.addresses := by
  cases s <;> simp [Shape.root, Shape.addresses]

theorem subtree_sum {F : Type} [LinearOrderedField F] (nodes : List (bnode_t F))
    (s : Shape) (par : Option Nat) (fuel0 fuel : Nat) (v : F)
    (hrep : represents nodes par s = true) (hnd : s.addresses.Nodup)
    (hp : ∀ a ∈ s.internal, ∀ n, nodes[a]? = some n → 0 ≤ n.p_right ∧ n.p_right ≤ 1)
    (hv : accumulate_conditional_probability nodes fuel0 (some s.root) = some v)
    (hv0 : 0 ≤ v) (hfuel : fuel0 + s.depth ≤ fuel) :
    (∀ a ∈ s.leaves, ∃ w, accumulate_conditional_probability nodes fuel (some a) = some w ∧
        0 ≤ w ∧ w ≤ v) ∧
      (s.leaves.map
        (fun a => (accumulate_conditional_probability nodes fuel (some a)).getD 0)).sum =
        v := by
  induction s generalizing par fuel0 v with
  | leaf a =>
    have hacc := accumulate_mono nodes fuel0 fuel a v (by omega) hv
    refine ⟨?_, ?_⟩
    · intro b hb
      have hba : b = a := by simpa [Shape.leaves] using hb
      subst hba
      exact ⟨v, hacc, hv0, le_refl _⟩
    · simp [Shape.leaves, hacc]
  | node a l r ihl ihr =>
    obtain ⟨⟨n, hn, -, hleft, hright⟩, hrl, hrr⟩ := represents_node nodes par a l r hrep
    obtain ⟨ln, hln, hlpar⟩ := represents_root nodes (some a) l hrl
    obtain ⟨rn, hrn, hrpar⟩ := represents_root nodes (some a) r hrr
    simp only [Shape.addresses, List.nodup_cons, List.mem_append, not_or,
      List.nodup_append] at hnd
    obtain ⟨-, hndl, hndr, hdisj⟩ := hnd
    have hne : l.root ≠ r.root := by
      intro heq
      exact hdisj (Shape.root_mem_addresses l) (heq ▸ Shape.root_mem_addresses r)
    obtain ⟨hp0, hp1⟩ := hp a (by simp [Shape.internal]) n hn
    have hvl := accumulate_child nodes fuel0 l.root a ln n v hln hlpar hn hv
    have hvr := accumulate_child nodes fuel0 r.root a rn n v hrn hrpar hn hv
    have hnotleft : ¬ n.m_left = some r.root := by
      rw [hleft]
      intro h
      exact hne (Option.some.inj h)
    simp only [hleft, if_true] at hvl
    simp only [hnotleft, if_false] at hvr
    have hdepth : (Shape.node a l r).depth = max l.depth r.depth + 1 := rfl
    have hfl : fuel0 + 1 + l.depth ≤ fuel := by
      have := le_max_left l.depth r.depth
      omega
    have hfr : fuel0 + 1 + r.depth ≤ fuel := by
      have := le_max_right l.depth r.depth
      omega
    obtain ⟨hl1, hl2⟩ := ihl (some a) (fuel0 + 1) ((1 - n.p_right) * v) hrl hndl
      (fun b hb => hp b (by simp [Shape.internal, hb])) hvl
      (mul_nonneg (by linarith) hv0) hfl
    obtain ⟨hr1, hr2⟩ := ihr (some a) (fuel0 + 1) (n.p_right * v) hrr hndr
      (fun b hb => hp b (by simp [Shape.internal, hb])) hvr (mul_nonneg hp0 hv0) hfr
    refine ⟨?_, ?_⟩
    · intro b hb
      rcases List.mem_append.1 hb with hbl | hbr
      · obtain ⟨w, hw, hw0, hw1⟩ := hl1 b hbl
        exact ⟨w, hw, hw0, le_trans hw1 (by nlinarith)⟩
      · obtain ⟨w, hw, hw0, hw1⟩ := hr1 b hbr
        exact ⟨w, hw, hw0, le_trans hw1 (by nlinarith)⟩
    · simp only [Shape.leaves, List.map_append, List.sum_append, hl2, hr2]
      ring

/-! ## Prediction with a conditional probability tree -/

theorem links_lookup {F : Type} (nodes nodes1 : List (bnode_t F))
    (hmap : nodes1.map bnode_t.links = nodes.map bnode_t.links) (a : Nat) (n1 : bnode_t F)
    (hn1 : nodes1[a]? = some n1) :
    ∃ n, nodes[a]? = some n ∧ n.m_parent = n1.m_parent ∧ n.m_left = n1.m_left ∧
      n.m_right = n1.m_right ∧ n.label = n1.label ∧ n.m_machine = n1.m_machine := by
  have h1 : (nodes1.map bnode_t.links)[a]? = some n1.links := by
    rw [List.getElem?_map, hn1]; rfl
  rw [hmap, List.getElem?_map] at h1
  cases hn : nodes[a]? with
  | none => simp [hn] at h1
  | some n =>
    rw [hn] at h1
    have h2 : n.links = n1.links := by simpa using h1
    simp only [bnode_t.links, Prod.mk.injEq] at h2
    exact ⟨n, rfl, h2.1, h2.2.1, h2.2.2.1, h2.2.2.2.1, h2.2.2.2.2⟩

theorem links_length {F : Type} (nodes nodes1 : List (bnode_t F))
    (hmap : nodes1.map bnode_t.links = nodes.map bnode_t.links) :
    nodes1.length = nodes.length := by
  have := congrArg List.length hmap
  simpa using this

theorem links_invariant {F : Type} (t : CConditionalProbabilityTree F)
    (hinv : tree_invariant t) (nodes1 : List (bnode_t F))
    (hmap : nodes1.map bnode_t.links = t.nodes.map bnode_t.links) :
    tree_invariant { t with nodes := nodes1 } := by
  have hlen := links_length t.nodes nodes1 hmap
  constructor
  · intro r hr
    simp only [hlen]
    exact hinv.root r hr
  · intro h
    obtain ⟨h1, h2⟩ := hinv.no_root h
    refine ⟨?_, h2⟩
    rw [h1] at hlen
    exact List.eq_nil_of_length_eq_zero hlen
  · intro a n1 hn1
    obtain ⟨n, hn, -, hl, hr, hlab, -⟩ := links_lookup t.nodes nodes1 hmap a n1 hn1
    simp only [hlen]
    rw [← hl, ← hr, ← hlab]
    exact hinv.children a n hn
  · intro a n1 p hn1 hp
    obtain ⟨n, hn, hpar, -⟩ := links_lookup t.nodes nodes1 hmap a n1 hn1
    exact hinv.parent a n p hn (by rw [hpar]; exact hp)
  · intro a n1 hn1
    obtain ⟨n, hn, -, -, -, -, hm⟩ := links_lookup t.nodes nodes1 hmap a n1 hn1
    rw [← hm]
    exact hinv.machine a n hn
  · intro k a hk
    obtain ⟨n, hn, hl, hlab⟩ := hinv.leaf_of_label k a hk
    have hlt : a < nodes1.length := by
      rw [hlen]
      rcases Nat.lt_or_ge a t.nodes.length with h | h
      · exact h
      · rw [List.getElem?_eq_none h] at hn; cases hn
    obtain ⟨n0, hn0, -, hl0, -, hlab0, -⟩ :=
      links_lookup t.nodes nodes1 hmap a nodes1[a] (List.getElem?_eq_getElem hlt)
    rw [hn] at hn0
    have heq : n = n0 := Option.some.inj hn0
    subst heq
    exact ⟨nodes1[a], List.getElem?_eq_getElem hlt, by rw [← hl0]; exact hl,
      by rw [← hlab0]; exact hlab⟩
  · intro a n1 hn1 hl1
    obtain ⟨n, hn, -, hl, -, hlab, -⟩ := links_lookup t.nodes nodes1 hmap a n1 hn1
    rw [← hlab]
    exact hinv.label_of_leaf a n hn (by rw [hl]; exact hl1)
  · exact hinv.keys
  · have h1 : nodes1.countP (fun n => n.m_left.isNone) =
        (nodes1.map bnode_t.links).countP (fun lk => lk.2.1.isNone) := by
      rw [List.countP_map]
      rfl
    have h2 : t.nodes.countP (fun n => n.m_left.isNone) =
        (t.nodes.map bnode_t.links).countP (fun lk => lk.2.1.isNone) := by
      rw [List.countP_map]
      rfl
    simp only []
    rw [h1, hmap, ← h2]
    exact hinv.count

theorem weight_children (len a l r : Nat) (hal : a < l) (hl : l < len) (har : a < r)
    (hr : r < len) :
    (2 ^ (len - r + 1) - 1) + ((2 ^ (len - l + 1) - 1) + 1) ≤ 2 ^ (len - a + 1) - 1 := by
  have h1 : 2 ^ (len - l + 1) ≤ 2 ^ (len - a) :=
    Nat.pow_le_pow_right (by decide) (by omega)
  have h2 : 2 ^ (len - r + 1) ≤ 2 ^ (len - a) :=
    Nat.pow_le_pow_right (by decide) (by omega)
  have h3 : 2 ^ (len - a + 1) = 2 * 2 ^ (len - a) := by
    rw [pow_succ]; ring
  have h4 : 1 ≤ 2 ^ (len - l + 1) := Nat.one_le_two_pow
  have h5 : 1 ≤ 2 ^ (len - r + 1) := Nat.one_le_two_pow
  omega

theorem compute_loop_ok {F : Type} (predict_node : Nat → F) (fuel : Nat)
    (stack : List (Option Nat)) (t : CConditionalProbabilityTree F)
    (hinv : tree_invariant t)
    (hstack : ∀ x ∈ stack, ∃ a, x = some a ∧ a < t.nodes.length)
    (hfuel : stack_weight t.nodes.length stack ≤ fuel) :
    ∃ nodes1, compute_loop predict_node t.m_machines fuel stack t.nodes = some nodes1 ∧
      nodes1.map bnode_t.links = t.nodes.map bnode_t.links := by
  induction fuel generalizing stack t with
  | zero =>
    cases stack with
    | nil => exact ⟨t.nodes, by simp [compute_loop], rfl⟩
    | cons x rest =>
      obtain ⟨a, hx, ha⟩ := hstack x (List.mem_cons_self _ _)
      subst hx
      have h1 : 1 ≤ 2 ^ (t.nodes.length - a + 1) - 1 := by
        have : 2 ^ 1 ≤ 2 ^ (t.nodes.length - a + 1) :=
          Nat.pow_le_pow_right (by decide) (by omega)
        omega
      simp only [stack_weight] at hfuel
      omega
  | succ k ih =>
    cases stack with
    | nil => exact ⟨t.nodes, by simp [compute_loop], rfl⟩
    | cons x rest =>
      obtain ⟨a, hx, ha⟩ := hstack x (List.mem_cons_self _ _)
      subst hx
      have hrest : ∀ y ∈ rest, ∃ b, y = some b ∧ b < t.nodes.length :=
        fun y hy => hstack y (List.mem_cons_of_mem _ hy)
      have hn : t.nodes[a]? = some t.nodes[a] := List.getElem?_eq_getElem ha
      have hw1 : 1 ≤ 2 ^ (t.nodes.length - a + 1) - 1 := by
        have : 2 ^ 1 ≤ 2 ^ (t.nodes.length - a + 1) :=
          Nat.pow_le_pow_right (by decide) (by omega)
        omega
      simp only [stack_weight] at hfuel
      rcases hinv.children a _ hn with ⟨hl, -⟩ | ⟨l, r, hl, hr, hal, hll, har, hrl, -, -⟩
      · obtain ⟨nodes1, hrun, hmap⟩ := ih rest t hinv hrest (by omega)
        exact ⟨nodes1, by simp only [compute_loop, hn, hl]; exact hrun, hmap⟩
      · have hm := hinv.machine a _ hn
        have hmap1 : (t.nodes.set a { t.nodes[a] with p_right := predict_node a }).map
            bnode_t.links = t.nodes.map bnode_t.links := by
          rw [List.map_set]
          apply List.ext_getElem?
          intro i
          by_cases hi : a = i
          · subst hi
            rw [List.getElem?_set_self (by simpa using ha), List.getElem?_map, hn]
            rfl
          · rw [List.getElem?_set_ne hi]
        have hinv1 := links_invariant t hinv _ hmap1
        have hlen1 : (t.nodes.set a { t.nodes[a] with p_right := predict_node a }).length =
            t.nodes.length := by simp
        obtain ⟨nodes1, hrun, hmap⟩ := ih (some r :: some l :: rest)
          { t with nodes := t.nodes.set a { t.nodes[a] with p_right := predict_node a } }
          hinv1
          (by
            intro y hy
            simp only [hlen1]
            rcases List.mem_cons.1 hy with h | h
            · exact ⟨r, h, hrl⟩
            · rcases List.mem_cons.1 h with h | h
              · exact ⟨l, h, hll⟩
              · exact hrest y h)
          (by
            simp only [hlen1, stack_weight]
            have := weight_children t.nodes.length a l r hal hll har hrl
            omega)
        have hstep : compute_loop predict_node t.m_machines (k + 1) (some a :: rest) t.nodes =
            compute_loop predict_node t.m_machines k (some r :: some l :: rest)
              (t.nodes.set a { t.nodes[a] with p_right := predict_node a }) := by
          simp only [compute_loop, hn, hl, hr, hm, and_self, if_true]
        refine ⟨nodes1, ?_, by rw [hmap]; exact hmap1⟩
        rw [hstep]
        exact hrun

theorem accumulate_loop_ok {F : Type} [Field F] (t : CConditionalProbabilityTree F)
    (hinv : tree_invariant t) (fuel : Nat) (prob : F) (leaf : Nat) (par : Option Nat)
    (hpar : ∀ p, par = some p → p < fuel ∧ p < t.nodes.length) :
    ∃ w, accumulate_loop t.nodes fuel prob leaf par = some w := by
  induction fuel generalizing prob leaf par with
  | zero =>
    cases par with
    | none => exact ⟨prob, by simp [accumulate_loop]⟩
    | some p => exact absurd (hpar p rfl).1 (Nat.not_lt_zero _)
  | succ k ih =>
    cases par with
    | none => exact ⟨prob, by simp [accumulate_loop]⟩
    | some p =>
      obtain ⟨h1, h2⟩ := hpar p rfl
      have hn : t.nodes[p]? = some t.nodes[p] := List.getElem?_eq_getElem h2
      simp only [accumulate_loop, hn]
      apply ih
      intro q hq
      have := hinv.parent p _ q hn hq
      omega

theorem accumulate_ok {F : Type} [Field F] (t : CConditionalProbabilityTree F)
    (hinv : tree_invariant t) (fuel : Nat) (a : Nat) (ha : a < t.nodes.length)
    (hfuel : t.nodes.length ≤ fuel) :
    ∃ w, accumulate_conditional_probability t.nodes fuel (some a) = some w := by
  have hn : t.nodes[a]? = some t.nodes[a] := List.getElem?_eq_getElem ha
  simp only [accumulate_conditional_probability, hn]
  apply accumulate_loop_ok t hinv
  intro p hp
  have := hinv.parent a _ p hn hp
  omega

theorem fill_probabilities_spec {F : Type} [Field F] (nodes : List (bnode_t F))
    (fuel : Nat) (m : List (Int × Nat)) (probs : List F)
    (hnd : (m.map Prod.fst).Nodup)
    (hrange : ∀ e ∈ m, 0 ≤ e.1 ∧ e.1 < probs.length)
    (hacc : ∀ e ∈ m, ∃ w,
      accumulate_conditional_probability nodes fuel (some e.2) = some w) :
    ∃ probs1, fill_probabilities nodes fuel m probs = some probs1 ∧
      probs1.length = probs.length ∧
      (∀ e ∈ m, probs1[e.1.toNat]? =
        accumulate_conditional_probability nodes fuel (some e.2)) ∧
      (∀ i : Nat, (∀ e ∈ m, e.1.toNat ≠ i) → probs1[i]? = probs[i]?) := by
  induction m generalizing probs with
  | nil => exact ⟨probs, by simp [fill_probabilities], rfl, by simp, fun i _ => rfl⟩
  | cons e rest ih =>
    obtain ⟨k, a⟩ := e
    obtain ⟨w, hw⟩ := hacc (k, a) (List.mem_cons_self _ _)
    obtain ⟨hk0, hk1⟩ := hrange (k, a) (List.mem_cons_self _ _)
    simp only [List.map_cons, List.nodup_cons] at hnd
    obtain ⟨hknot, hnd1⟩ := hnd
    have hlen : (probs.set k.toNat w).length = probs.length := by simp
    obtain ⟨probs1, hrun, hlen1, hval, hother⟩ := ih (probs.set k.toNat w) hnd1
      (by
        intro e he
        rw [hlen]
        exact hrange e (List.mem_cons_of_mem _ he))
      (fun e he => hacc e (List.mem_cons_of_mem _ he))
    have hstep : fill_probabilities nodes fuel ((k, a) :: rest) probs =
        fill_probabilities nodes fuel rest (probs.set k.toNat w) := by
      simp only [fill_probabilities, hw]
      rw [if_pos ⟨hk0, hk1⟩]
    have hdiff : ∀ e ∈ rest, e.1.toNat ≠ k.toNat := by
      intro e he heq
      have he0 := (hrange e (List.mem_cons_of_mem _ he)).1
      have hek : e.1 = k := by omega
      exact hknot (by rw [← hek]; exact List.mem_map_of_mem Prod.fst he)
    have hkn : k.toNat < probs.length := by omega
    refine ⟨probs1, by rw [hstep]; exact hrun, by rw [hlen1, hlen], ?_, ?_⟩
    · intro e he
      rcases List.mem_cons.1 he with h | h
      · subst h
        show probs1[k.toNat]? = _
        rw [hother k.toNat hdiff, hw, List.getElem?_set_self hkn]
      · exact hval e h
    · intro i hi
      rw [hother i (fun e he => hi e (List.mem_cons_of_mem _ he))]
      have hne : k.toNat ≠ i := hi (k, a) (List.mem_cons_self _ _)
      rw [List.getElem?_set_ne hne]

theorem arg_max_loop_spec {F : Type} [LinearOrder F] (rest pre : List F) (maxv : F)
    (maxIdx : Nat) (hidx : pre[maxIdx]? = some maxv) (hmax : ∀ v ∈ pre, v ≤ maxv) :
    ∃ m, (pre ++ rest)[arg_max_loop rest pre.length maxv maxIdx]? = some m ∧
      ∀ v ∈ pre ++ rest, v ≤ m := by
  induction rest generalizing pre maxv maxIdx with
  | nil =>
    refine ⟨maxv, ?_, ?_⟩
    · simpa [arg_max_loop] using hidx
    · simpa using hmax
  | cons x rest ih =>
    have hlt : maxIdx < pre.length := by
      rcases Nat.lt_or_ge maxIdx pre.length with h | h
      · exact h
      · rw [List.getElem?_eq_none h] at hidx; cases hidx
    have happ : pre ++ x :: rest = (pre ++ [x]) ++ rest := by simp
    have hlen : (pre ++ [x]).length = pre.length + 1 := by simp
    by_cases hx : maxv < x
    · have h := ih (pre ++ [x]) x pre.length (by simp)
        (by
          intro v hv
          rcases List.mem_append.1 hv with h | h
          · exact le_trans (hmax v h) (le_of_lt hx)
          · simp only [List.mem_singleton] at h
            rw [h])
      rw [hlen] at h
      rw [happ]
      simpa [arg_max_loop, hx] using h
    · have h := ih (pre ++ [x]) maxv maxIdx
        (by rw [List.getElem?_append_left hlt]; exact hidx)
        (by
          intro v hv
          rcases List.mem_append.1 hv with h | h
          · exact hmax v h
          · simp only [List.mem_singleton] at h
            rw [h]
            exact not_lt.1 hx)
      rw [hlen] at h
      rw [happ]
      simpa [arg_max_loop, hx] using h

theorem arg_max_spec {F : Type} [LinearOrder F] (vec : List F) (hvec : vec ≠ []) :
    ∃ (r : Nat) (m : F), arg_max vec = some (r : Int) ∧ vec[r]? = some m ∧
      ∀ v ∈ vec, v ≤ m := by
  cases vec with
  | nil => exact absurd rfl hvec
  | cons x rest =>
    obtain ⟨m, h1, h2⟩ := arg_max_loop_spec rest [x] x 0 (by simp) (by simp)
    exact ⟨arg_max_loop rest 1 x 0, m, rfl, by simpa using h1, by simpa using h2⟩

theorem keys_length_range (m : List (Int × Nat)) (n : Nat)
    (hnd : (m.map Prod.fst).Nodup)
    (hkeys : ∀ k : Int, k ∈ m.map Prod.fst ↔ 0 ≤ k ∧ k < n) : m.length = n := by
  have hnd2 : ((List.range n).map (fun i : Nat => (i : Int))).Nodup :=
    List.Nodup.map (fun a b h => by simpa using h) (List.nodup_range n)
  have hperm : (m.map Prod.fst).Perm ((List.range n).map (fun i : Nat => (i : Int))) := by
    apply (List.perm_ext_iff_of_nodup hnd hnd2).2
    intro k
    rw [hkeys k]
    simp only [List.mem_map, List.mem_range]
    constructor
    · rintro ⟨h0, h1⟩
      exact ⟨k.toNat, by omega, by omega⟩
    · rintro ⟨i, hi, rfl⟩
      omega
  have := hperm.length_eq
  simpa using this

theorem leaves_find_mem (k : Int) (a : Nat) (m : List (Int × Nat))
    (h : leaves_find k m = some a) : (k, a) ∈ m := by
  induction m with
  | nil => simp [leaves_find] at h
  | cons e rest ih =>
    obtain ⟨k1, v1⟩ := e
    by_cases h1 : k1 = k
    · subst h1
      simp only [leaves_find, if_true, Option.some.injEq] at h
      subst h
      exact List.mem_cons_self _ _
    · simp only [leaves_find, h1, if_false] at h
      exact List.mem_cons_of_mem _ (ih h)

theorem leaves_find_of_mem (k : Int) (a : Nat) (m : List (Int × Nat))
    (hnd : (m.map Prod.fst).Nodup) (h : (k, a) ∈ m) : leaves_find k m = some a := by
  induction m with
  | nil => cases h
  | cons e rest ih =>
    obtain ⟨k1, v1⟩ := e
    simp only [List.map_cons, List.nodup_cons] at hnd
    rcases List.mem_cons.1 h with h1 | h1
    · simp only [Prod.mk.injEq] at h1
      obtain ⟨hk, hv⟩ := h1
      subst hk
      subst hv
      simp [leaves_find]
    · have hne : ¬ k1 = k := by
        intro hk
        subst hk
        exact hnd.1 (List.mem_map_of_mem Prod.fst h1)
      simp only [leaves_find, hne, if_false]
      exact ih hnd.2 h1

/-- C33: for a sequence of train_example calls from the empty tree whose labels form
exactly the set from 0 to n - 1, with n at least 1, training returns and
apply_multiclass_example returns on the trained tree, as soon as the fuel covers the walks;
the probability vector has n entries, the accumulated probability of every leaf is written
at the index of the label of the leaf, which is inside the vector, and the label returned
is the label of a leaf whose accumulated probability is maximal among all leaves. -/
theorem apply_multiclass_example_max {F : Type} [LinearOrderedField F]
    (calls : List (Int × (Nat → Bool))) (n : Nat) (predict_node : Nat → F)
    (indeterminate : Nat → F) (fuel0 fuel : Nat) (hn : 0 < n)
    (hlabels : ∀ k : Int, k ∈ calls.map Prod.fst ↔ 0 ≤ k ∧ k < n)
    (hfuel0 : 2 * calls.length ≤ fuel0) (hfuel : 2 ^ (2 * calls.length + 1) ≤ fuel) :
    ∃ (t : CConditionalProbabilityTree F) (label : Int) (probs : List F)
      (t1 : CConditionalProbabilityTree F),
      CConditionalProbabilityTree.train_all fuel0 (CConditionalProbabilityTree.empty F)
        calls = some t ∧
      t.apply_multiclass_example predict_node indeterminate fuel =
        some (label, probs, t1) ∧
      probs.length = n ∧
      (∀ (a : Nat) (na : bnode_t F), t1.nodes[a]? = some na → na.m_left = none →
        0 ≤ na.label ∧ na.label < n ∧
        ∃ w, accumulate_conditional_probability t1.nodes fuel (some a) = some w ∧
          probs[na.label.toNat]? = some w) ∧
      ∃ (a : Nat) (na : bnode_t F) (w : F),
        t1.nodes[a]? = some na ∧ na.m_left = none ∧ na.label = label ∧
        accumulate_conditional_probability t1.nodes fuel (some a) = some w ∧
        ∀ (b : Nat) (nb : bnode_t F) (v : F), t1.nodes[b]? = some nb → nb.m_left = none →
          accumulate_conditional_probability t1.nodes fuel (some b) = some v → v ≤ w := by
  obtain ⟨t, hrun, hinv, hseen, hlen⟩ :=
    train_all_invariant calls (CConditionalProbabilityTree.empty F) [] fuel0
      (empty_invariant F) (by simp [CConditionalProbabilityTree.empty, leaves_find])
      (by simp [CConditionalProbabilityTree.empty]) (by simpa using hfuel0)
  have hseen1 : ∀ k, (leaves_find k t.m_leaves).isSome = true ↔ k ∈ calls.map Prod.fst := by
    intro k
    simpa using hseen k
  have hlen1 : t.nodes.length ≤ 2 * calls.length := by simpa using hlen
  have hkeys : ∀ k : Int, k ∈ t.m_leaves.map Prod.fst ↔ 0 ≤ k ∧ k < n := by
    intro k
    rw [← leaves_find_isSome_iff, hseen1 k, hlabels k]
  have hsize : t.m_leaves.length = n := keys_length_range t.m_leaves n hinv.keys hkeys
  obtain ⟨r, hr⟩ : ∃ r, t.m_root = some r := by
    cases hroot : t.m_root with
    | some r => exact ⟨r, rfl⟩
    | none =>
      have h0 := (hinv.no_root hroot).2
      rw [h0] at hsize
      simp only [List.length_nil] at hsize
      omega
  have hrlt := hinv.root r hr
  have hpow : 2 ^ (t.nodes.length + 1) ≤ fuel :=
    le_trans (Nat.pow_le_pow_right (by decide) (by omega)) hfuel
  obtain ⟨nodes1, hcomp, hmap⟩ := compute_loop_ok predict_node fuel [some r] t hinv
    (by
      intro x hx
      simp only [List.mem_singleton] at hx
      exact ⟨r, hx, hrlt⟩)
    (by
      simp only [stack_weight]
      have : 2 ^ (t.nodes.length - r + 1) ≤ 2 ^ (t.nodes.length + 1) :=
        Nat.pow_le_pow_right (by decide) (by omega)
      omega)
  have hinv1 := links_invariant t hinv nodes1 hmap
  have hlen2 := links_length t.nodes nodes1 hmap
  have hlenfuel : nodes1.length ≤ fuel := by
    have h1 : t.nodes.length + 1 < 2 ^ (t.nodes.length + 1) := Nat.lt_two_pow _
    omega
  have hacc : ∀ e ∈ t.m_leaves, ∃ w,
      accumulate_conditional_probability nodes1 fuel (some e.2) = some w := by
    intro e he
    have hfind := leaves_find_of_mem e.1 e.2 t.m_leaves hinv.keys he
    obtain ⟨na, hna, -⟩ := hinv1.leaf_of_label e.1 e.2 hfind
    have hlt : e.2 < nodes1.length := by
      rcases Nat.lt_or_ge e.2 nodes1.length with h | h
      · exact h
      · have hnone : nodes1[e.2]? = none := List.getElem?_eq_none h
        have hna1 : nodes1[e.2]? = some na := hna
        rw [hnone] at hna1
        cases hna1
    exact accumulate_ok { t with nodes := nodes1 } hinv1 fuel e.2 hlt hlenfuel
  obtain ⟨probs, hfill, hplen, hval, -⟩ := fill_probabilities_spec nodes1 fuel t.m_leaves
    ((List.range t.m_leaves.length).map indeterminate) hinv.keys
    (by
      intro e he
      have := (hkeys e.1).1 (List.mem_map_of_mem Prod.fst he)
      simp only [List.length_map, List.length_range, hsize]
      exact this)
    hacc
  have hplen1 : probs.length = n := by
    rw [hplen]
    simp [hsize]
  have hne : probs ≠ [] := by
    intro h
    rw [h] at hplen1
    simp only [List.length_nil] at hplen1
    omega
  obtain ⟨i, m, harg, him, hmax⟩ := arg_max_spec probs hne
  have hilt : i < n := by
    rcases Nat.lt_or_ge i probs.length with h | h
    · omega
    · rw [List.getElem?_eq_none h] at him
      cases him
  have hleaf : ∀ (a : Nat) (na : bnode_t F), nodes1[a]? = some na → na.m_left = none →
      0 ≤ na.label ∧ na.label < n ∧
      ∃ w, accumulate_conditional_probability nodes1 fuel (some a) = some w ∧
        probs[na.label.toNat]? = some w := by
    intro a na hna hl
    have hfind : leaves_find na.label t.m_leaves = some a := hinv1.label_of_leaf a na hna hl
    have hmem := leaves_find_mem na.label a t.m_leaves hfind
    obtain ⟨h0, h1⟩ := (hkeys na.label).1 (List.mem_map_of_mem Prod.fst hmem)
    obtain ⟨w, hw⟩ := hacc _ hmem
    exact ⟨h0, h1, w, hw, by rw [hval _ hmem]; exact hw⟩
  have hikey : (leaves_find (i : Int) t.m_leaves).isSome = true := by
    rw [leaves_find_isSome_iff, hkeys]
    omega
  obtain ⟨a, ha⟩ := Option.isSome_iff_exists.1 hikey
  obtain ⟨na, hna, hnl, hnlab⟩ := hinv1.leaf_of_label (i : Int) a ha
  have hmem := leaves_find_mem (i : Int) a t.m_leaves ha
  have hwa : accumulate_conditional_probability nodes1 fuel (some a) = some m := by
    have h := hval _ hmem
    simp only [Int.toNat_ofNat] at h
    rw [← h]
    exact him
  have happly : t.apply_multiclass_example predict_node indeterminate fuel =
      some ((i : Int), probs, { t with nodes := nodes1 }) := by
    simp only [CConditionalProbabilityTree.apply_multiclass_example,
      CConditionalProbabilityTree.compute_conditional_probabilities, hr, hcomp, hfill, harg]
  refine ⟨t, (i : Int), probs, { t with nodes := nodes1 }, hrun, happly, hplen1, hleaf,
    a, na, m, hna, hnl, hnlab, hwa, ?_⟩
  intro b nb v hnb hbl hv
  obtain ⟨-, -, w, hw, hpw⟩ := hleaf b nb hnb hbl
  have hwv : w = v := by
    have hw1 : accumulate_conditional_probability nodes1 fuel (some b) = some w := hw
    have hv1 : accumulate_conditional_probability nodes1 fuel (some b) = some v := hv
    rw [hw1] at hv1
    exact Option.some.inj hv1
  rw [← hwv]
  exact hmax w (List.getElem?_mem hpw)

theorem apply_multiclass_example_max_witness :
    (∀ k : Int, k ∈ sample_calls.map Prod.fst ↔ 0 ≤ k ∧ k < ((3 : Nat) : Int)) ∧
    2 ^ (2 * sample_calls.length + 1) ≤ 512 ∧
    ∃ (t : CConditionalProbabilityTree ℚ) (label : Int) (probs : List ℚ)
      (t1 : CConditionalProbabilityTree ℚ),
      CConditionalProbabilityTree.train_all 8 (CConditionalProbabilityTree.empty ℚ)
        sample_calls = some t ∧
      t.apply_multiclass_example (fun _ => 1 / 4) (fun _ => 0) 512 =
        some (label, probs, t1) ∧
      probs.length = 3 ∧
      (∀ (a : Nat) (na : bnode_t ℚ), t1.nodes[a]? = some na → na.m_left = none →
        0 ≤ na.label ∧ na.label < ((3 : Nat) : Int) ∧
        ∃ w, accumulate_conditional_probability t1.nodes 512 (some a) = some w ∧
          probs[na.label.toNat]? = some w) ∧
      ∃ (a : Nat) (na : bnode_t ℚ) (w : ℚ),
        t1.nodes[a]? = some na ∧ na.m_left = none ∧ na.label = label ∧
        accumulate_conditional_probability t1.nodes 512 (some a) = some w ∧
        ∀ (b : Nat) (nb : bnode_t ℚ) (v : ℚ), t1.nodes[b]? = some nb → nb.m_left = none →
          accumulate_conditional_probability t1.nodes 512 (some b) = some v → v ≤ w :=
  have hlabels : ∀ k : Int, k ∈ sample_calls.map Prod.fst ↔ 0 ≤ k ∧ k < ((3 : Nat) : Int) := by
    intro k
    simp only [sample_calls, List.map_cons, List.map_nil, List.mem_cons, List.mem_nil_iff,
      or_false, Nat.cast_ofNat]
    omega
  ⟨hlabels, by decide,
    apply_multiclass_example_max sample_calls 3 (fun _ => 1 / 4) (fun _ => 0) 8 512
      (by decide) hlabels (by decide) (by decide)⟩

/-! ## Rounding of float64_t arithmetic -/

theorem round_nearest_even_abs (y : ℚ) : |(round_nearest_even y : ℚ) - y| ≤ 1 / 2 := by
  have h1 := Int.floor_le y
  have h2 := Int.lt_floor_add_one y
  unfold round_nearest_even
  split_ifs with ha hb hc
  · rw [abs_le]; constructor <;> linarith
  · rw [abs_le]; push_cast; constructor <;> linarith
  · rw [abs_le]; constructor <;> linarith
  · rw [abs_le]; push_cast; constructor <;> linarith

theorem round_nearest_even_eq (y : ℚ) (m : Int) (h : |y - m| < 1 / 2) :
    round_nearest_even y = m := by
  have h0 := round_nearest_even_abs y
  rw [abs_lt] at h
  rw [abs_le] at h0
  have h3 : |((round_nearest_even y - m : Int) : ℚ)| < 1 := by
    rw [abs_lt]; push_cast; constructor <;> linarith
  have h4 : |round_nearest_even y - m| < 1 := by exact_mod_cast h3
  have h5 := Int.abs_lt_one_iff.1 h4
  omega

theorem round_nearest_even_le (y : ℚ) (n : Int) (h : y ≤ n) : round_nearest_even y ≤ n := by
  have hfl : ⌊y⌋ ≤ n := by
    have h1 : ((⌊y⌋ : Int) : ℚ) ≤ (n : ℚ) := le_trans (Int.floor_le y) h
    exact_mod_cast h1
  unfold round_nearest_even
  split_ifs with ha hb hc
  · exact hfl
  · rcases lt_or_eq_of_le hfl with h1 | h1
    · omega
    · exfalso
      rw [h1] at hb
      have := Int.floor_le y
      linarith
  · exact hfl
  · rcases lt_or_eq_of_le hfl with h1 | h1
    · omega
    · exfalso
      rw [h1] at ha
      have := Int.floor_le y
      linarith

theorem round_nearest_even_nonneg (y : ℚ) (h : 0 ≤ y) : 0 ≤ round_nearest_even y := by
  have hfl : 0 ≤ ⌊y⌋ := Int.floor_nonneg.2 h
  unfold round_nearest_even
  split_ifs <;> omega

theorem float64_spacing_pos (x : ℚ) : 0 < float64_t.spacing x := by
  unfold float64_t.spacing
  positivity

theorem float64_spacing_eq (x : ℚ) (e : Int) (hlo : (2 : ℚ) ^ e ≤ |x|)
    (hhi : |x| < (2 : ℚ) ^ (e + 1)) (he : -1022 ≤ e) :
    float64_t.spacing x = (2 : ℚ) ^ (e - 52) := by
  have hpos : 0 < |x| := lt_of_lt_of_le (by positivity) hlo
  have h1 : e ≤ Int.log 2 |x| := by
    rw [← Int.zpow_le_iff_le_log (by decide) hpos]
    simpa using hlo
  have h2 : Int.log 2 |x| < e + 1 := by
    rw [← Int.lt_zpow_iff_log_lt (by decide) hpos]
    simpa using hhi
  have h3 : Int.log 2 |x| = e := by omega
  unfold float64_t.spacing
  rw [h3, max_eq_left he]

theorem float64_round_eq (x : ℚ) (e m : Int) (hlo : (2 : ℚ) ^ e ≤ |x|)
    (hhi : |x| < (2 : ℚ) ^ (e + 1)) (he : -1022 ≤ e)
    (hm : |x / (2 : ℚ) ^ (e - 52) - m| < 1 / 2)
    (hfin : |(m : ℚ) * (2 : ℚ) ^ (e - 52)| < (2 : ℚ) ^ (1024 : Nat)) :
    float64_t.round x = .finite ((m : ℚ) * (2 : ℚ) ^ (e - 52)) := by
  have hsp := float64_spacing_eq x e hlo hhi he
  have hr := round_nearest_even_eq _ m hm
  unfold float64_t.round
  rw [hsp, hr, if_neg (not_le.2 hfin)]

theorem float64_round_unit (x : ℚ) (h0 : 0 ≤ x) (h1 : x ≤ 1) :
    ∃ q, float64_t.round x = .finite q ∧ 0 ≤ q ∧ q ≤ 1 ∧ |q - x| ≤ 1 / 2 ^ 53 := by
  have hE : max (Int.log 2 |x|) (-1022) ≤ 0 := by
    apply max_le _ (by decide)
    rw [abs_of_nonneg h0, Int.log_of_right_le_one 2 h1]
    omega
  have hsp : float64_t.spacing x = (2 : ℚ) ^ (max (Int.log 2 |x|) (-1022) - 52) := rfl
  generalize max (Int.log 2 |x|) (-1022) = E at hE hsp
  have hpos : 0 < float64_t.spacing x := float64_spacing_pos x
  have hnat : (2 : ℚ) ^ (52 - E) = (((2 : Int) ^ (52 - E).toNat : Int) : ℚ) := by
    obtain ⟨n, hn⟩ := Int.eq_ofNat_of_zero_le (by omega : 0 ≤ 52 - E)
    rw [hn]
    simp
  have hinv : float64_t.spacing x * (2 : ℚ) ^ (52 - E) = 1 := by
    rw [hsp, ← zpow_add₀ (by norm_num : (2 : ℚ) ≠ 0)]
    simp
  have hle52 : float64_t.spacing x ≤ 1 / 2 ^ 52 := by
    rw [hsp]
    have h2 : (2 : ℚ) ^ (E - 52) ≤ (2 : ℚ) ^ (-52 : Int) :=
      zpow_le_zpow_right₀ (by norm_num) (by omega)
    have h3 : (2 : ℚ) ^ (-52 : Int) = 1 / 2 ^ 52 := by
      rw [zpow_neg]
      norm_num
    rw [← h3]
    exact h2
  have hy : x / float64_t.spacing x = x * (2 : ℚ) ^ (52 - E) := by
    field_simp
    rw [mul_assoc, mul_comm ((2 : ℚ) ^ (52 - E)), hinv, mul_one]
  have hyle : x / float64_t.spacing x ≤ (((2 : Int) ^ (52 - E).toNat : Int) : ℚ) := by
    rw [hy, ← hnat]
    have : 0 < (2 : ℚ) ^ (52 - E) := by positivity
    nlinarith
  have hy0 : 0 ≤ x / float64_t.spacing x := div_nonneg h0 (le_of_lt hpos)
  have hr1 := round_nearest_even_le _ _ hyle
  have hr0 := round_nearest_even_nonneg _ hy0
  have hrabs := round_nearest_even_abs (x / float64_t.spacing x)
  generalize hrr : round_nearest_even (x / float64_t.spacing x) = r at hr1 hr0 hrabs
  have hr0q : (0 : ℚ) ≤ (r : ℚ) := by exact_mod_cast hr0
  have hr1q : (r : ℚ) ≤ (2 : ℚ) ^ (52 - E) := by
    rw [hnat]
    exact_mod_cast hr1
  have hq1 : (r : ℚ) * float64_t.spacing x ≤ 1 := by
    calc (r : ℚ) * float64_t.spacing x ≤ (2 : ℚ) ^ (52 - E) * float64_t.spacing x :=
          mul_le_mul_of_nonneg_right hr1q (le_of_lt hpos)
      _ = 1 := by rw [mul_comm]; exact hinv
  have hq0 : 0 ≤ (r : ℚ) * float64_t.spacing x := mul_nonneg hr0q (le_of_lt hpos)
  have herr : |(r : ℚ) * float64_t.spacing x - x| ≤ 1 / 2 ^ 53 := by
    have h4 : (r : ℚ) * float64_t.spacing x - x =
        ((r : ℚ) - x / float64_t.spacing x) * float64_t.spacing x := by
      field_simp
    rw [h4, abs_mul, abs_of_pos hpos]
    calc |(r : ℚ) - x / float64_t.spacing x| * float64_t.spacing x
        ≤ 1 / 2 * (1 / 2 ^ 52) :=
          mul_le_mul hrabs hle52 (le_of_lt hpos) (by norm_num)
      _ = 1 / 2 ^ 53 := by norm_num
  refine ⟨(r : ℚ) * float64_t.spacing x, ?_, hq0, hq1, herr⟩
  unfold float64_t.round
  rw [hrr, if_neg]
  rw [not_le, abs_of_nonneg hq0]
  calc (r : ℚ) * float64_t.spacing x ≤ 1 := hq1
    _ < (2 : ℚ) ^ (1024 : Nat) := by norm_num

/-! ## Accumulated conditional probabilities in float64_t arithmetic -/

theorem float64_mul_unit (a b : ℚ) (ha0 : 0 ≤ a) (ha1 : a ≤ 1) (hb0 : 0 ≤ b) (hb1 : b ≤ 1) :
    ∃ q, float64_t.finite a * float64_t.finite b = .finite q ∧ 0 ≤ q ∧ q ≤ 1 ∧
      |q - a * b| ≤ 1 / 2 ^ 53 :=
  float64_round_unit (a * b) (mul_nonneg ha0 hb0) (by nlinarith)

theorem float64_one_sub_unit (p : ℚ) (hp0 : 0 ≤ p) (hp1 : p ≤ 1) :
    ∃ q, (1 : float64_t) - float64_t.finite p = .finite q ∧ 0 ≤ q ∧ q ≤ 1 ∧
      |q - (1 - p)| ≤ 1 / 2 ^ 53 :=
  float64_round_unit (1 - p) (by linarith) (by linarith)

theorem exact_nodes_get (nodes : List (bnode_t float64_t)) (a : Nat) :
    (exact_nodes nodes)[a]? = (nodes[a]?).map bnode_t.exact := by
  simp [exact_nodes]

theorem represents_exact (nodes : List (bnode_t float64_t)) (par : Option Nat) (s : Shape) :
    represents (exact_nodes nodes) par s = represents nodes par s := by
  induction s generalizing par with
  | leaf a =>
    simp only [represents, exact_nodes_get]
    cases nodes[a]? <;> rfl
  | node a l r ihl ihr =>
    simp only [represents, exact_nodes_get, ihl, ihr]
    cases nodes[a]? <;> rfl

theorem leaf_chain {F : Type} (nodes : List (bnode_t F)) (s : Shape) (par : Option Nat)
    (hrep : represents nodes par s = true) (a : Nat) (ha : a ∈ s.leaves) (rest : List Nat)
    (hrest : parent_chain nodes (s.root :: rest) = true) :
    ∃ path : List Nat, parent_chain nodes (a :: path) = true ∧
      path.length ≤ s.depth + rest.length ∧ ∀ b ∈ path, b ∈ s.internal ∨ b ∈ rest := by
  induction s generalizing par rest with
  | leaf c =>
    have hac : a = c := by simpa [Shape.leaves] using ha
    subst hac
    exact ⟨rest, hrest, by simp [Shape.depth], fun b hb => Or.inr hb⟩
  | node c l r ihl ihr =>
    obtain ⟨⟨n, hn, -, hleft, hright⟩, hrl, hrr⟩ := represents_node nodes par c l r hrep
    have hcr : parent_chain nodes (c :: rest) = true := hrest
    rcases List.mem_append.1 (by simpa [Shape.leaves] using ha) with hal | har
    · obtain ⟨ln, hln, hlpar⟩ := represents_root nodes (some c) l hrl
      have hchain : parent_chain nodes (l.root :: c :: rest) = true := by
        simp [parent_chain, hln, hlpar, hcr]
      obtain ⟨path, hpath, hlen, hmem⟩ := ihl (some c) hrl hal (c :: rest) hchain
      refine ⟨path, hpath, ?_, ?_⟩
      · simp only [Shape.depth, List.length_cons] at hlen ⊢
        omega
      · intro b hb
        rcases hmem b hb with h | h
        · exact Or.inl (by simp [Shape.internal, h])
        · rcases List.mem_cons.1 h with h1 | h1
          · exact Or.inl (by simp [Shape.internal, h1])
          · exact Or.inr h1
    · obtain ⟨rn, hrn, hrpar⟩ := represents_root nodes (some c) r hrr
      have hchain : parent_chain nodes (r.root :: c :: rest) = true := by
        simp [parent_chain, hrn, hrpar, hcr]
      obtain ⟨path, hpath, hlen, hmem⟩ := ihr (some c) hrr har (c :: rest) hchain
      refine ⟨path, hpath, ?_, ?_⟩
      · simp only [Shape.depth, List.length_cons] at hlen ⊢
        omega
      · intro b hb
        rcases hmem b hb with h | h
        · exact Or.inl (by simp [Shape.internal, h])
        · rcases List.mem_cons.1 h with h1 | h1
          · exact Or.inl (by simp [Shape.internal, h1])
          · exact Or.inr h1

theorem accumulate_loop_float (nodes : List (bnode_t float64_t)) (path : List Nat) (a : Nat)
    (n : bnode_t float64_t) (fuel : Nat) (qf qe : ℚ)
    (hchain : parent_chain nodes (a :: path) = true) (hn : nodes[a]? = some n)
    (hfuel : path.length ≤ fuel)
    (hp : ∀ c ∈ path, ∀ nc, nodes[c]? = some nc →
      ∃ p, nc.p_right = .finite p ∧ 0 ≤ p ∧ p ≤ 1)
    (hqf0 : 0 ≤ qf) (hqf1 : qf ≤ 1) (hqe0 : 0 ≤ qe) (hqe1 : qe ≤ 1) :
    ∃ rf re, accumulate_loop nodes fuel (.finite qf) a n.m_parent = some (.finite rf) ∧
      accumulate_loop (exact_nodes nodes) fuel qe a n.m_parent = some re ∧
      0 ≤ rf ∧ rf ≤ 1 ∧ 0 ≤ re ∧ re ≤ 1 ∧
      |rf - re| ≤ |qf - qe| + (path.length : ℚ) * (1 / 2 ^ 52) := by
  induction path generalizing a n fuel qf qe with
  | nil =>
    have hpar : n.m_parent = none := by simpa [parent_chain, hn] using hchain
    rw [hpar]
    refine ⟨qf, qe, ?_, ?_, hqf0, hqf1, hqe0, hqe1, by simp⟩
    · cases fuel <;> simp [accumulate_loop]
    · cases fuel <;> simp [accumulate_loop]
  | cons b rest ih =>
    have hpar : n.m_parent = some b ∧ parent_chain nodes (b :: rest) = true := by
      simpa [parent_chain, hn] using hchain
    cases fuel with
    | zero => simp at hfuel
    | succ k =>
      have hk : rest.length ≤ k := by simpa using hfuel
      cases hb : nodes[b]? with
      | none =>
        cases rest with
        | nil => simp [parent_chain, hb] at hpar
        | cons c rest2 => simp [parent_chain, hb] at hpar
      | some pn =>
        obtain ⟨p, hpn, hp0, hp1⟩ := hp b (List.mem_cons_self _ _) pn hb
        have hbe : (exact_nodes nodes)[b]? = some pn.exact := by
          rw [exact_nodes_get, hb]; rfl
        have hpe : pn.exact.p_right = p := by
          simp [bnode_t.exact, hpn, float64_t.value]
        have hle : pn.exact.m_left = pn.m_left := rfl
        have hpar2 : pn.exact.m_parent = pn.m_parent := rfl
        have hrest : ∀ c ∈ rest, ∀ nc, nodes[c]? = some nc →
            ∃ p, nc.p_right = .finite p ∧ 0 ≤ p ∧ p ≤ 1 :=
          fun c hc => hp c (List.mem_cons_of_mem _ hc)
        rw [hpar.1]
        simp only [accumulate_loop, hb, hbe, hle, hpar2, hpe, hpn]
        by_cases hl : pn.m_left = some a
        · simp only [hl, if_true]
          obtain ⟨g, hg, hg0, hg1, hgerr⟩ := float64_one_sub_unit p hp0 hp1
          obtain ⟨q1, hq1, hq10, hq11, hq1err⟩ := float64_mul_unit qf g hqf0 hqf1 hg0 hg1
          rw [hg, hq1]
          obtain ⟨rf, re, hrf, hre, h1, h2, h3, h4, herr⟩ :=
            ih b pn k q1 (qe * (1 - p)) hpar.2 hb hk hrest hq10 hq11
              (mul_nonneg hqe0 (by linarith)) (by nlinarith)
          refine ⟨rf, re, hrf, hre, h1, h2, h3, h4, ?_⟩
          have hstep : |q1 - qe * (1 - p)| ≤ |qf - qe| + 2 * (1 / 2 ^ 53) := by
            have e1 : q1 - qe * (1 - p) =
                (q1 - qf * g) + (qf - qe) * g + qe * (g - (1 - p)) := by ring
            rw [e1]
            have t1 : |(qf - qe) * g| ≤ |qf - qe| := by
              rw [abs_mul, abs_of_nonneg hg0]
              exact mul_le_of_le_one_right (abs_nonneg _) hg1
            have t2 : |qe * (g - (1 - p))| ≤ 1 / 2 ^ 53 := by
              rw [abs_mul, abs_of_nonneg hqe0]
              calc qe * |g - (1 - p)| ≤ 1 * |g - (1 - p)| :=
                    mul_le_mul_of_nonneg_right hqe1 (abs_nonneg _)
                _ ≤ 1 / 2 ^ 53 := by rw [one_mul]; exact hgerr
            have t3 := abs_add (q1 - qf * g + (qf - qe) * g) (qe * (g - (1 - p)))
            have t4 := abs_add (q1 - qf * g) ((qf - qe) * g)
            linarith
          have hcast : ((b :: rest).length : ℚ) = (rest.length : ℚ) + 1 := by
            simp
          rw [hcast]
          have : (2 : ℚ) * (1 / 2 ^ 53) = 1 / 2 ^ 52 := by norm_num
          linarith
        · simp only [hl, if_false]
          obtain ⟨q1, hq1, hq10, hq11, hq1err⟩ := float64_mul_unit qf p hqf0 hqf1 hp0 hp1
          rw [hq1]
          obtain ⟨rf, re, hrf, hre, h1, h2, h3, h4, herr⟩ :=
            ih b pn k q1 (qe * p) hpar.2 hb hk hrest hq10 hq11
              (mul_nonneg hqe0 hp0) (by nlinarith)
          refine ⟨rf, re, hrf, hre, h1, h2, h3, h4, ?_⟩
          have hstep : |q1 - qe * p| ≤ |qf - qe| + 1 / 2 ^ 53 := by
            have e1 : q1 - qe * p = (q1 - qf * p) + (qf - qe) * p := by ring
            rw [e1]
            have t1 : |(qf - qe) * p| ≤ |qf - qe| := by
              rw [abs_mul, abs_of_nonneg hp0]
              exact mul_le_of_le_one_right (abs_nonneg _) hp1
            have t4 := abs_add (q1 - qf * p) ((qf - qe) * p)
            linarith
          have hcast : ((b :: rest).length : ℚ) = (rest.length : ℚ) + 1 := by
            simp
          rw [hcast]
          have : (0 : ℚ) ≤ 1 / 2 ^ 53 := by norm_num
          have : (2 : ℚ) * (1 / 2 ^ 53) = 1 / 2 ^ 52 := by norm_num
          linarith

theorem list_sum_abs_sub_le {α : Type} (l : List α) (f g : α → ℚ) (c : ℚ)
    (h : ∀ a ∈ l, |f a - g a| ≤ c) :
    |(l.map f).sum - (l.map g).sum| ≤ (l.length : ℚ) * c := by
  induction l with
  | nil => simp
  | cons x rest ih =>
    have h1 := h x (List.mem_cons_self _ _)
    have h2 := ih (fun a ha => h a (List.mem_cons_of_mem _ ha))
    simp only [List.map_cons, List.sum_cons, List.length_cons, Nat.cast_add, Nat.cast_one]
    have e : f x + (rest.map f).sum - (g x + (rest.map g).sum) =
        (f x - g x) + ((rest.map f).sum - (rest.map g).sum) := by ring
    rw [e]
    have t := abs_add (f x - g x) ((rest.map f).sum - (rest.map g).sum)
    linarith

/-- C32, amended: when the nodes hold a finite tree in which every node has no child or
two, and p_right of every node with children is a finite float64_t value in [0, 1],
accumulate_conditional_probability, in float64_t arithmetic, returns for every leaf as
soon as the fuel covers the depth of the tree; each value is finite and lies in [0, 1],
and the sum of the values of all leaves differs from 1 by at most the number of leaves
times the depth of the tree times 2^-52. -/
theorem leaf_probabilities_sum_near_one (nodes : List (bnode_t float64_t)) (s : Shape)
    (fuel : Nat) (hrep : represents nodes none s = true) (hnd : s.addresses.Nodup)
    (hp : ∀ a ∈ s.internal, ∀ n, nodes[a]? = some n →
      ∃ p, n.p_right = .finite p ∧ 0 ≤ p ∧ p ≤ 1)
    (hfuel : s.depth ≤ fuel) :
    (∀ a ∈ s.leaves, ∃ w,
        accumulate_conditional_probability nodes fuel (some a) = some (.finite w) ∧
        0 ≤ w ∧ w ≤ 1) ∧
      |(s.leaves.map (fun a =>
          ((accumulate_conditional_probability nodes fuel (some a)).getD 0).value)).sum -
        1| ≤ (s.leaves.length : ℚ) * (s.depth : ℚ) * (1 / 2 ^ 52) := by
  obtain ⟨rn, hrn, hrpar⟩ := represents_root nodes none s hrep
  have hroot : parent_chain nodes [s.root] = true := by
    simp [parent_chain, hrn, hrpar]
  have hleaf : ∀ a ∈ s.leaves, ∃ rf re,
      accumulate_conditional_probability nodes fuel (some a) = some (.finite rf) ∧
      accumulate_conditional_probability (exact_nodes nodes) fuel (some a) = some re ∧
      0 ≤ rf ∧ rf ≤ 1 ∧ |rf - re| ≤ (s.depth : ℚ) * (1 / 2 ^ 52) := by
    intro a ha
    obtain ⟨path, hpath, hlen, hmem⟩ := leaf_chain nodes s none hrep a ha [] hroot
    have hlen1 : path.length ≤ s.depth := by simpa using hlen
    cases hn : nodes[a]? with
    | none =>
      cases path with
      | nil => simp [parent_chain, hn] at hpath
      | cons b rest => simp [parent_chain, hn] at hpath
    | some n =>
      obtain ⟨rf, re, hrf, hre, h1, h2, -, -, herr⟩ :=
        accumulate_loop_float nodes path a n fuel 1 1 hpath hn (by omega)
          (by
            intro c hc nc hnc
            rcases hmem c hc with h | h
            · exact hp c h nc hnc
            · cases h)
          zero_le_one (le_refl _) zero_le_one (le_refl _)
      refine ⟨rf, re, ?_, ?_, h1, h2, ?_⟩
      · simp only [accumulate_conditional_probability, hn]
        exact hrf
      · have hne : (exact_nodes nodes)[a]? = some n.exact := by
          rw [exact_nodes_get, hn]; rfl
        simp only [accumulate_conditional_probability, hne]
        exact hre
      · have hcast : (path.length : ℚ) ≤ (s.depth : ℚ) := by exact_mod_cast hlen1
        have : (path.length : ℚ) * (1 / 2 ^ 52) ≤ (s.depth : ℚ) * (1 / 2 ^ 52) :=
          mul_le_mul_of_nonneg_right hcast (by norm_num)
        simp only [sub_self, abs_zero, zero_add] at herr
        linarith
  have hexact := subtree_sum (exact_nodes nodes) s none 0 fuel 1
    (by rw [represents_exact]; exact hrep) hnd
    (by
      intro a ha n hn
      rw [exact_nodes_get] at hn
      cases hna : nodes[a]? with
      | none => simp [hna] at hn
      | some na =>
        obtain ⟨p, hpa, hp0, hp1⟩ := hp a ha na hna
        simp only [hna, Option.map_some', Option.some.injEq] at hn
        subst hn
        simp [bnode_t.exact, hpa, float64_t.value, hp0, hp1])
    (accumulate_root (exact_nodes nodes) 0 s.root rn.exact
      (by rw [exact_nodes_get, hrn]; rfl) hrpar)
    zero_le_one (by omega)
  refine ⟨?_, ?_⟩
  · intro a ha
    obtain ⟨rf, re, hrf, -, h1, h2, -⟩ := hleaf a ha
    exact ⟨rf, hrf, h1, h2⟩
  · have hb := list_sum_abs_sub_le s.leaves
      (fun a => ((accumulate_conditional_probability nodes fuel (some a)).getD 0).value)
      (fun a => (accumulate_conditional_probability (exact_nodes nodes) fuel (some a)).getD 0)
      ((s.depth : ℚ) * (1 / 2 ^ 52))
      (by
        intro a ha
        obtain ⟨rf, re, hrf, hre, -, -, herr⟩ := hleaf a ha
        simp only [hrf, hre, Option.getD_some, float64_t.value]
        exact herr)
    rw [hexact.2] at hb
    rw [mul_assoc]
    exact hb

theorem float64_round_value (x r : ℚ) (e m : Int) (hlo : (2 : ℚ) ^ e ≤ |x|)
    (hhi : |x| < (2 : ℚ) ^ (e + 1)) (he : -1022 ≤ e)
    (hm : |x / (2 : ℚ) ^ (e - 52) - m| < 1 / 2)
    (hfin : |(m : ℚ) * (2 : ℚ) ^ (e - 52)| < (2 : ℚ) ^ (1024 : Nat))
    (hr : (m : ℚ) * (2 : ℚ) ^ (e - 52) = r) : float64_t.round x = .finite r := by
  rw [float64_round_eq x e m hlo hhi he hm hfin, hr]

theorem float64_one : (1 : float64_t) = .finite 1 := rfl

theorem float64_zero : (0 : float64_t) = .finite 0 := rfl

theorem float64_value_finite (q : ℚ) : (float64_t.finite q).value = q := rfl

theorem float64_add_finite (a b : ℚ) :
    float64_t.finite a + float64_t.finite b = float64_t.round (a + b) := rfl

theorem float64_sub_finite (a b : ℚ) :
    float64_t.finite a - float64_t.finite b = float64_t.round (a - b) := rfl

theorem float64_mul_finite (a b : ℚ) :
    float64_t.finite a * float64_t.finite b = float64_t.round (a * b) := rfl

/-- C32, counterexample: in the sample tree with p_right 0.01 at the root and 0.05 at the
node 2, both binary64 values in [0, 1], the accumulated probabilities of the three leaves
are the binary64 values 0x1.fae147ae147aep-1, 0x1.374bc6a7ef9dbp-7 and
0x1.0624dd2f1a9fcp-11; their sum is 1 - 21 * 2^-61, and added up in float64_t arithmetic
they give 1 - 2^-53: the sum is not 1. -/
theorem leaf_probabilities_sum_below_one :
    represents float_tree_nodes none sample_shape = true ∧
    sample_shape.leaves.map
        (fun a => accumulate_conditional_probability float_tree_nodes 2 (some a)) =
      [some (.finite (4458563631096791 / 4503599627370496)),
       some (.finite (5476377146882523 / 576460752303423488)),
       some (.finite (1152921504606847 / 2305843009213693952))] ∧
    (sample_shape.leaves.map (fun a =>
        ((accumulate_conditional_probability float_tree_nodes 2 (some a)).getD 0).value)).sum =
      1 - 21 / 2305843009213693952 ∧
    float64_t.finite (4458563631096791 / 4503599627370496) +
        float64_t.finite (5476377146882523 / 576460752303423488) +
        float64_t.finite (1152921504606847 / 2305843009213693952) =
      .finite (1 - 1 / 9007199254740992) := by
  have r1 : float64_t.round (1 - 5764607523034235 / 576460752303423488) =
      .finite (4458563631096791 / 4503599627370496) :=
    float64_round_value _ _ (-1) 8917127262193582 (by norm_num [abs_of_nonneg])
      (by norm_num [abs_of_nonneg]) (by norm_num) (by norm_num [abs_lt])
      (by norm_num [abs_lt]) (by norm_num)
  have r2 : float64_t.round (1 * (4458563631096791 / 4503599627370496)) =
      .finite (4458563631096791 / 4503599627370496) :=
    float64_round_value _ _ (-1) 8917127262193582 (by norm_num [abs_of_nonneg])
      (by norm_num [abs_of_nonneg]) (by norm_num) (by norm_num [abs_lt])
      (by norm_num [abs_lt]) (by norm_num)
  have r3 : float64_t.round (1 - 3602879701896397 / 72057594037927936) =
      .finite (4278419646001971 / 4503599627370496) :=
    float64_round_value _ _ (-1) 8556839292003942 (by norm_num [abs_of_nonneg])
      (by norm_num [abs_of_nonneg]) (by norm_num) (by norm_num [abs_lt])
      (by norm_num [abs_lt]) (by norm_num)
  have r4 : float64_t.round (1 * (4278419646001971 / 4503599627370496)) =
      .finite (4278419646001971 / 4503599627370496) :=
    float64_round_value _ _ (-1) 8556839292003942 (by norm_num [abs_of_nonneg])
      (by norm_num [abs_of_nonneg]) (by norm_num) (by norm_num [abs_lt])
      (by norm_num [abs_lt]) (by norm_num)
  have r5 : float64_t.round (4278419646001971 / 4503599627370496 *
      (5764607523034235 / 576460752303423488)) =
      .finite (5476377146882523 / 576460752303423488) :=
    float64_round_value _ _ (-7) 5476377146882523 (by norm_num [abs_of_nonneg])
      (by norm_num [abs_of_nonneg]) (by norm_num) (by norm_num [abs_lt])
      (by norm_num [abs_lt]) (by norm_num)
  have r6 : float64_t.round (1 * (3602879701896397 / 72057594037927936)) =
      .finite (3602879701896397 / 72057594037927936) :=
    float64_round_value _ _ (-5) 7205759403792794 (by norm_num [abs_of_nonneg])
      (by norm_num [abs_of_nonneg]) (by norm_num) (by norm_num [abs_lt])
      (by norm_num [abs_lt]) (by norm_num)
  have r7 : float64_t.round (3602879701896397 / 72057594037927936 *
      (5764607523034235 / 576460752303423488)) =
      .finite (1152921504606847 / 2305843009213693952) :=
    float64_round_value _ _ (-11) 4611686018427388 (by norm_num [abs_of_nonneg])
      (by norm_num [abs_of_nonneg]) (by norm_num) (by norm_num [abs_lt])
      (by norm_num [abs_lt]) (by norm_num)
  have r8 : float64_t.round (4458563631096791 / 4503599627370496 +
      5476377146882523 / 576460752303423488) =
      .finite (9002695655113621 / 9007199254740992) :=
    float64_round_value _ _ (-1) 9002695655113621 (by norm_num [abs_of_nonneg])
      (by norm_num [abs_of_nonneg]) (by norm_num) (by norm_num [abs_lt])
      (by norm_num [abs_lt]) (by norm_num)
  have r9 : float64_t.round (9002695655113621 / 9007199254740992 +
      1152921504606847 / 2305843009213693952) =
      .finite (1 - 1 / 9007199254740992) :=
    float64_round_value _ _ (-1) 9007199254740991 (by norm_num [abs_of_nonneg])
      (by norm_num [abs_of_nonneg]) (by norm_num) (by norm_num [abs_lt])
      (by norm_num [abs_lt]) (by norm_num)
  have l1 : accumulate_conditional_probability float_tree_nodes 2 (some 1) =
      some (.finite (4458563631096791 / 4503599627370496)) := by
    simp only [accumulate_conditional_probability, accumulate_loop, float_tree_nodes,
      List.getElem?_cons_succ, List.getElem?_cons_zero, Option.some.injEq,
      Nat.reduceEqDiff, if_false, if_true, float64_one, float64_sub_finite,
      float64_mul_finite, r1, r2]
  have l3 : accumulate_conditional_probability float_tree_nodes 2 (some 3) =
      some (.finite (5476377146882523 / 576460752303423488)) := by
    simp only [accumulate_conditional_probability, accumulate_loop, float_tree_nodes,
      List.getElem?_cons_succ, List.getElem?_cons_zero, Option.some.injEq,
      Nat.reduceEqDiff, if_false, if_true, float64_one, float64_sub_finite,
      float64_mul_finite, r3, r4, r5]
  have l4 : accumulate_conditional_probability float_tree_nodes 2 (some 4) =
      some (.finite (1152921504606847 / 2305843009213693952)) := by
    simp only [accumulate_conditional_probability, accumulate_loop, float_tree_nodes,
      List.getElem?_cons_succ, List.getElem?_cons_zero, Option.some.injEq,
      Nat.reduceEqDiff, if_false, if_true, float64_one, float64_mul_finite, r6, r7]
  refine ⟨by decide, ?_, ?_, ?_⟩
  · simp only [sample_shape, Shape.leaves, List.cons_append, List.nil_append, List.map_cons,
      List.map_nil, l1, l3, l4]
  · simp only [sample_shape, Shape.leaves, List.cons_append, List.nil_append, List.map_cons,
      List.map_nil, l1, l3, l4, Option.getD_some, float64_value_finite, List.sum_cons,
      List.sum_nil]
    norm_num
  · simp only [float64_add_finite, r8, r9]

/-- C32, witness: the sample tree with p_right 0.01 and 0.05; the three leaf values lie in
[0, 1] and their sum is within 3 * 2 * 2^-52 of 1. -/
theorem leaf_probabilities_sum_near_one_witness :
    represents float_tree_nodes none sample_shape = true ∧
    (∀ a ∈ sample_shape.leaves, ∃ w,
        accumulate_conditional_probability float_tree_nodes 2 (some a) =
          some (.finite w) ∧ 0 ≤ w ∧ w ≤ 1) ∧
      |(sample_shape.leaves.map (fun a =>
          ((accumulate_conditional_probability float_tree_nodes 2 (some a)).getD
            0).value)).sum - 1| ≤
        (sample_shape.leaves.length : ℚ) * (sample_shape.depth : ℚ) * (1 / 2 ^ 52) :=
  ⟨by decide, leaf_probabilities_sum_near_one float_tree_nodes sample_shape 2 (by decide)
    (by decide)
    (by
      intro a ha n hn
      simp only [sample_shape, Shape.internal, List.append_nil, List.nil_append,
        List.mem_cons, List.mem_singleton, List.mem_nil_iff, or_false] at ha
      rcases ha with h | h
      · subst h
        simp only [float_tree_nodes, List.getElem?_cons_zero, Option.some.injEq] at hn
        subst hn
        exact ⟨_, rfl, by norm_num, by norm_num⟩
      · subst h
        simp only [float_tree_nodes, List.getElem?_cons_succ, List.getElem?_cons_zero,
          Option.some.injEq] at hn
        subst hn
        exact ⟨_, rfl, by norm_num, by norm_num⟩)
    (by decide)⟩

/-! ## Relative rounding errors of float64_t arithmetic -/

theorem float64_unit_pos : (0 : ℚ) < 1 - 1 / 2 ^ 53 := by norm_num

theorem float64_unit_le_one : (1 : ℚ) - 1 / 2 ^ 53 ≤ 1 := by norm_num

theorem float64_unit_pow_pos (k : Nat) : (0 : ℚ) < (1 - 1 / 2 ^ 53) ^ k :=
  pow_pos float64_unit_pos k

theorem float64_unit_pow_le_one (k : Nat) : ((1 : ℚ) - 1 / 2 ^ 53) ^ k ≤ 1 :=
  pow_le_one₀ (le_of_lt float64_unit_pos) float64_unit_le_one

theorem float64_unit_pow_anti (j k : Nat) (h : j ≤ k) :
    ((1 : ℚ) - 1 / 2 ^ 53) ^ k ≤ (1 - 1 / 2 ^ 53) ^ j :=
  pow_le_pow_of_le_one (le_of_lt float64_unit_pos) float64_unit_le_one h

theorem float64_unit_pow_ge (k : Nat) :
    (1 : ℚ) - (k : ℚ) * (1 / 2 ^ 53) ≤ (1 - 1 / 2 ^ 53) ^ k := by
  have h := one_add_mul_le_pow (a := (-(1 / 2 ^ 53) : ℚ)) (by norm_num) k
  have e1 : (1 : ℚ) + (k : ℚ) * -(1 / 2 ^ 53) = 1 - (k : ℚ) * (1 / 2 ^ 53) := by ring
  have e2 : (1 : ℚ) + -(1 / 2 ^ 53) = 1 - 1 / 2 ^ 53 := by ring
  rw [e1, e2] at h
  exact h

theorem near_refl (x : ℚ) : float64_t.near 0 x x := by
  simp [float64_t.near]

theorem near_symm (k : Nat) (q x : ℚ) (h : float64_t.near k q x) : float64_t.near k x q :=
  ⟨h.2, h.1⟩

theorem near_mono (j k : Nat) (q x : ℚ) (hq : 0 ≤ q) (hx : 0 ≤ x)
    (h : float64_t.near j q x) (hjk : j ≤ k) : float64_t.near k q x := by
  have hw := float64_unit_pow_anti j k hjk
  exact ⟨le_trans (mul_le_mul_of_nonneg_left hw hx) h.1,
    le_trans (mul_le_mul_of_nonneg_left hw hq) h.2⟩

theorem near_trans (j k : Nat) (a b c : ℚ) (h1 : float64_t.near j a b)
    (h2 : float64_t.near k b c) : float64_t.near (j + k) a c := by
  have hj := le_of_lt (float64_unit_pow_pos j)
  have hk := le_of_lt (float64_unit_pow_pos k)
  constructor
  · calc c * (1 - 1 / 2 ^ 53) ^ (j + k)
        = c * (1 - 1 / 2 ^ 53) ^ k * (1 - 1 / 2 ^ 53) ^ j := by rw [pow_add]; ring
      _ ≤ b * (1 - 1 / 2 ^ 53) ^ j := mul_le_mul_of_nonneg_right h2.1 hj
      _ ≤ a := h1.1
  · calc a * (1 - 1 / 2 ^ 53) ^ (j + k)
        = a * (1 - 1 / 2 ^ 53) ^ j * (1 - 1 / 2 ^ 53) ^ k := by rw [pow_add]; ring
      _ ≤ b * (1 - 1 / 2 ^ 53) ^ k := mul_le_mul_of_nonneg_right h1.2 hk
      _ ≤ c := h2.2

theorem near_add (k : Nat) (a b x y : ℚ) (h1 : float64_t.near k a x)
    (h2 : float64_t.near k b y) : float64_t.near k (a + b) (x + y) := by
  constructor
  · rw [add_mul]; exact add_le_add h1.1 h2.1
  · rw [add_mul]; exact add_le_add h1.2 h2.2

theorem near_mul (j k : Nat) (a b x y : ℚ) (ha : 0 ≤ a) (hb : 0 ≤ b) (hx : 0 ≤ x)
    (hy : 0 ≤ y) (h1 : float64_t.near j a x) (h2 : float64_t.near k b y) :
    float64_t.near (j + k) (a * b) (x * y) := by
  have hj := le_of_lt (float64_unit_pow_pos j)
  have hk := le_of_lt (float64_unit_pow_pos k)
  constructor
  · calc x * y * (1 - 1 / 2 ^ 53) ^ (j + k)
        = (x * (1 - 1 / 2 ^ 53) ^ j) * (y * (1 - 1 / 2 ^ 53) ^ k) := by rw [pow_add]; ring
      _ ≤ a * b := mul_le_mul h1.1 h2.1 (mul_nonneg hy hk) ha
  · calc a * b * (1 - 1 / 2 ^ 53) ^ (j + k)
        = (a * (1 - 1 / 2 ^ 53) ^ j) * (b * (1 - 1 / 2 ^ 53) ^ k) := by rw [pow_add]; ring
      _ ≤ x * y := mul_le_mul h1.2 h2.2 (mul_nonneg hb hk) hx

theorem near_div (j k : Nat) (a b x y : ℚ) (ha : 0 ≤ a) (hb : 0 < b) (hx : 0 ≤ x)
    (hy : 0 < y) (h1 : float64_t.near j a x) (h2 : float64_t.near k b y) :
    float64_t.near (j + k) (a / b) (x / y) := by
  have hj := le_of_lt (float64_unit_pow_pos j)
  have hk := le_of_lt (float64_unit_pow_pos k)
  constructor
  · rw [div_mul_eq_mul_div, div_le_div_iff₀ hy hb]
    calc x * (1 - 1 / 2 ^ 53) ^ (j + k) * b
        = (x * (1 - 1 / 2 ^ 53) ^ j) * (b * (1 - 1 / 2 ^ 53) ^ k) := by rw [pow_add]; ring
      _ ≤ a * y := mul_le_mul h1.1 h2.2 (mul_nonneg (le_of_lt hb) hk) ha
  · rw [div_mul_eq_mul_div, div_le_div_iff₀ hb hy]
    calc a * (1 - 1 / 2 ^ 53) ^ (j + k) * y
        = (a * (1 - 1 / 2 ^ 53) ^ j) * (y * (1 - 1 / 2 ^ 53) ^ k) := by rw [pow_add]; ring
      _ ≤ x * b := mul_le_mul h1.2 h2.1 (mul_nonneg (le_of_lt hy) hk) hx

theorem near_sum {α : Type} (k : Nat) (l : List α) (f g : α → ℚ)
    (h : ∀ a ∈ l, float64_t.near k (f a) (g a)) :
    float64_t.near k (l.map f).sum (l.map g).sum := by
  induction l with
  | nil => simp [float64_t.near]
  | cons x rest ih =>
    simp only [List.map_cons, List.sum_cons]
    exact near_add k _ _ _ _ (h x (List.mem_cons_self _ _))
      (ih (fun a ha => h a (List.mem_cons_of_mem _ ha)))

theorem near_one_abs (k : Nat) (q : ℚ) (hk : (k : ℚ) * (1 / 2 ^ 53) ≤ 1 / 2)
    (h : float64_t.near k q 1) : |q - 1| ≤ (k : ℚ) * (1 / 2 ^ 52) := by
  have hw := float64_unit_pow_ge k
  have hwpos := float64_unit_pow_pos k
  obtain ⟨h1, h2⟩ := h
  rw [one_mul] at h1
  have hlow : 1 - (k : ℚ) * (1 / 2 ^ 53) ≤ q := le_trans hw h1
  have hk0 : (0 : ℚ) ≤ (k : ℚ) * (1 / 2 ^ 53) := by positivity
  have hup : q ≤ 1 + (k : ℚ) * (1 / 2 ^ 52) := by
    by_contra hcon
    push_neg at hcon
    have hq : (1 + (k : ℚ) * (1 / 2 ^ 52)) * (1 - (k : ℚ) * (1 / 2 ^ 53)) < 
        q * (1 - 1 / 2 ^ 53) ^ k := by
      have hpos1 : (0 : ℚ) < 1 - (k : ℚ) * (1 / 2 ^ 53) := by linarith
      calc (1 + (k : ℚ) * (1 / 2 ^ 52)) * (1 - (k : ℚ) * (1 / 2 ^ 53))
          < q * (1 - (k : ℚ) * (1 / 2 ^ 53)) := mul_lt_mul_of_pos_right hcon hpos1
        _ ≤ q * (1 - 1 / 2 ^ 53) ^ k :=
            mul_le_mul_of_nonneg_left hw (by linarith)
    have e : (1 + (k : ℚ) * (1 / 2 ^ 52)) * (1 - (k : ℚ) * (1 / 2 ^ 53)) =
        1 + (k : ℚ) * (1 / 2 ^ 53) * (1 - 2 * ((k : ℚ) * (1 / 2 ^ 53))) := by ring
    have hnn : (0 : ℚ) ≤ (k : ℚ) * (1 / 2 ^ 53) * (1 - 2 * ((k : ℚ) * (1 / 2 ^ 53))) :=
      mul_nonneg hk0 (by linarith)
    linarith
  rw [abs_le]
  have e2 : (k : ℚ) * (1 / 2 ^ 52) = 2 * ((k : ℚ) * (1 / 2 ^ 53)) := by ring
  constructor <;> linarith

theorem float64_round_zero : float64_t.round 0 = .finite 0 := by
  unfold float64_t.round
  have h : round_nearest_even (0 / float64_t.spacing 0) = 0 := by
    rw [zero_div]
    exact round_nearest_even_eq 0 0 (by norm_num)
  rw [h]
  norm_num

theorem float64_round_normal (x : ℚ) (hlo : 1 / 2 ^ 1022 ≤ x) (hhi : x ≤ 2 ^ 1023) :
    ∃ q, float64_t.round x = .finite q ∧ 0 < q ∧ float64_t.near 1 q x := by
  have hx : 0 < x := lt_of_lt_of_le (by positivity) hlo
  have habs : |x| = x := abs_of_pos hx
  have hE : -1022 ≤ Int.log 2 x := by
    rw [← Int.zpow_le_iff_le_log (by decide) hx]
    have e : ((2 : ℕ) : ℚ) ^ (-1022 : Int) = 1 / 2 ^ 1022 := by
      rw [zpow_neg]
      norm_num
    rw [e]
    exact hlo
  have hEx : (2 : ℚ) ^ Int.log 2 x ≤ x := by
    have := Int.zpow_log_le_self (b := 2) (r := x) (by decide) hx
    simpa using this
  have hsp : float64_t.spacing x = (2 : ℚ) ^ (Int.log 2 x - 52) := by
    unfold float64_t.spacing
    rw [habs, max_eq_left hE]
  have hpos : 0 < float64_t.spacing x := float64_spacing_pos x
  have hsple : float64_t.spacing x ≤ x * (1 / 2 ^ 52) := by
    rw [hsp, zpow_sub₀ (by norm_num : (2 : ℚ) ≠ 0)]
    have e : (2 : ℚ) ^ (52 : Int) = 2 ^ 52 := by norm_num
    rw [e, div_eq_mul_one_div]
    exact mul_le_mul_of_nonneg_right hEx (by norm_num)
  have hrabs := round_nearest_even_abs (x / float64_t.spacing x)
  generalize hrr : round_nearest_even (x / float64_t.spacing x) = r at hrabs
  have herr : |(r : ℚ) * float64_t.spacing x - x| ≤ x * (1 / 2 ^ 53) := by
    have h4 : (r : ℚ) * float64_t.spacing x - x =
        ((r : ℚ) - x / float64_t.spacing x) * float64_t.spacing x := by
      field_simp
    rw [h4, abs_mul, abs_of_pos hpos]
    calc |(r : ℚ) - x / float64_t.spacing x| * float64_t.spacing x
        ≤ 1 / 2 * (x * (1 / 2 ^ 52)) :=
          mul_le_mul hrabs hsple (le_of_lt hpos) (by norm_num)
      _ = x * (1 / 2 ^ 53) := by ring
  rw [abs_le] at herr
  have hq0 : 0 < (r : ℚ) * float64_t.spacing x := by
    have : (0 : ℚ) < x * (1 - 1 / 2 ^ 53) := mul_pos hx float64_unit_pos
    linarith
  refine ⟨(r : ℚ) * float64_t.spacing x, ?_, hq0, ?_⟩
  · unfold float64_t.round
    rw [hrr, if_neg]
    rw [not_le, abs_of_pos hq0]
    have h2 : x * (1 / 2 ^ 53) ≤ x := by
      have : (1 : ℚ) / 2 ^ 53 ≤ 1 := by norm_num
      nlinarith
    have h3 : (2 : ℚ) ^ (1024 : Nat) = 2 * 2 ^ 1023 := by norm_num
    have h4 : (0 : ℚ) < x * (1 / 2 ^ 53) := by positivity
    by_cases hxe : x = 2 ^ 1023
    · have : x * (1 / 2 ^ 53) < x := by
        have : (1 : ℚ) / 2 ^ 53 < 1 := by norm_num
        nlinarith
      linarith
    · have : x < 2 ^ 1023 := lt_of_le_of_ne hhi hxe
      linarith
  · constructor
    · rw [pow_one]
      linarith
    · rw [pow_one]
      have e : (r : ℚ) * float64_t.spacing x * (1 - 1 / 2 ^ 53) ≤
          (x + x * (1 / 2 ^ 53)) * (1 - 1 / 2 ^ 53) :=
        mul_le_mul_of_nonneg_right (by linarith) (le_of_lt float64_unit_pos)
      have e2 : (x + x * (1 / 2 ^ 53)) * (1 - 1 / 2 ^ 53) =
          x - x * (1 / 2 ^ 53) * (1 / 2 ^ 53) := by ring
      have e3 : (0 : ℚ) ≤ x * (1 / 2 ^ 53) * (1 / 2 ^ 53) := by positivity
      linarith

theorem float64_round_nat (n : Nat) (hn : n < 2 ^ 53) :
    float64_t.round (n : ℚ) = .finite (n : ℚ) := by
  rcases Nat.eq_zero_or_pos n with h0 | hpos
  · subst h0
    simpa using float64_round_zero
  · have hne : n ≠ 0 := Nat.pos_iff_ne_zero.1 hpos
    have hlo : 2 ^ Nat.log 2 n ≤ n := Nat.pow_log_le_self 2 hne
    have hhi : n < 2 ^ (Nat.log 2 n + 1) := Nat.lt_pow_succ_log_self (by decide) n
    have hlog : Nat.log 2 n < 53 := by
      by_contra hcon
      push_neg at hcon
      have : 2 ^ 53 ≤ 2 ^ Nat.log 2 n := Nat.pow_le_pow_right (by decide) hcon
      omega
    obtain ⟨j, hj⟩ : ∃ j, Nat.log 2 n + j = 52 := ⟨52 - Nat.log 2 n, by omega⟩
    have hloq : (2 : ℚ) ^ ((Nat.log 2 n : Nat) : Int) ≤ |(n : ℚ)| := by
      rw [abs_of_nonneg (by positivity), zpow_natCast]
      exact_mod_cast hlo
    have hhiq : |(n : ℚ)| < (2 : ℚ) ^ (((Nat.log 2 n : Nat) : Int) + 1) := by
      rw [abs_of_nonneg (by positivity)]
      have e : (((Nat.log 2 n : Nat) : Int) + 1) = ((Nat.log 2 n + 1 : Nat) : Int) := by
        push_cast; ring
      rw [e, zpow_natCast]
      exact_mod_cast hhi
    have hexp : (((Nat.log 2 n : Nat) : Int) - 52) = -((j : Nat) : Int) := by omega
    have hval : (n : ℚ) / (2 : ℚ) ^ (((Nat.log 2 n : Nat) : Int) - 52) =
        ((n * 2 ^ j : Nat) : ℚ) := by
      rw [hexp, zpow_neg, zpow_natCast]
      push_cast
      field_simp
    have hback : (((n * 2 ^ j : Nat) : Int) : ℚ) *
        (2 : ℚ) ^ (((Nat.log 2 n : Nat) : Int) - 52) = (n : ℚ) := by
      rw [hexp, zpow_neg, zpow_natCast]
      push_cast
      field_simp
    have h := float64_round_eq (n : ℚ) (Nat.log 2 n : Nat) ((n * 2 ^ j : Nat) : Int)
      hloq hhiq (by omega)
      (by
        rw [hval]
        simp)
      (by
        rw [hback, abs_of_nonneg (by positivity)]
        have h1 : (n : ℚ) < 2 ^ 53 := by exact_mod_cast hn
        have h2 : (2 : ℚ) ^ 53 < (2 : ℚ) ^ (1024 : Nat) := by norm_num
        linarith)
    rw [h, hback]

theorem float64_sqrt_near (m q y : ℚ) (hm : 2 ^ 52 ≤ m) (hq : 0 < q)
    (hlo : (m - 1 / 2) ^ 2 ≤ y) (hhi : y ≤ (m + 1 / 2) ^ 2) :
    0 < m * q ∧ float64_t.near 2 (m * q * (m * q)) (y * (q * q)) := by
  have hm0 : (0 : ℚ) < m := lt_of_lt_of_le (by norm_num) hm
  have hmu : 1 / 2 ≤ m * (1 / 2 ^ 53) := by
    have : (2 : ℚ) ^ 52 * (1 / 2 ^ 53) = 1 / 2 := by norm_num
    rw [← this]
    exact mul_le_mul_of_nonneg_right hm (by norm_num)
  have hw0 := float64_unit_pos
  have ha0 : 0 ≤ m - 1 / 2 := by linarith
  have h1 : m * (1 - 1 / 2 ^ 53) ≤ m - 1 / 2 := by
    have : m * (1 - 1 / 2 ^ 53) = m - m * (1 / 2 ^ 53) := by ring
    linarith
  have h2 : (m + 1 / 2) * (1 - 1 / 2 ^ 53) ≤ m := by
    have e : (m + 1 / 2) * (1 - 1 / 2 ^ 53) =
        m + (1 / 2 - m * (1 / 2 ^ 53)) - 1 / 2 * (1 / 2 ^ 53) := by ring
    have : (0 : ℚ) ≤ 1 / 2 * (1 / 2 ^ 53) := by norm_num
    linarith
  have h10 : 0 ≤ m * (1 - 1 / 2 ^ 53) := mul_nonneg (le_of_lt hm0) (le_of_lt hw0)
  have h20 : 0 ≤ (m + 1 / 2) * (1 - 1 / 2 ^ 53) :=
    mul_nonneg (by linarith) (le_of_lt hw0)
  have hqq : 0 < q * q := mul_pos hq hq
  refine ⟨mul_pos hm0 hq, ?_, ?_⟩
  · have s1 : ((m + 1 / 2) * (1 - 1 / 2 ^ 53)) ^ 2 ≤ m ^ 2 :=
      pow_le_pow_left₀ h20 h2 2
    calc y * (q * q) * (1 - 1 / 2 ^ 53) ^ 2
        ≤ (m + 1 / 2) ^ 2 * (q * q) * (1 - 1 / 2 ^ 53) ^ 2 := by
          apply mul_le_mul_of_nonneg_right _ (le_of_lt (float64_unit_pow_pos 2))
          exact mul_le_mul_of_nonneg_right hhi (le_of_lt hqq)
      _ = ((m + 1 / 2) * (1 - 1 / 2 ^ 53)) ^ 2 * (q * q) := by ring
      _ ≤ m ^ 2 * (q * q) := mul_le_mul_of_nonneg_right s1 (le_of_lt hqq)
      _ = m * q * (m * q) := by ring
  · have s1 : (m * (1 - 1 / 2 ^ 53)) ^ 2 ≤ (m - 1 / 2) ^ 2 :=
      pow_le_pow_left₀ h10 h1 2
    calc m * q * (m * q) * (1 - 1 / 2 ^ 53) ^ 2
        = (m * (1 - 1 / 2 ^ 53)) ^ 2 * (q * q) := by ring
      _ ≤ (m - 1 / 2) ^ 2 * (q * q) := mul_le_mul_of_nonneg_right s1 (le_of_lt hqq)
      _ ≤ y * (q * q) := mul_le_mul_of_nonneg_right hlo (le_of_lt hqq)

theorem float64_sqrt_normal (x : ℚ) (hlo : 1 / 2 ^ 1022 ≤ x) :
    ∃ d, float64_t.sqrt (.finite x) = .finite d ∧ 0 < d ∧ float64_t.near 2 (d * d) x := by
  have hx : 0 < x := lt_of_lt_of_le (by positivity) hlo
  have hL : -1022 ≤ Int.log 2 x := by
    rw [← Int.zpow_le_iff_le_log (by decide) hx]
    have e : ((2 : ℕ) : ℚ) ^ (-1022 : Int) = 1 / 2 ^ 1022 := by
      rw [zpow_neg]
      norm_num
    rw [e]
    exact hlo
  have hLx : (2 : ℚ) ^ Int.log 2 x ≤ x := by
    have := Int.zpow_log_le_self (b := 2) (r := x) (by decide) hx
    simpa using this
  have hmax : max (Int.log 2 x / 2) (-1022) = Int.log 2 x / 2 := max_eq_left (by omega)
  have h2E : 2 * (Int.log 2 x / 2) ≤ Int.log 2 x := by omega
  generalize hEdef : Int.log 2 x / 2 = E at hmax h2E
  have hq : (0 : ℚ) < (2 : ℚ) ^ (E - 52) := by positivity
  have hqq : (2 : ℚ) ^ (E - 52) * (2 : ℚ) ^ (E - 52) = (2 : ℚ) ^ (2 * E - 104) := by
    rw [← zpow_add₀ (by norm_num : (2 : ℚ) ≠ 0)]
    congr 1
    ring
  have hy104 : (2 : ℚ) ^ 104 ≤ x / ((2 : ℚ) ^ (E - 52) * (2 : ℚ) ^ (E - 52)) := by
    rw [hqq, le_div_iff₀ (by positivity)]
    have e : (2 : ℚ) ^ 104 * (2 : ℚ) ^ (2 * E - 104) = (2 : ℚ) ^ (2 * E) := by
      have : (2 : ℚ) ^ 104 = (2 : ℚ) ^ (104 : Int) := by norm_num
      rw [this, ← zpow_add₀ (by norm_num : (2 : ℚ) ≠ 0)]
      congr 1
      ring
    rw [e]
    exact le_trans (zpow_le_zpow_right₀ (by norm_num) h2E) hLx
  generalize hydef : x / ((2 : ℚ) ^ (E - 52) * (2 : ℚ) ^ (E - 52)) = y at hy104
  have hxy : x = y * ((2 : ℚ) ^ (E - 52) * (2 : ℚ) ^ (E - 52)) := by
    rw [← hydef]
    field_simp
  have hy0 : 0 ≤ y := le_trans (by positivity) hy104
  have hk1 : ((Nat.sqrt ⌊y⌋₊ : Nat) : ℚ) ^ 2 ≤ y := by
    have h1 : Nat.sqrt ⌊y⌋₊ * Nat.sqrt ⌊y⌋₊ ≤ ⌊y⌋₊ := Nat.sqrt_le _
    have h2 : ((⌊y⌋₊ : Nat) : ℚ) ≤ y := Nat.floor_le hy0
    have h3 : ((Nat.sqrt ⌊y⌋₊ * Nat.sqrt ⌊y⌋₊ : Nat) : ℚ) ≤ ((⌊y⌋₊ : Nat) : ℚ) := by
      exact_mod_cast h1
    push_cast at h3
    rw [pow_two]
    linarith
  have hk2 : y < (((Nat.sqrt ⌊y⌋₊ : Nat) : ℚ) + 1) ^ 2 := by
    have h1 : ⌊y⌋₊ < (Nat.sqrt ⌊y⌋₊ + 1) * (Nat.sqrt ⌊y⌋₊ + 1) := Nat.lt_succ_sqrt _
    have h2 : y < ((⌊y⌋₊ : Nat) : ℚ) + 1 := Nat.lt_floor_add_one y
    have h3 : ((⌊y⌋₊ + 1 : Nat) : ℚ) ≤
        (((Nat.sqrt ⌊y⌋₊ + 1) * (Nat.sqrt ⌊y⌋₊ + 1) : Nat) : ℚ) := by
      exact_mod_cast h1
    push_cast at h3
    rw [pow_two]
    linarith
  have hk52 : (2 : ℚ) ^ 52 ≤ ((Nat.sqrt ⌊y⌋₊ : Nat) : ℚ) := by
    have h1 : 2 ^ 52 ≤ Nat.sqrt ⌊y⌋₊ := by
      rw [Nat.le_sqrt]
      apply Nat.le_floor
      have : (((2 ^ 52 * 2 ^ 52 : Nat) : Nat) : ℚ) = (2 : ℚ) ^ 104 := by norm_num
      rw [this]
      exact hy104
    exact_mod_cast h1
  generalize hkdef : ((Nat.sqrt ⌊y⌋₊ : Nat) : ℚ) = k at hk1 hk2 hk52
  have hcases : ∃ m : ℚ, float64_t.sqrt_value x = m * (2 : ℚ) ^ (E - 52) ∧ 2 ^ 52 ≤ m ∧
      (m - 1 / 2) ^ 2 ≤ y ∧ y ≤ (m + 1 / 2) ^ 2 := by
    have hk0 : (0 : ℚ) ≤ k := le_trans (by positivity) hk52
    have hA : (k - 1 / 2) ^ 2 ≤ y := by nlinarith
    have hB : y ≤ (k + 1 + 1 / 2) ^ 2 := by nlinarith
    unfold float64_t.sqrt_value
    simp only [hEdef, hmax, hydef, hkdef]
    split_ifs with h1 h2 h3
    · exact ⟨k, rfl, hk52, hA, le_of_lt h1⟩
    · exact ⟨k + 1, rfl, by linarith, by
        have : k + 1 - 1 / 2 = k + 1 / 2 := by ring
        rw [this]
        exact le_of_lt h2, hB⟩
    · exact ⟨k, rfl, hk52, hA, not_lt.1 h2⟩
    · exact ⟨k + 1, rfl, by linarith, by
        have : k + 1 - 1 / 2 = k + 1 / 2 := by ring
        rw [this]
        exact not_lt.1 h1, hB⟩
  obtain ⟨m, hval, hm52, hmlo, hmhi⟩ := hcases
  obtain ⟨hd0, hnear⟩ := float64_sqrt_near m ((2 : ℚ) ^ (E - 52)) y hm52 hq hmlo hmhi
  refine ⟨m * (2 : ℚ) ^ (E - 52), ?_, hd0, ?_⟩
  · simp only [float64_t.sqrt, if_neg (not_lt.2 (le_of_lt hx)), hval]
  · rw [hxy]
    exact hnear

/-! ## Normalised spectrum rows in float64_t arithmetic -/

theorem float64_add_one (c : Nat) (hc : c + 1 < 2 ^ 53) :
    float64_t.finite (c : ℚ) + 1 = .finite ((c + 1 : Nat) : ℚ) := by
  have h := float64_round_nat (c + 1) hc
  have e : float64_t.finite (c : ℚ) + 1 = float64_t.round ((c : ℚ) + 1) := rfl
  rw [e]
  push_cast at h ⊢
  exact h

theorem count_symbols_float (fv : List Nat) (cs : List Nat)
    (hsym : ∀ s ∈ fv, s < cs.length) (hbound : ∀ c ∈ cs, c + fv.length < 2 ^ 53) :
    ∃ cs1 : List Nat,
      count_symbols (cs.map (fun c : Nat => float64_t.finite (c : ℚ))) fv =
        some (cs1.map (fun c : Nat => float64_t.finite (c : ℚ))) ∧
      cs1.length = cs.length ∧ ∀ s, cs1.getD s 0 = cs.getD s 0 + fv.count s := by
  induction fv generalizing cs with
  | nil => exact ⟨cs, rfl, rfl, by simp⟩
  | cons a rest ih =>
    have ha : a < cs.length := hsym a (List.mem_cons_self _ _)
    have hca : cs[a] + 1 < 2 ^ 53 := by
      have := hbound cs[a] (List.getElem_mem _)
      simp only [List.length_cons] at this
      omega
    have hinc : increment (cs.map (fun c : Nat => float64_t.finite (c : ℚ))) a =
        some ((cs.set a (cs[a] + 1)).map (fun c : Nat => float64_t.finite (c : ℚ))) := by
      unfold increment
      rw [if_pos (by simpa using ha)]
      have hget : (cs.map (fun c : Nat => float64_t.finite (c : ℚ))).getD a 0 =
          float64_t.finite (cs[a] : ℚ) := by
        rw [List.getD_eq_getElem?_getD, List.getElem?_map, List.getElem?_eq_getElem ha]
        rfl
      rw [hget, float64_add_one cs[a] hca, List.map_set]
    obtain ⟨cs1, hrun, hlen, hget⟩ := ih (cs.set a (cs[a] + 1))
      (by
        intro s hs
        simpa using hsym s (List.mem_cons_of_mem _ hs))
      (by
        intro c hc
        rcases List.mem_or_eq_of_mem_set hc with h | h
        · have := hbound c h
          simp only [List.length_cons] at this
          omega
        · have := hbound cs[a] (List.getElem_mem _)
          simp only [List.length_cons] at this
          omega)
    refine ⟨cs1, ?_, by simpa using hlen, ?_⟩
    · rw [count_symbols, hinc]
      exact hrun
    · intro s
      rw [hget s, List.count_cons]
      by_cases has : a = s
      · subst has
        simp [List.getD_eq_getElem?_getD, List.getElem?_set, ha]
        omega
      · simp [List.getD_eq_getElem?_getD, List.getElem?_set, has]

theorem float64_square (c : Nat) (hc : c < 2 ^ 31) :
    ∃ s : ℚ, float64_t.finite (c : ℚ) * float64_t.finite (c : ℚ) = .finite s ∧ 0 ≤ s ∧
      float64_t.near 1 s ((c * c : Nat) : ℚ) := by
  rcases Nat.eq_zero_or_pos c with h0 | hpos
  · subst h0
    refine ⟨0, ?_, le_refl _, by simp [float64_t.near]⟩
    have e : float64_t.finite ((0 : Nat) : ℚ) * float64_t.finite ((0 : Nat) : ℚ) =
        float64_t.round (((0 : Nat) : ℚ) * ((0 : Nat) : ℚ)) := rfl
    rw [e]
    simpa using float64_round_zero
  · have h1 : (1 : ℚ) ≤ (c : ℚ) := by exact_mod_cast hpos
    have h2 : (c : ℚ) ≤ 2 ^ 31 := by exact_mod_cast (le_of_lt hc)
    have hlo : (1 : ℚ) / 2 ^ 1022 ≤ (c : ℚ) * (c : ℚ) := by
      have : (1 : ℚ) / 2 ^ 1022 ≤ 1 := by norm_num
      nlinarith
    have hhi : (c : ℚ) * (c : ℚ) ≤ 2 ^ 1023 := by
      have : (2 : ℚ) ^ 31 * 2 ^ 31 ≤ 2 ^ 1023 := by norm_num
      nlinarith
    obtain ⟨s, hs, hs0, hnear⟩ := float64_round_normal _ hlo hhi
    refine ⟨s, hs, le_of_lt hs0, ?_⟩
    push_cast
    exact hnear

theorem float64_add_near (a s : ℚ) (A B : Nat) (j : Nat) (ha : 0 ≤ a) (hs : 0 ≤ s)
    (hj : j ≤ 2 ^ 52) (h1 : float64_t.near j a (A : ℚ)) (h2 : float64_t.near j s (B : ℚ))
    (hAB : A + B ≤ 2 ^ 100) :
    ∃ n : ℚ, float64_t.finite a + float64_t.finite s = .finite n ∧ 0 ≤ n ∧
      float64_t.near (j + 1) n ((A + B : Nat) : ℚ) := by
  have e : float64_t.finite a + float64_t.finite s = float64_t.round (a + s) := rfl
  have hnear := near_add j a s _ _ h1 h2
  have hw := float64_unit_pow_ge j
  have hwpos := float64_unit_pow_pos j
  have hju : (j : ℚ) * (1 / 2 ^ 53) ≤ 1 / 2 := by
    have : (j : ℚ) ≤ 2 ^ 52 := by exact_mod_cast hj
    have e2 : (2 : ℚ) ^ 52 * (1 / 2 ^ 53) = 1 / 2 := by norm_num
    rw [← e2]
    exact mul_le_mul_of_nonneg_right this (by norm_num)
  have hwhalf : (1 : ℚ) / 2 ≤ (1 - 1 / 2 ^ 53) ^ j := by linarith
  rcases Nat.eq_zero_or_pos (A + B) with h0 | hpos
  · have hA : A = 0 := by omega
    have hB : B = 0 := by omega
    subst hA
    subst hB
    have ha0 : a = 0 := by
      have := h1.2
      simp only [Nat.cast_zero] at this
      have h3 : a * (1 - 1 / 2 ^ 53) ^ j ≤ 0 := this
      have h4 : 0 ≤ a * (1 - 1 / 2 ^ 53) ^ j := mul_nonneg ha (le_of_lt hwpos)
      have h5 : a * (1 - 1 / 2 ^ 53) ^ j = 0 := le_antisymm h3 h4
      rcases mul_eq_zero.1 h5 with h | h
      · exact h
      · exact absurd h (ne_of_gt hwpos)
    have hs0 : s = 0 := by
      have := h2.2
      simp only [Nat.cast_zero] at this
      have h3 : s * (1 - 1 / 2 ^ 53) ^ j ≤ 0 := this
      have h4 : 0 ≤ s * (1 - 1 / 2 ^ 53) ^ j := mul_nonneg hs (le_of_lt hwpos)
      have h5 : s * (1 - 1 / 2 ^ 53) ^ j = 0 := le_antisymm h3 h4
      rcases mul_eq_zero.1 h5 with h | h
      · exact h
      · exact absurd h (ne_of_gt hwpos)
    subst ha0
    subst hs0
    refine ⟨0, ?_, le_refl _, by simp [float64_t.near]⟩
    rw [e]
    simpa using float64_round_zero
  · have hABq : (1 : ℚ) ≤ (A : ℚ) + (B : ℚ) := by exact_mod_cast hpos
    have hABhi : (A : ℚ) + (B : ℚ) ≤ 2 ^ 100 := by exact_mod_cast hAB
    have hlo : (1 : ℚ) / 2 ^ 1022 ≤ a + s := by
      have h3 : ((A : ℚ) + (B : ℚ)) * (1 - 1 / 2 ^ 53) ^ j ≤ a + s := hnear.1
      have h4 : (1 : ℚ) * (1 / 2) ≤ ((A : ℚ) + (B : ℚ)) * (1 - 1 / 2 ^ 53) ^ j :=
        mul_le_mul hABq hwhalf (by norm_num) (by linarith)
      have : (1 : ℚ) / 2 ^ 1022 ≤ 1 * (1 / 2) := by norm_num
      linarith
    have hhi : a + s ≤ 2 ^ 1023 := by
      have h3 : (a + s) * (1 - 1 / 2 ^ 53) ^ j ≤ (A : ℚ) + (B : ℚ) := hnear.2
      have h4 : (a + s) * (1 / 2) ≤ (a + s) * (1 - 1 / 2 ^ 53) ^ j :=
        mul_le_mul_of_nonneg_left hwhalf (add_nonneg ha hs)
      have : (2 : ℚ) * 2 ^ 100 ≤ 2 ^ 1023 := by norm_num
      linarith
    obtain ⟨n, hn, hn0, hn1⟩ := float64_round_normal _ hlo hhi
    refine ⟨n, by rw [e]; exact hn, le_of_lt hn0, ?_⟩
    have ht := near_trans 1 j n (a + s) ((A : ℚ) + (B : ℚ)) hn1 hnear
    rw [Nat.add_comm j 1]
    push_cast
    exact ht

theorem foldl_squares_float (cs : List Nat) (a : ℚ) (A : Nat) (j : Nat) (ha : 0 ≤ a)
    (hnear : float64_t.near j a (A : ℚ)) (hj1 : 1 ≤ j) (hjb : j + cs.length ≤ 2 ^ 52)
    (hc : ∀ c ∈ cs, c < 2 ^ 31)
    (hsum : A + (cs.map (fun c => c * c)).sum ≤ 2 ^ 100) :
    ∃ n : ℚ,
      (cs.map (fun c : Nat => float64_t.finite (c : ℚ))).foldl (fun n x => n + x * x)
        (.finite a) = .finite n ∧ 0 ≤ n ∧
      float64_t.near (j + cs.length) n ((A + (cs.map (fun c => c * c)).sum : Nat) : ℚ) := by
  induction cs generalizing a A j with
  | nil => exact ⟨a, rfl, ha, by simpa using hnear⟩
  | cons c rest ih =>
    simp only [List.map_cons, List.sum_cons, List.length_cons] at hsum hjb ⊢
    obtain ⟨s, hs, hs0, hsnear⟩ := float64_square c (hc c (List.mem_cons_self _ _))
    have hsj : float64_t.near j s ((c * c : Nat) : ℚ) :=
      near_mono 1 j s _ hs0 (by positivity) hsnear hj1
    obtain ⟨n1, hn1, hn10, hn1near⟩ := float64_add_near a s A (c * c) j ha hs0 (by omega)
      hnear hsj (by omega)
    obtain ⟨n, hn, hn0, hnnear⟩ := ih n1 (A + c * c) (j + 1) hn10 hn1near (by omega)
      (by omega) (fun x hx => hc x (List.mem_cons_of_mem _ hx)) (by omega)
    refine ⟨n, ?_, hn0, ?_⟩
    · simp only [List.foldl_cons, hs, hn1]
      exact hn
    · have e1 : j + 1 + rest.length = j + (rest.length + 1) := by omega
      have e2 : A + c * c + (rest.map (fun c => c * c)).sum =
          A + (c * c + (rest.map (fun c => c * c)).sum) := by omega
      rw [e1, e2] at hnnear
      exact hnnear

theorem float64_div_near (c : Nat) (d : ℚ) (hc : c < 2 ^ 31) (hd1 : 1 / 4 ≤ d)
    (hd2 : d ≤ 2 ^ 52) :
    ∃ e : ℚ, float64_t.finite (c : ℚ) / float64_t.finite d = .finite e ∧ 0 ≤ e ∧
      float64_t.near 1 e ((c : ℚ) / d) := by
  have hd0 : 0 < d := lt_of_lt_of_le (by norm_num) hd1
  have hdne : d ≠ 0 := ne_of_gt hd0
  have e1 : float64_t.finite (c : ℚ) / float64_t.finite d = float64_t.round ((c : ℚ) / d) := by
    show float64_t.div _ _ = _
    simp only [float64_t.div, if_neg hdne]
  rcases Nat.eq_zero_or_pos c with h0 | hpos
  · subst h0
    refine ⟨0, ?_, le_refl _, by simp [float64_t.near]⟩
    rw [e1]
    simpa using float64_round_zero
  · have h1 : (1 : ℚ) ≤ (c : ℚ) := by exact_mod_cast hpos
    have h2 : (c : ℚ) ≤ 2 ^ 31 := by exact_mod_cast (le_of_lt hc)
    have hlo : (1 : ℚ) / 2 ^ 1022 ≤ (c : ℚ) / d := by
      rw [le_div_iff₀ hd0]
      have : (1 : ℚ) / 2 ^ 1022 * 2 ^ 52 ≤ 1 := by norm_num
      have h3 : (1 : ℚ) / 2 ^ 1022 * d ≤ 1 / 2 ^ 1022 * 2 ^ 52 :=
        mul_le_mul_of_nonneg_left hd2 (by positivity)
      linarith
    have hhi : (c : ℚ) / d ≤ 2 ^ 1023 := by
      rw [div_le_iff₀ hd0]
      have h3 : (2 : ℚ) ^ 1023 * (1 / 4) ≤ 2 ^ 1023 * d :=
        mul_le_mul_of_nonneg_left hd1 (by positivity)
      have : (2 : ℚ) ^ 31 ≤ 2 ^ 1023 * (1 / 4) := by norm_num
      linarith
    obtain ⟨e, he, he0, henear⟩ := float64_round_normal _ hlo hhi
    exact ⟨e, by rw [e1]; exact he, le_of_lt he0, henear⟩

theorem counts_row_eq (K : Nat) (fv : List Nat) (cs1 : List Nat) (hlen : cs1.length = K)
    (hget : ∀ s, cs1.getD s 0 = fv.count s) :
    cs1 = (List.range K).map (fun s => fv.count s) := by
  apply List.ext_getElem?
  intro s
  rcases Nat.lt_or_ge s K with hs | hs
  · have h1 := hget s
    rw [List.getD_eq_getElem?_getD, List.getElem?_eq_getElem (by omega)] at h1
    rw [List.getElem?_eq_getElem (by omega)]
    simp only [Option.getD_some] at h1
    simp [hs, h1]
  · rw [List.getElem?_eq_none (by omega), List.getElem?_eq_none (by simpa using hs)]

theorem sum_squared_counts_bounds (K : Nat) (fv : List Nat) (hne : fv ≠ [])
    (hsym : ∀ s ∈ fv, s < K) (hlen : fv.length < 2 ^ 31) (hK : K < 2 ^ 31) :
    1 ≤ (((List.range K).map (fun s => fv.count s)).map (fun c => c * c)).sum ∧
      (((List.range K).map (fun s => fv.count s)).map (fun c => c * c)).sum ≤ 2 ^ 93 := by
  constructor
  · obtain ⟨a, rest, hfv⟩ := List.exists_cons_of_ne_nil hne
    have ha : a ∈ fv := by rw [hfv]; exact List.mem_cons_self _ _
    have hcount : 1 ≤ fv.count a := List.count_pos_iff.2 ha
    have hmem : fv.count a * fv.count a ∈
        ((List.range K).map (fun s => fv.count s)).map (fun c => c * c) := by
      rw [List.map_map]
      exact List.mem_map.2 ⟨a, List.mem_range.2 (hsym a ha), rfl⟩
    have hle := List.single_le_sum (l := ((List.range K).map (fun s => fv.count s)).map
      (fun c => c * c)) (fun x _ => Nat.zero_le x) _ hmem
    have : 1 ≤ fv.count a * fv.count a := Nat.mul_le_mul hcount hcount
    omega
  · have hb : ∀ x ∈ ((List.range K).map (fun s => fv.count s)).map (fun c => c * c),
        x ≤ 2 ^ 62 := by
      intro x hx
      rw [List.map_map] at hx
      obtain ⟨s, -, rfl⟩ := List.mem_map.1 hx
      have h1 : fv.count s ≤ 2 ^ 31 := le_trans (List.count_le_length _ _) (le_of_lt hlen)
      have h2 := Nat.mul_le_mul h1 h1
      have h3 : (2 : Nat) ^ 31 * 2 ^ 31 = 2 ^ 62 := by norm_num
      simp only [Function.comp]
      omega
    have h := List.sum_le_card_nsmul _ _ hb
    simp only [List.length_map, List.length_range, smul_eq_mul] at h
    have h2 : K * 2 ^ 62 ≤ 2 ^ 31 * 2 ^ 62 := Nat.mul_le_mul_right _ (le_of_lt hK)
    have h3 : (2 : Nat) ^ 31 * 2 ^ 62 = 2 ^ 93 := by norm_num
    omega

theorem sum_squares_div_rat (row : List ℚ) (d : ℚ) :
    (row.map (fun x => x / d * (x / d))).sum = (row.map (fun x => x * x)).sum / (d * d) := by
  induction row with
  | nil => simp
  | cons x rest ih =>
    simp only [List.map_cons, List.sum_cons]
    rw [ih]
    field_simp

theorem float64_root_bounds (d n : ℚ) (hd : 0 < d) (hn1 : 1 / 2 ≤ n) (hn2 : n ≤ 2 ^ 94)
    (hnear : float64_t.near 2 (d * d) n) : 1 / 4 ≤ d ∧ d ≤ 2 ^ 52 := by
  obtain ⟨h1, h2⟩ := hnear
  have hw : ((1 : ℚ) - 1 / 2 ^ 53) ^ 2 ≤ 1 := float64_unit_pow_le_one 2
  have hw2 : (1 : ℚ) / 4 ≤ (1 - 1 / 2 ^ 53) ^ 2 := by norm_num
  constructor
  · by_contra hcon
    push_neg at hcon
    have h3 : d * d < 1 / 4 * (1 / 4) := mul_lt_mul'' hcon hcon (le_of_lt hd) (le_of_lt hd)
    have h4 : (1 : ℚ) / 2 * (1 / 4) ≤ n * (1 - 1 / 2 ^ 53) ^ 2 :=
      mul_le_mul hn1 hw2 (by norm_num) (by linarith)
    linarith
  · by_contra hcon
    push_neg at hcon
    have h3 : (2 : ℚ) ^ 52 * 2 ^ 52 < d * d :=
      mul_lt_mul'' hcon hcon (by positivity) (by positivity)
    have h4 : d * d * (1 / 4) ≤ d * d * (1 - 1 / 2 ^ 53) ^ 2 :=
      mul_le_mul_of_nonneg_left hw2 (le_of_lt (mul_pos hd hd))
    have h5 : (2 : ℚ) ^ 52 * 2 ^ 52 * (1 / 4) = 2 ^ 102 := by norm_num
    have h6 : (2 : ℚ) ^ 94 < 2 ^ 102 := by norm_num
    nlinarith

theorem float64_sqrt_value_eq (x : ℚ) (E : Int) (m : Nat) (hlo : (2 : ℚ) ^ (2 * E) ≤ x)
    (hhi : x < (2 : ℚ) ^ (2 * E + 2)) (hE : -1022 ≤ E)
    (h1 : ((m : ℚ) - 1 / 2) ^ 2 < x / ((2 : ℚ) ^ (E - 52) * (2 : ℚ) ^ (E - 52)))
    (h2 : x / ((2 : ℚ) ^ (E - 52) * (2 : ℚ) ^ (E - 52)) < ((m : ℚ) + 1 / 2) ^ 2)
    (hm : 1 ≤ m) :
    float64_t.sqrt_value x = (m : ℚ) * (2 : ℚ) ^ (E - 52) := by
  have hx : 0 < x := lt_of_lt_of_le (by positivity) hlo
  have hL1 : 2 * E ≤ Int.log 2 x := by
    rw [← Int.zpow_le_iff_le_log (by decide) hx]
    simpa using hlo
  have hL2 : Int.log 2 x < 2 * E + 2 := by
    rw [← Int.lt_zpow_iff_log_lt (by decide) hx]
    simpa using hhi
  have hdiv : Int.log 2 x / 2 = E := by omega
  have hmax : max E (-1022) = E := max_eq_left hE
  have hy0 : 0 ≤ x / ((2 : ℚ) ^ (E - 52) * (2 : ℚ) ^ (E - 52)) :=
    div_nonneg (le_of_lt hx) (by positivity)
  generalize hydef : x / ((2 : ℚ) ^ (E - 52) * (2 : ℚ) ^ (E - 52)) = y at h1 h2 hy0
  have hk1 : ((Nat.sqrt ⌊y⌋₊ : Nat) : ℚ) ^ 2 ≤ y := by
    have h3 : Nat.sqrt ⌊y⌋₊ * Nat.sqrt ⌊y⌋₊ ≤ ⌊y⌋₊ := Nat.sqrt_le _
    have h4 : ((⌊y⌋₊ : Nat) : ℚ) ≤ y := Nat.floor_le hy0
    have h5 : ((Nat.sqrt ⌊y⌋₊ * Nat.sqrt ⌊y⌋₊ : Nat) : ℚ) ≤ ((⌊y⌋₊ : Nat) : ℚ) := by
      exact_mod_cast h3
    push_cast at h5
    rw [pow_two]
    linarith
  have hk2 : y < (((Nat.sqrt ⌊y⌋₊ : Nat) : ℚ) + 1) ^ 2 := by
    have h3 : ⌊y⌋₊ < (Nat.sqrt ⌊y⌋₊ + 1) * (Nat.sqrt ⌊y⌋₊ + 1) := Nat.lt_succ_sqrt _
    have h4 : y < ((⌊y⌋₊ : Nat) : ℚ) + 1 := Nat.lt_floor_add_one y
    have h5 : ((⌊y⌋₊ + 1 : Nat) : ℚ) ≤
        (((Nat.sqrt ⌊y⌋₊ + 1) * (Nat.sqrt ⌊y⌋₊ + 1) : Nat) : ℚ) := by
      exact_mod_cast h3
    push_cast at h5
    rw [pow_two]
    linarith
  have hm1 : (1 : ℚ) ≤ (m : ℚ) := by exact_mod_cast hm
  have hkle : Nat.sqrt ⌊y⌋₊ ≤ m := by
    by_contra hcon
    push_neg at hcon
    have h3 : ((m + 1 : Nat) : ℚ) ≤ ((Nat.sqrt ⌊y⌋₊ : Nat) : ℚ) := by exact_mod_cast hcon
    push_cast at h3
    nlinarith
  have hkge : m ≤ Nat.sqrt ⌊y⌋₊ + 1 := by
    by_contra hcon
    push_neg at hcon
    have h3 : ((Nat.sqrt ⌊y⌋₊ + 2 : Nat) : ℚ) ≤ (m : ℚ) := by exact_mod_cast hcon
    push_cast at h3
    have h4 : (0 : ℚ) ≤ ((Nat.sqrt ⌊y⌋₊ : Nat) : ℚ) := by positivity
    nlinarith
  unfold float64_t.sqrt_value
  simp only [hdiv, hmax, hydef]
  rcases Nat.lt_or_ge (Nat.sqrt ⌊y⌋₊) m with hlt | hge
  · have hkm : Nat.sqrt ⌊y⌋₊ + 1 = m := by omega
    have hkq : ((Nat.sqrt ⌊y⌋₊ : Nat) : ℚ) + 1 = (m : ℚ) := by exact_mod_cast hkm
    have hhalf : ((Nat.sqrt ⌊y⌋₊ : Nat) : ℚ) + 1 / 2 = (m : ℚ) - 1 / 2 := by linarith
    rw [hhalf, if_neg (not_lt.2 (le_of_lt h1)), if_pos h1, hkq]
  · have hkm : Nat.sqrt ⌊y⌋₊ = m := by omega
    rw [hkm, if_pos h2]

theorem float64_div_finite (a b : ℚ) (hb : b ≠ 0) :
    float64_t.finite a / float64_t.finite b = float64_t.round (a / b) := by
  show float64_t.div _ _ = _
  simp only [float64_t.div, if_neg hb]

theorem spectrum_row_float_counts (K : Nat) (fv : List Nat) (b : Bool)
    (hsym : ∀ s ∈ fv, s < K) (hlen : fv.length < 2 ^ 53) :
    spectrum_row float64_t.sqrt b (K : Int) fv =
      some (if b then normalize float64_t.sqrt
          ((List.range K).map (fun s => float64_t.finite (fv.count s : ℚ)))
        else (List.range K).map (fun s => float64_t.finite (fv.count s : ℚ))) := by
  have hzero : (zero_row (K : Int) : Option (List float64_t)) =
      some ((List.replicate K 0).map (fun c : Nat => float64_t.finite (c : ℚ))) := by
    simp [zero_row, float64_zero]
  obtain ⟨cs1, hrun, hlen1, hget1⟩ := count_symbols_float fv (List.replicate K 0)
    (by simpa using hsym)
    (by
      intro c hc
      have : c = 0 := (List.mem_replicate.1 hc).2
      omega)
  have hcs1 : cs1 = (List.range K).map (fun s => fv.count s) :=
    counts_row_eq K fv cs1 (by simpa using hlen1) (by
      intro s
      rw [hget1 s]
      rcases Nat.lt_or_ge s K with h | h
      · simp [List.getD_eq_getElem?_getD, List.getElem?_replicate, h]
      · simp [List.getD_eq_getElem?_getD, List.getElem?_replicate, Nat.not_lt.2 h])
  rw [hcs1, List.map_map] at hrun
  simp only [spectrum_row, hzero, hrun]
  rfl

theorem spectrum_row_float (K : Nat) (fv : List Nat) (hne : fv ≠ [])
    (hsym : ∀ s ∈ fv, s < K) (hlen : fv.length < 2 ^ 31) (hK : K < 2 ^ 31) :
    ∃ (d : ℚ) (values : List ℚ),
      float64_t.sqrt (((List.range K).map
        (fun s => float64_t.finite (fv.count s : ℚ))).foldl (fun n x => n + x * x) 0) =
        .finite d ∧ 0 < d ∧
      spectrum_row float64_t.sqrt true (K : Int) fv = some (values.map .finite) ∧
      values.length = K ∧
      (∀ s, s < K → (values.map float64_t.finite)[s]? =
        some (float64_t.finite (fv.count s : ℚ) / float64_t.finite d)) ∧
      |(values.map (fun x => x * x)).sum - 1| ≤ ((K + 5 : Nat) : ℚ) * (1 / 2 ^ 52) := by
  have hzero : (zero_row (K : Int) : Option (List float64_t)) =
      some ((List.replicate K 0).map (fun c : Nat => float64_t.finite (c : ℚ))) := by
    simp [zero_row, float64_zero]
  obtain ⟨cs1, hrun, hlen1, hget1⟩ := count_symbols_float fv (List.replicate K 0)
    (by simpa using hsym)
    (by
      intro c hc
      have : c = 0 := (List.mem_replicate.1 hc).2
      omega)
  have hcs1 : cs1 = (List.range K).map (fun s => fv.count s) :=
    counts_row_eq K fv cs1 (by simpa using hlen1) (by
      intro s
      rw [hget1 s]
      rcases Nat.lt_or_ge s K with h | h
      · simp [List.getD_eq_getElem?_getD, List.getElem?_replicate, h]
      · simp [List.getD_eq_getElem?_getD, List.getElem?_replicate, Nat.not_lt.2 h])
  rw [hcs1] at hrun
  obtain ⟨hN1, hN2⟩ := sum_squared_counts_bounds K fv hne hsym hlen hK
  obtain ⟨nq, hfold, hnq0, hnqnear⟩ := foldl_squares_float
    ((List.range K).map (fun s => fv.count s)) 0 0 1 (le_refl _)
    (by simp [float64_t.near]) (le_refl _)
    (by
      simp only [List.length_map, List.length_range]
      have : (2 : Nat) ^ 31 ≤ 2 ^ 52 - 1 := by norm_num
      omega)
    (by
      intro c hc
      obtain ⟨s, -, rfl⟩ := List.mem_map.1 hc
      exact lt_of_le_of_lt (List.count_le_length _ _) hlen)
    (by
      have : (2 : Nat) ^ 93 ≤ 2 ^ 100 := by norm_num
      omega)
  simp only [List.length_map, List.length_range, Nat.zero_add] at hnqnear
  generalize hNdef : (((List.range K).map (fun s => fv.count s)).map
    (fun c => c * c)).sum = N at hN1 hN2 hnqnear
  have hNq1 : (1 : ℚ) ≤ (N : ℚ) := by exact_mod_cast hN1
  have hNq2 : (N : ℚ) ≤ 2 ^ 93 := by exact_mod_cast hN2
  have hwhalf : (1 : ℚ) / 2 ≤ (1 - 1 / 2 ^ 53) ^ (1 + K) := by
    have hw := float64_unit_pow_ge (1 + K)
    have hk : ((1 + K : Nat) : ℚ) ≤ 2 ^ 52 := by
      have : 1 + K ≤ 2 ^ 52 := by
        have : (2 : Nat) ^ 31 ≤ 2 ^ 52 - 1 := by norm_num
        omega
      exact_mod_cast this
    have e2 : (2 : ℚ) ^ 52 * (1 / 2 ^ 53) = 1 / 2 := by norm_num
    have : ((1 + K : Nat) : ℚ) * (1 / 2 ^ 53) ≤ 1 / 2 := by
      rw [← e2]
      exact mul_le_mul_of_nonneg_right hk (by norm_num)
    linarith
  have hnq1 : 1 / 2 ≤ nq := by
    have h3 := hnqnear.1
    have h4 : (1 : ℚ) * (1 / 2) ≤ (N : ℚ) * (1 - 1 / 2 ^ 53) ^ (1 + K) :=
      mul_le_mul hNq1 hwhalf (by norm_num) (by linarith)
    linarith
  have hnq2 : nq ≤ 2 ^ 94 := by
    have h3 := hnqnear.2
    have h4 : nq * (1 / 2) ≤ nq * (1 - 1 / 2 ^ 53) ^ (1 + K) :=
      mul_le_mul_of_nonneg_left hwhalf hnq0
    have : (2 : ℚ) * 2 ^ 93 = 2 ^ 94 := by norm_num
    linarith
  obtain ⟨d, hd, hd0, hdnear⟩ := float64_sqrt_normal nq (by
    have : (1 : ℚ) / 2 ^ 1022 ≤ 1 / 2 := by norm_num
    linarith)
  obtain ⟨hd1, hd2⟩ := float64_root_bounds d nq hd0 hnq1 hnq2 hdnear
  have hrowmap : ((List.range K).map (fun s => fv.count s)).map
      (fun c : Nat => float64_t.finite (c : ℚ)) =
      (List.range K).map (fun s => float64_t.finite (fv.count s : ℚ)) := by
    rw [List.map_map]
    rfl
  have hdiv : ∀ s, ∃ e : ℚ,
      float64_t.finite (fv.count s : ℚ) / float64_t.finite d = .finite e ∧ 0 ≤ e ∧
      float64_t.near 1 e ((fv.count s : ℚ) / d) := fun s =>
    float64_div_near (fv.count s) d
      (lt_of_le_of_lt (List.count_le_length _ _) hlen) hd1 hd2
  have hval : ∀ s, float64_t.finite
      ((float64_t.finite (fv.count s : ℚ) / float64_t.finite d).value) =
      float64_t.finite (fv.count s : ℚ) / float64_t.finite d := by
    intro s
    obtain ⟨e, he, -, -⟩ := hdiv s
    rw [he]
    rfl
  have hsqrt : float64_t.sqrt (((List.range K).map
      (fun s => float64_t.finite (fv.count s : ℚ))).foldl (fun n x => n + x * x) 0) =
      .finite d := by
    rw [← hrowmap, float64_zero, hfold, hd]
  refine ⟨d, (List.range K).map (fun s =>
    (float64_t.finite (fv.count s : ℚ) / float64_t.finite d).value), hsqrt, hd0, ?_, ?_,
    ?_, ?_⟩
  · simp only [spectrum_row, hzero, hrun, if_true, normalize, hrowmap, hsqrt,
      List.map_map]
    congr 1
    apply List.map_congr_left
    intro s _
    exact (hval s).symm
  · simp
  · intro s hs
    simp only [List.getElem?_map, List.getElem?_range hs, Option.map_some']
    rw [hval s]
  · have hS : float64_t.near 2
        (((List.range K).map (fun s =>
          (float64_t.finite (fv.count s : ℚ) / float64_t.finite d).value)).map
          (fun x => x * x)).sum
        ((N : ℚ) / (d * d)) := by
      have h1 := near_sum 2 (List.range K)
        (fun s => (float64_t.finite (fv.count s : ℚ) / float64_t.finite d).value *
          (float64_t.finite (fv.count s : ℚ) / float64_t.finite d).value)
        (fun s => (fv.count s : ℚ) / d * ((fv.count s : ℚ) / d))
        (by
          intro s _
          obtain ⟨e, he, he0, henear⟩ := hdiv s
          have hx0 : (0 : ℚ) ≤ (fv.count s : ℚ) / d :=
            div_nonneg (by positivity) (le_of_lt hd0)
          simp only [he, float64_value_finite]
          exact near_mul 1 1 e e _ _ he0 he0 hx0 hx0 henear henear)
      have e1 : ((List.range K).map (fun s => (fv.count s : ℚ) / d *
          ((fv.count s : ℚ) / d))).sum = (N : ℚ) / (d * d) := by
        have h2 := sum_squares_div_rat ((List.range K).map (fun s => (fv.count s : ℚ))) d
        simp only [List.map_map] at h2
        have h3 : ((List.range K).map ((fun x : ℚ => x * x) ∘ fun s => (fv.count s : ℚ))).sum =
            (N : ℚ) := by
          rw [← hNdef]
          push_cast
          simp only [List.map_map]
          congr 1
          apply List.map_congr_left
          intro s _
          simp [Function.comp]
        rw [h3] at h2
        rw [← h2]
        rfl
      rw [e1] at h1
      rw [List.map_map]
      exact h1
    have hNd : float64_t.near (1 + K + 2) ((N : ℚ) / (d * d)) (nq / nq) :=
      near_div (1 + K) 2 (N : ℚ) (d * d) nq nq (by positivity) (mul_pos hd0 hd0) hnq0
        (by linarith) (near_symm _ _ _ hnqnear) hdnear
    have hnn : nq / nq = 1 := div_self (by linarith)
    rw [hnn] at hNd
    have hall := near_trans 2 (1 + K + 2) _ _ _ hS hNd
    have ek : 2 + (1 + K + 2) = K + 5 := by omega
    rw [ek] at hall
    apply near_one_abs (K + 5) _ _ hall
    have hk : ((K + 5 : Nat) : ℚ) ≤ 2 ^ 52 := by
      have : K + 5 ≤ 2 ^ 52 := by
        have : (2 : Nat) ^ 31 ≤ 2 ^ 52 - 5 := by norm_num
        omega
      exact_mod_cast this
    have e2 : (2 : ℚ) ^ 52 * (1 / 2 ^ 53) = 1 / 2 := by norm_num
    rw [← e2]
    exact mul_le_mul_of_nonneg_right hk (by norm_num)

theorem obtain_kmer_spectrum_float_rows (self : CExplicitSpecFeatures float64_t)
    (str : CStringFeatures) (hnum : self.num_strings = str.get_num_vectors)
    (hspec : self.spec_size = str.get_num_symbols)
    (hsym : ∀ fv ∈ str.features, ∀ s ∈ fv, s < str.num_symbols)
    (hlen : ∀ fv ∈ str.features, fv.length < 2 ^ 31) :
    ∃ f : CExplicitSpecFeatures float64_t,
      self.obtain_kmer_spectrum float64_t.sqrt str = some f ∧
      ∀ (i : Nat) (fv : List Nat), str.features[i]? = some fv →
        f.k_spectrum[i]? =
          spectrum_row float64_t.sqrt self.use_normalization (str.num_symbols : Int) fv := by
  obtain ⟨rows, hrows, -, hget⟩ :=
    spectrum_rows_each float64_t.sqrt self.use_normalization (str.num_symbols : Int) str
      (fun fv hfv => ⟨_, spectrum_row_float_counts str.num_symbols fv _ (hsym fv hfv)
        (lt_trans (hlen fv hfv) (by norm_num))⟩)
      str.features.length 0 (by simp)
  refine ⟨{ self with k_spectrum := rows }, ?_, ?_⟩
  · simp [CExplicitSpecFeatures.obtain_kmer_spectrum, hnum, hspec,
      CStringFeatures.get_num_vectors, CStringFeatures.get_num_symbols, hrows]
  · intro i fv hi
    obtain ⟨row, hr1, hr2⟩ := hget i fv (by simpa using hi)
    rw [hr2]
    exact hr1

/-- C36, amended: with normalisation enabled, every symbol below spec_size, and string
lengths and spec_size below 2^31, obtain_kmer_spectrum, in float64_t arithmetic, returns,
and for every input string that holds at least one symbol the divisor, the square root of
the sum of the squared counts, is a finite value that is strictly positive, each entry of
the row is the quotient of the count of the symbol by the divisor, all entries are
finite, and the squares of the entries sum to 1 up to rounding: the sum differs from 1 by
at most (spec_size + 5) * 2^-52. -/
theorem obtain_kmer_spectrum_float (self : CExplicitSpecFeatures float64_t)
    (str : CStringFeatures) (hnorm : self.use_normalization = true)
    (hnum : self.num_strings = str.get_num_vectors)
    (hspec : self.spec_size = str.get_num_symbols)
    (hsym : ∀ fv ∈ str.features, ∀ s ∈ fv, s < str.num_symbols)
    (hlen : ∀ fv ∈ str.features, fv.length < 2 ^ 31)
    (hsize : str.num_symbols < 2 ^ 31) :
    ∃ f : CExplicitSpecFeatures float64_t,
      self.obtain_kmer_spectrum float64_t.sqrt str = some f ∧
      ∀ (i : Nat) (fv : List Nat), str.features[i]? = some fv → fv ≠ [] →
        ∃ (d : ℚ) (values : List ℚ),
          float64_t.sqrt (((List.range str.num_symbols).map
            (fun s => float64_t.finite (fv.count s : ℚ))).foldl
              (fun n x => n + x * x) 0) = .finite d ∧ 0 < d ∧
          f.k_spectrum[i]? = some (values.map .finite) ∧
          values.length = str.num_symbols ∧
          (∀ s, s < str.num_symbols → (values.map float64_t.finite)[s]? =
            some (float64_t.finite (fv.count s : ℚ) / float64_t.finite d)) ∧
          |(values.map (fun x => x * x)).sum - 1| ≤
            ((str.num_symbols + 5 : Nat) : ℚ) * (1 / 2 ^ 52) := by
  obtain ⟨f, hf, hrows⟩ := obtain_kmer_spectrum_float_rows self str hnum hspec hsym hlen
  refine ⟨f, hf, ?_⟩
  intro i fv hi hne
  have hmem : fv ∈ str.features := List.getElem?_mem hi
  obtain ⟨d, values, hd, hd0, hrow, hvlen, hget, hsum⟩ :=
    spectrum_row_float str.num_symbols fv hne (hsym fv hmem) (hlen fv hmem) hsize
  refine ⟨d, values, hd, hd0, ?_, hvlen, hget, hsum⟩
  rw [hrows i fv hi, hnorm, hrow]

/-- C36, witness: the constructor with normalisation on the sample strings (0, 1, 0) and
(2, 2) over three symbols, in float64_t arithmetic. -/
theorem obtain_kmer_spectrum_float_witness :
    ∃ f : CExplicitSpecFeatures float64_t,
      CExplicitSpecFeatures.construct float64_t.sqrt 0 (some sample_strings) true =
        some f ∧
      ∀ (i : Nat) (fv : List Nat), sample_strings.features[i]? = some fv → fv ≠ [] →
        ∃ (d : ℚ) (values : List ℚ),
          float64_t.sqrt (((List.range sample_strings.num_symbols).map
            (fun s => float64_t.finite (fv.count s : ℚ))).foldl
              (fun n x => n + x * x) 0) = .finite d ∧ 0 < d ∧
          f.k_spectrum[i]? = some (values.map .finite) ∧
          values.length = sample_strings.num_symbols ∧
          (∀ s, s < sample_strings.num_symbols → (values.map float64_t.finite)[s]? =
            some (float64_t.finite (fv.count s : ℚ) / float64_t.finite d)) ∧
          |(values.map (fun x => x * x)).sum - 1| ≤
            ((sample_strings.num_symbols + 5 : Nat) : ℚ) * (1 / 2 ^ 52) :=
  obtain_kmer_spectrum_float
    { use_normalization := true, num_strings := sample_strings.get_num_vectors,
      alphabet_size := 0, spec_size := sample_strings.get_num_symbols, k_spectrum := [] }
    sample_strings rfl rfl rfl (by decide) (by decide) (by decide)

theorem float64_sqrt_finite (x : ℚ) (hx : 0 ≤ x) :
    float64_t.sqrt (.finite x) = .finite (float64_t.sqrt_value x) := by
  simp only [float64_t.sqrt, if_neg (not_lt.2 hx)]

/-- C36, counterexample: with normalisation, in float64_t arithmetic, the row of the
sample string (0, 1, 0), whose counts are (2, 1, 0), is made of the binary64 values
0x1.c9f25c5bfedd9p-1, 0x1.c9f25c5bfedd9p-2 and 0: the divisor is the binary64 value
nearest to the square root of 5, and the squares of the entries sum to
1 - 16803381948479051 * 2^-108, and to 1 - 2^-53 when they are added up in float64_t
arithmetic: not to 1. -/
theorem normalized_row_squares_below_one :
    ∃ f : CExplicitSpecFeatures float64_t,
      CExplicitSpecFeatures.construct float64_t.sqrt 0 (some sample_strings) true =
        some f ∧
      sample_strings.features[0]? = some [0, 1, 0] ∧
      f.k_spectrum[0]? =
        some [.finite (8056283928194521 / 9007199254740992),
              .finite (8056283928194521 / 18014398509481984), .finite 0] ∧
      ([(8056283928194521 / 9007199254740992 : ℚ), 8056283928194521 / 18014398509481984,
          0].map (fun x => x * x)).sum =
        1 - 16803381948479051 / 324518553658426726783156020576256 ∧
      [float64_t.finite (8056283928194521 / 9007199254740992),
          .finite (8056283928194521 / 18014398509481984), .finite 0].foldl
          (fun n x => n + x * x) 0 =
        .finite (1 - 1 / 9007199254740992) := by
  obtain ⟨f, hf, hrows⟩ := obtain_kmer_spectrum_float_rows
    { use_normalization := true, num_strings := sample_strings.get_num_vectors,
      alphabet_size := 0, spec_size := sample_strings.get_num_symbols, k_spectrum := [] }
    sample_strings rfl rfl (by decide) (by decide)
  have hcounts : (List.range 3).map (fun s => float64_t.finite (([0, 1, 0].count s : Nat) : ℚ)) =
      [.finite 2, .finite 1, .finite 0] := by
    simp [List.range_succ]
  have q1 : float64_t.round (2 * 2) = .finite 4 :=
    float64_round_value _ _ 2 4503599627370496 (by norm_num [abs_of_nonneg])
      (by norm_num [abs_of_nonneg]) (by norm_num) (by norm_num [abs_lt])
      (by norm_num [abs_lt]) (by norm_num)
  have q2 : float64_t.round (0 + 4) = .finite 4 :=
    float64_round_value _ _ 2 4503599627370496 (by norm_num [abs_of_nonneg])
      (by norm_num [abs_of_nonneg]) (by norm_num) (by norm_num [abs_lt])
      (by norm_num [abs_lt]) (by norm_num)
  have q3 : float64_t.round (1 * 1) = .finite 1 :=
    float64_round_value _ _ 0 4503599627370496 (by norm_num [abs_of_nonneg])
      (by norm_num [abs_of_nonneg]) (by norm_num) (by norm_num [abs_lt])
      (by norm_num [abs_lt]) (by norm_num)
  have q4 : float64_t.round (4 + 1) = .finite 5 :=
    float64_round_value _ _ 2 5629499534213120 (by norm_num [abs_of_nonneg])
      (by norm_num [abs_of_nonneg]) (by norm_num) (by norm_num [abs_lt])
      (by norm_num [abs_lt]) (by norm_num)
  have q5 : float64_t.round (0 * 0) = .finite 0 := by
    rw [mul_zero]
    exact float64_round_zero
  have q6 : float64_t.round (5 + 0) = .finite 5 :=
    float64_round_value _ _ 2 5629499534213120 (by norm_num [abs_of_nonneg])
      (by norm_num [abs_of_nonneg]) (by norm_num) (by norm_num [abs_lt])
      (by norm_num [abs_lt]) (by norm_num)
  have q7 : float64_t.sqrt (.finite 5) = .finite (629397181890197 / 281474976710656) := by
    rw [float64_sqrt_finite 5 (by norm_num),
      float64_sqrt_value_eq 5 1 5035177455121576 (by norm_num) (by norm_num) (by norm_num)
        (by norm_num) (by norm_num) (by norm_num)]
    norm_num
  have q8 : float64_t.finite 2 / float64_t.finite (629397181890197 / 281474976710656) =
      .finite (8056283928194521 / 9007199254740992) := by
    rw [float64_div_finite _ _ (by norm_num)]
    exact float64_round_value _ _ (-1) 8056283928194521 (by norm_num [abs_of_nonneg])
      (by norm_num [abs_of_nonneg]) (by norm_num) (by norm_num [abs_lt])
      (by norm_num [abs_lt]) (by norm_num)
  have q9 : float64_t.finite 1 / float64_t.finite (629397181890197 / 281474976710656) =
      .finite (8056283928194521 / 18014398509481984) := by
    rw [float64_div_finite _ _ (by norm_num)]
    exact float64_round_value _ _ (-2) 8056283928194521 (by norm_num [abs_of_nonneg])
      (by norm_num [abs_of_nonneg]) (by norm_num) (by norm_num [abs_lt])
      (by norm_num [abs_lt]) (by norm_num)
  have q10 : float64_t.finite 0 / float64_t.finite (629397181890197 / 281474976710656) =
      .finite 0 := by
    rw [float64_div_finite _ _ (by norm_num), zero_div]
    exact float64_round_zero
  have hrow : spectrum_row float64_t.sqrt true ((3 : Nat) : Int) [0, 1, 0] =
      some [.finite (8056283928194521 / 9007199254740992),
            .finite (8056283928194521 / 18014398509481984), .finite 0] := by
    rw [spectrum_row_float_counts 3 [0, 1, 0] true (by decide) (by decide), hcounts]
    simp only [if_true, normalize, List.foldl_cons, List.foldl_nil, List.map_cons,
      List.map_nil, float64_zero, float64_mul_finite, float64_add_finite, q1, q2, q3, q4,
      q5, q6, q7, q8, q9, q10]
  have p1 : float64_t.round (8056283928194521 / 9007199254740992 *
      (8056283928194521 / 9007199254740992)) =
      .finite (7205759403792793 / 9007199254740992) :=
    float64_round_value _ _ (-1) 7205759403792793 (by norm_num [abs_of_nonneg])
      (by norm_num [abs_of_nonneg]) (by norm_num) (by norm_num [abs_lt])
      (by norm_num [abs_lt]) (by norm_num)
  have p2 : float64_t.round (0 + 7205759403792793 / 9007199254740992) =
      .finite (7205759403792793 / 9007199254740992) :=
    float64_round_value _ _ (-1) 7205759403792793 (by norm_num [abs_of_nonneg])
      (by norm_num [abs_of_nonneg]) (by norm_num) (by norm_num [abs_lt])
      (by norm_num [abs_lt]) (by norm_num)
  have p3 : float64_t.round (8056283928194521 / 18014398509481984 *
      (8056283928194521 / 18014398509481984)) =
      .finite (7205759403792793 / 36028797018963968) :=
    float64_round_value _ _ (-3) 7205759403792793 (by norm_num [abs_of_nonneg])
      (by norm_num [abs_of_nonneg]) (by norm_num) (by norm_num [abs_lt])
      (by norm_num [abs_lt]) (by norm_num)
  have p4 : float64_t.round (7205759403792793 / 9007199254740992 +
      7205759403792793 / 36028797018963968) = .finite (1 - 1 / 9007199254740992) :=
    float64_round_value _ _ (-1) 9007199254740991 (by norm_num [abs_of_nonneg])
      (by norm_num [abs_of_nonneg]) (by norm_num) (by norm_num [abs_lt])
      (by norm_num [abs_lt]) (by norm_num)
  have p5 : float64_t.round (1 - 1 / 9007199254740992 + 0) =
      .finite (1 - 1 / 9007199254740992) :=
    float64_round_value _ _ (-1) 9007199254740991 (by norm_num [abs_of_nonneg])
      (by norm_num [abs_of_nonneg]) (by norm_num) (by norm_num [abs_lt])
      (by norm_num [abs_lt]) (by norm_num)
  refine ⟨f, hf, rfl, ?_, ?_, ?_⟩
  · rw [hrows 0 [0, 1, 0] rfl]
    exact hrow
  · simp only [List.map_cons, List.map_nil, List.sum_cons, List.sum_nil]
    norm_num
  · simp only [List.foldl_cons, List.foldl_nil, float64_zero, float64_mul_finite,
      float64_add_finite, p1, p2, p3, p4, q5, p5]

theorem float64_sqrt_value_zero : float64_t.sqrt_value 0 = 0 := by
  unfold float64_t.sqrt_value
  norm_num

theorem float64_zero_div_zero : float64_t.finite 0 / float64_t.finite 0 = .nan := by
  show float64_t.div _ _ = _
  simp only [float64_t.div, if_true]

/-- With normalisation, in float64_t arithmetic, the row of a string without symbols is
made of NaN: the divisor is 0 and every entry is 0 / 0. -/
theorem normalized_row_of_empty_string :
    spectrum_row float64_t.sqrt true ((3 : Nat) : Int) [] = some [.nan, .nan, .nan] := by
  have hcounts : (List.range 3).map
      (fun s => float64_t.finite (((([] : List Nat).count s : Nat)) : ℚ)) =
      [.finite 0, .finite 0, .finite 0] := by
    simp [List.range_succ]
  have q0 : float64_t.round (0 + 0) = .finite 0 := by
    rw [add_zero]
    exact float64_round_zero
  have q5 : float64_t.round (0 * 0) = .finite 0 := by
    rw [mul_zero]
    exact float64_round_zero
  have q7 : float64_t.sqrt (.finite 0) = .finite 0 := by
    rw [float64_sqrt_finite 0 (le_refl _), float64_sqrt_value_zero]
  rw [spectrum_row_float_counts 3 [] true (by simp) (by decide), hcounts]
  simp only [if_true, normalize, List.foldl_cons, List.foldl_nil, List.map_cons,
    List.map_nil, float64_zero, float64_mul_finite, float64_add_finite, q0, q5, q7,
    float64_zero_div_zero]

end shogun
